import Mathlib

/-!
# Go-Vite: the local module import pipeline

A shallow embedding of the module import code of `main.go`
(`detectLocalModuleType`, `getGoModuleName`, `getNodeModuleName`,
`getModuleDestinationPath`, `copyDir`, `copyFile`, `installLocalModule`,
`importModule` and the ledger functions) together with the properties of
the specification that concern them.

Conventions of the embedding.

* A Go `string` is a `List Char`: the text is taken to be valid UTF-8 and is
  read as its sequence of code points.  All the patterns the program searches
  for are ASCII, so positions counted in code points select the same
  substrings as positions counted in bytes.
* Go `int` results such as the one of `strings.Index` are `Int`, with `-1`
  for "not found".
* A slice expression `s[lo:hi]` panics in Go when its bounds are out of
  range; here it returns `none`, and a function that contains one returns an
  `Option`.
* Paths are Unix paths: the separator is `/`.
* The system calls are the fields of a record `OS`, over any type of machine
  states; the functions of the program take the record and thread the state.
  A call to `os.Exit` ends the run: a command returns an `Outcome`.
* The recursion of `copyDir` is bounded by a natural number; the result `none`
  says that the bound was reached, and is not a result of the program.
* The type `FS` is one such machine: a file system of regular files and
  directories, on which the recursive copy is verified.
* The map of the ledger is an association list, `none` for Go's nil map; a
  nil and an empty list of identifiers are not told apart.  The
  `encoding/json` codec is a parameter (`Codec`).  A property of the ledger
  functions that is stated for every environment assumes, where it needs it,
  that the ledger saved is the ledger read back (`Stores`).
-/

namespace GoVite

/-- A Go string, as its sequence of code points. -/
abbrev Str := List Char

/-! ## The Go standard library functions the program calls -/

/-- The predicate `unicode.IsSpace`: the code points with the Unicode
White_Space property. -/
def isSpace (c : Char) : Bool :=
  let n := c.toNat
  (0x09 ≤ n && n ≤ 0x0d) || n == 0x20 || n == 0x85 || n == 0xa0 || n == 0x1680 ||
  (0x2000 ≤ n && n ≤ 0x200a) || n == 0x2028 || n == 0x2029 || n == 0x202f ||
  n == 0x205f || n == 0x3000

/-- Cut a string at every code point that satisfies `p`; the pieces between
two cuts are kept, empty ones included, so that a string with `k` cut points
gives `k + 1` pieces. -/
def splitWhere (p : Char → Bool) : Str → List Str
  | [] => [[]]
  | c :: cs =>
    if p c then [] :: splitWhere p cs
    else (c :: (splitWhere p cs).headD []) :: (splitWhere p cs).tail

/-- The call `strings.Split(s, "\n")`. -/
def stringsSplitLines (s : Str) : List Str :=
  splitWhere (fun c => c == '\n') s

/-- The function `strings.TrimSpace`: drop the white space at both ends. -/
def stringsTrimSpace (s : Str) : Str :=
  (s.dropWhile isSpace).rdropWhile isSpace

/-- The function `strings.HasPrefix`. -/
def stringsHasPrefix (s pre : Str) : Bool :=
  pre.isPrefixOf s

/-- The function `strings.Fields`: the maximal runs of code points that are
not white space. -/
def stringsFields (s : Str) : List Str :=
  (splitWhere isSpace s).filter (fun piece => !piece.isEmpty)

/-- The function `strings.Index`: the position of the first occurrence of
`sub` in `s`, or `-1` when there is none. -/
def stringsIndex : Str → Str → Int
  | [], sub => if sub.isEmpty then 0 else -1
  | c :: cs, sub =>
    if sub.isPrefixOf (c :: cs) then 0
    else
      let i := stringsIndex cs sub
      if i = -1 then -1 else i + 1

/-- The slice expression `s[lo:]`; `none` stands for the run-time panic
of a bound out of range. -/
def sliceFrom (s : Str) (lo : Int) : Option Str :=
  if 0 ≤ lo ∧ lo ≤ s.length then some (s.drop lo.toNat) else none

/-- The slice expression `s[lo:hi]`; `none` stands for the run-time panic
of a bound out of range. -/
def sliceRange (s : Str) (lo hi : Int) : Option Str :=
  if 0 ≤ lo ∧ lo ≤ hi ∧ hi ≤ s.length then
    some ((s.drop lo.toNat).take (hi - lo).toNat)
  else none

/-! ## Project kinds -/

/-- The type `ProjectType` of `main.go`. -/
inductive ProjectType
  | Unknown
  | GoProject
  | NodeProject
  deriving DecidableEq, Repr

/-- An error value returned by the operating system: what `os.IsNotExist`
says of it and its text. -/
structure OSError where
  isNotExist : Bool
  text : Str
  deriving DecidableEq, Repr

deriving instance DecidableEq for Except

/-! ## Manifest field extraction -/

/-- The loop of `getGoModuleName` over the lines of `go.mod`. -/
def goModuleNameLoop : List Str → Str
  | [] => []
  | line :: rest =>
    let line := stringsTrimSpace line
    if stringsHasPrefix line "module ".toList then
      let parts := stringsFields line
      if 2 ≤ parts.length then parts.getD 1 []
      else goModuleNameLoop rest
    else goModuleNameLoop rest

/-- The body of `getGoModuleName` from the result of `os.ReadFile` on. -/
def getGoModuleNameOn (read : Except OSError Str) : Str :=
  match read with
  | .error _ => []
  | .ok content => goModuleNameLoop (stringsSplitLines content)

/-- The search key of `getNodeModuleName`: the word name between double
quotes. -/
def nameKey : Str := "\"name\"".toList

/-- The body of `getNodeModuleName` from the result of `os.ReadFile` on.
The result `none` stands for a run-time panic of a slice expression. -/
def getNodeModuleNameOn (read : Except OSError Str) : Option Str :=
  match read with
  | .error _ => some []
  | .ok contentStr =>
    let nameStart := stringsIndex contentStr nameKey
    if nameStart = -1 then some []
    else
      (sliceFrom contentStr nameStart).bind fun afterName =>
      let colonIdx := stringsIndex afterName [':']
      if colonIdx = -1 then some []
      else
        let valueStart := nameStart + colonIdx + 1
        (sliceFrom contentStr valueStart).bind fun afterColon =>
        let quoteStart := stringsIndex afterColon ['"']
        if quoteStart = -1 then some []
        else
          let valueStart := valueStart + (quoteStart + 1)
          (sliceFrom contentStr valueStart).bind fun afterQuote =>
          let quoteEnd := stringsIndex afterQuote ['"']
          if quoteEnd = -1 then some []
          else sliceRange contentStr valueStart (valueStart + quoteEnd)

/-- The first line of a `go.mod` text that begins with `module ` once the
white space around it is trimmed, as the specification words the search. -/
def firstModuleLine (content : Str) : Option Str :=
  ((stringsSplitLines content).map stringsTrimSpace).find?
    (fun line => stringsHasPrefix line "module ".toList)

/-- The name the specification assigns to a `go.mod` text: the second
white-space separated field of its first `module ` line, and the empty string
when there is no such line. -/
def goModuleNameSpec (content : Str) : Str :=
  match firstModuleLine content with
  | none => []
  | some line => (stringsFields line).getD 1 []

/-! ## Paths -/

/-- The function `strings.Join`. -/
def stringsJoin (sep : Str) : List Str → Str
  | [] => []
  | [a] => a
  | a :: b :: rest => a ++ sep ++ stringsJoin sep (b :: rest)

/-- The components of a path: the pieces between its separators. -/
def pathComponents (path : Str) : List Str :=
  splitWhere (fun c => c == '/') path

/-- One turn of the loop of `filepath.Clean`, on the component `comp`, with
the components written so far in `out`, the last one first.  An empty
component and `.` are skipped; `..` removes the last component written when
there is one that is not itself `..`, is kept when the path is not rooted, and
is dropped at the root. -/
def cleanStep (rooted : Bool) (out : List Str) (comp : Str) : List Str :=
  if comp = [] ∨ comp = ['.'] then out
  else if comp = ['.', '.'] then
    match out with
    | top :: below =>
      if top = ['.', '.'] then (if rooted then out else comp :: out) else below
    | [] => if rooted then [] else [comp]
  else comp :: out

/-- The function `filepath.Clean` on a Unix path. -/
def filepathClean (path : Str) : Str :=
  if path = [] then ['.']
  else
    let rooted := path.head? = some '/'
    let out := ((pathComponents path).foldl (cleanStep rooted) []).reverse
    if rooted then '/' :: stringsJoin ['/'] out
    else if out = [] then ['.']
    else stringsJoin ['/'] out

/-- The function `filepath.Join`: the elements from the first non-empty one
on are joined with the separator and the result is cleaned; the result is
empty when every element is empty. -/
def filepathJoin : List Str → Str
  | [] => []
  | e :: es => if e = [] then filepathJoin es else filepathClean (stringsJoin ['/'] (e :: es))

/-- The function `filepath.Dir`: the path up to its last separator, cleaned. -/
def filepathDir (path : Str) : Str :=
  filepathClean (path.rdropWhile (fun c => c != '/'))

/-- The function `getModuleDestinationPath` of `main.go`. -/
def getModuleDestinationPath (moduleName : Str) (moduleType : ProjectType) : Str :=
  let basePath := "backend/internal/modules".toList
  match moduleType with
  | .GoProject => filepathJoin [basePath, moduleName]
  | .NodeProject => filepathJoin [basePath, moduleName]
  | .Unknown => []

/-- A path component that names an entry: not empty, not `.`, not `..`, and
without a separator. -/
def PlainName (c : Str) : Prop :=
  c ≠ [] ∧ c ≠ ['.'] ∧ c ≠ ['.', '.'] ∧ '/' ∉ c

instance (c : Str) : Decidable (PlainName c) := by
  unfold PlainName; infer_instance

/-- The components of a path that name an entry: the empty ones and `.` are
left out. -/
def realComponents (path : Str) : List Str :=
  (pathComponents path).filter (fun c => decide (c ≠ [] ∧ c ≠ ['.']))

/-! ## The operating system -/

/-- What `os.Stat` reports of an entry: whether it is a directory, and its
permission bits. -/
structure FileInfo where
  isDir : Bool
  mode : Nat
  deriving DecidableEq, Repr

/-- An entry of a directory listing, as `os.ReadDir` returns it. -/
structure DirEntry where
  name : Str
  isDir : Bool
  deriving DecidableEq, Repr

/-- The ledger of `main.go`, type `CLIData`: the field `InstalledModules`, a
map from project path to module identifiers.  The value `none` is Go's nil
map; a key that is absent and a key bound to a nil slice both read as the
empty list. -/
structure CLIData where
  InstalledModules : Option (List (Str × List Str))
  deriving DecidableEq, Repr

/-- The run-time environment of the program: the system calls it makes, on a
state `σ` of the machine, and the `encoding/json` codec on `CLIData`.  Calls
that only read return a result; calls that write return the new state and the
error, if any.  No assumption is made on what the calls do. -/
structure OS (σ : Type) where
  /-- The call `os.Stat`. -/
  stat : σ → Str → Except OSError FileInfo
  /-- The call `os.ReadFile`; also what reading an open file to its end gives. -/
  readFile : σ → Str → Except OSError Str
  /-- The call `os.Open`. -/
  openFile : σ → Str → Except OSError Unit
  /-- The call `os.Create`: creates the file or truncates it. -/
  create : σ → Str → σ × Option OSError
  /-- Writing a text to a file opened with `os.Create`. -/
  write : σ → Str → Str → σ × Option OSError
  /-- The call `os.Chmod`. -/
  chmod : σ → Str → Nat → σ × Option OSError
  /-- The call `os.MkdirAll`. -/
  mkdirAll : σ → Str → Nat → σ × Option OSError
  /-- The call `os.ReadDir`. -/
  readDir : σ → Str → Except OSError (List DirEntry)
  /-- The call `os.Getwd`. -/
  getwd : σ → Except OSError Str
  /-- The call `os.UserConfigDir`. -/
  userConfigDir : σ → Except OSError Str
  /-- The call `os.TempDir`. -/
  tempDir : σ → Str
  /-- Decoding a JSON text into an existing `CLIData` value. -/
  jsonDecode : Str → CLIData → Except OSError CLIData
  /-- Encoding a `CLIData` value as JSON. -/
  jsonEncode : CLIData → Str
  /-- The call `os.WriteFile`: the file is created with the permission bits
  given, or truncated, and the text is written to it. -/
  writeFile : σ → Str → Str → Nat → σ × Option OSError

/-- How a run of a command ends. -/
inductive Ending
  | returned
  | exited (code : Nat)
  | panicked
  deriving DecidableEq, Repr

/-- The outcome of a run: the state of the machine, the texts written to
standard output in order, and how the run ended. -/
structure Outcome (σ : Type) where
  sys : σ
  stdout : List Str
  ending : Ending

/-- Whether `err == nil` for the error of a call that returns a result. -/
def isNil {α : Type} (r : Except OSError α) : Bool :=
  match r with
  | .ok _ => true
  | .error _ => false

/-- The test `os.IsNotExist(err)` for the error of a call that returns a
result; it is false of the nil error. -/
def isNotExist {α : Type} (r : Except OSError α) : Bool :=
  match r with
  | .ok _ => false
  | .error e => e.isNotExist

/-! ## The program -/

section Program

variable {σ : Type}

/-- The function `detectProjectType` of `main.go`. -/
def detectProjectType (os : OS σ) (s : σ) : ProjectType :=
  if isNil (os.stat s "go.mod".toList) then .GoProject
  else if isNil (os.stat s "package.json".toList) then .NodeProject
  else .Unknown

/-- The function `detectLocalModuleType` of `main.go`. -/
def detectLocalModuleType (os : OS σ) (s : σ) (sourcePath : Str) : ProjectType :=
  let goModPath := filepathJoin [sourcePath, "go.mod".toList]
  let packageJsonPath := filepathJoin [sourcePath, "package.json".toList]
  if isNil (os.stat s goModPath) then .GoProject
  else if isNil (os.stat s packageJsonPath) then .NodeProject
  else .Unknown

/-- The function `getGoModuleName` of `main.go`. -/
def getGoModuleName (os : OS σ) (s : σ) (sourcePath : Str) : Str :=
  getGoModuleNameOn (os.readFile s (filepathJoin [sourcePath, "go.mod".toList]))

/-- The function `getNodeModuleName` of `main.go`; `none` stands for a
run-time panic. -/
def getNodeModuleName (os : OS σ) (s : σ) (sourcePath : Str) : Option Str :=
  getNodeModuleNameOn (os.readFile s (filepathJoin [sourcePath, "package.json".toList]))

/-- The function `getModuleName` of `main.go`; `none` stands for a run-time
panic. -/
def getModuleName (os : OS σ) (s : σ) (sourcePath : Str) (moduleType : ProjectType) :
    Option Str :=
  match moduleType with
  | .GoProject => some (getGoModuleName os s sourcePath)
  | .NodeProject => getNodeModuleName os s sourcePath
  | .Unknown => some []

/-- The call `io.Copy(dstFile, srcFile)` of `copyFile`: the text of the source,
read to its end, is written to the destination. -/
def ioCopy (os : OS σ) (s : σ) (src dst : Str) : σ × Option OSError :=
  match os.readFile s src with
  | .error e => (s, some e)
  | .ok text => os.write s dst text

/-- The function `copyFile` of `main.go`: the new state and the error
returned, `none` for nil. -/
def copyFile (os : OS σ) (s : σ) (src dst : Str) : σ × Option OSError :=
  match os.openFile s src with
  | .error e => (s, some e)
  | .ok _ =>
    match os.create s dst with
    | (s1, some e) => (s1, some e)
    | (s1, none) =>
      match ioCopy os s1 src dst with
      | (s2, some e) => (s2, some e)
      | (s2, none) =>
        match os.stat s2 src with
        | .error e => (s2, some e)
        | .ok srcInfo => os.chmod s2 dst srcInfo.mode

/-- The loop of `copyDir` over the entries of the source directory;
`copySub` is the recursive call of `copyDir`.  The result `none` means that
the recursion was cut off. -/
def copyEntries (os : OS σ) (copySub : σ → Str → Str → Option (σ × Option OSError))
    (src dst : Str) : σ → List DirEntry → Option (σ × Option OSError)
  | s, [] => some (s, none)
  | s, entry :: rest =>
    let srcPath := filepathJoin [src, entry.name]
    let dstPath := filepathJoin [dst, entry.name]
    if entry.isDir then
      match copySub s srcPath dstPath with
      | none => none
      | some (s1, some e) => some (s1, some e)
      | some (s1, none) => copyEntries os copySub src dst s1 rest
    else
      match copyFile os s srcPath dstPath with
      | (s1, some e) => some (s1, some e)
      | (s1, none) => copyEntries os copySub src dst s1 rest

/-- The function `copyDir` of `main.go`, with a bound `fuel` on the depth of
the recursion: the new state and the error returned, `none` for nil.  The
result `none` means that the bound was reached. -/
def copyDir (os : OS σ) : Nat → σ → Str → Str → Option (σ × Option OSError)
  | 0, _, _, _ => none
  | fuel + 1, s, src, dst =>
    match os.stat s src with
    | .error e => some (s, some e)
    | .ok srcInfo =>
      match os.mkdirAll s dst srcInfo.mode with
      | (s1, some e) => some (s1, some e)
      | (s1, none) =>
        match os.readDir s1 src with
        | .error e => some (s1, some e)
        | .ok entries => copyEntries os (copyDir os fuel) src dst s1 entries

/-- The function `moduleTypeString` of `main.go`. -/
def moduleTypeString (moduleType : ProjectType) : Str :=
  match moduleType with
  | .GoProject => "Go".toList
  | .NodeProject => "Node.js".toList
  | .Unknown => "Unknown".toList

/-- The text that `registerLocalModule` of `main.go` prints; the function
changes nothing and returns nil. -/
def registerLocalModule (moduleName : Str) (moduleType : ProjectType) (modulePath : Str) :
    Str :=
  "Registering module: ".toList ++ moduleName ++ " (".toList ++ moduleTypeString moduleType
    ++ ") at ".toList ++ modulePath ++ "\n".toList

/-- The function `getDataFilePath` of `main.go`. -/
def getDataFilePath (os : OS σ) (s : σ) : Str :=
  let configDir :=
    match os.userConfigDir s with
    | .error _ => os.tempDir s
    | .ok dir => dir
  filepathJoin [configDir, "automationgenie".toList, "cli.json".toList]

/-- The function `loadData` of `main.go`. -/
def loadData (os : OS σ) (s : σ) : Except OSError CLIData :=
  let path := getDataFilePath os s
  let data : CLIData := { InstalledModules := some [] }
  match os.openFile s path with
  | .error err => if err.isNotExist then .ok data else .error err
  | .ok _ =>
    match os.readFile s path with
    | .error err => .error err
    | .ok text => os.jsonDecode text data

/-- The function `saveData` of `main.go`. -/
def saveData (os : OS σ) (s : σ) (data : CLIData) : σ × Option OSError :=
  let path := getDataFilePath os s
  let dir := filepathDir path
  match os.mkdirAll s dir 0o755 with
  | (s1, some err) => (s1, some err)
  | (s1, none) =>
    match os.create s1 path with
    | (s2, some err) => (s2, some err)
    | (s2, none) => os.write s2 path (os.jsonEncode data)

/-- The list a map holds for a key: the empty list when the key is absent. -/
def mapGet (m : List (Str × List Str)) (key : Str) : List Str :=
  match m.lookup key with
  | none => []
  | some l => l

/-- The assignment `m[key] = value` on a map. -/
def mapSet (m : List (Str × List Str)) (key : Str) (value : List Str) :
    List (Str × List Str) :=
  if m.any (fun kv => kv.1 == key) then
    m.map (fun kv => if kv.1 == key then (key, value) else kv)
  else m ++ [(key, value)]

/-- The function `saveInstalledModule` of `main.go`: the new state; `none`
stands for the run-time panic of an assignment to an entry of a nil map. -/
def saveInstalledModule (os : OS σ) (s : σ) (module : Str) : Option σ :=
  match os.getwd s with
  | .error _ => some s
  | .ok wd =>
    match loadData os s with
    | .error _ => some s
    | .ok data =>
      match data.InstalledModules with
      | none => none
      | some m =>
        let m1 := if m.lookup wd = none then mapSet m wd [] else m
        if module ∈ mapGet m1 wd then some s
        else
          let m2 := mapSet m1 wd (mapGet m1 wd ++ [module])
          some (saveData os s { InstalledModules := some m2 }).1

/-- The function `removeInstalledModule` of `main.go`. -/
def removeInstalledModule (os : OS σ) (s : σ) (module : Str) : Option σ :=
  match os.getwd s with
  | .error _ => some s
  | .ok wd =>
    match loadData os s with
    | .error _ => some s
    | .ok data =>
      match data.InstalledModules with
      | none => some (saveData os s data).1
      | some m =>
        let modules := mapGet m wd
        if module ∈ modules then
          some (saveData os s { InstalledModules := some (mapSet m wd (modules.erase module)) }).1
        else some (saveData os s data).1

/-- The function `installLocalModule` of `main.go`.  The result `none`
means that the recursion of `copyDir` was cut off by the bound `fuel`. -/
def installLocalModule (os : OS σ) (fuel : Nat) (s : σ) (sourcePath : Str) :
    Option (Outcome σ) :=
  if isNotExist (os.stat s sourcePath) then
    some ⟨s, ["Error: Source path '".toList ++ sourcePath ++ "' does not exist\n".toList],
      .exited 1⟩
  else
    let moduleType := detectLocalModuleType os s sourcePath
    if moduleType = .Unknown then
      some ⟨s, [("Error: Cannot determine module type. Ensure the directory contains go.mod "
        ++ "or package.json\n").toList], .exited 1⟩
    else
      match getModuleName os s sourcePath moduleType with
      | none => some ⟨s, [], .panicked⟩
      | some moduleName =>
        if moduleName = [] then
          some ⟨s, ["Error: Cannot determine module name\n".toList], .exited 1⟩
        else
          let destPath := getModuleDestinationPath moduleName moduleType
          let out1 := ["Installing local module '".toList ++ moduleName ++ "' to ".toList
            ++ destPath ++ "\n".toList]
          match copyDir os fuel s sourcePath destPath with
          | none => none
          | some (s1, some err) =>
            some ⟨s1, out1 ++ ["Error copying module: ".toList ++ err.text ++ "\n".toList],
              .exited 1⟩
          | some (s1, none) =>
            let out2 := out1 ++ [registerLocalModule moduleName moduleType destPath,
              "Local module '".toList ++ moduleName ++ "' installed successfully\n".toList]
            match saveInstalledModule os s1 ("local:".toList ++ moduleName) with
            | none => some ⟨s1, out2, .panicked⟩
            | some s2 => some ⟨s2, out2, .returned⟩

/-- The function `importModule` of `main.go`.  The result `none` means that
the recursion of `copyDir` was cut off by the bound `fuel`. -/
def importModule (os : OS σ) (fuel : Nat) (s : σ) (sourcePath : Str) :
    Option (Outcome σ) :=
  if isNotExist (os.stat s sourcePath) then
    some ⟨s, ["Error: Source path '".toList ++ sourcePath ++ "' does not exist\n".toList],
      .exited 1⟩
  else
    let moduleType := detectLocalModuleType os s sourcePath
    if moduleType = .Unknown then
      some ⟨s, [("Error: Cannot determine module type. Ensure the directory contains go.mod "
        ++ "or package.json\n").toList], .exited 1⟩
    else
      match getModuleName os s sourcePath moduleType with
      | none => some ⟨s, [], .panicked⟩
      | some moduleName =>
        if moduleName = [] then
          some ⟨s, ["Error: Cannot determine module name\n".toList], .exited 1⟩
        else
          let destPath := getModuleDestinationPath moduleName moduleType
          if isNil (os.stat s destPath) then
            some ⟨s, ["Module '".toList ++ moduleName
              ++ "' already exists. Use --force to overwrite\n".toList], .exited 1⟩
          else
            let out1 := ["Importing module '".toList ++ moduleName ++ "' to ".toList
              ++ destPath ++ "\n".toList]
            match copyDir os fuel s sourcePath destPath with
            | none => none
            | some (s1, some err) =>
              some ⟨s1, out1 ++ ["Error copying module: ".toList ++ err.text ++ "\n".toList],
                .exited 1⟩
            | some (s1, none) =>
              let out2 := out1 ++ [registerLocalModule moduleName moduleType destPath,
                "Module '".toList ++ moduleName
                  ++ "' imported and registered successfully\n".toList]
              match saveInstalledModule os s1 ("imported:".toList ++ moduleName) with
              | none => some ⟨s1, out2, .panicked⟩
              | some s2 => some ⟨s2, out2, .returned⟩

end Program

/-! ## The project scaffold -/

/-- The type `ProjectConfig` of `main.go`. -/
structure ProjectConfig where
  Name : Str
  Module : Str
  Description : Str
  Author : Str
  Port : Int
  BackendPort : Int
  deriving DecidableEq, Repr

/-- The function `generateGoMod` of `main.go`. -/
def generateGoMod (config : ProjectConfig) : Str :=
  "module ".toList ++ config.Module ++ ("\n\ngo 1.24.0\n\nrequire (\n"
    ++ "\tgithub.com/gin-gonic/gin v1.9.1\n"
    ++ "\tgithub.com/joho/godotenv v1.5.1\n"
    ++ "\tgithub.com/webview/webview_go v0.0.0-20240831120633-6173450d4dd6\n"
    ++ ")\n\nreplace backend => ./backend\n").toList

/-- The other template generators of `main.go`, by their names: the texts
they return are parameters, and nothing that is proved depends on them. -/
structure Templates where
  generateMainGo : Str
  generateMakefile : ProjectConfig → Str
  generateReadme : ProjectConfig → Str
  generateGitignore : Str
  generateGitattributes : Str
  generateEnvExample : ProjectConfig → Str
  generateNetlifyToml : ProjectConfig → Str
  generateBackendGoMod : Str
  generateBackendMain : Str
  generateConfig : Str
  generateRoutes : Str
  generateHandlers : Str
  generateCorsMiddleware : Str
  generateLoggerMiddleware : Str
  generatePipelineModel : Str
  generateProjectModel : Str
  generateUserModel : Str
  generateModulesManager : Str
  generateBuiltinModules : Str
  generateDatabase : Str
  generateLogger : Str
  generatePackageJson : ProjectConfig → Str
  generateViteConfig : ProjectConfig → Str
  generateTailwindConfig : Str
  generatePostcssConfig : Str
  generateIndexHtml : ProjectConfig → Str
  generateMainTsx : Str
  generateAppTsx : ProjectConfig → Str
  generateIndexCss : Str
  generateEslintrc : Str
  generatePrettierrc : Str
  generateNetlifyApiFunction : Str

/-- The slice `dirs` of `createProjectStructure`. -/
def projectDirs : List Str :=
  [ "backend/cmd/server".toList,
    "backend/config".toList,
    "backend/internal/api/handlers".toList,
    "backend/internal/api/middleware".toList,
    "backend/internal/models".toList,
    "backend/internal/modules".toList,
    "backend/internal/storage".toList,
    "backend/internal/utils".toList,
    "backend/tests".toList,
    "frontend/src/components".toList,
    "frontend/src/pages".toList,
    "frontend/src/hooks".toList,
    "frontend/src/services".toList,
    "frontend/src/utils".toList,
    "frontend/public".toList,
    "netlify/functions".toList,
    "dist".toList,
    "bin".toList ]

/-- The map `files` of `createProjectStructure`, its entries in the order of
the source text. -/
def projectFiles (t : Templates) (config : ProjectConfig) : List (Str × Str) :=
  [ ("go.mod".toList, generateGoMod config),
    ("main.go".toList, t.generateMainGo),
    ("Makefile".toList, t.generateMakefile config),
    ("README.md".toList, t.generateReadme config),
    (".gitignore".toList, t.generateGitignore),
    (".gitattributes".toList, t.generateGitattributes),
    (".env.example".toList, t.generateEnvExample config),
    ("netlify.toml".toList, t.generateNetlifyToml config),
    ("backend/go.mod".toList, t.generateBackendGoMod),
    ("backend/cmd/server/main.go".toList, t.generateBackendMain),
    ("backend/config/config.go".toList, t.generateConfig),
    ("backend/internal/api/routes.go".toList, t.generateRoutes),
    ("backend/internal/api/handlers/handlers.go".toList, t.generateHandlers),
    ("backend/internal/api/middleware/cors.go".toList, t.generateCorsMiddleware),
    ("backend/internal/api/middleware/logger.go".toList, t.generateLoggerMiddleware),
    ("backend/internal/models/pipeline.go".toList, t.generatePipelineModel),
    ("backend/internal/models/project.go".toList, t.generateProjectModel),
    ("backend/internal/models/user.go".toList, t.generateUserModel),
    ("backend/internal/modules/modules.go".toList, t.generateModulesManager),
    ("backend/internal/modules/builtin.go".toList, t.generateBuiltinModules),
    ("backend/internal/storage/database.go".toList, t.generateDatabase),
    ("backend/internal/utils/logger.go".toList, t.generateLogger),
    ("frontend/package.json".toList, t.generatePackageJson config),
    ("frontend/vite.config.js".toList, t.generateViteConfig config),
    ("frontend/tailwind.config.js".toList, t.generateTailwindConfig),
    ("frontend/postcss.config.js".toList, t.generatePostcssConfig),
    ("frontend/index.html".toList, t.generateIndexHtml config),
    ("frontend/src/main.tsx".toList, t.generateMainTsx),
    ("frontend/src/App.tsx".toList, t.generateAppTsx config),
    ("frontend/src/index.css".toList, t.generateIndexCss),
    ("frontend/.eslintrc.cjs".toList, t.generateEslintrc),
    ("frontend/.prettierrc".toList, t.generatePrettierrc),
    ("netlify/functions/api.js".toList, t.generateNetlifyApiFunction) ]

/-- The values of the flags of the command `init`, as `runInit` reads them. -/
structure InitFlags where
  module : Str
  description : Str
  author : Str
  port : Int
  backendPort : Int
  deriving DecidableEq, Repr

section Scaffold

variable {σ : Type}

/-- The first loop of `createProjectStructure`, over the directories. -/
def makeDirs (os : OS σ) (projectPath : Str) : σ → List Str → σ × Option OSError
  | s, [] => (s, none)
  | s, dir :: rest =>
    match os.mkdirAll s (filepathJoin [projectPath, dir]) 0o755 with
    | (s1, some err) => (s1, some err)
    | (s1, none) => makeDirs os projectPath s1 rest

/-- The second loop of `createProjectStructure`, over the entries of the map
of files in the order in which they are given; the error is the text of the
error returned. -/
def writeFiles (os : OS σ) (projectPath : Str) : σ → List (Str × Str) → σ × Option Str
  | s, [] => (s, none)
  | s, (path, content) :: rest =>
    match os.writeFile s (filepathJoin [projectPath, path]) content 0o644 with
    | (s1, some err) =>
      (s1, some ("failed to write ".toList ++ path ++ ": ".toList ++ err.text))
    | (s1, none) => writeFiles os projectPath s1 rest

/-- The function `createProjectStructure` of `main.go`: the new state, the
texts printed and the text of the error returned, `none` for nil.  Go leaves
open the order in which a `range` statement yields the entries of a map: the
function `range` gives that order, and is to return a permutation of its
argument. -/
def createProjectStructure (os : OS σ) (t : Templates)
    (range : List (Str × Str) → List (Str × Str)) (s : σ) (projectPath : Str)
    (config : ProjectConfig) : σ × List Str × Option Str :=
  match makeDirs os projectPath s projectDirs with
  | (s1, some err) => (s1, [], some err.text)
  | (s1, none) =>
    match writeFiles os projectPath s1 (range (projectFiles t config)) with
    | (s2, some msg) => (s2, [], some msg)
    | (s2, none) => (s2, ["✅ Project structure created\n".toList], none)

/-- The function `runInit` of `main.go`, on the arguments of the command and
the values of its flags: the new state, the texts printed and the text of the
error returned, `none` for nil. -/
def runInit (os : OS σ) (t : Templates) (range : List (Str × Str) → List (Str × Str))
    (s : σ) (flags : InitFlags) (args : List Str) : σ × List Str × Option Str :=
  let projectName :=
    match args with
    | [] => "my-app".toList
    | arg :: _ => arg
  match os.getwd s with
  | .error err => (s, [], some ("failed to get current directory: ".toList ++ err.text))
  | .ok cwd =>
    let projectPath := filepathJoin [cwd, projectName]
    if !isNotExist (os.stat s projectPath) then
      (s, [], some ("directory ".toList ++ projectName ++ " already exists".toList))
    else
      let moduleName := if flags.module = [] then projectName else flags.module
      let config : ProjectConfig :=
        { Name := projectName
          Module := moduleName
          Description := flags.description
          Author := flags.author
          Port := flags.port
          BackendPort := flags.backendPort }
      let out1 :=
        [ "🚀 Creating new Go-Vite project: ".toList ++ projectName ++ "\n".toList,
          "📦 Module: ".toList ++ moduleName ++ "\n".toList,
          "🔧 Frontend port: ".toList ++ (toString flags.port).toList ++ "\n".toList,
          "🔧 Backend port: ".toList ++ (toString flags.backendPort).toList ++ "\n\n".toList ]
      match createProjectStructure os t range s projectPath config with
      | (s1, out2, some msg) =>
        (s1, out1 ++ out2, some ("failed to create project structure: ".toList ++ msg))
      | (s1, out2, none) =>
        (s1, out1 ++ out2 ++
          [ "✅ Project created successfully!\n".toList,
            "\n📝 Next steps:\n".toList,
            "   cd ".toList ++ projectName ++ "\n".toList,
            "   make deps      # Install dependencies\n".toList,
            "   make binary    # Build the application\n".toList,
            "   ./dist/".toList ++ projectName ++ "  # Run the application\n\n".toList ], none)

/-- An environment that keeps a record of the calls of `os.MkdirAll`: the
state is the state of the environment `os` together with the list of the paths
the calls were made on, in their order; every call acts on the state of `os` as
it does there.  A run of `copyDir` calls `os.MkdirAll` once, on its
destination, when the stat of its source has succeeded, so the record lists
the destinations of these runs. -/
def withTrace (os : OS σ) : OS (σ × List Str) where
  stat := fun s path => os.stat s.1 path
  readFile := fun s path => os.readFile s.1 path
  openFile := fun s path => os.openFile s.1 path
  create := fun s path => (((os.create s.1 path).1, s.2), (os.create s.1 path).2)
  write := fun s path text => (((os.write s.1 path text).1, s.2), (os.write s.1 path text).2)
  chmod := fun s path mode => (((os.chmod s.1 path mode).1, s.2), (os.chmod s.1 path mode).2)
  mkdirAll := fun s path perm =>
    (((os.mkdirAll s.1 path perm).1, s.2 ++ [path]), (os.mkdirAll s.1 path perm).2)
  readDir := fun s path => os.readDir s.1 path
  getwd := fun s => os.getwd s.1
  userConfigDir := fun s => os.userConfigDir s.1
  tempDir := fun s => os.tempDir s.1
  jsonDecode := os.jsonDecode
  jsonEncode := os.jsonEncode
  writeFile := fun s path text perm =>
    (((os.writeFile s.1 path text perm).1, s.2), (os.writeFile s.1 path text perm).2)

end Scaffold

/-! ## A file system

A concrete state for the environment: a Unix file system of regular files and
directories, without links and without permission checks (every call is
allowed), in which a call fails only for a structural reason: an entry is
missing or is of the wrong kind. -/

/-- An entry of the file system: a regular file with its text and permission
bits, or a directory with its permission bits. -/
inductive Node
  | file (data : Str) (mode : Nat)
  | dir (mode : Nat)
  deriving DecidableEq, Repr

/-- The state of the machine: the entries, each under its absolute path given
as the list of its components; the working directory; the value of
`os.UserConfigDir`, if it is defined; the value of `os.TempDir`. -/
structure FS where
  nodes : List (List Str × Node)
  cwd : List Str
  configDir : Option Str
  tmpDir : Str
  deriving DecidableEq, Repr

/-- The `encoding/json` codec on `CLIData`, a parameter of the file system
model. -/
structure Codec where
  decode : Str → CLIData → Except OSError CLIData
  encode : CLIData → Str

namespace FS

/-- The entry at an absolute path; the root is a directory. -/
def lookup (fs : FS) (p : List Str) : Option Node :=
  if p = [] then some (.dir 0o755) else fs.nodes.lookup p

/-- One step of path resolution: an empty component and `.` stay in place,
`..` goes to the parent (the root is its own parent), a name goes down. -/
def resolveStep (at_ : List Str) (comp : Str) : List Str :=
  if comp = [] ∨ comp = ['.'] then at_
  else if comp = ['.', '.'] then at_.dropLast
  else at_ ++ [comp]

/-- The absolute path a path string denotes: a rooted path is resolved from
the root, any other from the working directory. -/
def resolve (fs : FS) (path : Str) : List Str :=
  (pathComponents path).foldl resolveStep (if path.head? = some '/' then [] else fs.cwd)

/-- Bind the path `p` to the entry `n`. -/
def setNode (fs : FS) (p : List Str) (n : Node) : FS :=
  { fs with nodes := (p, n) :: fs.nodes.filter (fun kv => decide (kv.1 ≠ p)) }

/-- The error of a system call: the call, the path and the reason, as
`os.PathError` prints them. -/
def pathError (op : String) (path : Str) (notExist : Bool) (reason : String) : OSError :=
  { isNotExist := notExist, text := op.toList ++ [' '] ++ path ++ [':', ' '] ++ reason.toList }

/-- The error "no such file or directory". -/
def enoent (op : String) (path : Str) : OSError :=
  pathError op path true "no such file or directory"

/-- The error "not a directory". -/
def enotdir (op : String) (path : Str) : OSError :=
  pathError op path false "not a directory"

/-- The error "is a directory". -/
def eisdir (op : String) (path : Str) : OSError :=
  pathError op path false "is a directory"

/-- The call `os.Stat`. -/
def stat (fs : FS) (path : Str) : Except OSError FileInfo :=
  if path = [] then .error (enoent "stat" path)
  else
    match fs.lookup (fs.resolve path) with
    | none => .error (enoent "stat" path)
    | some (.file _ mode) => .ok { isDir := false, mode := mode }
    | some (.dir mode) => .ok { isDir := true, mode := mode }

/-- The call `os.ReadFile`. -/
def readFile (fs : FS) (path : Str) : Except OSError Str :=
  if path = [] then .error (enoent "open" path)
  else
    match fs.lookup (fs.resolve path) with
    | none => .error (enoent "open" path)
    | some (.file data _) => .ok data
    | some (.dir _) => .error (eisdir "read" path)

/-- The call `os.Open`: it succeeds on a file and on a directory. -/
def openFile (fs : FS) (path : Str) : Except OSError Unit :=
  if path = [] then .error (enoent "open" path)
  else
    match fs.lookup (fs.resolve path) with
    | none => .error (enoent "open" path)
    | some _ => .ok ()

/-- The call `os.Create`: an existing file is truncated, a missing one is
created in a directory that exists, with mode `0644` (the mode `0666` of
`os.Create` under the usual mask `022`). -/
def create (fs : FS) (path : Str) : FS × Option OSError :=
  if path = [] then (fs, some (enoent "open" path))
  else
    let p := fs.resolve path
    match fs.lookup p with
    | some (.dir _) => (fs, some (eisdir "open" path))
    | some (.file _ mode) => (fs.setNode p (.file [] mode), none)
    | none =>
      match fs.lookup p.dropLast with
      | some (.dir _) => (fs.setNode p (.file [] 0o644), none)
      | some (.file _ _) => (fs, some (enotdir "open" path))
      | none => (fs, some (enoent "open" path))

/-- Writing a text to a file that `os.Create` has opened: the text is added at
the end of the file. -/
def write (fs : FS) (path : Str) (text : Str) : FS × Option OSError :=
  match fs.lookup (fs.resolve path) with
  | some (.file data mode) => (fs.setNode (fs.resolve path) (.file (data ++ text) mode), none)
  | some (.dir _) => (fs, some (eisdir "write" path))
  | none => (fs, some (enoent "write" path))

/-- The call `os.Chmod`. -/
def chmod (fs : FS) (path : Str) (mode : Nat) : FS × Option OSError :=
  if path = [] then (fs, some (enoent "chmod" path))
  else
    match fs.lookup (fs.resolve path) with
    | some (.file data _) => (fs.setNode (fs.resolve path) (.file data mode), none)
    | some (.dir _) => (fs.setNode (fs.resolve path) (.dir mode), none)
    | none => (fs, some (enoent "chmod" path))

/-- The call `os.WriteFile`: an existing file gets the text in place of its
own and keeps its permission bits, a missing one is created in a directory
that exists, with the permission bits asked for (the mask of the process is
not applied). -/
def writeFile (fs : FS) (path : Str) (text : Str) (perm : Nat) : FS × Option OSError :=
  if path = [] then (fs, some (enoent "open" path))
  else
    let p := fs.resolve path
    match fs.lookup p with
    | some (.dir _) => (fs, some (eisdir "open" path))
    | some (.file _ mode) => (fs.setNode p (.file text mode), none)
    | none =>
      match fs.lookup p.dropLast with
      | some (.dir _) => (fs.setNode p (.file text perm), none)
      | some (.file _ _) => (fs, some (enotdir "open" path))
      | none => (fs, some (enoent "open" path))

/-- The loop of `os.MkdirAll` down the components `rest` below the directory
`at_`: a directory that exists is entered, a missing one is created with the
permission bits asked for (the mask of the process is not applied), a file in
the way is an error. -/
def mkdirAllFrom (path : Str) (perm : Nat) : FS → List Str → List Str → FS × Option OSError
  | fs, _, [] => (fs, none)
  | fs, at_, c :: rest =>
    match fs.lookup (at_ ++ [c]) with
    | some (.dir _) => mkdirAllFrom path perm fs (at_ ++ [c]) rest
    | some (.file _ _) => (fs, some (enotdir "mkdir" path))
    | none => mkdirAllFrom path perm (fs.setNode (at_ ++ [c]) (.dir perm)) (at_ ++ [c]) rest

/-- The call `os.MkdirAll`. -/
def mkdirAll (fs : FS) (path : Str) (perm : Nat) : FS × Option OSError :=
  if path = [] then (fs, some (enoent "mkdir" path))
  else mkdirAllFrom path perm fs [] (fs.resolve path)

/-- The order of Go on strings, byte by byte; on valid UTF-8 it is the order
code point by code point. -/
def strLe : Str → Str → Bool
  | [], _ => true
  | _ :: _, [] => false
  | a :: as, b :: bs =>
    if a.toNat < b.toNat then true
    else if b.toNat < a.toNat then false
    else strLe as bs

/-- Insert a name into a list of names sorted by `strLe`. -/
def insertName (x : Str) : List Str → List Str
  | [] => [x]
  | y :: ys => if strLe x y then x :: y :: ys else y :: insertName x ys

/-- Sort a list of names by `strLe`. -/
def sortNames : List Str → List Str
  | [] => []
  | x :: xs => insertName x (sortNames xs)

/-- Whether an entry is a directory. -/
def isDirEntry : Option Node → Bool
  | some (.dir _) => true
  | _ => false

/-- Whether an entry is a regular file. -/
def isFileEntry : Option Node → Bool
  | some (.file _ _) => true
  | _ => false

/-- The names of the entries directly inside the directory `p`. -/
def childNames (fs : FS) (p : List Str) : List Str :=
  (fs.nodes.filterMap fun kv =>
    match kv.1.getLast? with
    | none => none
    | some name => if kv.1.dropLast = p then some name else none).dedup

/-- The call `os.ReadDir`: the entries of a directory, sorted by name. -/
def readDir (fs : FS) (path : Str) : Except OSError (List DirEntry) :=
  if path = [] then .error (enoent "open" path)
  else
    match fs.lookup (fs.resolve path) with
    | none => .error (enoent "open" path)
    | some (.file _ _) => .error (enotdir "readdirent" path)
    | some (.dir _) =>
      .ok ((sortNames (fs.childNames (fs.resolve path))).map fun name =>
        { name := name, isDir := isDirEntry (fs.lookup (fs.resolve path ++ [name])) })

/-- The call `os.Getwd`. -/
def getwd (fs : FS) : Except OSError Str :=
  .ok ('/' :: stringsJoin ['/'] fs.cwd)

/-- The call `os.UserConfigDir`. -/
def userConfigDir (fs : FS) : Except OSError Str :=
  match fs.configDir with
  | some dir => .ok dir
  | none =>
    .error { isNotExist := false, text := "neither $XDG_CONFIG_HOME nor $HOME are defined".toList }

/-- A state is well formed when the components of every path, and those of
the working directory, are names, and every entry lies in a directory. -/
def WF (fs : FS) : Prop :=
  (∀ c ∈ fs.cwd, PlainName c) ∧
  ∀ kv ∈ fs.nodes, kv.1 ≠ [] ∧ (∀ c ∈ kv.1, PlainName c) ∧
    isDirEntry (fs.lookup kv.1.dropLast) = true

instance (fs : FS) : Decidable fs.WF := by
  unfold WF; infer_instance

/-- The entry `copy` is a copy of the entry `orig`: both are missing, or both
are regular files with the same text and the same permission bits, or both
are directories. -/
def sameEntry (orig copy : Option Node) : Prop :=
  match orig with
  | none => copy = none
  | some (.file data mode) => copy = some (.file data mode)
  | some (.dir _) => isDirEntry copy = true

/-- The number of entries of the state below the path `p`. -/
def countBelow (fs : FS) (p : List Str) : Nat :=
  (fs.nodes.filter (fun kv => decide (p <+: kv.1 ∧ kv.1 ≠ p))).length

end FS

/-- The file system as an environment of the program. -/
def unixOS (codec : Codec) : OS FS where
  stat := FS.stat
  readFile := FS.readFile
  openFile := FS.openFile
  create := FS.create
  write := FS.write
  chmod := FS.chmod
  mkdirAll := FS.mkdirAll
  readDir := FS.readDir
  getwd := FS.getwd
  userConfigDir := FS.userConfigDir
  tempDir := fun fs => fs.tmpDir
  jsonDecode := codec.decode
  jsonEncode := codec.encode
  writeFile := FS.writeFile

/-- What holds of the components that `filepath.Clean` has written: none is
empty, none is `.`, none holds a separator, and `..` occurs in a path that is
not rooted only. -/
def CleanStack (rooted : Bool) (out : List Str) : Prop :=
  ∀ c ∈ out, c ≠ [] ∧ c ≠ ['.'] ∧ '/' ∉ c ∧ (c = ['.', '.'] → rooted = false)

/-- What a call that works below the path `d`, or creates `d`, leaves as it
was: the state stays well formed, the working directory stays, an entry that
existed outside `d` stays, every path that is neither below nor above `d`
stays, and so does the number of entries below such a path. -/
def FS.Frame (fs fs2 : FS) (d : List Str) : Prop :=
  fs2.WF ∧ fs2.cwd = fs.cwd ∧
  (∀ q, ¬ d <+: q → fs.lookup q ≠ none → fs2.lookup q = fs.lookup q) ∧
  (∀ q, ¬ d <+: q → ¬ q <+: d → fs2.lookup q = fs.lookup q) ∧
  (∀ t, ¬ t <+: d → ¬ d <+: t → fs2.countBelow t = fs.countBelow t)

/-- What `copyDir` needs of a state to copy `src` to `dst`: the state is well
formed, the two paths are not empty, `src` is a directory, neither path lies
at or below the other, no file is on the way to `dst`, and nothing exists at
or below `dst`. -/
def FS.CopyPre (fs : FS) (src dst : Str) : Prop :=
  fs.WF ∧ src ≠ [] ∧ dst ≠ [] ∧ isDirEntry (fs.lookup (fs.resolve src)) = true ∧
  ¬ fs.resolve src <+: fs.resolve dst ∧ ¬ fs.resolve dst <+: fs.resolve src ∧
  (∀ p, p <+: fs.resolve dst → isFileEntry (fs.lookup p) = false) ∧
  (∀ q, fs.resolve dst <+: q → fs.lookup q = none)

/-- What `copyDir` establishes: it works at and below `dst` and on the way to
it only, and every path below `dst` holds a copy of the entry at the same
path below `src`. -/
def FS.CopyPost (fs fs2 : FS) (src dst : Str) : Prop :=
  FS.Frame fs fs2 (fs.resolve dst) ∧
  ∀ rel, sameEntry (fs.lookup (fs.resolve src ++ rel)) (fs2.lookup (fs.resolve dst ++ rel))

/-- The invariant of the loop of `copyDir` over the entries of the directory
`s`, copied to `d`: `fs1` is the state when the directory was listed, `fs` the
current state, `done` the names of the entries copied so far. -/
def FS.LoopInv (fs1 fs : FS) (s d : List Str) (done : List Str) : Prop :=
  fs.WF ∧ fs.cwd = fs1.cwd ∧ isDirEntry (fs.lookup d) = true ∧
  (∀ q, ¬ d <+: q → fs.lookup q = fs1.lookup q) ∧
  (∀ name ∈ done, ∀ rel,
    sameEntry (fs1.lookup (s ++ name :: rel)) (fs.lookup (d ++ name :: rel))) ∧
  (∀ name, name ∉ done → ∀ rel, fs.lookup (d ++ name :: rel) = none) ∧
  (∀ t, ¬ t <+: d → ¬ d <+: t → fs.countBelow t = fs1.countBelow t)

/-- What no call of the file system undoes: the working directory and the
directories of the user stay, a directory stays a directory and an entry that
exists goes on existing. -/
def FS.Keeps (fs fs2 : FS) : Prop :=
  fs2.cwd = fs.cwd ∧ fs2.configDir = fs.configDir ∧ fs2.tmpDir = fs.tmpDir ∧
  ∀ q, (FS.isDirEntry (fs.lookup q) = true → FS.isDirEntry (fs2.lookup q) = true) ∧
    (fs.lookup q ≠ none → fs2.lookup q ≠ none)

/-- What a run of `copyDir` from the state `fs` to the state `fs2` has done in
every case, for the source `s` and the destination `d`: it has worked at and
below `d` and on the way to it only; a path below `d` whose counterpart below
`s` does not exist holds what it held; and the runs of `copyDir` that took
place, the first included, were on distinct destinations, each the counterpart
of a directory of the source. -/
def FS.CopyBasic (fs fs2 : FS) (s d : List Str) (calls : List (List Str)) : Prop :=
  FS.Frame fs fs2 d ∧
  (∀ rel, fs.lookup (s ++ rel) = none → fs2.lookup (d ++ rel) = fs.lookup (d ++ rel)) ∧
  calls.Nodup ∧
  ∀ q ∈ calls, ∃ rel, q = d ++ rel ∧ FS.isDirEntry (fs.lookup (s ++ rel)) = true

/-- What a run of `copyDir` that returns nil has done besides: every file of
the source has its copy, every directory of the source has its counterpart,
and a run of `copyDir` took place on it. -/
def FS.CopyDone (fs fs2 : FS) (s d : List Str) (calls : List (List Str)) : Prop :=
  (∀ rel text mode, fs.lookup (s ++ rel) = some (.file text mode) →
    fs2.lookup (d ++ rel) = some (.file text mode)) ∧
  ∀ rel, FS.isDirEntry (fs.lookup (s ++ rel)) = true →
    FS.isDirEntry (fs2.lookup (d ++ rel)) = true ∧ d ++ rel ∈ calls

/-- The part of the invariant of the loop of `copyDir` that holds in every
case: `fs` is the state at the start of the run, `fs2` the current state,
`done` the names of the entries gone through, `calls` the destinations of the
runs of `copyDir` that took place for them. -/
def FS.LoopBasic (fs fs2 : FS) (s d : List Str) (done : List Str)
    (calls : List (List Str)) : Prop :=
  FS.Frame fs fs2 d ∧ FS.isDirEntry (fs2.lookup d) = true ∧
  (∀ rel, fs.lookup (s ++ rel) = none → fs2.lookup (d ++ rel) = fs.lookup (d ++ rel)) ∧
  calls.Nodup ∧
  ∀ q ∈ calls, ∃ name ∈ done, ∃ rel, q = d ++ name :: rel ∧
    FS.isDirEntry (fs.lookup (s ++ name :: rel)) = true

/-- The part of the invariant of the loop of `copyDir` that holds as long as
no copy has failed. -/
def FS.LoopDone (fs fs2 : FS) (s d : List Str) (done : List Str)
    (calls : List (List Str)) : Prop :=
  (∀ name ∈ done, ∀ rel text mode, fs.lookup (s ++ name :: rel) = some (.file text mode) →
    fs2.lookup (d ++ name :: rel) = some (.file text mode)) ∧
  ∀ name ∈ done, ∀ rel, FS.isDirEntry (fs.lookup (s ++ name :: rel)) = true →
    FS.isDirEntry (fs2.lookup (d ++ name :: rel)) = true ∧ d ++ name :: rel ∈ calls

/-! ## The ledger -/

/-- The list a ledger holds for the working directory `wd`: the empty list
when the map is nil or has no such key. -/
def ledgerList (data : CLIData) (wd : Str) : List Str :=
  match data.InstalledModules with
  | none => []
  | some m => mapGet m wd

/-- The map that `saveInstalledModule` passes to `saveData` when it records the
identifier `module` in the map `m`: the key `wd` is bound to its list followed
by `module`. -/
def recordedMap (m : List (Str × List Str)) (wd module : Str) : List (Str × List Str) :=
  mapSet (if m.lookup wd = none then mapSet m wd [] else m) wd
    (mapGet (if m.lookup wd = none then mapSet m wd [] else m) wd ++ [module])

/-- The ledger that `removeInstalledModule` passes to `saveData`: the first
occurrence of `module` is taken out of the list of `wd`, if there is one. -/
def forgottenData (data : CLIData) (wd module : Str) : CLIData :=
  match data.InstalledModules with
  | none => data
  | some m =>
    if module ∈ mapGet m wd then { InstalledModules := some (mapSet m wd ((mapGet m wd).erase module)) }
    else data

/-- The ledger file takes the ledger `data` from the state `s`: after
`saveData` the working directory is still `wd` and `loadData` returns `data`. -/
def Stores {σ : Type} (os : OS σ) (s : σ) (wd : Str) (data : CLIData) : Prop :=
  os.getwd (saveData os s data).1 = .ok wd ∧ loadData os (saveData os s data).1 = .ok data

/-- The entry of a ledger under a key: `none` when the map is nil or does not
hold the key. -/
def ledgerEntry (data : CLIData) (key : Str) : Option (List Str) :=
  match data.InstalledModules with
  | none => none
  | some m => m.lookup key

/-- The list that the ledger holds for the working directory, read the way the
tests of the repository read it: `loadData`, then the entry of the map under
the result of `os.Getwd`.  The result `none` means that one of the two calls
returned an error. -/
def listedModules {σ : Type} (os : OS σ) (s : σ) : Option (List Str) :=
  match os.getwd s with
  | .error _ => none
  | .ok wd =>
    match loadData os s with
    | .error _ => none
    | .ok data => some (ledgerList data wd)

/-! ## Sample states -/

/-- A codec for the sample states: the file decodes to the ledger as it is,
and every ledger encodes to the text of the empty object. -/
def sampleCodec : Codec where
  decode := fun _ data => .ok data
  encode := fun _ => "\x7b\x7d".toList

/-- A sample state: the project `/proj` with the Go module `m` under `src`,
the Node package `pkg` under `js`, a directory `both` with the two manifests,
a directory `empty`, a directory `nest` that holds a directory only, a
directory `noname` whose `go.mod` has no module line, and the module `m`
already installed. -/
def sampleFS : FS where
  nodes :=
    [ (["proj".toList], .dir 0o755),
      (["proj".toList, "src".toList], .dir 0o755),
      (["proj".toList, "src".toList, "go.mod".toList], .file "module m\n".toList 0o644),
      (["proj".toList, "src".toList, "a.txt".toList], .file "1".toList 0o600),
      (["proj".toList, "src".toList, "sub".toList], .dir 0o700),
      (["proj".toList, "src".toList, "sub".toList, "b.txt".toList], .file "2".toList 0o755),
      (["proj".toList, "js".toList], .dir 0o755),
      (["proj".toList, "js".toList, "package.json".toList],
        .file "\x7b\"name\": \"pkg\"\x7d".toList 0o644),
      (["proj".toList, "both".toList], .dir 0o755),
      (["proj".toList, "both".toList, "go.mod".toList], .file "module both\n".toList 0o644),
      (["proj".toList, "both".toList, "package.json".toList], .file "\x7b\x7d".toList 0o644),
      (["proj".toList, "empty".toList], .dir 0o755),
      (["proj".toList, "nest".toList], .dir 0o755),
      (["proj".toList, "nest".toList, "inner".toList], .dir 0o750),
      (["proj".toList, "noname".toList], .dir 0o755),
      (["proj".toList, "noname".toList, "go.mod".toList], .file "go 1.21\n".toList 0o644),
      (["proj".toList, "backend".toList], .dir 0o755),
      (["proj".toList, "backend".toList, "internal".toList], .dir 0o755),
      (["proj".toList, "backend".toList, "internal".toList, "modules".toList], .dir 0o755),
      (["proj".toList, "backend".toList, "internal".toList, "modules".toList, "m".toList],
        .dir 0o755),
      (["proj".toList, "backend".toList, "internal".toList, "modules".toList, "m".toList,
        "old.txt".toList], .file "old".toList 0o644) ]
  cwd := ["proj".toList]
  configDir := some "/home/u/.config".toList
  tmpDir := "/tmp".toList

/-- A quoted string of the sample codec: the text after an opening double
quote up to the next double quote, and what follows it. -/
def parseQuoted : Str → Option (Str × Str)
  | '"' :: t =>
    match t.dropWhile (fun c => c != '"') with
    | '"' :: rest => some (t.takeWhile (fun c => c != '"'), rest)
    | _ => none
  | _ => none

/-- The items of a list of the sample codec, after its opening bracket. -/
def parseItems : Nat → Str → Option (List Str × Str)
  | 0, _ => none
  | fuel + 1, s =>
    match parseQuoted s with
    | some (x, ',' :: rest) =>
      match parseItems fuel rest with
      | some (xs, rest2) => some (x :: xs, rest2)
      | none => none
    | some (x, ']' :: rest) => some ([x], rest)
    | _ => none

/-- A list of strings of the sample codec; `null` reads as the empty list. -/
def parseList : Str → Option (List Str × Str)
  | '[' :: ']' :: rest => some ([], rest)
  | '[' :: rest => parseItems rest.length rest
  | 'n' :: 'u' :: 'l' :: 'l' :: rest => some ([], rest)
  | _ => none

/-- The entries of an object of the sample codec, after its opening brace. -/
def parseEntries : Nat → Str → Option (List (Str × List Str) × Str)
  | 0, _ => none
  | fuel + 1, s =>
    match parseQuoted s with
    | some (key, ':' :: rest) =>
      match parseList rest with
      | some (value, ',' :: rest2) =>
        match parseEntries fuel rest2 with
        | some (entries, rest3) => some ((key, value) :: entries, rest3)
        | none => none
      | some (value, '}' :: rest2) => some ([(key, value)], rest2)
      | _ => none
    | _ => none

/-- The value of the field `installed_modules` in a text of the sample codec:
`none` for `null`. -/
def parseModules : Str → Option (Option (List (Str × List Str)) × Str)
  | 'n' :: 'u' :: 'l' :: 'l' :: rest => some (none, rest)
  | '\x7b' :: '\x7d' :: rest => some (some [], rest)
  | '\x7b' :: rest =>
    match parseEntries rest.length rest with
    | some (entries, rest2) => some (some entries, rest2)
    | none => none
  | _ => none

/-- A codec for the sample states, on the texts that `encoding/json` writes
for a ledger whose strings need no escape: an object with the one field
`installed_modules`, the keys in the order of the list, no white space, and a
final line feed.  Decoding binds the keys read in the map of the value given;
`null` makes the map nil; any other text is an error. -/
def sampleJson : Codec where
  encode := fun data =>
    let quote := fun (x : Str) => '"' :: x ++ ['"']
    let body :=
      match data.InstalledModules with
      | none => "null".toList
      | some m =>
        '\x7b' :: stringsJoin [','] (m.map fun kv =>
          quote kv.1 ++ [':', '['] ++ stringsJoin [','] (kv.2.map quote) ++ [']']) ++ ['\x7d']
    '\x7b' :: "\"installed_modules\":".toList ++ body ++ ['\x7d', '\n']
  decode := fun text data =>
    let failure : OSError := { isNotExist := false, text := "invalid ledger text".toList }
    match text with
    | '\x7b' :: rest =>
      if "\"installed_modules\":".toList.isPrefixOf rest then
        match parseModules (rest.drop "\"installed_modules\":".toList.length) with
        | some (none, '\x7d' :: _) => .ok { InstalledModules := none }
        | some (some entries, '\x7d' :: _) =>
          .ok { InstalledModules :=
            some (entries.foldl (fun acc kv => mapSet acc kv.1 kv.2)
              (data.InstalledModules.getD [])) }
        | _ => .error failure
      else .error failure
    | _ => .error failure

/-- A sample state for the ledger: the project `/proj` with two sources `a`
and `b` of the Go module `w`, and the ledger file of the user `u`, which holds
the identifier `x` twice for the project. -/
def ledgerFS : FS where
  nodes :=
    [ (["proj".toList], .dir 0o755),
      (["proj".toList, "a".toList], .dir 0o755),
      (["proj".toList, "a".toList, "go.mod".toList], .file "module w\n".toList 0o644),
      (["proj".toList, "b".toList], .dir 0o755),
      (["proj".toList, "b".toList, "go.mod".toList], .file "module w\n".toList 0o644),
      (["home".toList], .dir 0o755),
      (["home".toList, "u".toList], .dir 0o755),
      (["home".toList, "u".toList, ".config".toList], .dir 0o755),
      (["home".toList, "u".toList, ".config".toList, "automationgenie".toList], .dir 0o755),
      (["home".toList, "u".toList, ".config".toList, "automationgenie".toList,
        "cli.json".toList],
        .file "\x7b\"installed_modules\":\x7b\"/proj\":[\"x\",\"x\"]\x7d\x7d\n".toList 0o644) ]
  cwd := ["proj".toList]
  configDir := some "/home/u/.config".toList
  tmpDir := "/tmp".toList

/-- The sample state `ledgerFS` with another text in the ledger file. -/
def withLedger (text : Str) : FS :=
  ledgerFS.setNode ["home".toList, "u".toList, ".config".toList, "automationgenie".toList,
    "cli.json".toList] (.file text 0o644)

/-- A sample state whose ledger holds the one identifier `x` for the project. -/
def singleFS : FS :=
  withLedger "\x7b\"installed_modules\":\x7b\"/proj\":[\"x\"]\x7d\x7d\n".toList

/-- A sample state whose ledger file is not the text of a ledger. -/
def corruptFS : FS :=
  withLedger "installed_modules".toList

/-- The sample state `ledgerFS` with a regular file `backend` in the project,
in the way of every destination. -/
def blockedFS : FS :=
  ledgerFS.setNode ["proj".toList, "backend".toList] (.file [] 0o644)

/-- A sample state for a copy that stops half way: the directory `lib` holds
the files `a.txt`, `m` and `z.txt`, and the directory `out` holds a directory
`m`. -/
def halfFS : FS where
  nodes :=
    [ (["proj".toList], .dir 0o755),
      (["proj".toList, "lib".toList], .dir 0o755),
      (["proj".toList, "lib".toList, "a.txt".toList], .file "1".toList 0o644),
      (["proj".toList, "lib".toList, "m".toList], .file "2".toList 0o644),
      (["proj".toList, "lib".toList, "z.txt".toList], .file "3".toList 0o644),
      (["proj".toList, "out".toList], .dir 0o755),
      (["proj".toList, "out".toList, "m".toList], .dir 0o755) ]
  cwd := ["proj".toList]
  configDir := some "/home/u/.config".toList
  tmpDir := "/tmp".toList

/-- A sample state whose ledger holds the identifier `local:w` for the
project, while the module is not installed. -/
def removedFS : FS :=
  withLedger "\x7b\"installed_modules\":\x7b\"/proj\":[\"local:w\"]\x7d\x7d\n".toList

/-- A sample ledger of two projects. -/
def twoProjects : CLIData where
  InstalledModules :=
    some [("/proj".toList, ["local:w".toList, "x".toList]), ("/other".toList, [])]

/-- A sample state whose ledger file holds `null` for the map of the installed
modules. -/
def nullFS : FS :=
  withLedger "\x7b\"installed_modules\":null\x7d\n".toList

/-- A sample state whose ledger holds entries for two projects. -/
def twoFS : FS :=
  withLedger ("\x7b\"installed_modules\":\x7b\"/proj\":[\"x\"],"
    ++ "\"/other\":[\"y\",\"z\"]\x7d\x7d\n").toList

/-- Sample templates: every generator returns its own name. -/
def sampleTemplates : Templates where
  generateMainGo := "MainGo".toList
  generateMakefile := fun config => "Makefile ".toList ++ config.Name
  generateReadme := fun config => "Readme ".toList ++ config.Name
  generateGitignore := "Gitignore".toList
  generateGitattributes := "Gitattributes".toList
  generateEnvExample := fun config => "EnvExample ".toList ++ config.Name
  generateNetlifyToml := fun config => "NetlifyToml ".toList ++ config.Name
  generateBackendGoMod := "BackendGoMod".toList
  generateBackendMain := "BackendMain".toList
  generateConfig := "Config".toList
  generateRoutes := "Routes".toList
  generateHandlers := "Handlers".toList
  generateCorsMiddleware := "CorsMiddleware".toList
  generateLoggerMiddleware := "LoggerMiddleware".toList
  generatePipelineModel := "PipelineModel".toList
  generateProjectModel := "ProjectModel".toList
  generateUserModel := "UserModel".toList
  generateModulesManager := "ModulesManager".toList
  generateBuiltinModules := "BuiltinModules".toList
  generateDatabase := "Database".toList
  generateLogger := "Logger".toList
  generatePackageJson := fun config => "PackageJson ".toList ++ config.Name
  generateViteConfig := fun config => "ViteConfig ".toList ++ config.Name
  generateTailwindConfig := "TailwindConfig".toList
  generatePostcssConfig := "PostcssConfig".toList
  generateIndexHtml := fun config => "IndexHtml ".toList ++ config.Name
  generateMainTsx := "MainTsx".toList
  generateAppTsx := fun config => "AppTsx ".toList ++ config.Name
  generateIndexCss := "IndexCss".toList
  generateEslintrc := "Eslintrc".toList
  generatePrettierrc := "Prettierrc".toList
  generateNetlifyApiFunction := "NetlifyApiFunction".toList

/-- A sample configuration. -/
def sampleConfig : ProjectConfig where
  Name := "demo".toList
  Module := "github.com/user/demo".toList
  Description := "A demo".toList
  Author := "u".toList
  Port := 5173
  BackendPort := 8080

/-- A sample state for the command `init`: the working directory `/work`
holds the one entry `taken`. -/
def initFS : FS where
  nodes :=
    [ (["work".toList], .dir 0o755),
      (["work".toList, "taken".toList], .dir 0o755) ]
  cwd := ["work".toList]
  configDir := some "/home/u/.config".toList
  tmpDir := "/tmp".toList

/-- A sample state: the directory `/proj/d` holds the directory `b`, which
holds a file `x` and a directory `b` with a file `x` of another text. -/
def nestedFS : FS where
  nodes :=
    [ (["proj".toList], .dir 0o755),
      (["proj".toList, "d".toList], .dir 0o755),
      (["proj".toList, "d".toList, "b".toList], .dir 0o755),
      (["proj".toList, "d".toList, "b".toList, "x".toList], .file "1".toList 0o644),
      (["proj".toList, "d".toList, "b".toList, "b".toList], .dir 0o755),
      (["proj".toList, "d".toList, "b".toList, "b".toList, "x".toList],
        .file "2".toList 0o644) ]
  cwd := ["proj".toList]
  configDir := some "/home/u/.config".toList
  tmpDir := "/tmp".toList

/-- The sample state `sampleFS` with another text in the file `package.json`
of the directory `js`. -/
def withPackage (text : Str) : FS :=
  sampleFS.setNode ["proj".toList, "js".toList, "package.json".toList] (.file text 0o644)

/-- A sample state in which the name of the package of `js` is a number. -/
def numberFS : FS :=
  withPackage "\x7b\"name\": 123, \"version\": \"1.0.0\"\x7d".toList

/-- A sample state: the project `/proj` in which the Go module `m` is
installed, with its `go.mod` and a file `a.txt`. -/
def selfFS : FS where
  nodes :=
    [ (["proj".toList], .dir 0o755),
      (["proj".toList, "backend".toList], .dir 0o755),
      (["proj".toList, "backend".toList, "internal".toList], .dir 0o755),
      (["proj".toList, "backend".toList, "internal".toList, "modules".toList], .dir 0o755),
      (["proj".toList, "backend".toList, "internal".toList, "modules".toList, "m".toList],
        .dir 0o755),
      (["proj".toList, "backend".toList, "internal".toList, "modules".toList, "m".toList,
        "go.mod".toList], .file "module m\n".toList 0o644),
      (["proj".toList, "backend".toList, "internal".toList, "modules".toList, "m".toList,
        "a.txt".toList], .file "1".toList 0o600) ]
  cwd := ["proj".toList]
  configDir := some "/home/u/.config".toList
  tmpDir := "/tmp".toList

/-! ## Lemmas on the string functions -/

theorem splitWhere_ne_nil (p : Char → Bool) (s : Str) : splitWhere p s ≠ [] := by
  cases s with
  | nil => simp [splitWhere]
  | cons c cs =>
    unfold splitWhere
    split <;> simp

theorem splitWhere_append_sep (p : Char → Bool) (a : Str) (c : Char) (r : Str)
    (ha : ∀ x ∈ a, p x = false) (hc : p c = true) :
    splitWhere p (a ++ c :: r) = a :: splitWhere p r := by
  induction a with
  | nil => simp [splitWhere, hc]
  | cons x xs ih =>
    have hx : p x = false := ha x (List.mem_cons_self _ _)
    have ih2 := ih (fun y hy => ha y (List.mem_cons_of_mem _ hy))
    simp [splitWhere, hx, ih2]

theorem splitWhere_exists_nonempty (p : Char → Bool) (s : Str)
    (h : ∃ x ∈ s, p x = false) : ∃ piece ∈ splitWhere p s, piece ≠ [] := by
  induction s with
  | nil => simp at h
  | cons c cs ih =>
    by_cases hc : p c = true
    · have h2 : ∃ x ∈ cs, p x = false := by
        obtain ⟨x, hx, hpx⟩ := h
        rcases List.mem_cons.mp hx with rfl | hx
        · simp [hc] at hpx
        · exact ⟨x, hx, hpx⟩
      obtain ⟨piece, hmem, hne⟩ := ih h2
      refine ⟨piece, ?_, hne⟩
      simp [splitWhere, hc, hmem]
    · have hc2 : p c = false := by simpa using hc
      exact ⟨c :: (splitWhere p cs).headD [], by simp [splitWhere, hc2], by simp⟩

theorem stringsFields_ne_nil (s : Str) (h : ∃ x ∈ s, isSpace x = false) :
    stringsFields s ≠ [] := by
  obtain ⟨piece, hmem, hne⟩ := splitWhere_exists_nonempty isSpace s h
  intro hnil
  have : piece ∈ stringsFields s := by
    unfold stringsFields
    rw [List.mem_filter]
    refine ⟨hmem, ?_⟩
    cases piece with
    | nil => exact absurd rfl hne
    | cons _ _ => rfl
  rw [hnil] at this
  simp at this

theorem stringsTrimSpace_last (s : Str) (h : stringsTrimSpace s ≠ []) :
    isSpace ((stringsTrimSpace s).getLast h) = false := by
  have := List.rdropWhile_last_not isSpace (s.dropWhile isSpace) h
  simpa [stringsTrimSpace] using this

/-- A trimmed line that begins with `module ` has at least two fields, the
first of which is the word `module`. -/
theorem stringsFields_module_line (x : Str)
    (h : stringsHasPrefix (stringsTrimSpace x) "module ".toList = true) :
    ∃ second rest, stringsFields (stringsTrimSpace x) = "module".toList :: second :: rest := by
  unfold stringsHasPrefix at h
  rw [List.isPrefixOf_iff_prefix] at h
  obtain ⟨r, hr⟩ := h
  have hne : stringsTrimSpace x ≠ [] := by rw [← hr]; simp
  have hlast := stringsTrimSpace_last x hne
  have hrne : r ≠ [] := by
    intro h0
    subst h0
    have : (stringsTrimSpace x).getLast hne = ' ' := by
      simp only [← hr]; rfl
    rw [this] at hlast
    exact absurd hlast (by decide)
  have hlast2 : (stringsTrimSpace x).getLast hne = r.getLast hrne := by
    simp only [← hr]
    exact List.getLast_append_of_ne_nil hrne
  have hfr : stringsFields r ≠ [] :=
    stringsFields_ne_nil r ⟨r.getLast hrne, List.getLast_mem hrne, by rw [← hlast2]; exact hlast⟩
  have hsplit : splitWhere isSpace (stringsTrimSpace x)
      = "module".toList :: splitWhere isSpace r := by
    rw [← hr]
    exact splitWhere_append_sep isSpace "module".toList ' ' r (by decide) (by decide)
  have hf : stringsFields (stringsTrimSpace x) = "module".toList :: stringsFields r := by
    unfold stringsFields
    rw [hsplit]
    rfl
  rw [hf]
  cases hq : stringsFields r with
  | nil => exact absurd hq hfr
  | cons second rest => exact ⟨second, rest, rfl⟩

theorem goModuleNameLoop_eq (lines : List Str) :
    goModuleNameLoop lines =
      match (lines.map stringsTrimSpace).find?
          (fun line => stringsHasPrefix line "module ".toList) with
      | none => []
      | some line => (stringsFields line).getD 1 [] := by
  induction lines with
  | nil => rfl
  | cons l ls ih =>
    simp only [goModuleNameLoop, List.map_cons, List.find?_cons]
    by_cases h : stringsHasPrefix (stringsTrimSpace l) "module ".toList = true
    · obtain ⟨second, rest, hf⟩ := stringsFields_module_line l h
      have h3 : 2 ≤ (stringsFields (stringsTrimSpace l)).length := by simp [hf]
      rw [hf] at h3
      simp only [h, hf, if_true]
      rw [if_pos h3]
    · have h2 : stringsHasPrefix (stringsTrimSpace l) "module ".toList = false := by
        simpa using h
      simp only [h2]
      exact ih

theorem stringsIndex_bounds (s sub : Str) :
    stringsIndex s sub = -1 ∨
      (0 ≤ stringsIndex s sub ∧ stringsIndex s sub + sub.length ≤ s.length) := by
  induction s with
  | nil =>
    cases sub with
    | nil => right; simp [stringsIndex]
    | cons _ _ => left; simp [stringsIndex]
  | cons c cs ih =>
    unfold stringsIndex
    by_cases h : sub.isPrefixOf (c :: cs) = true
    · right
      have hp := (List.isPrefixOf_iff_prefix).mp h
      have hl := hp.length_le
      simp only [h, if_true]
      constructor
      · omega
      · have : (sub.length : Int) ≤ ((c :: cs).length : Int) := by exact_mod_cast hl
        omega
    · simp only [h]
      rcases ih with ih | ⟨ih1, ih2⟩
      · left; simp [ih]
      · right
        have hne : stringsIndex cs sub ≠ -1 := by omega
        simp only [hne, if_false, Bool.false_eq_true]
        constructor
        · omega
        · simp only [List.length_cons, Nat.cast_add, Nat.cast_one]
          omega

theorem stringsIndex_eq_neg_one_iff (s sub : Str) :
    stringsIndex s sub = -1 ↔ ¬ sub <:+: s := by
  induction s with
  | nil =>
    cases sub with
    | nil => simp [stringsIndex]
    | cons _ _ => simp [stringsIndex]
  | cons c cs ih =>
    unfold stringsIndex
    by_cases h : sub.isPrefixOf (c :: cs) = true
    · have hp := (List.isPrefixOf_iff_prefix).mp h
      simp only [h, if_true]
      constructor
      · intro h0; omega
      · intro hn; exact absurd hp.isInfix hn
    · have hp : ¬ sub <+: c :: cs := fun hp => h ((List.isPrefixOf_iff_prefix).mpr hp)
      simp only [h, if_false, Bool.false_eq_true]
      rw [List.infix_cons_iff]
      rcases stringsIndex_bounds cs sub with hb | ⟨hb1, _⟩
      · simp only [hb, if_true, true_iff]
        rw [hb] at ih
        have := ih.mp rfl
        tauto
      · have hne : stringsIndex cs sub ≠ -1 := by omega
        simp only [hne, if_false]
        constructor
        · intro h0; omega
        · intro hn
          have : ¬ sub <:+: cs := fun h1 => hn (Or.inr h1)
          exact absurd (ih.mpr this) hne

/-- When the first occurrence of `sub` in `p ++ sub` is the one at the end,
`strings.Index` finds it at position `len(p)`, whatever follows. -/
theorem stringsIndex_first (p sub t : Str)
    (h : ∀ q r, p ++ sub = q ++ sub ++ r → q = p) :
    stringsIndex (p ++ sub ++ t) sub = p.length := by
  induction p with
  | nil =>
    cases sub with
    | nil => cases t <;> simp [stringsIndex]
    | cons a as =>
      have : (a :: as).isPrefixOf (a :: as ++ t) = true := by
        rw [List.isPrefixOf_iff_prefix]; exact List.prefix_append _ _
      simp only [List.nil_append, List.cons_append] at this ⊢
      unfold stringsIndex
      simp [this]
  | cons c cs ih =>
    have hnp : ¬ sub.isPrefixOf (c :: cs ++ sub ++ t) = true := by
      intro hp
      rw [List.isPrefixOf_iff_prefix] at hp
      have hlen : sub.length ≤ (c :: cs ++ sub).length := by
        simp only [List.cons_append, List.length_cons, List.length_append]; omega
      have hp2 : sub <+: c :: cs ++ sub := by
        have h1 : c :: cs ++ sub <+: c :: cs ++ sub ++ t := List.prefix_append _ _
        exact List.prefix_of_prefix_length_le hp h1 hlen
      obtain ⟨r, hr⟩ := hp2
      have := h [] r (by simpa using hr.symm)
      simp at this
    have ih2 := ih (fun q r hq => by
      have := h (c :: q) r (by simp [hq])
      simpa using this)
    simp only [List.cons_append] at hnp ⊢
    unfold stringsIndex
    simp only [hnp, if_false, Bool.false_eq_true]
    simp only [List.append_assoc] at ih2 ⊢
    rw [ih2]
    simp only [List.length_cons, Nat.cast_add, Nat.cast_one]
    have : ¬ ((cs.length : Int) = -1) := by omega
    simp [this]

theorem first_occurrence_char (a : Str) (c : Char) (ha : c ∉ a) :
    ∀ q r, a ++ [c] = q ++ [c] ++ r → q = a := by
  induction a with
  | nil =>
    intro q r h
    cases q with
    | nil => rfl
    | cons x xs =>
      have := congrArg List.length h
      simp at this
  | cons x xs ih =>
    intro q r h
    cases q with
    | nil =>
      simp only [List.nil_append, List.cons_append] at h
      have hx : x = c := (List.cons.inj h).1
      exact absurd (hx ▸ List.mem_cons_self _ _) ha
    | cons y ys =>
      simp only [List.cons_append] at h
      obtain ⟨hxy, hrest⟩ := List.cons.inj h
      have := ih (fun hc => ha (List.mem_cons_of_mem _ hc)) ys r (by simpa using hrest)
      rw [hxy, this]

theorem stringsIndex_char (a : Str) (c : Char) (r : Str) (ha : c ∉ a) :
    stringsIndex (a ++ c :: r) [c] = a.length := by
  have := stringsIndex_first a [c] r (first_occurrence_char a c ha)
  simpa using this

theorem stringsIndex_char_absent (s : Str) (c : Char) (hs : c ∉ s) :
    stringsIndex s [c] = -1 := by
  rw [stringsIndex_eq_neg_one_iff]
  intro hin
  exact hs (hin.subset (List.mem_singleton_self c))

theorem sliceFrom_length_append (a b : Str) :
    sliceFrom (a ++ b) (a.length : Int) = some b := by
  unfold sliceFrom
  have h1 : (0 : Int) ≤ a.length := by omega
  have h2 : (a.length : Int) ≤ ((a ++ b).length : Nat) := by
    simp only [List.length_append, Nat.cast_add]; omega
  rw [if_pos ⟨h1, h2⟩]
  simp

theorem sliceFrom_eq (c x y : Str) (n : Int) (hc : c = x ++ y) (hn : n = x.length) :
    sliceFrom c n = some y := by
  subst hc hn
  exact sliceFrom_length_append x y

theorem sliceRange_eq (c x v r : Str) (lo hi : Int) (hc : c = x ++ (v ++ r))
    (hlo : lo = x.length) (hhi : hi = lo + v.length) :
    sliceRange c lo hi = some v := by
  subst hc hlo hhi
  unfold sliceRange
  have h2 : (x.length : Int) + v.length ≤ ((x ++ (v ++ r)).length : Nat) := by
    simp only [List.length_append, Nat.cast_add]; omega
  rw [if_pos ⟨by omega, by omega, h2⟩]
  simp

theorem getNodeModuleNameOn_value (p a b v rest : Str)
    (hfirst : ∀ q r, p ++ nameKey = q ++ nameKey ++ r → q = p)
    (ha : ':' ∉ a) (hb : '"' ∉ b) (hv : '"' ∉ v) :
    getNodeModuleNameOn
      (.ok (p ++ nameKey ++ a ++ [':'] ++ b ++ ['"'] ++ v ++ ['"'] ++ rest)) = some v := by
  have i1 := stringsIndex_first p nameKey (a ++ [':'] ++ b ++ ['"'] ++ v ++ ['"'] ++ rest) hfirst
  have hka : ':' ∉ nameKey ++ a := by
    intro h
    rcases List.mem_append.mp h with h | h
    · exact absurd h (by decide)
    · exact ha h
  have i2 := stringsIndex_char (nameKey ++ a) ':' (b ++ ['"'] ++ v ++ ['"'] ++ rest) hka
  have i3 := stringsIndex_char b '"' (v ++ ['"'] ++ rest) hb
  have i4 := stringsIndex_char v '"' rest hv
  simp only [List.append_assoc, List.singleton_append, List.cons_append,
    List.nil_append] at i1 i2 i3 i4 ⊢
  have n1 : ¬ ((p.length : Int) = -1) := by omega
  have n2 : ¬ (((nameKey ++ a).length : Int) = -1) := by omega
  have n3 : ¬ ((b.length : Int) = -1) := by omega
  have n4 : ¬ ((v.length : Int) = -1) := by omega
  have s1 := sliceFrom_eq (p ++ (nameKey ++ (a ++ ':' :: (b ++ '"' :: (v ++ '"' :: rest)))))
    p (nameKey ++ (a ++ ':' :: (b ++ '"' :: (v ++ '"' :: rest)))) p.length rfl rfl
  have s2 := sliceFrom_eq (p ++ (nameKey ++ (a ++ ':' :: (b ++ '"' :: (v ++ '"' :: rest)))))
    (p ++ (nameKey ++ (a ++ [':']))) (b ++ '"' :: (v ++ '"' :: rest))
    ((p.length : Int) + ((nameKey ++ a).length : Nat) + 1) (by simp)
    (by simp only [List.length_append, List.length_singleton, Nat.cast_add, Nat.cast_one]; omega)
  have s3 := sliceFrom_eq (p ++ (nameKey ++ (a ++ ':' :: (b ++ '"' :: (v ++ '"' :: rest)))))
    (p ++ (nameKey ++ (a ++ (':' :: (b ++ ['"']))))) (v ++ '"' :: rest)
    ((p.length : Int) + ((nameKey ++ a).length : Nat) + 1 + ((b.length : Int) + 1)) (by simp)
    (by simp only [List.length_append, List.length_singleton, List.length_cons,
          List.length_nil, Nat.cast_add, Nat.cast_one]; omega)
  have s4 := sliceRange_eq (p ++ (nameKey ++ (a ++ ':' :: (b ++ '"' :: (v ++ '"' :: rest)))))
    (p ++ (nameKey ++ (a ++ (':' :: (b ++ ['"']))))) v ('"' :: rest)
    ((p.length : Int) + ((nameKey ++ a).length : Nat) + 1 + ((b.length : Int) + 1))
    ((p.length : Int) + ((nameKey ++ a).length : Nat) + 1 + ((b.length : Int) + 1) + v.length)
    (by simp)
    (by simp only [List.length_append, List.length_singleton, List.length_cons,
          List.length_nil, Nat.cast_add, Nat.cast_one]; omega)
    rfl
  simp only [getNodeModuleNameOn, i1, n1, if_false, s1, Option.some_bind, i2, n2, s2, i3, n3,
    s3, i4, n4, s4]

theorem stringsIndex_le_of_occurrence (q sub r : Str) :
    stringsIndex (q ++ sub ++ r) sub ≠ -1 ∧ stringsIndex (q ++ sub ++ r) sub ≤ q.length := by
  have hne : stringsIndex (q ++ sub ++ r) sub ≠ -1 := by
    intro h
    rw [stringsIndex_eq_neg_one_iff] at h
    exact h ⟨q, r, rfl⟩
  refine ⟨hne, ?_⟩
  induction q with
  | nil =>
    have hp : sub.isPrefixOf (sub ++ r) = true := by
      rw [List.isPrefixOf_iff_prefix]; exact List.prefix_append _ _
    cases hs : sub ++ r with
    | nil =>
      obtain ⟨h1, h2⟩ := List.append_eq_nil.mp hs
      subst h1 h2
      simp [stringsIndex]
    | cons x xs =>
      rw [hs] at hp
      simp only [List.nil_append, hs]
      unfold stringsIndex
      simp [hp]
  | cons c cs ih =>
    have hne2 : stringsIndex (cs ++ sub ++ r) sub ≠ -1 := by
      intro h
      rw [stringsIndex_eq_neg_one_iff] at h
      exact h ⟨cs, r, rfl⟩
    have ih2 := ih hne2
    simp only [List.cons_append] at hne ⊢
    unfold stringsIndex
    by_cases hp : sub.isPrefixOf (c :: (cs ++ sub ++ r)) = true
    · simp only [hp, if_true, List.length_cons, Nat.cast_add, Nat.cast_one]
      omega
    · simp only [hp, hne2, if_false, Bool.false_eq_true, List.length_cons, Nat.cast_add,
        Nat.cast_one]
      omega

/-- A computable test for the premise "the first occurrence of `sub` in
`p ++ sub` is the one at the end". -/
theorem first_occurrence_of_index (p sub : Str)
    (h : stringsIndex (p ++ sub) sub = p.length) :
    ∀ q r, p ++ sub = q ++ sub ++ r → q = p := by
  intro q r hq
  have hle := (stringsIndex_le_of_occurrence q sub r).2
  rw [← hq, h] at hle
  have hlen := congrArg List.length hq
  simp only [List.length_append] at hlen
  have hle2 : p.length ≤ q.length := by exact_mod_cast hle
  have hr : r = [] := List.length_eq_zero.mp (by omega)
  subst hr
  simp only [List.append_nil] at hq
  exact (List.append_cancel_right hq).symm

theorem sliceFrom_isSome (s : Str) (n : Int) (h0 : 0 ≤ n) (h1 : n ≤ s.length) :
    sliceFrom s n = some (s.drop n.toNat) := by
  unfold sliceFrom
  rw [if_pos ⟨h0, h1⟩]

/-- No slice expression of `getNodeModuleName` is ever out of range. -/
theorem getNodeModuleNameOn_isSome (read : Except OSError Str) :
    (getNodeModuleNameOn read).isSome = true := by
  cases read with
  | error e => rfl
  | ok c =>
    simp only [getNodeModuleNameOn]
    rcases stringsIndex_bounds c nameKey with h1 | ⟨h1a, h1b⟩
    · simp [h1]
    · have n1 : ¬ stringsIndex c nameKey = -1 := by omega
      have l1 : stringsIndex c nameKey ≤ c.length := by omega
      rw [if_neg n1, sliceFrom_isSome c _ h1a l1, Option.some_bind]
      have len1 : ((c.drop (stringsIndex c nameKey).toNat).length : Int)
          = c.length - stringsIndex c nameKey := by
        rw [List.length_drop]; omega
      rcases stringsIndex_bounds (c.drop (stringsIndex c nameKey).toNat) [':'] with
        h2 | ⟨h2a, h2b⟩
      · simp [h2]
      · have n2 : ¬ stringsIndex (c.drop (stringsIndex c nameKey).toNat) [':'] = -1 := by omega
        simp only [List.length_singleton, Nat.cast_one] at h2b
        rw [if_neg n2, sliceFrom_isSome c _ (by omega) (by omega), Option.some_bind]
        generalize hvs : stringsIndex c nameKey +
          stringsIndex (c.drop (stringsIndex c nameKey).toNat) [':'] + 1 = vs
        have hvs0 : 0 ≤ vs := by omega
        have hvs1 : vs ≤ c.length := by omega
        have len2 : ((c.drop vs.toNat).length : Int) = c.length - vs := by
          rw [List.length_drop]; omega
        rcases stringsIndex_bounds (c.drop vs.toNat) ['"'] with h3 | ⟨h3a, h3b⟩
        · simp [h3]
        · have n3 : ¬ stringsIndex (c.drop vs.toNat) ['"'] = -1 := by omega
          simp only [List.length_singleton, Nat.cast_one] at h3b
          rw [if_neg n3, sliceFrom_isSome c _ (by omega) (by omega), Option.some_bind]
          generalize hws : vs + (stringsIndex (c.drop vs.toNat) ['"'] + 1) = ws
          have hws0 : 0 ≤ ws := by omega
          have hws1 : ws ≤ c.length := by omega
          have len3 : ((c.drop ws.toNat).length : Int) = c.length - ws := by
            rw [List.length_drop]; omega
          rcases stringsIndex_bounds (c.drop ws.toNat) ['"'] with h4 | ⟨h4a, h4b⟩
          · simp [h4]
          · have n4 : ¬ stringsIndex (c.drop ws.toNat) ['"'] = -1 := by omega
            simp only [List.length_singleton, Nat.cast_one] at h4b
            rw [if_neg n4]
            unfold sliceRange
            rw [if_pos ⟨by omega, by omega, by omega⟩]
            rfl

theorem nameKey_no_colon : ':' ∉ nameKey := by decide

theorem getNodeModuleNameOn_no_name (c : Str) (h : ¬ nameKey <:+: c) :
    getNodeModuleNameOn (.ok c) = some [] := by
  have := (stringsIndex_eq_neg_one_iff c nameKey).mpr h
  simp [getNodeModuleNameOn, this]

theorem getNodeModuleNameOn_no_colon (p t : Str)
    (hfirst : ∀ q r, p ++ nameKey = q ++ nameKey ++ r → q = p) (ht : ':' ∉ t) :
    getNodeModuleNameOn (.ok (p ++ nameKey ++ t)) = some [] := by
  have i1 := stringsIndex_first p nameKey t hfirst
  have hkt : ':' ∉ nameKey ++ t := by
    intro h
    rcases List.mem_append.mp h with h | h
    · exact nameKey_no_colon h
    · exact ht h
  have i2 := stringsIndex_char_absent (nameKey ++ t) ':' hkt
  have n1 : ¬ ((p.length : Int) = -1) := by omega
  have s1 := sliceFrom_eq (p ++ nameKey ++ t) p (nameKey ++ t) p.length (by simp) rfl
  simp only [getNodeModuleNameOn, i1, n1, if_false, s1, Option.some_bind, i2, if_true]

theorem getNodeModuleNameOn_no_open_quote (p a t : Str)
    (hfirst : ∀ q r, p ++ nameKey = q ++ nameKey ++ r → q = p)
    (ha : ':' ∉ a) (ht : '"' ∉ t) :
    getNodeModuleNameOn (.ok (p ++ nameKey ++ a ++ [':'] ++ t)) = some [] := by
  have i1 := stringsIndex_first p nameKey (a ++ [':'] ++ t) hfirst
  have hka : ':' ∉ nameKey ++ a := by
    intro h
    rcases List.mem_append.mp h with h | h
    · exact nameKey_no_colon h
    · exact ha h
  have i2 := stringsIndex_char (nameKey ++ a) ':' t hka
  have i3 := stringsIndex_char_absent t '"' ht
  simp only [List.append_assoc, List.singleton_append, List.cons_append,
    List.nil_append] at i1 i2 i3 ⊢
  have n1 : ¬ ((p.length : Int) = -1) := by omega
  have n2 : ¬ (((nameKey ++ a).length : Int) = -1) := by omega
  have s1 := sliceFrom_eq (p ++ (nameKey ++ (a ++ ':' :: t)))
    p (nameKey ++ (a ++ ':' :: t)) p.length rfl rfl
  have s2 := sliceFrom_eq (p ++ (nameKey ++ (a ++ ':' :: t)))
    (p ++ (nameKey ++ (a ++ [':']))) t
    ((p.length : Int) + ((nameKey ++ a).length : Nat) + 1) (by simp)
    (by simp only [List.length_append, List.length_singleton, Nat.cast_add, Nat.cast_one]; omega)
  simp only [getNodeModuleNameOn, i1, n1, if_false, s1, Option.some_bind, i2, n2, s2, i3,
    if_true]

theorem getNodeModuleNameOn_no_close_quote (p a b t : Str)
    (hfirst : ∀ q r, p ++ nameKey = q ++ nameKey ++ r → q = p)
    (ha : ':' ∉ a) (hb : '"' ∉ b) (ht : '"' ∉ t) :
    getNodeModuleNameOn (.ok (p ++ nameKey ++ a ++ [':'] ++ b ++ ['"'] ++ t)) = some [] := by
  have i1 := stringsIndex_first p nameKey (a ++ [':'] ++ b ++ ['"'] ++ t) hfirst
  have hka : ':' ∉ nameKey ++ a := by
    intro h
    rcases List.mem_append.mp h with h | h
    · exact nameKey_no_colon h
    · exact ha h
  have i2 := stringsIndex_char (nameKey ++ a) ':' (b ++ ['"'] ++ t) hka
  have i3 := stringsIndex_char b '"' t hb
  have i4 := stringsIndex_char_absent t '"' ht
  simp only [List.append_assoc, List.singleton_append, List.cons_append,
    List.nil_append] at i1 i2 i3 i4 ⊢
  have n1 : ¬ ((p.length : Int) = -1) := by omega
  have n2 : ¬ (((nameKey ++ a).length : Int) = -1) := by omega
  have n3 : ¬ ((b.length : Int) = -1) := by omega
  have s1 := sliceFrom_eq (p ++ (nameKey ++ (a ++ ':' :: (b ++ '"' :: t))))
    p (nameKey ++ (a ++ ':' :: (b ++ '"' :: t))) p.length rfl rfl
  have s2 := sliceFrom_eq (p ++ (nameKey ++ (a ++ ':' :: (b ++ '"' :: t))))
    (p ++ (nameKey ++ (a ++ [':']))) (b ++ '"' :: t)
    ((p.length : Int) + ((nameKey ++ a).length : Nat) + 1) (by simp)
    (by simp only [List.length_append, List.length_singleton, Nat.cast_add, Nat.cast_one]; omega)
  have s3 := sliceFrom_eq (p ++ (nameKey ++ (a ++ ':' :: (b ++ '"' :: t))))
    (p ++ (nameKey ++ (a ++ (':' :: (b ++ ['"']))))) t
    ((p.length : Int) + ((nameKey ++ a).length : Nat) + 1 + ((b.length : Int) + 1)) (by simp)
    (by simp only [List.length_append, List.length_singleton, List.length_cons,
          List.length_nil, Nat.cast_add, Nat.cast_one]; omega)
  simp only [getNodeModuleNameOn, i1, n1, if_false, s1, Option.some_bind, i2, n2, s2, i3, n3,
    s3, i4, if_true]

/-! ## Lemmas on paths -/

theorem splitWhere_no_sep (p : Char → Bool) (a : Str) (ha : ∀ x ∈ a, p x = false) :
    splitWhere p a = [a] := by
  induction a with
  | nil => rfl
  | cons x xs ih =>
    have hx : p x = false := ha x (List.mem_cons_self _ _)
    have ih2 := ih (fun y hy => ha y (List.mem_cons_of_mem _ hy))
    simp [splitWhere, hx, ih2]

theorem splitWhere_pieces (p : Char → Bool) (s : Str) :
    ∀ piece ∈ splitWhere p s, ∀ x ∈ piece, p x = false := by
  induction s with
  | nil => simp [splitWhere]
  | cons c cs ih =>
    intro piece hpiece x hx
    by_cases hc : p c = true
    · simp only [splitWhere, hc, if_true, List.mem_cons] at hpiece
      rcases hpiece with h | h
      · subst h; simp at hx
      · exact ih piece h x hx
    · have hc2 : p c = false := by simpa using hc
      simp only [splitWhere, hc2, Bool.false_eq_true, if_false, List.mem_cons] at hpiece
      have hne := splitWhere_ne_nil p cs
      cases hsp : splitWhere p cs with
      | nil => exact absurd hsp hne
      | cons h t =>
        rw [hsp] at hpiece ih
        simp only [List.headD_cons, List.tail_cons] at hpiece
        rcases hpiece with h1 | h1
        · subst h1
          rcases List.mem_cons.mp hx with h2 | h2
          · rw [h2]; exact hc2
          · exact ih h (List.mem_cons_self _ _) x h2
        · exact ih piece (List.mem_cons_of_mem _ h1) x hx

theorem pathComponents_join (cs : List Str) (hne : cs ≠ [])
    (h : ∀ c ∈ cs, '/' ∉ c) : pathComponents (stringsJoin ['/'] cs) = cs := by
  induction cs with
  | nil => exact absurd rfl hne
  | cons a rest ih =>
    have hsep : ∀ c : Str, '/' ∉ c → ∀ x ∈ c, (fun c => c == '/') x = false := by
      intro c hc x hx
      simp only [beq_eq_false_iff_ne, ne_eq]
      intro hx2
      exact hc (hx2 ▸ hx)
    cases rest with
    | nil =>
      simp only [stringsJoin, pathComponents]
      exact splitWhere_no_sep _ a (hsep a (h a (List.mem_cons_self _ _)))
    | cons b rest2 =>
      have ih2 := ih (by simp) (fun c hc => h c (List.mem_cons_of_mem _ hc))
      simp only [stringsJoin, pathComponents, List.append_assoc, List.singleton_append] at ih2 ⊢
      rw [splitWhere_append_sep _ a '/' _ (hsep a (h a (List.mem_cons_self _ _))) (by decide)]
      rw [ih2]

theorem cleanStep_foldl_no_dotdot (rooted : Bool) (comps out : List Str)
    (h : ['.', '.'] ∉ comps) :
    comps.foldl (cleanStep rooted) out
      = (comps.filter (fun c => decide (c ≠ [] ∧ c ≠ ['.']))).reverse ++ out := by
  induction comps generalizing out with
  | nil => simp
  | cons c cs ih =>
    have hc : c ≠ ['.', '.'] := fun hc => h (hc ▸ List.mem_cons_self _ _)
    have ih2 := fun o => ih o (fun hm => h (List.mem_cons_of_mem _ hm))
    simp only [List.foldl_cons]
    by_cases hskip : c = [] ∨ c = ['.']
    · have hf : decide (c ≠ [] ∧ c ≠ ['.']) = false := by
        simp only [decide_eq_false_iff_not]; tauto
      rw [ih2, List.filter_cons_of_neg (by simp [hf])]
      simp [cleanStep, hskip]
    · have hf : decide (c ≠ [] ∧ c ≠ ['.']) = true := by
        simp only [decide_eq_true_eq]; tauto
      rw [ih2, List.filter_cons_of_pos (by simp [hf])]
      simp [cleanStep, hskip, hc]

theorem pathComponents_base (name : Str) :
    pathComponents ("backend/internal/modules".toList ++ ['/'] ++ name)
      = ["backend".toList, "internal".toList, "modules".toList] ++ pathComponents name := by
  have e : "backend/internal/modules".toList ++ ['/'] ++ name
      = "backend".toList ++ '/' :: ("internal".toList ++ '/' :: ("modules".toList ++ '/' :: name)) :=
    rfl
  rw [e]
  unfold pathComponents
  rw [splitWhere_append_sep _ _ '/' _ (by decide) (by decide),
    splitWhere_append_sep _ _ '/' _ (by decide) (by decide),
    splitWhere_append_sep _ _ '/' _ (by decide) (by decide)]
  rfl

/-- The destination of a name without a `..` component: the module directory
followed by the components of the name that name an entry. -/
theorem getModuleDestinationPath_no_dotdot (name : Str) (moduleType : ProjectType)
    (hk : moduleType ≠ .Unknown) (h : ['.', '.'] ∉ pathComponents name) :
    getModuleDestinationPath name moduleType =
      stringsJoin ['/'] (["backend".toList, "internal".toList, "modules".toList]
        ++ realComponents name) := by
  have hjoin : filepathJoin ["backend/internal/modules".toList, name] =
      stringsJoin ['/'] (["backend".toList, "internal".toList, "modules".toList]
        ++ realComponents name) := by
    have hb : ("backend/internal/modules".toList = ([] : Str)) = False := by decide
    simp only [filepathJoin, hb, if_false, stringsJoin]
    have hpne : ¬ ("backend/internal/modules".toList ++ ['/'] ++ name = []) := by
      intro h0
      have := congrArg List.length h0
      simp at this
    have hhead : ("backend/internal/modules".toList ++ ['/'] ++ name).head? ≠ some '/' := by
      have e : ("backend/internal/modules".toList ++ ['/'] ++ name).head? = some 'b' := rfl
      rw [e]
      decide
    have hcomp : ['.', '.'] ∉ pathComponents ("backend/internal/modules".toList ++ ['/'] ++ name) := by
      rw [pathComponents_base]
      intro hm
      rcases List.mem_append.mp hm with hm | hm
      · exact absurd hm (by decide)
      · exact h hm
    unfold filepathClean
    simp only [hpne, if_false, hhead, decide_False, Bool.false_eq_true]
    rw [cleanStep_foldl_no_dotdot false _ [] hcomp, pathComponents_base]
    simp only [List.append_nil, List.reverse_reverse, List.filter_append]
    have hf : List.filter (fun c => decide (c ≠ [] ∧ c ≠ ['.']))
        ["backend".toList, "internal".toList, "modules".toList]
        = ["backend".toList, "internal".toList, "modules".toList] := by decide
    rw [hf]
    have hne2 : ¬ (["backend".toList, "internal".toList, "modules".toList] ++
        List.filter (fun c => decide (c ≠ [] ∧ c ≠ ['.'])) (pathComponents name) = []) := by
      simp
    simp only [hne2, if_false]
    rfl
  cases moduleType with
  | Unknown => exact absurd rfl hk
  | GoProject => exact hjoin
  | NodeProject => exact hjoin

theorem stringsJoin_base (cs : List Str) (hne : cs ≠ []) :
    stringsJoin ['/'] (["backend".toList, "internal".toList, "modules".toList] ++ cs)
      = "backend/internal/modules/".toList ++ stringsJoin ['/'] cs := by
  cases cs with
  | nil => exact absurd rfl hne
  | cons c rest =>
    simp only [List.cons_append, List.nil_append, stringsJoin, List.append_assoc]
    rfl

/-! ## The manifest field extractor and the destination resolver -/

/-- **C5.** For every `go.mod` text, `getGoModuleName` returns the second
white-space separated field of the first line that begins with `module ` once
trimmed (such a line always has a second field), and the empty string when
there is no such line or when the file cannot be read; the text
`module github.com/x/y` followed by other lines gives `github.com/x/y`. -/
theorem getGoModuleName_second_field (content : Str) :
    getGoModuleNameOn (.ok content) = goModuleNameSpec content ∧
    (∀ line, firstModuleLine content = some line →
      ∃ second rest, stringsFields line = "module".toList :: second :: rest ∧
        getGoModuleNameOn (.ok content) = second) ∧
    (firstModuleLine content = none → getGoModuleNameOn (.ok content) = []) ∧
    (∀ e, getGoModuleNameOn (.error e) = []) ∧
    (∀ (σ : Type) (os : OS σ) (s : σ) (sourcePath : Str),
      os.readFile s (filepathJoin [sourcePath, "go.mod".toList]) = .ok content →
      getGoModuleName os s sourcePath = goModuleNameSpec content) ∧
    getGoModuleNameOn (.ok "module github.com/x/y\n\ngo 1.21".toList) = "github.com/x/y".toList := by
  have hmain : getGoModuleNameOn (.ok content) = goModuleNameSpec content := by
    simp only [getGoModuleNameOn, goModuleNameSpec, firstModuleLine]
    exact goModuleNameLoop_eq _
  refine ⟨hmain, ?_, ?_, fun _ => rfl, ?_, by decide⟩
  · intro line hline
    have hmem := List.mem_of_find?_eq_some hline
    have hp := List.find?_some hline
    obtain ⟨x, _, hx⟩ := List.mem_map.mp hmem
    subst hx
    obtain ⟨second, rest, hf⟩ := stringsFields_module_line x hp
    refine ⟨second, rest, hf, ?_⟩
    rw [hmain]
    simp [goModuleNameSpec, hline, hf]
  · intro hnone
    rw [hmain]
    simp [goModuleNameSpec, hnone]
  · intro σ os s sourcePath hread
    simp only [getGoModuleName, hread]
    exact hmain

/-- Witness of **C5**: on the text `go 1.21`, `module  a/b  c`, `module z` the
first `module ` line is the second one, once trimmed, and the name is `a/b`;
the text `invalid content` has no such line. -/
theorem getGoModuleName_second_field_witness :
    (∃ second rest,
      stringsFields "module  a/b  c".toList = "module".toList :: second :: rest ∧
      getGoModuleNameOn (.ok "go 1.21\n\t module  a/b  c \nmodule z".toList) = second) ∧
    getGoModuleNameOn (.ok "invalid content".toList) = [] :=
  ⟨(getGoModuleName_second_field "go 1.21\n\t module  a/b  c \nmodule z".toList).2.1
      "module  a/b  c".toList (by decide),
   (getGoModuleName_second_field "invalid content".toList).2.2.1 (by decide)⟩

/-- **C6.** For every `package.json` text of the form
`p ++ "name" ++ a ++ : ++ b ++ " ++ v ++ " ++ rest` (the word name between
double quotes), where the quoted word does not occur before the end of `p`
followed by it, `a` has no colon and neither `b` nor `v` has a double quote:
in every environment in which the read of `package.json` in the directory
gives that text, `getNodeModuleName` returns exactly `v`; the text with name
`foo-bar` and version `1.0.0` gives `foo-bar`. -/
theorem getNodeModuleName_quoted_value :
    (∀ p a b v rest : Str,
      (∀ q r, p ++ nameKey = q ++ nameKey ++ r → q = p) →
      ':' ∉ a → '"' ∉ b → '"' ∉ v →
      getNodeModuleNameOn
        (.ok (p ++ nameKey ++ a ++ [':'] ++ b ++ ['"'] ++ v ++ ['"'] ++ rest)) = some v) ∧
    getNodeModuleNameOn
      (.ok "\x7b\"name\": \"foo-bar\", \"version\": \"1.0.0\"\x7d".toList)
      = some "foo-bar".toList ∧
    (∀ (σ : Type) (os : OS σ) (s : σ) (sourcePath : Str) (p a b v rest : Str),
      (∀ q r, p ++ nameKey = q ++ nameKey ++ r → q = p) →
      ':' ∉ a → '"' ∉ b → '"' ∉ v →
      os.readFile s (filepathJoin [sourcePath, "package.json".toList])
        = .ok (p ++ nameKey ++ a ++ [':'] ++ b ++ ['"'] ++ v ++ ['"'] ++ rest) →
      getNodeModuleName os s sourcePath = some v) ∧
    (∀ (σ : Type) (os : OS σ) (s : σ) (sourcePath : Str),
      os.readFile s (filepathJoin [sourcePath, "package.json".toList])
        = .ok "\x7b\"name\": \"foo-bar\", \"version\": \"1.0.0\"\x7d".toList →
      getNodeModuleName os s sourcePath = some "foo-bar".toList) := by
  refine ⟨getNodeModuleNameOn_value, by decide, ?_, ?_⟩
  · intro σ os s sourcePath p a b v rest hfirst ha hb hv hread
    simp only [getNodeModuleName, hread]
    exact getNodeModuleNameOn_value p a b v rest hfirst ha hb hv
  · intro σ os s sourcePath hread
    simp only [getNodeModuleName, hread]
    decide

set_option maxRecDepth 100000 in
/-- Witness of **C6**: the text with name `foo-bar` and version `1.0.0`, cut
at its landmarks; the package `pkg` of the directory `js` of the sample state,
read from its file; and the directory `js` with the text of `foo-bar` in its
`package.json`. -/
theorem getNodeModuleName_quoted_value_witness :
    getNodeModuleNameOn
      (.ok ("\x7b".toList ++ nameKey ++ [] ++ [':'] ++ [' '] ++ ['"'] ++ "foo-bar".toList
        ++ ['"'] ++ ", \"version\": \"1.0.0\"\x7d".toList)) = some "foo-bar".toList ∧
    getNodeModuleName (unixOS sampleCodec) sampleFS "js".toList = some "pkg".toList ∧
    getNodeModuleName (unixOS sampleCodec)
        (withPackage "\x7b\"name\": \"foo-bar\", \"version\": \"1.0.0\"\x7d".toList)
        "js".toList = some "foo-bar".toList :=
  ⟨getNodeModuleName_quoted_value.1 "\x7b".toList [] [' '] "foo-bar".toList
    ", \"version\": \"1.0.0\"\x7d".toList
    (first_occurrence_of_index _ _ (by decide)) (by decide) (by decide) (by decide),
   getNodeModuleName_quoted_value.2.2.1 FS (unixOS sampleCodec) sampleFS "js".toList
    "\x7b".toList [] [' '] "pkg".toList "\x7d".toList
    (first_occurrence_of_index _ _ (by decide)) (by decide) (by decide) (by decide)
    (by decide),
   getNodeModuleName_quoted_value.2.2.2 FS (unixOS sampleCodec) _ "js".toList (by decide)⟩

set_option maxRecDepth 100000 in
/-- The counterexample of **C7**: in the sample state `numberFS` the file
`package.json` of the directory `js` holds the number 123 as the name and the
version `1.0.0`.  `getNodeModuleName` does not return the empty string: it
returns `version`, the next quoted word of the file, and `getModuleName` hands
that name on. -/
theorem getNodeModuleName_number_name :
    getNodeModuleNameOn
      (.ok "\x7b\"name\": 123, \"version\": \"1.0.0\"\x7d".toList)
      = some "version".toList ∧
    FS.readFile numberFS (filepathJoin ["js".toList, "package.json".toList])
      = .ok "\x7b\"name\": 123, \"version\": \"1.0.0\"\x7d".toList ∧
    getNodeModuleName (unixOS sampleCodec) numberFS "js".toList = some "version".toList ∧
    getModuleName (unixOS sampleCodec) numberFS "js".toList
      (detectLocalModuleType (unixOS sampleCodec) numberFS "js".toList)
      = some "version".toList := by
  decide

/-- **C7**, amended. For every `package.json` text in which a colon follows
the first occurrence of the quoted word name, whatever stands between that
colon and the next double quote (`b`: white space before a quoted value, or a
value that is no quoted string, such as a number and the comma after it): in
every environment in which the read of the file gives the text,
`getNodeModuleName` returns the empty string when no double quote follows the
colon and when one only follows it; when two or more follow, it returns the
text between the first two, wherever in the file they stand. -/
theorem getNodeModuleName_malformed_value {σ : Type} (os : OS σ) (s : σ) (sourcePath : Str)
    (p a b : Str) (hfirst : ∀ q r, p ++ nameKey = q ++ nameKey ++ r → q = p)
    (ha : ':' ∉ a) (hb : '"' ∉ b) :
    (os.readFile s (filepathJoin [sourcePath, "package.json".toList])
        = .ok (p ++ nameKey ++ a ++ [':'] ++ b) →
      getNodeModuleName os s sourcePath = some []) ∧
    (∀ t, '"' ∉ t →
      os.readFile s (filepathJoin [sourcePath, "package.json".toList])
        = .ok (p ++ nameKey ++ a ++ [':'] ++ b ++ ['"'] ++ t) →
      getNodeModuleName os s sourcePath = some []) ∧
    (∀ v rest, '"' ∉ v →
      os.readFile s (filepathJoin [sourcePath, "package.json".toList])
        = .ok (p ++ nameKey ++ a ++ [':'] ++ b ++ ['"'] ++ v ++ ['"'] ++ rest) →
      getNodeModuleName os s sourcePath = some v) := by
  refine ⟨?_, ?_, ?_⟩
  · intro hread
    simp only [getNodeModuleName, hread]
    exact getNodeModuleNameOn_no_open_quote p a b hfirst ha hb
  · intro t ht hread
    simp only [getNodeModuleName, hread]
    exact getNodeModuleNameOn_no_close_quote p a b t hfirst ha hb ht
  · intro v rest hv hread
    simp only [getNodeModuleName, hread]
    exact getNodeModuleNameOn_value p a b v rest hfirst ha hb hv

set_option maxRecDepth 100000 in
/-- Witness of **C7**, amended: the name is the number 123 in three files.
With no double quote after the colon the result is the empty string; with one
only, the empty string; with the key `version` after the number, `version`. -/
theorem getNodeModuleName_malformed_value_witness :
    getNodeModuleName (unixOS sampleCodec) (withPackage "\x7b\"name\": 123\x7d".toList)
      "js".toList = some [] ∧
    getNodeModuleName (unixOS sampleCodec)
      (withPackage "\x7b\"name\": 123, \"version: 1\x7d".toList) "js".toList = some [] ∧
    getNodeModuleName (unixOS sampleCodec) numberFS "js".toList = some "version".toList :=
  ⟨(getNodeModuleName_malformed_value (unixOS sampleCodec)
      (withPackage "\x7b\"name\": 123\x7d".toList) "js".toList "\x7b".toList []
      " 123\x7d".toList (first_occurrence_of_index _ _ (by decide)) (by decide)
      (by decide)).1 (by decide),
   (getNodeModuleName_malformed_value (unixOS sampleCodec)
      (withPackage "\x7b\"name\": 123, \"version: 1\x7d".toList) "js".toList "\x7b".toList []
      " 123, ".toList (first_occurrence_of_index _ _ (by decide)) (by decide)
      (by decide)).2.1 "version: 1\x7d".toList (by decide) (by decide),
   (getNodeModuleName_malformed_value (unixOS sampleCodec) numberFS "js".toList
      "\x7b".toList [] " 123, ".toList (first_occurrence_of_index _ _ (by decide))
      (by decide) (by decide)).2.2 "version".toList ": \"1.0.0\"\x7d".toList (by decide)
      (by decide)⟩

/-- **C8.** For every `package.json` text, `getNodeModuleName` never panics on
a slice out of range, and it returns the empty string when the quoted word
name does not occur, when no colon follows its first occurrence, when no
double quote follows that colon, when no second double quote follows the
first one, and when the file cannot be read; the text `invalid json` gives
the empty string. -/
theorem getNodeModuleName_missing_landmark :
    (∀ read, (getNodeModuleNameOn read).isSome = true) ∧
    (∀ content, ¬ nameKey <:+: content → getNodeModuleNameOn (.ok content) = some []) ∧
    (∀ p t : Str, (∀ q r, p ++ nameKey = q ++ nameKey ++ r → q = p) → ':' ∉ t →
      getNodeModuleNameOn (.ok (p ++ nameKey ++ t)) = some []) ∧
    (∀ p a t : Str, (∀ q r, p ++ nameKey = q ++ nameKey ++ r → q = p) →
      ':' ∉ a → '"' ∉ t →
      getNodeModuleNameOn (.ok (p ++ nameKey ++ a ++ [':'] ++ t)) = some []) ∧
    (∀ p a b t : Str, (∀ q r, p ++ nameKey = q ++ nameKey ++ r → q = p) →
      ':' ∉ a → '"' ∉ b → '"' ∉ t →
      getNodeModuleNameOn (.ok (p ++ nameKey ++ a ++ [':'] ++ b ++ ['"'] ++ t)) = some []) ∧
    (∀ e, getNodeModuleNameOn (.error e) = some []) ∧
    getNodeModuleNameOn (.ok "invalid json".toList) = some [] :=
  ⟨getNodeModuleNameOn_isSome, getNodeModuleNameOn_no_name, getNodeModuleNameOn_no_colon,
    getNodeModuleNameOn_no_open_quote, getNodeModuleNameOn_no_close_quote, fun _ => rfl,
    by decide⟩

/-- Witness of **C8**: one text for each missing landmark. -/
theorem getNodeModuleName_missing_landmark_witness :
    getNodeModuleNameOn (.ok "\x7b\"nam\": \"x\"\x7d".toList) = some [] ∧
    getNodeModuleNameOn (.ok ("\x7b".toList ++ nameKey ++ " \"x\"\x7d".toList)) = some [] ∧
    getNodeModuleNameOn (.ok ("\x7b".toList ++ nameKey ++ [' '] ++ [':'] ++ " 7\x7d".toList))
      = some [] ∧
    getNodeModuleNameOn
      (.ok ("\x7b".toList ++ nameKey ++ [' '] ++ [':'] ++ [' '] ++ ['"'] ++ "x\x7d".toList))
      = some [] :=
  ⟨getNodeModuleName_missing_landmark.2.1 _ (by decide),
   getNodeModuleName_missing_landmark.2.2.1 "\x7b".toList " \"x\"\x7d".toList
     (first_occurrence_of_index _ _ (by decide)) (by decide),
   getNodeModuleName_missing_landmark.2.2.2.1 "\x7b".toList [' '] " 7\x7d".toList
     (first_occurrence_of_index _ _ (by decide)) (by decide) (by decide),
   getNodeModuleName_missing_landmark.2.2.2.2.1 "\x7b".toList [' '] [' '] "x\x7d".toList
     (first_occurrence_of_index _ _ (by decide)) (by decide) (by decide) (by decide)⟩

theorem realComponents_join_plain (comps : List Str) (hne : comps ≠ [])
    (h : ∀ c ∈ comps, PlainName c) :
    pathComponents (stringsJoin ['/'] comps) = comps ∧
      realComponents (stringsJoin ['/'] comps) = comps := by
  have hp := pathComponents_join comps hne (fun c hc => (h c hc).2.2.2)
  refine ⟨hp, ?_⟩
  unfold realComponents
  rw [hp, List.filter_eq_self]
  intro c hc
  have := h c hc
  simp only [decide_eq_true_eq]
  exact ⟨this.1, this.2.1⟩

/-- **C9.** For every module name made of one or more component names joined
by single slashes (no component is empty, `.` or `..`),
`getModuleDestinationPath` returns `backend/internal/modules/` followed by
the name, for `GoProject` and for `NodeProject` alike; for `Unknown` it
returns the empty string, whatever the name. -/
theorem getModuleDestinationPath_plain (comps : List Str) (hne : comps ≠ [])
    (h : ∀ c ∈ comps, PlainName c) :
    getModuleDestinationPath (stringsJoin ['/'] comps) .GoProject
      = "backend/internal/modules/".toList ++ stringsJoin ['/'] comps ∧
    getModuleDestinationPath (stringsJoin ['/'] comps) .NodeProject
      = "backend/internal/modules/".toList ++ stringsJoin ['/'] comps ∧
    ∀ name, getModuleDestinationPath name .Unknown = [] := by
  obtain ⟨hp, hr⟩ := realComponents_join_plain comps hne h
  have hdd : ['.', '.'] ∉ pathComponents (stringsJoin ['/'] comps) := by
    rw [hp]
    intro hm
    exact (h _ hm).2.2.1 rfl
  refine ⟨?_, ?_, fun _ => rfl⟩
  · rw [getModuleDestinationPath_no_dotdot _ .GoProject (by decide) hdd, hr,
      stringsJoin_base comps hne]
  · rw [getModuleDestinationPath_no_dotdot _ .NodeProject (by decide) hdd, hr,
      stringsJoin_base comps hne]

/-- Witness of **C9**: the name `github.com/x/y`. -/
theorem getModuleDestinationPath_plain_witness :
    getModuleDestinationPath "github.com/x/y".toList .GoProject
      = "backend/internal/modules/github.com/x/y".toList ∧
    getModuleDestinationPath "github.com/x/y".toList .NodeProject
      = "backend/internal/modules/github.com/x/y".toList :=
  have h := getModuleDestinationPath_plain ["github.com".toList, "x".toList, "y".toList]
    (by decide) (by decide)
  ⟨h.1, h.2.1⟩

/-- **C10** fails on the code: the `go.mod` text `module ../../x` yields the
name `../../x`, and the destination of that name is `backend/x`, which does
not begin with `backend/internal/modules/`. -/
theorem getModuleDestinationPath_escapes :
    getGoModuleNameOn (.ok "module ../../x".toList) = "../../x".toList ∧
    getModuleDestinationPath "../../x".toList .GoProject = "backend/x".toList ∧
    ¬ ("backend/internal/modules/".toList
        <+: getModuleDestinationPath "../../x".toList .GoProject) := by
  decide

/-- **C10**, amended. For every module name without a `..` component that has
at least one component other than the empty one and `.`, and for the kinds
`GoProject` and `NodeProject`, the destination is
`backend/internal/modules/` followed by the components of the name that name
an entry: it begins with `backend/internal/modules/` and none of its
components is `..`. -/
theorem getModuleDestinationPath_inside (name : Str) (moduleType : ProjectType)
    (hk : moduleType ≠ .Unknown) (hdd : ['.', '.'] ∉ pathComponents name)
    (hreal : realComponents name ≠ []) :
    getModuleDestinationPath name moduleType
      = "backend/internal/modules/".toList ++ stringsJoin ['/'] (realComponents name) ∧
    "backend/internal/modules/".toList <+: getModuleDestinationPath name moduleType ∧
    ['.', '.'] ∉ pathComponents (getModuleDestinationPath name moduleType) := by
  have heq : getModuleDestinationPath name moduleType
      = "backend/internal/modules/".toList ++ stringsJoin ['/'] (realComponents name) := by
    rw [getModuleDestinationPath_no_dotdot name moduleType hk hdd,
      stringsJoin_base _ hreal]
  refine ⟨heq, ?_, ?_⟩
  · rw [heq]; exact List.prefix_append _ _
  · have hsub : ∀ c ∈ realComponents name, c ∈ pathComponents name := by
      intro c hc
      exact (List.mem_filter.mp hc).1
    have hnosep : ∀ c ∈ realComponents name, '/' ∉ c := by
      intro c hc hm
      have := splitWhere_pieces (fun c => c == '/') name c (hsub c hc) '/' hm
      simp at this
    have e : "backend/internal/modules/".toList ++ stringsJoin ['/'] (realComponents name)
        = "backend/internal/modules".toList ++ ['/'] ++ stringsJoin ['/'] (realComponents name) :=
      rfl
    rw [heq, e, pathComponents_base, pathComponents_join _ hreal hnosep]
    intro hm
    rcases List.mem_append.mp hm with hm | hm
    · exact absurd hm (by decide)
    · exact hdd (hsub _ hm)

/-- Witness of **C10**, amended: the name `/a//./b/`. -/
theorem getModuleDestinationPath_inside_witness :
    getModuleDestinationPath "/a//./b/".toList .NodeProject
      = "backend/internal/modules/".toList ++ stringsJoin ['/'] (realComponents "/a//./b/".toList) ∧
    "backend/internal/modules/".toList
      <+: getModuleDestinationPath "/a//./b/".toList .NodeProject ∧
    ['.', '.'] ∉ pathComponents (getModuleDestinationPath "/a//./b/".toList .NodeProject) :=
  getModuleDestinationPath_inside "/a//./b/".toList .NodeProject (by decide) (by decide)
    (by decide)

/-! ## The importer -/

/-- **C3.** For `installLocalModule` and `importModule` alike, in every state:
when the source path does not exist the run prints the source-not-found
message; otherwise, when `detectLocalModuleType` returns `Unknown`, it prints
the unrecognised-type message; otherwise, when `getModuleName` returns the
empty string, it prints the name-extraction message.  In each of the three
cases the run exits with status 1 and the state of the machine, ledger
included, is the one before the call. -/
theorem import_checks_in_order {σ : Type} (os : OS σ) (fuel : Nat) (s : σ)
    (sourcePath : Str) :
    (isNotExist (os.stat s sourcePath) = true →
      installLocalModule os fuel s sourcePath = some ⟨s,
        ["Error: Source path '".toList ++ sourcePath ++ "' does not exist\n".toList],
        .exited 1⟩ ∧
      importModule os fuel s sourcePath = some ⟨s,
        ["Error: Source path '".toList ++ sourcePath ++ "' does not exist\n".toList],
        .exited 1⟩) ∧
    (isNotExist (os.stat s sourcePath) = false →
      detectLocalModuleType os s sourcePath = .Unknown →
      installLocalModule os fuel s sourcePath = some ⟨s,
        [("Error: Cannot determine module type. Ensure the directory contains go.mod "
          ++ "or package.json\n").toList], .exited 1⟩ ∧
      importModule os fuel s sourcePath = some ⟨s,
        [("Error: Cannot determine module type. Ensure the directory contains go.mod "
          ++ "or package.json\n").toList], .exited 1⟩) ∧
    (isNotExist (os.stat s sourcePath) = false →
      detectLocalModuleType os s sourcePath ≠ .Unknown →
      getModuleName os s sourcePath (detectLocalModuleType os s sourcePath) = some [] →
      installLocalModule os fuel s sourcePath = some ⟨s,
        ["Error: Cannot determine module name\n".toList], .exited 1⟩ ∧
      importModule os fuel s sourcePath = some ⟨s,
        ["Error: Cannot determine module name\n".toList], .exited 1⟩) := by
  refine ⟨?_, ?_, ?_⟩
  · intro h
    simp only [installLocalModule, importModule, h, if_true, and_self]
  · intro h1 h2
    simp only [installLocalModule, importModule, h1, h2, if_true, if_false,
      Bool.false_eq_true, and_self]
  · intro h1 h2 h3
    simp only [installLocalModule, importModule, h1, h2, h3, if_true, if_false,
      Bool.false_eq_true, and_self]

/-- Witness of **C3**: in the sample state the path `nosuch` does not exist,
the directory `empty` holds no manifest and the `go.mod` of `noname` has no
module line. -/
theorem import_checks_in_order_witness :
    (installLocalModule (unixOS sampleCodec) 0 sampleFS "nosuch".toList = some ⟨sampleFS,
        ["Error: Source path '".toList ++ "nosuch".toList ++ "' does not exist\n".toList],
        .exited 1⟩ ∧
      importModule (unixOS sampleCodec) 0 sampleFS "nosuch".toList = some ⟨sampleFS,
        ["Error: Source path '".toList ++ "nosuch".toList ++ "' does not exist\n".toList],
        .exited 1⟩) ∧
    (installLocalModule (unixOS sampleCodec) 0 sampleFS "empty".toList = some ⟨sampleFS,
        [("Error: Cannot determine module type. Ensure the directory contains go.mod "
          ++ "or package.json\n").toList], .exited 1⟩ ∧
      importModule (unixOS sampleCodec) 0 sampleFS "empty".toList = some ⟨sampleFS,
        [("Error: Cannot determine module type. Ensure the directory contains go.mod "
          ++ "or package.json\n").toList], .exited 1⟩) ∧
    (installLocalModule (unixOS sampleCodec) 0 sampleFS "noname".toList = some ⟨sampleFS,
        ["Error: Cannot determine module name\n".toList], .exited 1⟩ ∧
      importModule (unixOS sampleCodec) 0 sampleFS "noname".toList = some ⟨sampleFS,
        ["Error: Cannot determine module name\n".toList], .exited 1⟩) :=
  ⟨(import_checks_in_order (unixOS sampleCodec) 0 sampleFS "nosuch".toList).1 (by decide),
   (import_checks_in_order (unixOS sampleCodec) 0 sampleFS "empty".toList).2.1
     (by decide) (by decide),
   (import_checks_in_order (unixOS sampleCodec) 0 sampleFS "noname".toList).2.2
     (by decide) (by decide) (by decide)⟩

/-- **C1.** In every state and for every source path that exists and whose
manifest yields a non-empty module name: when the stat of the resolved
destination succeeds, `importModule` prints the already-exists message and
exits with status 1, whatever the bound on the recursion of `copyDir` (so
also when `copyDir` could not take a single step), and the state of the
machine, ledger and destination included, is the one before the call. -/
theorem importModule_already_exists {σ : Type} (os : OS σ) (fuel : Nat) (s : σ)
    (sourcePath moduleName : Str)
    (hsrc : isNotExist (os.stat s sourcePath) = false)
    (hname : getModuleName os s sourcePath (detectLocalModuleType os s sourcePath)
      = some moduleName)
    (hne : moduleName ≠ [])
    (hdst : isNil (os.stat s (getModuleDestinationPath moduleName
      (detectLocalModuleType os s sourcePath))) = true) :
    importModule os fuel s sourcePath = some ⟨s,
      ["Module '".toList ++ moduleName
        ++ "' already exists. Use --force to overwrite\n".toList], .exited 1⟩ := by
  have hk : detectLocalModuleType os s sourcePath ≠ .Unknown := by
    intro hk
    rw [hk] at hname
    simp only [getModuleName, Option.some.injEq] at hname
    exact hne hname.symm
  simp only [importModule, hsrc, hk, hname, hne, hdst, if_true, if_false, Bool.false_eq_true]

/-- Witness of **C1**: in the sample state the module `m` of `src` is already
installed. -/
theorem importModule_already_exists_witness :
    importModule (unixOS sampleCodec) 0 sampleFS "src".toList = some ⟨sampleFS,
      ["Module '".toList ++ "m".toList
        ++ "' already exists. Use --force to overwrite\n".toList], .exited 1⟩ :=
  importModule_already_exists (unixOS sampleCodec) 0 sampleFS "src".toList "m".toList
    (by decide) (by decide) (by decide) (by decide)

/-! ## The file system: entries and their update -/

namespace FS

theorem lookup_filter_ne (l : List (List Str × Node)) (p q : List Str) (h : q ≠ p) :
    List.lookup q (l.filter (fun kv => decide (kv.1 ≠ p))) = List.lookup q l := by
  induction l with
  | nil => rfl
  | cons kv rest ih =>
    obtain ⟨k, n⟩ := kv
    by_cases hk : k = p
    · subst hk
      have hq : (q == k) = false := by simpa using h
      simpa [List.filter_cons, List.lookup_cons, hq] using ih
    · by_cases hqk : q = k
      · subst hqk
        simp [List.filter_cons, List.lookup_cons, hk]
      · have hq : (q == k) = false := by simpa using hqk
        simpa [List.filter_cons, List.lookup_cons, hk, hq] using ih

theorem lookup_setNode (fs : FS) (p q : List Str) (n : Node) (hp : p ≠ []) :
    (fs.setNode p n).lookup q = if q = p then some n else fs.lookup q := by
  by_cases hq : q = []
  · subst hq
    have : ¬ ([] : List Str) = p := fun h => hp h.symm
    simp [lookup, this]
  · by_cases hqp : q = p
    · subst hqp
      simp [lookup, setNode, hq, List.lookup_cons]
    · have hb : (q == p) = false := by simpa using hqp
      simp only [lookup, setNode, hq, if_false, List.lookup_cons, hb, hqp]
      exact lookup_filter_ne _ _ _ hqp

theorem lookup_setNode_self (fs : FS) (p : List Str) (n : Node) (hp : p ≠ []) :
    (fs.setNode p n).lookup p = some n := by
  rw [lookup_setNode fs p p n hp]; simp

theorem lookup_setNode_ne (fs : FS) (p q : List Str) (n : Node) (hp : p ≠ []) (h : q ≠ p) :
    (fs.setNode p n).lookup q = fs.lookup q := by
  rw [lookup_setNode fs p q n hp]; simp [h]

theorem cwd_setNode (fs : FS) (p : List Str) (n : Node) : (fs.setNode p n).cwd = fs.cwd := rfl

theorem resolve_setNode (fs : FS) (p : List Str) (n : Node) (path : Str) :
    (fs.setNode p n).resolve path = fs.resolve path := rfl

theorem lookup_of_mem (fs : FS) (kv : List Str × Node) (h : kv ∈ fs.nodes) :
    fs.lookup kv.1 ≠ none := by
  unfold lookup
  split
  · simp
  · intro hnone
    rw [List.lookup_eq_none_iff] at hnone
    exact absurd (hnone kv h) (by simp)

theorem mem_of_lookup (fs : FS) (p : List Str) (n : Node) (hp : p ≠ [])
    (h : fs.lookup p = some n) : (p, n) ∈ fs.nodes := by
  simp only [lookup, hp, if_false] at h
  have : ∀ l : List (List Str × Node), List.lookup p l = some n → (p, n) ∈ l := by
    intro l
    induction l with
    | nil => simp
    | cons kv rest ih =>
      obtain ⟨k, m⟩ := kv
      intro hl
      by_cases hk : p = k
      · subst hk
        simp [List.lookup_cons] at hl
        simp [hl]
      · have hb : (p == k) = false := by simpa using hk
        simp only [List.lookup_cons, hb] at hl
        exact List.mem_cons_of_mem _ (ih hl)
  exact this _ h

theorem countBelow_setNode (fs : FS) (p t : List Str) (n : Node) (h : ¬ t <+: p) :
    (fs.setNode p n).countBelow t = fs.countBelow t := by
  have h2 : ¬ (t <+: p ∧ p ≠ t) := fun hh => h hh.1
  simp only [countBelow, setNode, List.filter_cons, h2, decide_False, Bool.false_eq_true,
    if_false, List.filter_filter]
  congr 1
  apply List.filter_congr
  intro kv _
  by_cases hk : kv.1 = p
  · subst hk; simp [h]
  · simp [hk]

end FS

/-! ## The file system: path resolution -/

theorem splitWhere_append (p : Char → Bool) (a : Str) (c : Char) (b : Str) (hc : p c = true) :
    splitWhere p (a ++ c :: b) = splitWhere p a ++ splitWhere p b := by
  induction a with
  | nil => simp [splitWhere, hc]
  | cons x xs ih =>
    by_cases hx : p x = true
    · simp [splitWhere, hx, ih]
    · have hx2 : p x = false := by simpa using hx
      have hne := splitWhere_ne_nil p xs
      cases hsp : splitWhere p xs with
      | nil => exact absurd hsp hne
      | cons h t =>
        simp [splitWhere, hx2, ih, hsp]

theorem stringsJoin_head (sep : Str) (o : Str) (os : List Str) (ho : o ≠ []) :
    (stringsJoin sep (o :: os)).head? = o.head? := by
  cases o with
  | nil => exact absurd rfl ho
  | cons x xs =>
    cases os with
    | nil => rfl
    | cons y ys => simp [stringsJoin]

theorem cleanStep_resolveStep (rooted : Bool) (base : List Str)
    (hb : rooted = true → base = []) (acc : List Str) (c : Str)
    (hinv : CleanStack rooted acc) (hc : '/' ∉ c) :
    List.foldl FS.resolveStep base (cleanStep rooted acc c).reverse
        = FS.resolveStep (List.foldl FS.resolveStep base acc.reverse) c ∧
      CleanStack rooted (cleanStep rooted acc c) := by
  by_cases hskip : c = [] ∨ c = ['.']
  · simp [cleanStep, FS.resolveStep, hskip, hinv]
  · by_cases hdd : c = ['.', '.']
    · subst hdd
      cases acc with
      | nil =>
        cases rooted with
        | true =>
          have := hb rfl
          subst this
          simp [cleanStep, FS.resolveStep, CleanStack]
        | false =>
          simp [cleanStep, FS.resolveStep, CleanStack]
      | cons top below =>
        have htop := hinv top (List.mem_cons_self _ _)
        have hbelow : CleanStack rooted below := fun x hx => hinv x (List.mem_cons_of_mem _ hx)
        by_cases ht : top = ['.', '.']
        · have hr := htop.2.2.2 ht
          subst hr
          subst ht
          have e2 : cleanStep false (['.', '.'] :: below) ['.', '.']
              = ['.', '.'] :: ['.', '.'] :: below := by
            simp [cleanStep]
          rw [e2]
          refine ⟨by simp [FS.resolveStep, List.foldl_append], ?_⟩
          intro x hx
          rcases List.mem_cons.mp hx with hx | hx
          · subst hx; exact htop
          · exact hinv x hx
        · have e1 : cleanStep rooted (top :: below) ['.', '.'] = below := by
            simp [cleanStep, ht]
          rw [e1]
          refine ⟨?_, hbelow⟩
          have hts : ¬ (top = [] ∨ top = ['.']) := by
            intro h; rcases h with h | h
            · exact htop.1 h
            · exact htop.2.1 h
          simp [FS.resolveStep, List.foldl_append, hts, ht]
    · have e1 : cleanStep rooted acc c = c :: acc := by
        simp [cleanStep, hskip, hdd]
      rw [e1]
      refine ⟨by simp [List.foldl_append], ?_⟩
      intro x hx
      rcases List.mem_cons.mp hx with hx | hx
      · subst hx
        refine ⟨fun h => hskip (Or.inl h), fun h => hskip (Or.inr h), hc, fun h => absurd h hdd⟩
      · exact hinv x hx

theorem cleanStep_foldl_resolve (rooted : Bool) (base : List Str)
    (hb : rooted = true → base = []) (comps acc : List Str)
    (hinv : CleanStack rooted acc) (hc : ∀ c ∈ comps, '/' ∉ c) :
    List.foldl FS.resolveStep base (List.foldl (cleanStep rooted) acc comps).reverse
        = List.foldl FS.resolveStep (List.foldl FS.resolveStep base acc.reverse) comps ∧
      CleanStack rooted (List.foldl (cleanStep rooted) acc comps) := by
  induction comps generalizing acc with
  | nil => exact ⟨rfl, hinv⟩
  | cons c cs ih =>
    obtain ⟨h1, h2⟩ := cleanStep_resolveStep rooted base hb acc c hinv
      (hc c (List.mem_cons_self _ _))
    obtain ⟨h3, h4⟩ := ih (cleanStep rooted acc c) h2
      (fun x hx => hc x (List.mem_cons_of_mem _ hx))
    refine ⟨?_, h4⟩
    simp only [List.foldl_cons]
    rw [h3, h1]

theorem pathComponents_no_sep (x : Str) : ∀ c ∈ pathComponents x, '/' ∉ c := by
  intro c hc hm
  have := splitWhere_pieces (fun c => c == '/') x c hc '/' hm
  simp at this

theorem cleanStack_nil (rooted : Bool) : CleanStack rooted [] := by
  intro c hc; simp at hc

theorem cleanStack_reverse (rooted : Bool) (out : List Str) (h : CleanStack rooted out) :
    CleanStack rooted out.reverse := by
  intro c hc
  exact h c (List.mem_reverse.mp hc)

theorem stringsJoin_ne_nil (o : Str) (os : List Str) (ho : o ≠ []) :
    stringsJoin ['/'] (o :: os) ≠ [] := by
  intro h
  have := stringsJoin_head ['/'] o os ho
  rw [h] at this
  cases o with
  | nil => exact ho rfl
  | cons x xs => simp at this

theorem filepathClean_ne_nil (x : Str) : filepathClean x ≠ [] := by
  unfold filepathClean
  by_cases hx : x = []
  · simp [hx]
  · simp only [hx, if_false]
    split
    · simp
    · split
      · simp
      · rename_i hout
        have hinv := cleanStack_reverse _ _
          (cleanStep_foldl_resolve (decide (x.head? = some '/')) []
            (fun _ => rfl) (pathComponents x) [] (cleanStack_nil _)
            (pathComponents_no_sep x)).2
        cases hq : (List.foldl (cleanStep (decide (x.head? = some '/'))) []
            (pathComponents x)).reverse with
        | nil => exact absurd hq hout
        | cons o os =>
          rw [hq] at hinv
          exact stringsJoin_ne_nil o os (hinv o (List.mem_cons_self _ _)).1

namespace FS

/-- Cleaning a path does not change the entry it denotes. -/
theorem resolve_clean (fs : FS) (x : Str) (hx : x ≠ []) :
    fs.resolve (filepathClean x) = fs.resolve x := by
  by_cases hr : x.head? = some '/'
  · -- a rooted path
    have hk := cleanStep_foldl_resolve true [] (fun _ => rfl) (pathComponents x) []
      (cleanStack_nil _) (pathComponents_no_sep x)
    have hinv := cleanStack_reverse _ _ hk.2
    have hclean : filepathClean x = '/' :: stringsJoin ['/']
        (List.foldl (cleanStep true) [] (pathComponents x)).reverse := by
      simp [filepathClean, hx, hr]
    have hres : fs.resolve x = List.foldl resolveStep [] (pathComponents x) := by
      simp [resolve, hr]
    rw [hclean, hres]
    have h1 := hk.1
    simp only [List.reverse_nil, List.foldl_nil] at h1
    rw [← h1]
    generalize (List.foldl (cleanStep true) [] (pathComponents x)).reverse = out at hinv ⊢
    have hpc : pathComponents ('/' :: stringsJoin ['/'] out)
        = [] :: pathComponents (stringsJoin ['/'] out) := by
      simp [pathComponents, splitWhere]
    simp only [resolve, List.head?_cons, if_true, hpc, List.foldl_cons]
    have hs : resolveStep [] [] = [] := by simp [resolveStep]
    rw [hs]
    cases out with
    | nil => simp [stringsJoin, pathComponents, splitWhere, resolveStep]
    | cons o os =>
      rw [pathComponents_join (o :: os) (by simp) (fun c hc => (hinv c hc).2.2.1)]
  · -- a path that is not rooted
    have hk := cleanStep_foldl_resolve false fs.cwd (fun h => by simp at h) (pathComponents x) []
      (cleanStack_nil _) (pathComponents_no_sep x)
    have hinv := cleanStack_reverse _ _ hk.2
    have hres : fs.resolve x = List.foldl resolveStep fs.cwd (pathComponents x) := by
      simp [resolve, hr]
    have h1 := hk.1
    simp only [List.reverse_nil, List.foldl_nil] at h1
    rw [hres, ← h1]
    have hclean : filepathClean x =
        if (List.foldl (cleanStep false) [] (pathComponents x)).reverse = [] then ['.']
        else stringsJoin ['/'] (List.foldl (cleanStep false) [] (pathComponents x)).reverse := by
      simp [filepathClean, hx, hr]
    rw [hclean]
    generalize (List.foldl (cleanStep false) [] (pathComponents x)).reverse = out at hinv ⊢
    cases out with
    | nil => simp [resolve, pathComponents, splitWhere, resolveStep]
    | cons o os =>
      have ho := hinv o (List.mem_cons_self _ _)
      have hhead : (stringsJoin ['/'] (o :: os)).head? ≠ some '/' := by
        rw [stringsJoin_head ['/'] o os ho.1]
        cases o with
        | nil => exact absurd rfl ho.1
        | cons a as =>
          simp only [List.head?_cons, ne_eq, Option.some.injEq]
          intro ha
          exact ho.2.2.1 (ha ▸ List.mem_cons_self _ _)
      simp only [List.cons_ne_nil, if_false, resolve, hhead]
      rw [pathComponents_join (o :: os) (by simp) (fun c hc => (hinv c hc).2.2.1)]

/-- The path `filepath.Join(x, name)` denotes the entry `name` of the
directory that `x` denotes. -/
theorem resolve_join (fs : FS) (x name : Str) (hx : x ≠ []) (hn : PlainName name) :
    fs.resolve (filepathJoin [x, name]) = fs.resolve x ++ [name] := by
  have hj : filepathJoin [x, name] = filepathClean (x ++ '/' :: name) := by
    simp [filepathJoin, hx, stringsJoin]
  have hne : x ++ '/' :: name ≠ [] := by simp
  rw [hj, resolve_clean fs _ hne]
  have hhead : (x ++ '/' :: name).head? = x.head? := by
    cases x with
    | nil => exact absurd rfl hx
    | cons a as => rfl
  have hsep : ∀ c ∈ name, (fun c => c == '/') c = false := by
    intro c hc
    simp only [beq_eq_false_iff_ne, ne_eq]
    intro h
    exact hn.2.2.2 (h ▸ hc)
  have hpc : pathComponents (x ++ '/' :: name) = pathComponents x ++ [name] := by
    unfold pathComponents
    rw [splitWhere_append _ x '/' name (by decide), splitWhere_no_sep _ name hsep]
  have hskip : ¬ (name = [] ∨ name = ['.']) := by
    intro h; rcases h with h | h
    · exact hn.1 h
    · exact hn.2.1 h
  simp only [resolve, hhead, hpc, List.foldl_append, List.foldl_cons, List.foldl_nil]
  simp [resolveStep, hskip, hn.2.2.1]

theorem resolveStep_plain (base : List Str) (c : Str) (hb : ∀ x ∈ base, PlainName x)
    (hc : '/' ∉ c) : ∀ x ∈ resolveStep base c, PlainName x := by
  unfold resolveStep
  split
  · exact hb
  · rename_i hskip
    split
    · intro x hx
      exact hb x (List.mem_of_mem_dropLast hx)
    · rename_i hdd
      intro x hx
      rcases List.mem_append.mp hx with hx | hx
      · exact hb x hx
      · simp only [List.mem_singleton] at hx
        subst hx
        exact ⟨fun h => hskip (Or.inl h), fun h => hskip (Or.inr h), hdd, hc⟩

theorem resolve_plain (fs : FS) (path : Str) (hcwd : ∀ c ∈ fs.cwd, PlainName c) :
    ∀ c ∈ fs.resolve path, PlainName c := by
  have key : ∀ (comps base : List Str), (∀ x ∈ base, PlainName x) →
      (∀ c ∈ comps, '/' ∉ c) → ∀ x ∈ List.foldl resolveStep base comps, PlainName x := by
    intro comps
    induction comps with
    | nil => intro base hb _; exact hb
    | cons c cs ih =>
      intro base hb hc
      simp only [List.foldl_cons]
      exact ih _ (resolveStep_plain base c hb (hc c (List.mem_cons_self _ _)))
        (fun x hx => hc x (List.mem_cons_of_mem _ hx))
  unfold resolve
  apply key
  · split
    · intro x hx; simp at hx
    · exact hcwd
  · exact pathComponents_no_sep path

end FS

/-! ## The file system: well-formed states -/

namespace FS

theorem dropLast_ne_self (p : List Str) (hp : p ≠ []) : p.dropLast ≠ p := by
  intro h
  have := congrArg List.length h
  simp only [List.length_dropLast] at this
  have : p.length ≠ 0 := fun h0 => hp (List.length_eq_zero.mp h0)
  omega

theorem isDirEntry_iff (e : Option Node) : isDirEntry e = true ↔ ∃ m, e = some (.dir m) := by
  cases e with
  | none => simp [isDirEntry]
  | some n => cases n <;> simp [isDirEntry]

/-- Binding a path in an existing directory keeps the state well formed, when
the new entry is a directory or the path was not a directory before. -/
theorem WF_setNode (fs : FS) (p : List Str) (n : Node) (hwf : fs.WF) (hp : p ≠ [])
    (hplain : ∀ c ∈ p, PlainName c) (hpar : isDirEntry (fs.lookup p.dropLast) = true)
    (hkind : isDirEntry (some n) = true ∨ isDirEntry (fs.lookup p) = false) :
    (fs.setNode p n).WF := by
  refine ⟨hwf.1, ?_⟩
  intro kv hkv
  simp only [setNode, List.mem_cons, List.mem_filter, decide_eq_true_eq] at hkv
  rcases hkv with hkv | ⟨hkv, hne⟩
  · subst hkv
    refine ⟨hp, hplain, ?_⟩
    simp only
    rw [lookup_setNode_ne fs p _ n hp (dropLast_ne_self p hp)]
    exact hpar
  · obtain ⟨h1, h2, h3⟩ := hwf.2 kv hkv
    refine ⟨h1, h2, ?_⟩
    rw [lookup_setNode fs p _ n hp]
    split
    · rename_i heq
      rcases hkind with hk | hk
      · exact hk
      · rw [heq, hk] at h3
        exact absurd h3 (by simp)
    · exact h3

/-- In a well-formed state every proper prefix of a path that exists is a
directory. -/
theorem WF.prefix_isDir (fs : FS) (hwf : fs.WF) (q : List Str) :
    fs.lookup q ≠ none → ∀ p, p <+: q → p ≠ q → isDirEntry (fs.lookup p) = true := by
  induction q using List.reverseRecOn with
  | nil =>
    intro _ p hp hne
    exact absurd (List.prefix_nil.mp hp) hne
  | append_singleton q' a ih =>
    intro hex p hp hne
    have hq : q' ++ [a] ≠ [] := by simp
    cases hl : fs.lookup (q' ++ [a]) with
    | none => exact absurd hl hex
    | some n =>
      have hmem := mem_of_lookup fs _ n hq hl
      have hdir := (hwf.2 _ hmem).2.2
      simp only [List.dropLast_concat] at hdir
      rcases List.prefix_concat_iff.mp hp with h | h
      · exact absurd h hne
      · by_cases hpq : p = q'
        · rw [hpq]; exact hdir
        · apply ih _ p h hpq
          intro hnone
          rw [hnone] at hdir
          exact absurd hdir (by simp [isDirEntry])

/-- In a well-formed state nothing lies below a path that is not a directory. -/
theorem WF.below_none (fs : FS) (hwf : fs.WF) (p q : List Str)
    (hp : isDirEntry (fs.lookup p) = false) (hpq : p <+: q) (hne : q ≠ p) :
    fs.lookup q = none := by
  by_contra hex
  have := WF.prefix_isDir fs hwf q hex p hpq (fun h => hne h.symm)
  rw [hp] at this
  exact absurd this (by simp)

theorem countBelow_le (fs : FS) (t : List Str) : fs.countBelow t ≤ fs.nodes.length :=
  List.length_filter_le _ _

/-- An entry of the directory `t` has fewer entries below it than `t` has. -/
theorem countBelow_lt (fs : FS) (t : List Str) (a : Str) (h : fs.lookup (t ++ [a]) ≠ none) :
    fs.countBelow (t ++ [a]) < fs.countBelow t := by
  cases hl : fs.lookup (t ++ [a]) with
  | none => exact absurd hl h
  | some n =>
    have hmem := mem_of_lookup fs _ n (by simp) hl
    unfold countBelow
    have hta : t ++ [a] ≠ t := by
      intro h0
      have := congrArg List.length h0
      simp at this
    have e : List.filter
          (fun kv : List Str × Node => decide (t ++ [a] <+: kv.1 ∧ kv.1 ≠ t ++ [a])) fs.nodes
        = List.filter (fun kv => decide (t ++ [a] <+: kv.1 ∧ kv.1 ≠ t ++ [a]))
            (List.filter (fun kv => decide (t <+: kv.1 ∧ kv.1 ≠ t)) fs.nodes) := by
      rw [List.filter_filter]
      apply List.filter_congr
      intro kv _
      by_cases hk : t ++ [a] <+: kv.1 ∧ kv.1 ≠ t ++ [a]
      · have h1 : t <+: kv.1 := (List.prefix_append t [a]).trans hk.1
        have h2 : kv.1 ≠ t := by
          intro h0
          have hle := hk.1.length_le
          rw [h0] at hle
          simp at hle
        simp [hk, h1, h2]
      · simp [hk]
    rw [e]
    apply List.length_filter_lt_length_iff_exists.mpr
    refine ⟨(t ++ [a], n), ?_, ?_⟩
    · rw [List.mem_filter]
      exact ⟨hmem, by simp [hta]⟩
    · simp

end FS

/-! ## The file system: the calls -/

namespace FS

theorem resolve_of_cwd (fs fs2 : FS) (h : fs2.cwd = fs.cwd) (path : Str) :
    fs2.resolve path = fs.resolve path := by
  simp [resolve, h]

theorem isFileEntry_of_isDirEntry (e : Option Node) (h : isDirEntry e = true) :
    isFileEntry e = false := by
  cases e with
  | none => rfl
  | some n => cases n <;> simp_all [isDirEntry, isFileEntry]

/-- The loop of `os.MkdirAll` succeeds when no file is in the way; it creates
directories on the way to its target only. -/
theorem mkdirAllFrom_spec (path : Str) (perm : Nat) (rest : List Str) :
    ∀ (fs : FS) (at_ : List Str), fs.WF → isDirEntry (fs.lookup at_) = true →
      (∀ c ∈ at_ ++ rest, PlainName c) →
      (∀ p, p <+: at_ ++ rest → isFileEntry (fs.lookup p) = false) →
      ∃ fs2, mkdirAllFrom path perm fs at_ rest = (fs2, none) ∧ fs2.WF ∧ fs2.cwd = fs.cwd ∧
        isDirEntry (fs2.lookup (at_ ++ rest)) = true ∧
        (∀ q, fs.lookup q ≠ none → fs2.lookup q = fs.lookup q) ∧
        (∀ q, ¬ q <+: at_ ++ rest → fs2.lookup q = fs.lookup q) ∧
        (∀ t, ¬ t <+: at_ ++ rest → fs2.countBelow t = fs.countBelow t) := by
  induction rest with
  | nil =>
    intro fs at_ hwf hdir _ _
    refine ⟨fs, rfl, hwf, rfl, by simpa using hdir, fun _ _ => rfl, fun _ _ => rfl,
      fun _ _ => rfl⟩
  | cons c rest ih =>
    intro fs at_ hwf hdir hplain hnofile
    have happ : at_ ++ c :: rest = (at_ ++ [c]) ++ rest := by simp
    have hpre : at_ ++ [c] <+: at_ ++ c :: rest := by
      rw [happ]; exact List.prefix_append _ _
    have hne : at_ ++ [c] ≠ [] := by simp
    cases hl : fs.lookup (at_ ++ [c]) with
    | some n =>
      cases n with
      | file d m =>
        have := hnofile _ hpre
        rw [hl] at this
        exact absurd this (by simp [isFileEntry])
      | dir m =>
        obtain ⟨fs2, h1, h2, h3, h4, h5, h6, h7⟩ := ih fs (at_ ++ [c]) hwf
          (by rw [hl]; rfl) (by rw [← happ]; exact hplain) (by rw [← happ]; exact hnofile)
        refine ⟨fs2, ?_, h2, h3, ?_, h5, ?_, ?_⟩
        · simp only [mkdirAllFrom, hl]; exact h1
        · rw [happ]; exact h4
        · rw [happ]; exact h6
        · rw [happ]; exact h7
    | none =>
      have hplainP : ∀ x ∈ at_ ++ [c], PlainName x := by
        intro x hx
        apply hplain x
        rw [happ]
        exact List.mem_append_left _ hx
      have hwf1 : (fs.setNode (at_ ++ [c]) (.dir perm)).WF :=
        WF_setNode fs _ _ hwf hne hplainP (by simpa using hdir) (Or.inl rfl)
      obtain ⟨fs2, h1, h2, h3, h4, h5, h6, h7⟩ :=
        ih (fs.setNode (at_ ++ [c]) (.dir perm)) (at_ ++ [c]) hwf1
          (by rw [lookup_setNode_self _ _ _ hne]; rfl)
          (by rw [← happ]; exact hplain)
          (by
            intro p hp
            rw [lookup_setNode _ _ _ _ hne]
            split
            · rfl
            · exact hnofile p (by rw [happ]; exact hp))
      refine ⟨fs2, ?_, h2, h3, ?_, ?_, ?_, ?_⟩
      · simp only [mkdirAllFrom, hl]; exact h1
      · rw [happ]; exact h4
      · intro q hq
        have hqne : q ≠ at_ ++ [c] := by
          intro h0; rw [h0] at hq; exact hq hl
        rw [h5 q (by rw [lookup_setNode_ne _ _ _ _ hne hqne]; exact hq),
          lookup_setNode_ne _ _ _ _ hne hqne]
      · intro q hq
        have hqne : q ≠ at_ ++ [c] := by
          intro h0; rw [h0] at hq; exact hq hpre
        rw [h6 q (by rw [← happ]; exact hq), lookup_setNode_ne _ _ _ _ hne hqne]
      · intro t ht
        rw [h7 t (by rw [← happ]; exact ht)]
        exact countBelow_setNode fs _ t _ (fun h => ht (h.trans hpre))

/-- The call `copyFile` onto a path that does not exist, in a directory that
exists: the destination becomes a copy of the source, nothing else changes. -/
theorem copyFile_spec (codec : Codec) (fs : FS) (src dst : Str) (data : Str) (mode : Nat)
    (hwf : fs.WF) (hsrc : src ≠ []) (hdst : dst ≠ [])
    (hs : fs.lookup (fs.resolve src) = some (.file data mode))
    (hd : fs.lookup (fs.resolve dst) = none)
    (hplain : ∀ c ∈ fs.resolve dst, PlainName c)
    (hpar : isDirEntry (fs.lookup (fs.resolve dst).dropLast) = true) :
    ∃ fs2, copyFile (unixOS codec) fs src dst = (fs2, none) ∧ fs2.WF ∧ fs2.cwd = fs.cwd ∧
      fs2.lookup (fs.resolve dst) = some (.file data mode) ∧
      (∀ q, q ≠ fs.resolve dst → fs2.lookup q = fs.lookup q) ∧
      (∀ t, ¬ t <+: fs.resolve dst → fs2.countBelow t = fs.countBelow t) := by
  have hne : fs.resolve dst ≠ [] := by
    intro h0
    rw [h0] at hd
    simp [lookup] at hd
  have hsd : fs.resolve src ≠ fs.resolve dst := by
    intro h0; rw [h0, hd] at hs; exact absurd hs (by simp)
  generalize hP : fs.resolve dst = P at *
  let fs1 := fs.setNode P (.file [] 0o644)
  let fs2 := fs1.setNode P (.file ([] ++ data) 0o644)
  let fs3 := fs2.setNode P (.file data mode)
  have hwf1 : fs1.WF := WF_setNode fs P _ hwf hne hplain hpar (Or.inr (by rw [hd]; rfl))
  have hl1 : fs1.lookup P = some (.file [] 0o644) := lookup_setNode_self _ _ _ hne
  have hpar1 : isDirEntry (fs1.lookup P.dropLast) = true := by
    rw [lookup_setNode_ne _ _ _ _ hne (dropLast_ne_self P hne)]; exact hpar
  have hwf2 : fs2.WF := WF_setNode fs1 P _ hwf1 hne hplain hpar1 (Or.inr (by rw [hl1]; rfl))
  have hl2 : fs2.lookup P = some (.file ([] ++ data) 0o644) := lookup_setNode_self _ _ _ hne
  have hpar2 : isDirEntry (fs2.lookup P.dropLast) = true := by
    rw [lookup_setNode_ne _ _ _ _ hne (dropLast_ne_self P hne)]; exact hpar1
  have hwf3 : fs3.WF := WF_setNode fs2 P _ hwf2 hne hplain hpar2 (Or.inr (by rw [hl2]; rfl))
  have hs1 : fs1.lookup (fs.resolve src) = some (.file data mode) := by
    rw [lookup_setNode_ne _ _ _ _ hne hsd]; exact hs
  have hs2 : fs2.lookup (fs.resolve src) = some (.file data mode) := by
    rw [lookup_setNode_ne _ _ _ _ hne hsd]; exact hs1
  refine ⟨fs3, ?_, hwf3, rfl, lookup_setNode_self _ _ _ hne, ?_, ?_⟩
  · have e1 : FS.openFile fs src = .ok () := by
      simp [FS.openFile, hsrc, hs]
    have e2 : FS.create fs dst = (fs1, none) := by
      simp only [FS.create, hdst, if_false, hP, hd]
      rw [(isDirEntry_iff _).mp hpar |>.choose_spec]
    have e3 : FS.readFile fs1 src = .ok data := by
      have : fs1.resolve src = fs.resolve src := rfl
      simp [FS.readFile, hsrc, this, hs1]
    have e4 : FS.write fs1 dst data = (fs2, none) := by
      have : fs1.resolve dst = P := hP
      simp only [FS.write, this, hl1]
    have e5 : FS.stat fs2 src = .ok ⟨false, mode⟩ := by
      have : fs2.resolve src = fs.resolve src := rfl
      simp [FS.stat, hsrc, this, hs2]
    have e6 : FS.chmod fs2 dst mode = (fs3, none) := by
      have : fs2.resolve dst = P := hP
      simp only [FS.chmod, hdst, if_false, this, hl2]
      simp [fs3]
    simp only [copyFile, unixOS, e1, e2, ioCopy, e3, e4, e5, e6]
  · intro q hq
    show (((fs.setNode P _).setNode P _).setNode P _).lookup q = _
    rw [lookup_setNode_ne _ _ _ _ hne hq, lookup_setNode_ne _ _ _ _ hne hq,
      lookup_setNode_ne _ _ _ _ hne hq]
  · intro t ht
    show (((fs.setNode P _).setNode P _).setNode P _).countBelow t = _
    rw [countBelow_setNode _ _ _ _ ht, countBelow_setNode _ _ _ _ ht,
      countBelow_setNode _ _ _ _ ht]

end FS

/-! ## The file system: directory listings -/

namespace FS

theorem insertName_perm (x : Str) (l : List Str) : (insertName x l).Perm (x :: l) := by
  induction l with
  | nil => exact List.Perm.refl _
  | cons y ys ih =>
    unfold insertName
    split
    · exact List.Perm.refl _
    · exact (List.Perm.cons y ih).trans (List.Perm.swap x y ys)

theorem sortNames_perm (l : List Str) : (sortNames l).Perm l := by
  induction l with
  | nil => exact List.Perm.refl _
  | cons x xs ih =>
    exact (insertName_perm x (sortNames xs)).trans (List.Perm.cons x ih)

theorem mem_childNames (fs : FS) (p : List Str) (name : Str) :
    name ∈ fs.childNames p ↔ ∃ n, (p ++ [name], n) ∈ fs.nodes := by
  simp only [childNames, List.mem_dedup, List.mem_filterMap]
  constructor
  · rintro ⟨kv, hkv, h⟩
    cases hlast : kv.1.getLast? with
    | none => simp [hlast] at h
    | some a =>
      simp only [hlast] at h
      split at h
      · rename_i hdrop
        simp only [Option.some.injEq] at h
        subst h
        have := List.dropLast_append_getLast? a hlast
        rw [hdrop] at this
        exact ⟨kv.2, by rw [this]; exact hkv⟩
      · simp at h
  · rintro ⟨n, hmem⟩
    refine ⟨(p ++ [name], n), hmem, ?_⟩
    simp

theorem mem_listing (fs : FS) (p : List Str) (name : Str) :
    name ∈ sortNames (fs.childNames p) ↔ fs.lookup (p ++ [name]) ≠ none := by
  rw [(sortNames_perm _).mem_iff, mem_childNames]
  constructor
  · rintro ⟨n, hmem⟩
    exact lookup_of_mem fs _ hmem
  · intro h
    cases hl : fs.lookup (p ++ [name]) with
    | none => exact absurd hl h
    | some n => exact ⟨n, mem_of_lookup fs _ n (by simp) hl⟩

theorem nodup_listing (fs : FS) (p : List Str) : (sortNames (fs.childNames p)).Nodup := by
  rw [(sortNames_perm _).nodup_iff]
  exact List.nodup_dedup _

theorem readDir_dir (fs : FS) (path : Str) (mode : Nat) (hp : path ≠ [])
    (h : fs.lookup (fs.resolve path) = some (.dir mode)) :
    FS.readDir fs path = .ok ((sortNames (fs.childNames (fs.resolve path))).map fun name =>
      { name := name, isDir := isDirEntry (fs.lookup (fs.resolve path ++ [name])) }) := by
  simp [FS.readDir, hp, h]

theorem filepathJoin_ne_nil (x name : Str) (hx : x ≠ []) : filepathJoin [x, name] ≠ [] := by
  simp only [filepathJoin, hx, if_false]
  exact filepathClean_ne_nil _

end FS

/-! ## The recursive copy -/

namespace FS

theorem not_prefix_child (s d : List Str) (a : Str) (h1 : ¬ s <+: d) :
    ¬ s ++ [a] <+: d ++ [a] := by
  intro h
  rcases List.prefix_concat_iff.mp h with h | h
  · have := congrArg List.dropLast h
    simp only [List.dropLast_concat] at this
    exact h1 (this ▸ List.prefix_refl _)
  · exact h1 ((List.prefix_append s [a]).trans h)

theorem not_prefix_below (s d rel : List Str) (h1 : ¬ s <+: d) (h2 : ¬ d <+: s) :
    ¬ d <+: s ++ rel := by
  intro h
  rcases List.prefix_or_prefix_of_prefix h (List.prefix_append s rel) with h | h
  · exact h2 h
  · exact h1 h

theorem prefix_child_cases (q d : List Str) (a : Str) (h : q <+: d ++ [a]) (hq : ¬ d <+: q) :
    q <+: d ∧ q ≠ d := by
  rcases List.prefix_concat_iff.mp h with h | h
  · exact absurd (h ▸ List.prefix_append d [a]) hq
  · exact ⟨h, fun h0 => hq (h0 ▸ List.prefix_refl _)⟩

theorem sibling_untouched (d rel : List Str) (a name : Str) (h : name ≠ a) :
    ¬ d ++ [a] <+: d ++ name :: rel ∧ ¬ d ++ name :: rel <+: d ++ [a] := by
  constructor
  · intro hp
    rw [List.prefix_append_right_inj] at hp
    rcases List.prefix_cons_iff.mp hp with h0 | ⟨t, h0, _⟩
    · simp at h0
    · exact h (List.cons.inj h0).1.symm
  · intro hp
    rw [List.prefix_append_right_inj] at hp
    rcases List.prefix_cons_iff.mp hp with h0 | ⟨t, h0, _⟩
    · simp at h0
    · exact h (List.cons.inj h0).1

theorem child_ne_self (d : List Str) (a : Str) : ¬ d ++ [a] <+: d := by
  intro h
  have := h.length_le
  simp at this

/-- The invariant of the loop after the copy of the directory `a`. -/
theorem LoopInv_after_dir (fs1 fs fs2 : FS) (s d done : List Str) (a : Str)
    (hinv : LoopInv fs1 fs s d done) (ha : a ∉ done)
    (hframe : Frame fs fs2 (d ++ [a]))
    (hsame : ∀ rel, sameEntry (fs.lookup ((s ++ [a]) ++ rel)) (fs2.lookup ((d ++ [a]) ++ rel)))
    (hsd : ¬ s <+: d) (hds : ¬ d <+: s) :
    LoopInv fs1 fs2 s d (done ++ [a]) := by
  obtain ⟨hwf, hcwd, hdir, hout, hdone, htodo, hcount⟩ := hinv
  obtain ⟨fwf, fcwd, fex, funt, fcount⟩ := hframe
  have hkeep : ∀ q, ¬ d <+: q → fs2.lookup q = fs.lookup q := by
    intro q hq
    have hq2 : ¬ d ++ [a] <+: q := fun h => hq ((List.prefix_append d [a]).trans h)
    by_cases hex : fs.lookup q = none
    · apply funt q hq2
      intro hpre
      obtain ⟨hp1, hp2⟩ := prefix_child_cases q d a hpre hq
      have := WF.prefix_isDir fs hwf d (by intro h0; rw [h0] at hdir; simp [isDirEntry] at hdir)
        q hp1 hp2
      rw [hex] at this
      simp [isDirEntry] at this
    · exact fex q hq2 hex
  refine ⟨fwf, fcwd.trans hcwd, ?_, ?_, ?_, ?_, ?_⟩
  · rw [fex d (child_ne_self d a)
      (by intro h0; rw [h0] at hdir; simp [isDirEntry] at hdir)]
    exact hdir
  · intro q hq
    rw [hkeep q hq, hout q hq]
  · intro name hname rel
    rcases List.mem_append.mp hname with hn | hn
    · have hne : name ≠ a := fun h => ha (h ▸ hn)
      obtain ⟨u1, u2⟩ := sibling_untouched d rel a name hne
      rw [funt _ u1 u2]
      exact hdone name hn rel
    · simp only [List.mem_singleton] at hn
      subst hn
      have := hsame rel
      simp only [List.append_assoc, List.singleton_append] at this
      rw [hout _ (not_prefix_below s d _ hsd hds)] at this
      exact this
  · intro name hname rel
    have hn1 : name ∉ done := fun h => hname (List.mem_append_left _ h)
    have hne : name ≠ a := fun h => hname (List.mem_append_right _ (by simp [h]))
    obtain ⟨u1, u2⟩ := sibling_untouched d rel a name hne
    rw [funt _ u1 u2]
    exact htodo name hn1 rel
  · intro t ht1 ht2
    rw [fcount t ?_ ?_, hcount t ht1 ht2]
    · intro h
      rcases List.prefix_concat_iff.mp h with h | h
      · exact ht2 (h ▸ List.prefix_append d [a])
      · exact ht1 h
    · intro h
      exact ht2 ((List.prefix_append d [a]).trans h)

/-- The invariant of the loop after the copy of the file `a`. -/
theorem LoopInv_after_file (fs1 fs fs2 : FS) (s d done : List Str) (a : Str)
    (data : Str) (mode : Nat)
    (hinv : LoopInv fs1 fs s d done) (ha : a ∉ done) (hwf1 : fs1.WF)
    (fwf : fs2.WF) (fcwd : fs2.cwd = fs.cwd)
    (hsrc : fs1.lookup (s ++ [a]) = some (.file data mode))
    (hnew : fs2.lookup (d ++ [a]) = some (.file data mode))
    (hkeep : ∀ q, q ≠ d ++ [a] → fs2.lookup q = fs.lookup q)
    (fcount : ∀ t, ¬ t <+: d ++ [a] → fs2.countBelow t = fs.countBelow t) :
    LoopInv fs1 fs2 s d (done ++ [a]) := by
  obtain ⟨hwf, hcwd, hdir, hout, hdone, htodo, hcount⟩ := hinv
  have hda : ∀ name rel, name ≠ a → d ++ name :: rel ≠ d ++ [a] := by
    intro name rel hne h
    have := List.append_cancel_left h
    exact hne (List.cons.inj this).1
  refine ⟨fwf, fcwd.trans hcwd, ?_, ?_, ?_, ?_, ?_⟩
  · rw [hkeep d (fun h => child_ne_self d a (h ▸ List.prefix_refl _))]
    exact hdir
  · intro q hq
    rw [hkeep q (fun h => hq (h ▸ List.prefix_append d [a])), hout q hq]
  · intro name hname rel
    rcases List.mem_append.mp hname with hn | hn
    · have hne : name ≠ a := fun h => ha (h ▸ hn)
      rw [hkeep _ (hda name rel hne)]
      exact hdone name hn rel
    · simp only [List.mem_singleton] at hn
      subst hn
      cases rel with
      | nil =>
        rw [hsrc, hnew]
        rfl
      | cons r rs =>
        have hnone : fs1.lookup (s ++ name :: r :: rs) = none := by
          apply WF.below_none fs1 hwf1 (s ++ [name])
          · rw [hsrc]; rfl
          · exact ⟨r :: rs, by simp⟩
          · intro h
            have := congrArg List.length h
            simp at this
        rw [hnone]
        have hne2 : d ++ name :: r :: rs ≠ d ++ [name] := by
          intro h
          have := congrArg List.length h
          simp at this
        show fs2.lookup _ = none
        rw [hkeep _ hne2]
        exact htodo name ha (r :: rs)
  · intro name hname rel
    have hn1 : name ∉ done := fun h => hname (List.mem_append_left _ h)
    have hne : name ≠ a := fun h => hname (List.mem_append_right _ (by simp [h]))
    rw [hkeep _ (hda name rel hne)]
    exact htodo name hn1 rel
  · intro t ht1 ht2
    rw [fcount t ?_, hcount t ht1 ht2]
    intro h
    rcases List.prefix_concat_iff.mp h with h | h
    · exact ht2 (h ▸ List.prefix_append d [a])
    · exact ht1 h

/-- The loop of `copyDir` copies every entry of the listing, when the recursive
call does its work on every directory that has fewer than `n` entries below
it. -/
theorem copyEntries_ok (codec : Codec)
    (copySub : FS → Str → Str → Option (FS × Option OSError)) (n : Nat)
    (hrec : ∀ (fsx : FS) (srcx dstx : Str), CopyPre fsx srcx dstx →
      fsx.countBelow (fsx.resolve srcx) < n →
      ∃ fs2, copySub fsx srcx dstx = some (fs2, none) ∧ CopyPost fsx fs2 srcx dstx)
    (fs1 : FS) (src dst : Str) (hsrc : src ≠ []) (hdst : dst ≠ []) (hwf1 : fs1.WF)
    (hsd : ¬ fs1.resolve src <+: fs1.resolve dst)
    (hds : ¬ fs1.resolve dst <+: fs1.resolve src)
    (hcount : fs1.countBelow (fs1.resolve src) ≤ n) :
    ∀ (todo done : List Str) (fs : FS),
      LoopInv fs1 fs (fs1.resolve src) (fs1.resolve dst) done →
      (done ++ todo).Nodup →
      (∀ name ∈ todo, fs1.lookup (fs1.resolve src ++ [name]) ≠ none) →
      ∃ fs2, copyEntries (unixOS codec) copySub src dst fs
          (todo.map fun name =>
            { name := name, isDir := isDirEntry (fs1.lookup (fs1.resolve src ++ [name])) })
          = some (fs2, none) ∧
        LoopInv fs1 fs2 (fs1.resolve src) (fs1.resolve dst) (done ++ todo) := by
  intro todo
  induction todo with
  | nil =>
    intro done fs hinv _ _
    exact ⟨fs, rfl, by simpa using hinv⟩
  | cons a rest ih =>
    intro done fs hinv hnodup hex
    have ha : a ∉ done := by
      intro h
      have := List.disjoint_of_nodup_append hnodup
      exact this h (List.mem_cons_self _ _)
    have hnodup2 : ((done ++ [a]) ++ rest).Nodup := by simpa using hnodup
    have hex2 : ∀ name ∈ rest, fs1.lookup (fs1.resolve src ++ [name]) ≠ none :=
      fun name hn => hex name (List.mem_cons_of_mem _ hn)
    have hexa := hex a (List.mem_cons_self _ _)
    obtain ⟨hwf, hcwd, hdir, hout, hdone, htodo, hcnt⟩ := hinv
    -- the entry `a` of the source
    have hplain_a : PlainName a := by
      cases hl : fs1.lookup (fs1.resolve src ++ [a]) with
      | none => exact absurd hl hexa
      | some n0 =>
        have hmem := mem_of_lookup fs1 _ n0 (by simp) hl
        exact (hwf1.2 _ hmem).2.1 a (by simp)
    have hrs : fs.resolve (filepathJoin [src, a]) = fs1.resolve src ++ [a] := by
      rw [resolve_join fs src a hsrc hplain_a, resolve_of_cwd fs1 fs hcwd]
    have hrd : fs.resolve (filepathJoin [dst, a]) = fs1.resolve dst ++ [a] := by
      rw [resolve_join fs dst a hdst hplain_a, resolve_of_cwd fs1 fs hcwd]
    have hsrc_same : fs.lookup (fs1.resolve src ++ [a]) = fs1.lookup (fs1.resolve src ++ [a]) :=
      hout _ (not_prefix_below _ _ _ hsd hds)
    have hdst_none : ∀ q, fs1.resolve dst ++ [a] <+: q → fs.lookup q = none := by
      rintro q ⟨rel, rfl⟩
      have := htodo a ha rel
      simpa using this
    have hinv0 : LoopInv fs1 fs (fs1.resolve src) (fs1.resolve dst) done :=
      ⟨hwf, hcwd, hdir, hout, hdone, htodo, hcnt⟩
    simp only [List.map_cons, copyEntries]
    by_cases hisdir : isDirEntry (fs1.lookup (fs1.resolve src ++ [a])) = true
    · -- a directory: the recursive call
      have hpre : CopyPre fs (filepathJoin [src, a]) (filepathJoin [dst, a]) := by
        refine ⟨hwf, filepathJoin_ne_nil src a hsrc, filepathJoin_ne_nil dst a hdst, ?_, ?_, ?_,
          ?_, ?_⟩
        · rw [hrs, hsrc_same]; exact hisdir
        · rw [hrs, hrd]; exact not_prefix_child _ _ a hsd
        · rw [hrs, hrd]; exact not_prefix_child _ _ a hds
        · rw [hrd]
          intro p hp
          rcases List.prefix_concat_iff.mp hp with h | h
          · rw [h, hdst_none _ (List.prefix_refl _)]; rfl
          · by_cases hpd : p = fs1.resolve dst
            · rw [hpd]; exact isFileEntry_of_isDirEntry _ hdir
            · exact isFileEntry_of_isDirEntry _
                (WF.prefix_isDir fs hwf _
                  (by intro h0; rw [h0] at hdir; simp [isDirEntry] at hdir) p h hpd)
        · rw [hrd]; exact hdst_none
      have hlt : fs.countBelow (fs.resolve (filepathJoin [src, a])) < n := by
        rw [hrs, hcnt _ (fun h => hsd ((List.prefix_append _ _).trans h))
          (not_prefix_below _ _ _ hsd hds)]
        exact Nat.lt_of_lt_of_le (countBelow_lt fs1 _ a hexa) hcount
      obtain ⟨fs2, hrun, hframe, hsame⟩ := hrec fs _ _ hpre hlt
      rw [hrd] at hframe
      rw [hrs, hrd] at hsame
      have hinv2 := LoopInv_after_dir fs1 fs fs2 _ _ done a hinv0 ha hframe hsame hsd hds
      obtain ⟨fs3, hrun3, hinv3⟩ := ih (done ++ [a]) fs2 hinv2 hnodup2 hex2
      refine ⟨fs3, ?_, by simpa using hinv3⟩
      simp only [hisdir, if_true, hrun]
      exact hrun3
    · -- a regular file: `copyFile`
      have hisdir2 : isDirEntry (fs1.lookup (fs1.resolve src ++ [a])) = false := by
        simpa using hisdir
      obtain ⟨data, mode, hfile⟩ : ∃ data mode,
          fs1.lookup (fs1.resolve src ++ [a]) = some (.file data mode) := by
        cases hl : fs1.lookup (fs1.resolve src ++ [a]) with
        | none => exact absurd hl hexa
        | some n0 =>
          cases n0 with
          | file data mode => exact ⟨data, mode, rfl⟩
          | dir m => rw [hl] at hisdir2; simp [isDirEntry] at hisdir2
      have hplain_d : ∀ c ∈ fs.resolve (filepathJoin [dst, a]), PlainName c := by
        rw [hrd]
        intro c hc
        rcases List.mem_append.mp hc with hc | hc
        · exact resolve_plain fs1 dst hwf1.1 c hc
        · simp only [List.mem_singleton] at hc
          rw [hc]; exact hplain_a
      obtain ⟨fs2, hrun, fwf, fcwd, hnew, hkeep, fcount⟩ :=
        copyFile_spec codec fs (filepathJoin [src, a]) (filepathJoin [dst, a]) data mode hwf
          (filepathJoin_ne_nil src a hsrc) (filepathJoin_ne_nil dst a hdst)
          (by rw [hrs, hsrc_same]; exact hfile)
          (by rw [hrd]; exact hdst_none _ (List.prefix_refl _))
          hplain_d
          (by rw [hrd]; simpa using hdir)
      rw [hrd] at hnew hkeep fcount
      have hinv2 := LoopInv_after_file fs1 fs fs2 _ _ done a data mode hinv0 ha hwf1 fwf fcwd
        hfile hnew hkeep fcount
      obtain ⟨fs3, hrun3, hinv3⟩ := ih (done ++ [a]) fs2 hinv2 hnodup2 hex2
      refine ⟨fs3, ?_, by simpa using hinv3⟩
      simp only [hisdir2, Bool.false_eq_true, if_false, hrun]
      exact hrun3

/-- One level of `copyDir`: the directory is created, listed and copied, when
the recursive call does its work on every directory that has fewer than `n`
entries below it. -/
theorem copyDir_step (codec : Codec) (n : Nat)
    (hrec : ∀ (fsx : FS) (srcx dstx : Str), CopyPre fsx srcx dstx →
      fsx.countBelow (fsx.resolve srcx) < n →
      ∃ fs2, copyDir (unixOS codec) n fsx srcx dstx = some (fs2, none) ∧
        CopyPost fsx fs2 srcx dstx)
    (fs : FS) (src dst : Str) (hpre : CopyPre fs src dst)
    (hcount : fs.countBelow (fs.resolve src) ≤ n) :
    ∃ fs2, copyDir (unixOS codec) (n + 1) fs src dst = some (fs2, none) ∧
      CopyPost fs fs2 src dst := by
  obtain ⟨hwf, hsrc, hdst, hdir, hsd, hds, hnofile, hempty⟩ := hpre
  obtain ⟨mode, hmode⟩ := (isDirEntry_iff _).mp hdir
  have hstat : FS.stat fs src = .ok ⟨true, mode⟩ := by
    simp [FS.stat, hsrc, hmode]
  obtain ⟨fs1, hmk, hwf1, hcwd1, hdir1, hex1, hunt1, hcnt1⟩ :=
    mkdirAllFrom_spec dst mode (fs.resolve dst) fs [] hwf (by simp [lookup, isDirEntry])
      (by simpa using resolve_plain fs dst hwf.1) (by simpa using hnofile)
  simp only [List.nil_append] at hdir1 hunt1 hcnt1
  have hmkdir : FS.mkdirAll fs dst mode = (fs1, none) := by
    simp only [FS.mkdirAll, hdst, if_false]; exact hmk
  have hr1 : ∀ path, fs1.resolve path = fs.resolve path := resolve_of_cwd fs fs1 hcwd1
  have hS1 : fs1.lookup (fs.resolve src) = some (.dir mode) := by
    rw [hex1 _ (by rw [hmode]; simp), hmode]
  have hread := readDir_dir fs1 src mode hsrc (by rw [hr1]; exact hS1)
  have hinv1 : LoopInv fs1 fs1 (fs1.resolve src) (fs1.resolve dst) [] := by
    rw [hr1, hr1]
    refine ⟨hwf1, rfl, hdir1, fun _ _ => rfl, ?_, ?_, fun _ _ _ => rfl⟩
    · intro name hname; simp at hname
    · intro name _ rel
      rw [hunt1 _ (by
        intro h
        have := h.length_le
        simp at this)]
      exact hempty _ (List.prefix_append _ _)
  obtain ⟨fs2, hrun, hinv2⟩ := copyEntries_ok codec (copyDir (unixOS codec) n) n hrec fs1 src dst
    hsrc hdst hwf1 (by rw [hr1, hr1]; exact hsd) (by rw [hr1, hr1]; exact hds)
    (by rw [hr1, hcnt1 _ hsd]; exact hcount)
    (sortNames (fs1.childNames (fs1.resolve src))) [] fs1 hinv1
    (by simpa using nodup_listing fs1 _)
    (fun name hn => (mem_listing fs1 _ name).mp hn)
  simp only [List.nil_append] at hinv2
  rw [hr1, hr1] at hinv2
  obtain ⟨hwf2, hcwd2, hdir2, hout2, hdone2, htodo2, hcnt2⟩ := hinv2
  refine ⟨fs2, ?_, ⟨hwf2, hcwd2.trans hcwd1, ?_, ?_, ?_⟩, ?_⟩
  · simp only [copyDir, unixOS, hstat, hmkdir, hread]
    exact hrun
  · intro q hq hex
    rw [hout2 q hq, hex1 q hex]
  · intro q hq hq2
    rw [hout2 q hq, hunt1 q hq2]
  · intro t ht1 ht2
    rw [hcnt2 t ht1 ht2, hcnt1 t ht1]
  · intro rel
    have hsrc_same : fs1.lookup (fs.resolve src ++ rel) = fs.lookup (fs.resolve src ++ rel) :=
      hunt1 _ (fun h => hsd ((List.prefix_append _ _).trans h))
    cases rel with
    | nil =>
      simp only [List.append_nil]
      rw [hmode]
      exact hdir2
    | cons name r =>
      by_cases hn : name ∈ sortNames (fs1.childNames (fs.resolve src))
      · have := hdone2 name hn r
        rw [hsrc_same] at this
        exact this
      · have hnone1 : fs1.lookup (fs.resolve src ++ [name]) = none := by
          by_contra h
          exact hn ((mem_listing fs1 _ name).mpr h)
        have hnone : fs1.lookup (fs.resolve src ++ name :: r) = none := by
          by_cases hr : r = []
          · subst hr; exact hnone1
          · apply WF.below_none fs1 hwf1 (fs.resolve src ++ [name])
            · rw [hnone1]; rfl
            · exact ⟨r, by simp⟩
            · intro h
              have := congrArg List.length h
              simp at this
              exact hr this
        rw [← hsrc_same, hnone]
        exact htodo2 name hn r

/-- The function `copyDir` copies a directory to a path that does not exist
and is not below the directory, when no file is on the way to that path. -/
theorem copyDir_ok (codec : Codec) (n : Nat) :
    ∀ (fs : FS) (src dst : Str), CopyPre fs src dst →
      fs.countBelow (fs.resolve src) ≤ n →
      ∃ fs2, copyDir (unixOS codec) (n + 1) fs src dst = some (fs2, none) ∧
        CopyPost fs fs2 src dst := by
  induction n with
  | zero =>
    intro fs src dst hpre hcount
    exact copyDir_step codec 0 (fun _ _ _ _ h => absurd h (Nat.not_lt_zero _)) fs src dst hpre
      hcount
  | succ k ih =>
    intro fs src dst hpre hcount
    exact copyDir_step codec (k + 1)
      (fun fsx srcx dstx hp h => ih fsx srcx dstx hp (Nat.lt_succ_iff.mp h)) fs src dst hpre
      hcount

end FS

/-! ## The bound on the recursion -/

section Fuel

variable {σ : Type}

theorem copyEntries_mono (os : OS σ)
    (sub1 sub2 : σ → Str → Str → Option (σ × Option OSError))
    (h : ∀ s a b r, sub1 s a b = some r → sub2 s a b = some r) (src dst : Str) :
    ∀ (entries : List DirEntry) (s : σ) (r : σ × Option OSError),
      copyEntries os sub1 src dst s entries = some r →
      copyEntries os sub2 src dst s entries = some r := by
  intro entries
  induction entries with
  | nil => intro s r hr; exact hr
  | cons e rest ih =>
    intro s r hr
    simp only [copyEntries] at hr ⊢
    by_cases hd : e.isDir = true
    · simp only [hd, if_true] at hr ⊢
      cases hsub : sub1 s (filepathJoin [src, e.name]) (filepathJoin [dst, e.name]) with
      | none => rw [hsub] at hr; exact absurd hr (by simp)
      | some res =>
        rw [hsub] at hr
        rw [h _ _ _ _ hsub]
        obtain ⟨s1, err⟩ := res
        cases err with
        | some e1 => exact hr
        | none => exact ih s1 r hr
    · simp only [hd, if_false] at hr ⊢
      cases hcf : copyFile os s (filepathJoin [src, e.name]) (filepathJoin [dst, e.name]) with
      | mk s1 err =>
        rw [hcf] at hr
        cases err with
        | some e1 => exact hr
        | none => exact ih s1 r hr

/-- A result of `copyDir` does not depend on the bound, once the bound is
large enough to give one. -/
theorem copyDir_mono (os : OS σ) :
    ∀ (fuel : Nat) (s : σ) (src dst : Str) (r : σ × Option OSError),
      copyDir os fuel s src dst = some r → copyDir os (fuel + 1) s src dst = some r := by
  intro fuel
  induction fuel with
  | zero => intro s src dst r hr; simp [copyDir] at hr
  | succ f ih =>
    intro s src dst r hr
    rw [copyDir] at hr ⊢
    cases hst : os.stat s src with
    | error e => rw [hst] at hr; simp only [hst]; exact hr
    | ok info =>
      rw [hst] at hr
      simp only [hst] at hr ⊢
      cases hmk : os.mkdirAll s dst info.mode with
      | mk s1 err =>
        rw [hmk] at hr
        cases err with
        | some e1 => exact hr
        | none =>
          simp only at hr ⊢
          cases hrd : os.readDir s1 src with
          | error e => rw [hrd] at hr; exact hr
          | ok entries =>
            rw [hrd] at hr
            simp only at hr ⊢
            exact copyEntries_mono os _ _ ih src dst entries s1 r hr

theorem copyDir_mono_le (os : OS σ) (f g : Nat) (hfg : f ≤ g) (s : σ) (src dst : Str)
    (r : σ × Option OSError) (h : copyDir os f s src dst = some r) :
    copyDir os g s src dst = some r := by
  induction g, hfg using Nat.le_induction with
  | base => exact h
  | succ g _ ih => exact copyDir_mono os g s src dst r ih

end Fuel

/-! ## A destination inside the source -/

namespace FS

theorem mkdirAllFrom_facts (path : Str) (perm : Nat) (rest : List Str) :
    ∀ (fs : FS) (at_ : List Str),
      (mkdirAllFrom path perm fs at_ rest).1.cwd = fs.cwd ∧
      (∀ q, fs.lookup q ≠ none →
        (mkdirAllFrom path perm fs at_ rest).1.lookup q = fs.lookup q) ∧
      ((mkdirAllFrom path perm fs at_ rest).2 = none →
        ∀ pre, pre <+: rest → pre ≠ [] →
          isFileEntry (fs.lookup (at_ ++ pre)) = false ∧
          isDirEntry ((mkdirAllFrom path perm fs at_ rest).1.lookup (at_ ++ pre)) = true) := by
  induction rest with
  | nil =>
    intro fs at_
    refine ⟨rfl, fun _ _ => rfl, ?_⟩
    intro _ pre hpre hne
    exact absurd (List.prefix_nil.mp hpre) hne
  | cons c rest ih =>
    intro fs at_
    have hne : at_ ++ [c] ≠ [] := by simp
    have hsplit : ∀ pre, pre <+: c :: rest → pre ≠ [] →
        ∃ t, pre = c :: t ∧ t <+: rest ∧ at_ ++ pre = (at_ ++ [c]) ++ t := by
      intro pre hpre hpne
      rcases List.prefix_cons_iff.mp hpre with h | ⟨t, h1, h2⟩
      · exact absurd h hpne
      · exact ⟨t, h1, h2, by simp [h1]⟩
    cases hl : fs.lookup (at_ ++ [c]) with
    | some n =>
      cases n with
      | file d m =>
        simp [mkdirAllFrom, hl]
      | dir m =>
        simp only [mkdirAllFrom, hl]
        obtain ⟨h1, h2, h3⟩ := ih fs (at_ ++ [c])
        refine ⟨h1, h2, ?_⟩
        intro hok pre hpre hpne
        obtain ⟨t, _, ht, heq⟩ := hsplit pre hpre hpne
        rw [heq]
        by_cases htn : t = []
        · subst htn
          simp only [List.append_nil]
          rw [h2 _ (by rw [hl]; simp), hl]
          exact ⟨rfl, rfl⟩
        · exact h3 hok t ht htn
    | none =>
      simp only [mkdirAllFrom, hl]
      obtain ⟨h1, h2, h3⟩ := ih (fs.setNode (at_ ++ [c]) (.dir perm)) (at_ ++ [c])
      refine ⟨h1, ?_, ?_⟩
      · intro q hq
        have hqne : q ≠ at_ ++ [c] := by
          intro h0; rw [h0] at hq; exact hq hl
        rw [h2 q (by rw [lookup_setNode_ne _ _ _ _ hne hqne]; exact hq),
          lookup_setNode_ne _ _ _ _ hne hqne]
      · intro hok pre hpre hpne
        obtain ⟨t, _, ht, heq⟩ := hsplit pre hpre hpne
        rw [heq]
        by_cases htn : t = []
        · subst htn
          simp only [List.append_nil]
          rw [h2 _ (by rw [lookup_setNode_self _ _ _ hne]; simp),
            lookup_setNode_self _ _ _ hne, hl]
          exact ⟨rfl, rfl⟩
        · obtain ⟨h4, h5⟩ := h3 hok t ht htn
          refine ⟨?_, h5⟩
          rw [lookup_setNode_ne _ _ _ _ hne] at h4
          · exact h4
          · intro h0
            have := congrArg List.length h0
            simp at this
            exact htn this

theorem mkdirAll_cwd (fs : FS) (path : Str) (perm : Nat) :
    (FS.mkdirAll fs path perm).1.cwd = fs.cwd := by
  unfold FS.mkdirAll
  split
  · rfl
  · exact (mkdirAllFrom_facts path perm _ fs []).1

theorem create_cwd (fs : FS) (path : Str) : (FS.create fs path).1.cwd = fs.cwd := by
  unfold FS.create
  split
  · rfl
  · simp only
    split
    · rfl
    · rfl
    · split <;> rfl

theorem write_cwd (fs : FS) (path text : Str) : (FS.write fs path text).1.cwd = fs.cwd := by
  unfold FS.write
  split <;> rfl

theorem chmod_cwd (fs : FS) (path : Str) (mode : Nat) :
    (FS.chmod fs path mode).1.cwd = fs.cwd := by
  unfold FS.chmod
  split
  · rfl
  · split <;> rfl

theorem copyFile_cwd (codec : Codec) (fs : FS) (src dst : Str) :
    (copyFile (unixOS codec) fs src dst).1.cwd = fs.cwd := by
  unfold copyFile
  cases h1 : (unixOS codec).openFile fs src with
  | error e => rfl
  | ok u =>
    simp only
    have hc := create_cwd fs dst
    cases h2 : (unixOS codec).create fs dst with
    | mk s1 err1 =>
      have hc1 : s1.cwd = fs.cwd := by
        have : FS.create fs dst = (s1, err1) := h2
        rw [this] at hc; exact hc
      cases err1 with
      | some e => exact hc1
      | none =>
        simp only
        have hio : (ioCopy (unixOS codec) s1 src dst).1.cwd = s1.cwd := by
          unfold ioCopy
          cases (unixOS codec).readFile s1 src with
          | error e => rfl
          | ok text => exact write_cwd s1 dst text
        cases h3 : ioCopy (unixOS codec) s1 src dst with
        | mk s2 err2 =>
          rw [h3] at hio
          cases err2 with
          | some e => exact hio.trans hc1
          | none =>
            simp only
            cases (unixOS codec).stat s2 src with
            | error e => exact hio.trans hc1
            | ok info => exact (chmod_cwd s2 dst info.mode).trans (hio.trans hc1)

theorem copyEntries_cwd (codec : Codec)
    (copySub : FS → Str → Str → Option (FS × Option OSError))
    (hsub : ∀ fs a b r, copySub fs a b = some r → r.1.cwd = fs.cwd) (src dst : Str) :
    ∀ (entries : List DirEntry) (fs : FS) (r : FS × Option OSError),
      copyEntries (unixOS codec) copySub src dst fs entries = some r → r.1.cwd = fs.cwd := by
  intro entries
  induction entries with
  | nil =>
    intro fs r hr
    simp only [copyEntries, Option.some.injEq] at hr
    rw [← hr]
  | cons e rest ih =>
    intro fs r hr
    simp only [copyEntries] at hr
    by_cases hd : e.isDir = true
    · simp only [hd, if_true] at hr
      cases hs : copySub fs (filepathJoin [src, e.name]) (filepathJoin [dst, e.name]) with
      | none => rw [hs] at hr; exact absurd hr (by simp)
      | some res =>
        rw [hs] at hr
        have hc := hsub _ _ _ _ hs
        obtain ⟨s1, err⟩ := res
        cases err with
        | some e1 =>
          simp only [Option.some.injEq] at hr
          rw [← hr]; exact hc
        | none => exact (ih s1 r hr).trans hc
    · simp only [hd, if_false] at hr
      have hc := copyFile_cwd codec fs (filepathJoin [src, e.name]) (filepathJoin [dst, e.name])
      cases hcf : copyFile (unixOS codec) fs (filepathJoin [src, e.name])
          (filepathJoin [dst, e.name]) with
      | mk s1 err =>
        rw [hcf] at hr hc
        cases err with
        | some e1 =>
          simp only [Bool.false_eq_true, if_false, Option.some.injEq] at hr
          rw [← hr]; exact hc
        | none =>
          simp only [Bool.false_eq_true, if_false] at hr
          exact (ih s1 r hr).trans hc

theorem copyDir_cwd (codec : Codec) :
    ∀ (fuel : Nat) (fs : FS) (src dst : Str) (r : FS × Option OSError),
      copyDir (unixOS codec) fuel fs src dst = some r → r.1.cwd = fs.cwd := by
  intro fuel
  induction fuel with
  | zero => intro fs src dst r hr; simp [copyDir] at hr
  | succ f ih =>
    intro fs src dst r hr
    rw [copyDir] at hr
    cases hst : (unixOS codec).stat fs src with
    | error e =>
      rw [hst] at hr
      simp only [Option.some.injEq] at hr
      rw [← hr]
    | ok info =>
      rw [hst] at hr
      simp only at hr
      have hmc := mkdirAll_cwd fs dst info.mode
      cases hmk : (unixOS codec).mkdirAll fs dst info.mode with
      | mk s1 err =>
        have hmk2 : FS.mkdirAll fs dst info.mode = (s1, err) := hmk
        rw [hmk2] at hmc
        rw [hmk] at hr
        cases err with
        | some e1 =>
          simp only [Option.some.injEq] at hr
          rw [← hr]; exact hmc
        | none =>
          simp only at hr
          cases hrd : (unixOS codec).readDir s1 src with
          | error e =>
            rw [hrd] at hr
            simp only [Option.some.injEq] at hr
            rw [← hr]; exact hmc
          | ok entries =>
            rw [hrd] at hr
            simp only at hr
            exact (copyEntries_cwd codec _ ih src dst entries s1 r hr).trans hmc

theorem copyEntries_never_nil (codec : Codec)
    (copySub : FS → Str → Str → Option (FS × Option OSError)) (src dst : Str) (fs0 : FS)
    (name : Str)
    (hsub : ∀ fsx fs2, fsx.cwd = fs0.cwd →
      copySub fsx (filepathJoin [src, name]) (filepathJoin [dst, name]) ≠ some (fs2, none))
    (hcwd : ∀ fs a b r, copySub fs a b = some r → r.1.cwd = fs.cwd) :
    ∀ (entries : List DirEntry) (fs fs2 : FS), fs.cwd = fs0.cwd →
      ({ name := name, isDir := true } : DirEntry) ∈ entries →
      copyEntries (unixOS codec) copySub src dst fs entries ≠ some (fs2, none) := by
  intro entries
  induction entries with
  | nil => intro fs fs2 _ hmem; simp at hmem
  | cons e rest ih =>
    intro fs fs2 hfs hmem hr
    simp only [copyEntries] at hr
    by_cases hd : e.isDir = true
    · simp only [hd, if_true] at hr
      cases hs : copySub fs (filepathJoin [src, e.name]) (filepathJoin [dst, e.name]) with
      | none => rw [hs] at hr; exact absurd hr (by simp)
      | some res =>
        rw [hs] at hr
        have hc := hcwd _ _ _ _ hs
        obtain ⟨s1, err⟩ := res
        cases err with
        | some e1 => simp at hr
        | none =>
          rcases List.mem_cons.mp hmem with h | h
          · rw [← h] at hs
            exact hsub fs s1 hfs hs
          · exact ih s1 fs2 (hc.trans hfs) h hr
    · have hne : ({ name := name, isDir := true } : DirEntry) ≠ e := by
        intro h; rw [← h] at hd; exact hd rfl
      have hmem2 : ({ name := name, isDir := true } : DirEntry) ∈ rest := by
        rcases List.mem_cons.mp hmem with h | h
        · exact absurd h hne
        · exact h
      simp only [hd, if_false] at hr
      have hc := copyFile_cwd codec fs (filepathJoin [src, e.name]) (filepathJoin [dst, e.name])
      cases hcf : copyFile (unixOS codec) fs (filepathJoin [src, e.name])
          (filepathJoin [dst, e.name]) with
      | mk s1 err =>
        rw [hcf] at hr hc
        cases err with
        | some e1 => simp at hr
        | none =>
          simp only [Bool.false_eq_true, if_false] at hr
          exact ih s1 fs2 (hc.trans hfs) hmem2 hr

/-- A copy of a directory to a path inside it never returns nil: in this
model, where a path may be of any length, the recursion goes on below the
destination until the bound is reached. -/
theorem copyDir_inside_never_nil (codec : Codec) :
    ∀ (fuel : Nat) (fs : FS) (src dst : Str) (fs2 : FS),
      (∀ c ∈ fs.cwd, PlainName c) → src ≠ [] → dst ≠ [] →
      ∀ (c : Str) (rest : List Str), fs.resolve dst = fs.resolve src ++ c :: rest →
      copyDir (unixOS codec) fuel fs src dst ≠ some (fs2, none) := by
  intro fuel
  induction fuel with
  | zero => intro fs src dst fs2 _ _ _ _ _ _; simp [copyDir]
  | succ f ih =>
    intro fs src dst fs2 hplain hsrc hdst c rest hin hr
    rw [copyDir] at hr
    cases hst : (unixOS codec).stat fs src with
    | error e => rw [hst] at hr; simp at hr
    | ok info =>
      rw [hst] at hr
      simp only at hr
      cases hmk : (unixOS codec).mkdirAll fs dst info.mode with
      | mk fs1 err =>
        rw [hmk] at hr
        cases err with
        | some e1 => simp at hr
        | none =>
          simp only at hr
          have hmk2 : mkdirAllFrom dst info.mode fs [] (fs.resolve dst) = (fs1, none) := by
            have : FS.mkdirAll fs dst info.mode = (fs1, none) := hmk
            simpa [FS.mkdirAll, hdst] using this
          obtain ⟨hc1, _, hdirs⟩ := mkdirAllFrom_facts dst info.mode (fs.resolve dst) fs []
          rw [hmk2] at hc1 hdirs
          have hcdir : isDirEntry (fs1.lookup (fs.resolve src ++ [c])) = true := by
            have := (hdirs rfl (fs.resolve src ++ [c])
              (by rw [hin]; exact ⟨rest, by simp⟩) (by simp)).2
            simpa using this
          have hr1 : fs1.resolve src = fs.resolve src := resolve_of_cwd fs fs1 hc1 src
          have hpc : PlainName c :=
            resolve_plain fs dst hplain c (by rw [hin]; simp)
          cases hrd : (unixOS codec).readDir fs1 src with
          | error e => rw [hrd] at hr; simp at hr
          | ok entries =>
            rw [hrd] at hr
            simp only at hr
            have hmem : ({ name := c, isDir := true } : DirEntry) ∈ entries := by
              have hrd2 : FS.readDir fs1 src = .ok entries := hrd
              simp only [FS.readDir, hsrc, if_false, hr1] at hrd2
              split at hrd2
              · simp at hrd2
              · simp at hrd2
              · simp only [Except.ok.injEq] at hrd2
                rw [← hrd2, List.mem_map]
                refine ⟨c, ?_, by rw [hcdir]⟩
                rw [mem_listing]
                intro h0; rw [h0] at hcdir; simp [isDirEntry] at hcdir
            refine copyEntries_never_nil codec _ src dst fs c ?_ (copyDir_cwd codec f)
              entries fs1 fs2 hc1 hmem hr
            intro fsx fs3 hfsx
            have hxs : fsx.resolve (filepathJoin [src, c]) = fs.resolve src ++ [c] := by
              rw [resolve_join fsx src c hsrc hpc, resolve_of_cwd fs fsx hfsx]
            have hxd : fsx.resolve (filepathJoin [dst, c])
                = fs.resolve src ++ [c] ++ (rest ++ [c]) := by
              rw [resolve_join fsx dst c hdst hpc, resolve_of_cwd fs fsx hfsx, hin]
              simp
            obtain ⟨c2, rest2, hc2⟩ : ∃ c2 rest2, rest ++ [c] = c2 :: rest2 := by
              cases rest with
              | nil => exact ⟨c, [], rfl⟩
              | cons r rs => exact ⟨r, rs ++ [c], rfl⟩
            exact ih fsx _ _ fs3 (by rw [hfsx]; exact hplain)
              (filepathJoin_ne_nil src c hsrc) (filepathJoin_ne_nil dst c hdst) c2 rest2
              (by rw [hxs, hxd, hc2])

/-- What a run of `copyDir` that returns nil tells of the state it started
from: the two paths are not empty, the source is a directory and no file is
on the way to the destination. -/
theorem copyDir_nil_inv (codec : Codec) (fuel : Nat) (fs : FS) (src dst : Str) (fs2 : FS)
    (hr : copyDir (unixOS codec) fuel fs src dst = some (fs2, none)) :
    src ≠ [] ∧ dst ≠ [] ∧ isDirEntry (fs.lookup (fs.resolve src)) = true ∧
      ∀ p ∈ (fs.resolve dst).inits, isFileEntry (fs.lookup p) = false := by
  cases fuel with
  | zero => simp [copyDir] at hr
  | succ f =>
    rw [copyDir] at hr
    cases hst : (unixOS codec).stat fs src with
    | error e => rw [hst] at hr; simp at hr
    | ok info =>
      rw [hst] at hr
      simp only at hr
      have hsrc : src ≠ [] := by
        intro h0
        have : FS.stat fs src = .ok info := hst
        simp [FS.stat, h0] at this
      have hex : fs.lookup (fs.resolve src) ≠ none := by
        intro h0
        have : FS.stat fs src = .ok info := hst
        simp [FS.stat, hsrc, h0] at this
      cases hmk : (unixOS codec).mkdirAll fs dst info.mode with
      | mk fs1 err =>
        rw [hmk] at hr
        cases err with
        | some e1 => simp at hr
        | none =>
          simp only at hr
          have hmk1 : FS.mkdirAll fs dst info.mode = (fs1, none) := hmk
          have hdst : dst ≠ [] := by
            intro h0
            simp [FS.mkdirAll, h0] at hmk1
          have hmk2 : mkdirAllFrom dst info.mode fs [] (fs.resolve dst) = (fs1, none) := by
            simpa [FS.mkdirAll, hdst] using hmk1
          obtain ⟨hc1, hkeep, hdirs⟩ := mkdirAllFrom_facts dst info.mode (fs.resolve dst) fs []
          rw [hmk2] at hc1 hkeep hdirs
          have hr1 : fs1.resolve src = fs.resolve src := resolve_of_cwd fs fs1 hc1 src
          refine ⟨hsrc, hdst, ?_, ?_⟩
          · cases hrd : (unixOS codec).readDir fs1 src with
            | error e => rw [hrd] at hr; simp at hr
            | ok entries =>
              have hrd2 : FS.readDir fs1 src = .ok entries := hrd
              simp only [FS.readDir, hsrc, if_false, hr1] at hrd2
              rw [← hkeep _ hex]
              split at hrd2
              · simp at hrd2
              · simp at hrd2
              · rename_i m hm
                rw [hm]; rfl
          · intro p hp
            rw [List.mem_inits] at hp
            by_cases hpn : p = []
            · subst hpn; simp [lookup, isFileEntry]
            · have := (hdirs rfl p hp hpn).1
              simpa using this

end FS

/-! ## The recursive file copier -/

/-- **C2.** In every well-formed file system, for every source path and every
destination path that does not exist: whenever `copyDir` returns nil, no step
having failed, every path below the destination holds a copy of the entry at
the same path below the source (nothing where the source has nothing, a file
with the same text and the same permission bits where the source has a file,
a directory where the source has a directory) and the source is left as it
was; and `copyDir` does return nil when the source is a directory (empty or
not, with or without files at its top level), no regular file is on the way
to the destination, and the destination is not inside the source. -/
theorem copyDir_copies_tree (codec : Codec) (fs : FS) (src dst : Str)
    (hwf : fs.WF) (hnew : fs.lookup (fs.resolve dst) = none) :
    (∀ fuel fs2, copyDir (unixOS codec) fuel fs src dst = some (fs2, none) →
      (∀ rel, FS.sameEntry (fs.lookup (fs.resolve src ++ rel))
        (fs2.lookup (fs.resolve dst ++ rel))) ∧
      (∀ rel, fs2.lookup (fs.resolve src ++ rel) = fs.lookup (fs.resolve src ++ rel))) ∧
    (src ≠ [] → dst ≠ [] → FS.isDirEntry (fs.lookup (fs.resolve src)) = true →
      (∀ p ∈ (fs.resolve dst).inits, FS.isFileEntry (fs.lookup p) = false) →
      ¬ fs.resolve src <+: fs.resolve dst →
      ∃ fs2, copyDir (unixOS codec) (fs.nodes.length + 1) fs src dst = some (fs2, none)) := by
  have hnd : FS.isDirEntry (fs.lookup (fs.resolve dst)) = false := by rw [hnew]; rfl
  -- the run from a state that meets the conditions
  have hrun : src ≠ [] → dst ≠ [] → FS.isDirEntry (fs.lookup (fs.resolve src)) = true →
      (∀ p ∈ (fs.resolve dst).inits, FS.isFileEntry (fs.lookup p) = false) →
      ¬ fs.resolve src <+: fs.resolve dst →
      ∃ fs2, copyDir (unixOS codec) (fs.nodes.length + 1) fs src dst = some (fs2, none) ∧
        (∀ rel, FS.sameEntry (fs.lookup (fs.resolve src ++ rel))
          (fs2.lookup (fs.resolve dst ++ rel))) ∧
        (∀ rel, fs2.lookup (fs.resolve src ++ rel) = fs.lookup (fs.resolve src ++ rel)) := by
    intro hsrc hdst hdir hway hout
    have hds : ¬ fs.resolve dst <+: fs.resolve src := by
      intro h
      by_cases heq : fs.resolve dst = fs.resolve src
      · rw [heq] at hnd; rw [hnd] at hdir; exact absurd hdir (by simp)
      · have := FS.WF.prefix_isDir fs hwf _
          (by intro h0; rw [h0] at hdir; simp [FS.isDirEntry] at hdir) _ h heq
        rw [hnd] at this
        exact absurd this (by simp)
    have hpre : FS.CopyPre fs src dst := by
      refine ⟨hwf, hsrc, hdst, hdir, hout, hds, ?_, ?_⟩
      · intro p hp
        exact hway p ((List.mem_inits _ _).mpr hp)
      · intro q hq
        by_cases heq : q = fs.resolve dst
        · rw [heq]; exact hnew
        · exact FS.WF.below_none fs hwf _ q hnd hq heq
    obtain ⟨fs2, hrun, hframe, hsame⟩ :=
      FS.copyDir_ok codec fs.nodes.length fs src dst hpre (FS.countBelow_le fs _)
    refine ⟨fs2, hrun, hsame, ?_⟩
    intro rel
    obtain ⟨_, _, hex, hunt, _⟩ := hframe
    have h1 := FS.not_prefix_below _ _ rel hout hds
    by_cases hq : fs.lookup (fs.resolve src ++ rel) = none
    · exact hunt _ h1 (fun h => hout ((List.prefix_append _ _).trans h))
    · exact hex _ h1 hq
  refine ⟨?_, fun h1 h2 h3 h4 h5 => (hrun h1 h2 h3 h4 h5).imp fun _ h => h.1⟩
  intro fuel fs2 hr
  obtain ⟨hsrc, hdst, hdir, hway⟩ := FS.copyDir_nil_inv codec fuel fs src dst fs2 hr
  have hout : ¬ fs.resolve src <+: fs.resolve dst := by
    rintro ⟨t, ht⟩
    cases t with
    | nil =>
      simp only [List.append_nil] at ht
      rw [← ht, hdir] at hnd
      exact absurd hnd (by simp)
    | cons c rest =>
      exact FS.copyDir_inside_never_nil codec fuel fs src dst fs2 hwf.1 hsrc hdst c rest ht.symm hr
  obtain ⟨fs3, hr3, hpost⟩ := hrun hsrc hdst hdir hway hout
  have e1 := copyDir_mono_le (unixOS codec) fuel (max fuel (fs.nodes.length + 1))
    (Nat.le_max_left _ _) fs src dst _ hr
  have e2 := copyDir_mono_le (unixOS codec) (fs.nodes.length + 1)
    (max fuel (fs.nodes.length + 1)) (Nat.le_max_right _ _) fs src dst _ hr3
  rw [e1] at e2
  simp only [Option.some.injEq, Prod.mk.injEq, and_true] at e2
  rw [e2]
  exact hpost

/-- Witness of **C2**: in the sample state the directory `src`, which holds
two files and a directory with a file, is copied to `out/copy`, the empty
directory `empty` to `none`, and the directory `nest`, which holds a
directory only, to `nest2`; each copy holds what its source holds. -/
theorem copyDir_copies_tree_witness :
    (∃ fs2, copyDir (unixOS sampleCodec) (sampleFS.nodes.length + 1) sampleFS
        "src".toList "out/copy".toList = some (fs2, none) ∧
      ∀ rel, FS.sameEntry (sampleFS.lookup (sampleFS.resolve "src".toList ++ rel))
        (fs2.lookup (sampleFS.resolve "out/copy".toList ++ rel))) ∧
    (∃ fs2, copyDir (unixOS sampleCodec) (sampleFS.nodes.length + 1) sampleFS
        "empty".toList "none".toList = some (fs2, none) ∧
      ∀ rel, FS.sameEntry (sampleFS.lookup (sampleFS.resolve "empty".toList ++ rel))
        (fs2.lookup (sampleFS.resolve "none".toList ++ rel))) ∧
    (∃ fs2, copyDir (unixOS sampleCodec) (sampleFS.nodes.length + 1) sampleFS
        "nest".toList "nest2".toList = some (fs2, none) ∧
      ∀ rel, FS.sameEntry (sampleFS.lookup (sampleFS.resolve "nest".toList ++ rel))
        (fs2.lookup (sampleFS.resolve "nest2".toList ++ rel))) :=
  have h1 := copyDir_copies_tree sampleCodec sampleFS "src".toList "out/copy".toList
    (by decide) (by decide)
  have h2 := copyDir_copies_tree sampleCodec sampleFS "empty".toList "none".toList
    (by decide) (by decide)
  have h3 := copyDir_copies_tree sampleCodec sampleFS "nest".toList "nest2".toList
    (by decide) (by decide)
  ⟨(h1.2 (by decide) (by decide) (by decide) (by decide) (by decide)).imp
      fun fs2 h => ⟨h, (h1.1 _ fs2 h).1⟩,
   (h2.2 (by decide) (by decide) (by decide) (by decide) (by decide)).imp
      fun fs2 h => ⟨h, (h2.1 _ fs2 h).1⟩,
   (h3.2 (by decide) (by decide) (by decide) (by decide) (by decide)).imp
      fun fs2 h => ⟨h, (h3.1 _ fs2 h).1⟩⟩

/-! ## The manifest sniffer -/

/-- **C4.** For every state of the machine and every directory `dir`,
`detectLocalModuleType` returns `GoProject` when the stat of `dir/go.mod`
succeeds, whatever the stat of `dir/package.json` gives; otherwise
`NodeProject` when the stat of `dir/package.json` succeeds; otherwise
`Unknown`, whatever the two errors are.  The result depends on the state only
through the success of these two stats, and `detectProjectType` is
`detectLocalModuleType` on the directory `.`.  In the file system the two
paths denote the entries `go.mod` and `package.json` of the directory itself. -/
theorem detectLocalModuleType_precedence {σ : Type} (os : OS σ) (s : σ) (dir : Str) :
    (∀ info, os.stat s (filepathJoin [dir, "go.mod".toList]) = .ok info →
      detectLocalModuleType os s dir = .GoProject) ∧
    (∀ e info, os.stat s (filepathJoin [dir, "go.mod".toList]) = .error e →
      os.stat s (filepathJoin [dir, "package.json".toList]) = .ok info →
      detectLocalModuleType os s dir = .NodeProject) ∧
    (∀ e1 e2, os.stat s (filepathJoin [dir, "go.mod".toList]) = .error e1 →
      os.stat s (filepathJoin [dir, "package.json".toList]) = .error e2 →
      detectLocalModuleType os s dir = .Unknown) ∧
    (∀ (τ : Type) (os2 : OS τ) (s2 : τ),
      isNil (os2.stat s2 (filepathJoin [dir, "go.mod".toList]))
        = isNil (os.stat s (filepathJoin [dir, "go.mod".toList])) →
      isNil (os2.stat s2 (filepathJoin [dir, "package.json".toList]))
        = isNil (os.stat s (filepathJoin [dir, "package.json".toList])) →
      detectLocalModuleType os2 s2 dir = detectLocalModuleType os s dir) ∧
    detectProjectType os s = detectLocalModuleType os s ['.'] ∧
    (∀ fs : FS, dir ≠ [] →
      fs.resolve (filepathJoin [dir, "go.mod".toList]) = fs.resolve dir ++ ["go.mod".toList] ∧
      fs.resolve (filepathJoin [dir, "package.json".toList])
        = fs.resolve dir ++ ["package.json".toList]) := by
  refine ⟨?_, ?_, ?_, ?_, ?_, ?_⟩
  · intro info h
    simp only [detectLocalModuleType, h, isNil, if_true]
  · intro e info h1 h2
    simp only [detectLocalModuleType, h1, h2, isNil, if_true, if_false, Bool.false_eq_true]
  · intro e1 e2 h1 h2
    simp only [detectLocalModuleType, h1, h2, isNil, if_false, Bool.false_eq_true]
  · intro τ os2 s2 h1 h2
    simp only [detectLocalModuleType, h1, h2]
  · have e1 : filepathJoin [['.'], "go.mod".toList] = "go.mod".toList := by decide
    have e2 : filepathJoin [['.'], "package.json".toList] = "package.json".toList := by decide
    simp only [detectProjectType, detectLocalModuleType, e1, e2]
  · intro fs hdir
    exact ⟨FS.resolve_join fs dir _ hdir (by decide), FS.resolve_join fs dir _ hdir (by decide)⟩

/-- Witness of **C4**: in the sample state `both` holds the two manifests,
`js` only `package.json`, and `empty` none. -/
theorem detectLocalModuleType_precedence_witness :
    detectLocalModuleType (unixOS sampleCodec) sampleFS "both".toList = .GoProject ∧
    detectLocalModuleType (unixOS sampleCodec) sampleFS "js".toList = .NodeProject ∧
    detectLocalModuleType (unixOS sampleCodec) sampleFS "empty".toList = .Unknown ∧
    sampleFS.resolve (filepathJoin ["./js/".toList, "go.mod".toList])
      = sampleFS.resolve "./js/".toList ++ ["go.mod".toList] :=
  ⟨(detectLocalModuleType_precedence (unixOS sampleCodec) sampleFS "both".toList).1
      ⟨false, 0o644⟩ rfl,
   (detectLocalModuleType_precedence (unixOS sampleCodec) sampleFS "js".toList).2.1
      (FS.enoent "stat" "js/go.mod".toList) ⟨false, 0o644⟩ rfl rfl,
   (detectLocalModuleType_precedence (unixOS sampleCodec) sampleFS "empty".toList).2.2.1
      (FS.enoent "stat" "empty/go.mod".toList) (FS.enoent "stat" "empty/package.json".toList)
      rfl rfl,
   ((detectLocalModuleType_precedence (unixOS sampleCodec) sampleFS "./js/".toList).2.2.2.2.2
      sampleFS (by decide)).1⟩

/-! ## The ledger: maps -/

theorem lookup_map_replace (l : List (Str × List Str)) (key other : Str) (value : List Str) :
    List.lookup other (l.map fun kv => if kv.1 == key then (key, value) else kv)
      = if other = key then (if l.any (fun kv => kv.1 == key) then some value else none)
        else l.lookup other := by
  induction l with
  | nil => simp
  | cons kv rest ih =>
    obtain ⟨k, v⟩ := kv
    by_cases hk : k = key
    · subst hk
      have hd : (if ((k, v).1 == k) = true then (k, value) else (k, v)) = (k, value) := by simp
      rw [List.map_cons, hd, List.lookup_cons]
      by_cases ho : other = k
      · subst ho
        simp
      · have hb : (other == k) = false := by simpa using ho
        simp only [hb, ih, ho, if_false, List.lookup_cons]
    · have hd : (if ((k, v).1 == key) = true then (key, value) else (k, v)) = (k, v) := by
        simp [hk]
      have hkb : (k == key) = false := by simpa using hk
      rw [List.map_cons, hd, List.lookup_cons, List.lookup_cons]
      by_cases ho : other = k
      · subst ho
        simp [hk]
      · have hb : (other == k) = false := by simpa using ho
        simp only [hb, ih, List.any_cons, hkb, Bool.false_or]

theorem lookup_append_single (l : List (Str × List Str)) (key other : Str) (value : List Str) :
    List.lookup other (l ++ [(key, value)])
      = match l.lookup other with
        | some v => some v
        | none => if other = key then some value else none := by
  induction l with
  | nil =>
    rw [List.nil_append, List.lookup_cons]
    by_cases ho : other = key
    · subst ho; simp
    · have hb : (other == key) = false := by simpa using ho
      simp [hb, ho]
  | cons kv rest ih =>
    obtain ⟨k, v⟩ := kv
    rw [List.cons_append, List.lookup_cons, List.lookup_cons]
    by_cases ho : other = k
    · subst ho; simp
    · have hb : (other == k) = false := by simpa using ho
      simp only [hb, ih]

theorem lookup_none_of_not_any (m : List (Str × List Str)) (key : Str)
    (h : ¬ (m.any fun kv => kv.1 == key) = true) : m.lookup key = none := by
  rw [List.lookup_eq_none_iff]
  intro kv hkv
  simp only [List.any_eq_true, not_exists, not_and, beq_iff_eq] at h
  have := h kv hkv
  simpa using fun h2 => this h2.symm

theorem lookup_mapSet (m : List (Str × List Str)) (key other : Str) (value : List Str) :
    (mapSet m key value).lookup other = if other = key then some value else m.lookup other := by
  unfold mapSet
  by_cases hany : (m.any fun kv => kv.1 == key) = true
  · simp only [hany, if_true, lookup_map_replace]
  · simp only [hany, Bool.false_eq_true, if_false, lookup_append_single]
    by_cases ho : other = key
    · subst ho
      simp [lookup_none_of_not_any m other hany]
    · simp only [ho, if_false]
      cases m.lookup other <;> rfl

theorem mapGet_mapSet (m : List (Str × List Str)) (key : Str) (value : List Str) :
    mapGet (mapSet m key value) key = value := by
  simp [mapGet, lookup_mapSet]

theorem mapGet_mapSet_ne (m : List (Str × List Str)) (key other : Str) (value : List Str)
    (h : other ≠ key) : mapGet (mapSet m key value) other = mapGet m other := by
  simp [mapGet, lookup_mapSet, h]

theorem mapGet_recordedMap (m : List (Str × List Str)) (wd module : Str) :
    mapGet (recordedMap m wd module) wd = mapGet m wd ++ [module] := by
  unfold recordedMap
  rw [mapGet_mapSet]
  by_cases h : m.lookup wd = none
  · have h2 : mapGet m wd = [] := by simp [mapGet, h]
    simp only [h, if_true, mapGet_mapSet, h2]
  · simp [h]

theorem ledgerList_forgottenData (data : CLIData) (wd module : Str) :
    ledgerList (forgottenData data wd module) wd = (ledgerList data wd).erase module := by
  unfold forgottenData ledgerList
  cases hm : data.InstalledModules with
  | none => simp [hm]
  | some m =>
    simp only
    by_cases hin : module ∈ mapGet m wd
    · simp [hin, mapGet_mapSet]
    · simp [hin, hm, List.erase_of_not_mem hin]

section LedgerProgram

variable {σ : Type}

/-- What `saveInstalledModule` does when the working directory is known and the
ledger loads with a map: nothing when the identifier is in the list of the
working directory, and else it saves the map with the identifier added. -/
theorem saveInstalledModule_eq (os : OS σ) (s : σ) (module wd : Str)
    (m : List (Str × List Str)) (hwd : os.getwd s = .ok wd)
    (hload : loadData os s = .ok { InstalledModules := some m }) :
    saveInstalledModule os s module =
      if module ∈ mapGet m wd then some s
      else some (saveData os s { InstalledModules := some (recordedMap m wd module) }).1 := by
  have hget : mapGet (if m.lookup wd = none then mapSet m wd [] else m) wd = mapGet m wd := by
    by_cases h : m.lookup wd = none
    · have h2 : mapGet m wd = [] := by simp [mapGet, h]
      simp only [h, if_true, mapGet_mapSet, h2]
    · simp [h]
  simp only [saveInstalledModule, hwd, hload, hget, recordedMap]

/-- What `removeInstalledModule` does when the working directory is known and
the ledger loads: it saves the ledger without the first occurrence of the
identifier. -/
theorem removeInstalledModule_eq (os : OS σ) (s : σ) (module wd : Str) (data : CLIData)
    (hwd : os.getwd s = .ok wd) (hload : loadData os s = .ok data) :
    removeInstalledModule os s module
      = some (saveData os s (forgottenData data wd module)).1 := by
  simp only [removeInstalledModule, hwd, hload, forgottenData]
  cases data.InstalledModules with
  | none => rfl
  | some m =>
    simp only
    split <;> rfl

end LedgerProgram

/-! ## The file system: nothing is removed -/

namespace FS

theorem Keeps.refl (fs : FS) : Keeps fs fs :=
  ⟨rfl, rfl, rfl, fun _ => ⟨id, id⟩⟩

theorem Keeps.trans {a b c : FS} (h1 : Keeps a b) (h2 : Keeps b c) : Keeps a c :=
  ⟨h2.1.trans h1.1, h2.2.1.trans h1.2.1, h2.2.2.1.trans h1.2.2.1,
    fun q => ⟨fun h => (h2.2.2.2 q).1 ((h1.2.2.2 q).1 h), fun h => (h2.2.2.2 q).2 ((h1.2.2.2 q).2 h)⟩⟩

theorem lookup_setNode_root (fs : FS) (n : Node) (q : List Str) :
    (fs.setNode [] n).lookup q = fs.lookup q := by
  by_cases hq : q = []
  · simp [lookup, hq]
  · have hb : (q == ([] : List Str)) = false := by simpa using hq
    simp only [lookup, setNode, hq, if_false, List.lookup_cons, hb]
    exact lookup_filter_ne _ _ _ hq

/-- Binding a path keeps what exists, when the path was not a directory or the
new entry is one. -/
theorem Keeps_setNode (fs : FS) (p : List Str) (n : Node)
    (h : isDirEntry (fs.lookup p) = true → isDirEntry (some n) = true) :
    Keeps fs (fs.setNode p n) := by
  refine ⟨rfl, rfl, rfl, ?_⟩
  intro q
  by_cases hp : p = []
  · subst hp
    rw [lookup_setNode_root]
    exact ⟨id, id⟩
  · rw [lookup_setNode fs p q n hp]
    by_cases hq : q = p
    · subst hq
      simp only [if_true]
      exact ⟨h, fun _ => by simp⟩
    · simp only [hq, if_false]
      exact ⟨id, id⟩

theorem create_keeps (fs : FS) (path : Str) : Keeps fs (FS.create fs path).1 := by
  unfold FS.create
  split
  · exact Keeps.refl fs
  · simp only
    split
    · exact Keeps.refl fs
    · rename_i d m hl
      exact Keeps_setNode fs _ _ (by rw [hl]; simp [isDirEntry])
    · rename_i hl
      split
      · exact Keeps_setNode fs _ _ (by rw [hl]; simp [isDirEntry])
      · exact Keeps.refl fs
      · exact Keeps.refl fs

theorem write_keeps (fs : FS) (path text : Str) : Keeps fs (FS.write fs path text).1 := by
  unfold FS.write
  split
  · rename_i d m hl
    exact Keeps_setNode fs _ _ (by rw [hl]; simp [isDirEntry])
  · exact Keeps.refl fs
  · exact Keeps.refl fs

theorem chmod_keeps (fs : FS) (path : Str) (mode : Nat) :
    Keeps fs (FS.chmod fs path mode).1 := by
  unfold FS.chmod
  split
  · exact Keeps.refl fs
  · split
    · rename_i d m hl
      exact Keeps_setNode fs _ _ (by rw [hl]; simp [isDirEntry])
    · exact Keeps_setNode fs _ _ (fun _ => rfl)
    · exact Keeps.refl fs

theorem mkdirAllFrom_keeps (path : Str) (perm : Nat) (rest : List Str) :
    ∀ (fs : FS) (at_ : List Str), Keeps fs (mkdirAllFrom path perm fs at_ rest).1 := by
  induction rest with
  | nil => intro fs at_; exact Keeps.refl fs
  | cons c rest ih =>
    intro fs at_
    cases hl : fs.lookup (at_ ++ [c]) with
    | some n =>
      cases n with
      | file d m => simp only [mkdirAllFrom, hl]; exact Keeps.refl fs
      | dir m => simp only [mkdirAllFrom, hl]; exact ih fs _
    | none =>
      simp only [mkdirAllFrom, hl]
      exact (Keeps_setNode fs (at_ ++ [c]) (.dir perm) (fun _ => rfl)).trans (ih _ _)

theorem mkdirAll_keeps (fs : FS) (path : Str) (perm : Nat) :
    Keeps fs (FS.mkdirAll fs path perm).1 := by
  unfold FS.mkdirAll
  split
  · exact Keeps.refl fs
  · exact mkdirAllFrom_keeps path perm _ fs []

theorem copyFile_keeps (codec : Codec) (fs : FS) (src dst : Str) :
    Keeps fs (copyFile (unixOS codec) fs src dst).1 := by
  unfold copyFile
  cases h1 : (unixOS codec).openFile fs src with
  | error e => exact Keeps.refl fs
  | ok u =>
    simp only
    have hc := create_keeps fs dst
    cases h2 : (unixOS codec).create fs dst with
    | mk s1 err1 =>
      have hc1 : Keeps fs s1 := by
        have : FS.create fs dst = (s1, err1) := h2
        rw [this] at hc; exact hc
      cases err1 with
      | some e => exact hc1
      | none =>
        simp only
        have hio : Keeps s1 (ioCopy (unixOS codec) s1 src dst).1 := by
          unfold ioCopy
          cases (unixOS codec).readFile s1 src with
          | error e => exact Keeps.refl s1
          | ok text => exact write_keeps s1 dst text
        cases h3 : ioCopy (unixOS codec) s1 src dst with
        | mk s2 err2 =>
          rw [h3] at hio
          cases err2 with
          | some e => exact hc1.trans hio
          | none =>
            simp only
            cases (unixOS codec).stat s2 src with
            | error e => exact hc1.trans hio
            | ok info => exact (hc1.trans hio).trans (chmod_keeps s2 dst info.mode)

theorem copyEntries_keeps (codec : Codec)
    (copySub : FS → Str → Str → Option (FS × Option OSError))
    (hsub : ∀ fs a b r, copySub fs a b = some r → Keeps fs r.1) (src dst : Str) :
    ∀ (entries : List DirEntry) (fs : FS) (r : FS × Option OSError),
      copyEntries (unixOS codec) copySub src dst fs entries = some r → Keeps fs r.1 := by
  intro entries
  induction entries with
  | nil =>
    intro fs r hr
    simp only [copyEntries, Option.some.injEq] at hr
    rw [← hr]
    exact Keeps.refl fs
  | cons e rest ih =>
    intro fs r hr
    simp only [copyEntries] at hr
    by_cases hd : e.isDir = true
    · simp only [hd, if_true] at hr
      cases hs : copySub fs (filepathJoin [src, e.name]) (filepathJoin [dst, e.name]) with
      | none => rw [hs] at hr; exact absurd hr (by simp)
      | some res =>
        rw [hs] at hr
        have hc := hsub _ _ _ _ hs
        obtain ⟨s1, err⟩ := res
        cases err with
        | some e1 =>
          simp only [Option.some.injEq] at hr
          rw [← hr]; exact hc
        | none => exact hc.trans (ih s1 r hr)
    · simp only [hd, if_false] at hr
      have hc := copyFile_keeps codec fs (filepathJoin [src, e.name]) (filepathJoin [dst, e.name])
      cases hcf : copyFile (unixOS codec) fs (filepathJoin [src, e.name])
          (filepathJoin [dst, e.name]) with
      | mk s1 err =>
        rw [hcf] at hr hc
        cases err with
        | some e1 =>
          simp only [Bool.false_eq_true, if_false, Option.some.injEq] at hr
          rw [← hr]; exact hc
        | none =>
          simp only [Bool.false_eq_true, if_false] at hr
          exact hc.trans (ih s1 r hr)

/-- No run of `copyDir`, failed or not, removes an entry or turns a directory
into a file. -/
theorem copyDir_keeps (codec : Codec) :
    ∀ (fuel : Nat) (fs : FS) (src dst : Str) (r : FS × Option OSError),
      copyDir (unixOS codec) fuel fs src dst = some r → Keeps fs r.1 := by
  intro fuel
  induction fuel with
  | zero => intro fs src dst r hr; simp [copyDir] at hr
  | succ f ih =>
    intro fs src dst r hr
    rw [copyDir] at hr
    cases hst : (unixOS codec).stat fs src with
    | error e =>
      rw [hst] at hr
      simp only [Option.some.injEq] at hr
      rw [← hr]
      exact Keeps.refl fs
    | ok info =>
      rw [hst] at hr
      simp only at hr
      have hmc := mkdirAll_keeps fs dst info.mode
      cases hmk : (unixOS codec).mkdirAll fs dst info.mode with
      | mk s1 err =>
        have hmk2 : FS.mkdirAll fs dst info.mode = (s1, err) := hmk
        rw [hmk2] at hmc
        rw [hmk] at hr
        cases err with
        | some e1 =>
          simp only [Option.some.injEq] at hr
          rw [← hr]; exact hmc
        | none =>
          simp only at hr
          cases hrd : (unixOS codec).readDir s1 src with
          | error e =>
            rw [hrd] at hr
            simp only [Option.some.injEq] at hr
            rw [← hr]; exact hmc
          | ok entries =>
            rw [hrd] at hr
            simp only at hr
            exact hmc.trans (copyEntries_keeps codec _ ih src dst entries s1 r hr)

theorem getDataFilePath_keeps (codec : Codec) (fs fs2 : FS) (h : Keeps fs fs2) :
    getDataFilePath (unixOS codec) fs2 = getDataFilePath (unixOS codec) fs := by
  simp only [getDataFilePath, unixOS, FS.userConfigDir, h.2.1, h.2.2.1]

theorem saveData_keeps (codec : Codec) (fs : FS) (data : CLIData) :
    Keeps fs (saveData (unixOS codec) fs data).1 := by
  unfold saveData
  simp only
  have h1 := mkdirAll_keeps fs (filepathDir (getDataFilePath (unixOS codec) fs)) 0o755
  cases hmk : (unixOS codec).mkdirAll fs (filepathDir (getDataFilePath (unixOS codec) fs)) 0o755 with
  | mk s1 err =>
    have : FS.mkdirAll fs (filepathDir (getDataFilePath (unixOS codec) fs)) 0o755 = (s1, err) := hmk
    rw [this] at h1
    cases err with
    | some e => exact h1
    | none =>
      simp only
      have h2 := create_keeps s1 (getDataFilePath (unixOS codec) fs)
      cases hcr : (unixOS codec).create s1 (getDataFilePath (unixOS codec) fs) with
      | mk s2 err2 =>
        have : FS.create s1 (getDataFilePath (unixOS codec) fs) = (s2, err2) := hcr
        rw [this] at h2
        cases err2 with
        | some e => exact h1.trans h2
        | none => exact (h1.trans h2).trans (write_keeps s2 _ _)

end FS

/-! ## The ledger file -/

namespace FS

theorem filepathJoin3_ne_nil (a b c : Str) (hc : c ≠ []) : filepathJoin [a, b, c] ≠ [] := by
  by_cases ha : a = []
  · by_cases hb : b = []
    · simp only [filepathJoin, ha, hb, hc, if_true, if_false]
      exact filepathClean_ne_nil _
    · simp only [filepathJoin, ha, hb, if_true, if_false]
      exact filepathClean_ne_nil _
  · simp only [filepathJoin, ha, if_false]
    exact filepathClean_ne_nil _

theorem getDataFilePath_ne_nil {σ : Type} (os : OS σ) (s : σ) : getDataFilePath os s ≠ [] := by
  unfold getDataFilePath
  exact filepathJoin3_ne_nil _ _ _ (by decide)

theorem create_ok (fs : FS) (path : Str) (fs2 : FS) (h : FS.create fs path = (fs2, none)) :
    path ≠ [] ∧ fs.resolve path ≠ [] ∧
      ∃ mode, fs2 = fs.setNode (fs.resolve path) (.file [] mode) := by
  unfold FS.create at h
  by_cases hp : path = []
  · simp [hp] at h
  · simp only [hp, if_false] at h
    have hroot : ∀ p : List Str, (∃ d m, fs.lookup p = some (.file d m)) ∨ fs.lookup p = none →
        p ≠ [] := by
      intro p hl h0
      subst h0
      rcases hl with ⟨d, m, hl⟩ | hl <;> simp [lookup] at hl
    cases hl : fs.lookup (fs.resolve path) with
    | some n =>
      cases n with
      | dir m => rw [hl] at h; simp at h
      | file d m =>
        rw [hl] at h
        simp only [Prod.mk.injEq, and_true] at h
        exact ⟨hp, hroot _ (Or.inl ⟨d, m, hl⟩), m, h.symm⟩
    | none =>
      rw [hl] at h
      simp only at h
      cases hpar : fs.lookup (fs.resolve path).dropLast with
      | none => rw [hpar] at h; simp at h
      | some n =>
        cases n with
        | file d m => rw [hpar] at h; simp at h
        | dir m =>
          rw [hpar] at h
          simp only [Prod.mk.injEq, and_true] at h
          exact ⟨hp, hroot _ (Or.inr hl), 0o644, h.symm⟩

/-- After a `saveData` that returns nil, the ledger file holds exactly the text
of the ledger saved. -/
theorem saveData_ok (codec : Codec) (fs : FS) (data : CLIData)
    (h : (saveData (unixOS codec) fs data).2 = none) :
    ∃ mode, (saveData (unixOS codec) fs data).1.lookup
        ((saveData (unixOS codec) fs data).1.resolve (getDataFilePath (unixOS codec) fs))
      = some (.file (codec.encode data) mode) := by
  have hk := saveData_keeps codec fs data
  have hres : (saveData (unixOS codec) fs data).1.resolve (getDataFilePath (unixOS codec) fs)
      = fs.resolve (getDataFilePath (unixOS codec) fs) := resolve_of_cwd fs _ hk.1 _
  rw [hres]
  unfold saveData at h ⊢
  simp only at h ⊢
  have hm := mkdirAll_keeps fs (filepathDir (getDataFilePath (unixOS codec) fs)) 0o755
  cases hmk : (unixOS codec).mkdirAll fs (filepathDir (getDataFilePath (unixOS codec) fs)) 0o755 with
  | mk s1 err =>
    have hmk2 : FS.mkdirAll fs (filepathDir (getDataFilePath (unixOS codec) fs)) 0o755
        = (s1, err) := hmk
    rw [hmk2] at hm
    rw [hmk] at h
    cases err with
    | some e => simp at h
    | none =>
      simp only at h ⊢
      have hr1 : s1.resolve (getDataFilePath (unixOS codec) fs)
          = fs.resolve (getDataFilePath (unixOS codec) fs) := resolve_of_cwd fs s1 hm.1 _
      cases hcr : (unixOS codec).create s1 (getDataFilePath (unixOS codec) fs) with
      | mk s2 err2 =>
        rw [hcr] at h
        cases err2 with
        | some e => simp at h
        | none =>
          simp only at h ⊢
          obtain ⟨_, hne, mode, hs2⟩ := create_ok s1 _ s2 hcr
          rw [hr1] at hne hs2
          have hl2 : s2.lookup (s2.resolve (getDataFilePath (unixOS codec) fs))
              = some (.file [] mode) := by
            have : s2.resolve (getDataFilePath (unixOS codec) fs)
                = fs.resolve (getDataFilePath (unixOS codec) fs) := by
              rw [hs2]; exact hr1
            rw [this, hs2, lookup_setNode_self _ _ _ hne]
          have hw : (unixOS codec).write s2 (getDataFilePath (unixOS codec) fs)
              ((unixOS codec).jsonEncode data)
              = (s2.setNode (s2.resolve (getDataFilePath (unixOS codec) fs))
                  (.file ([] ++ codec.encode data) mode), none) := by
            show FS.write s2 _ _ = _
            simp only [FS.write, hl2]
            rfl
          rw [hw]
          have : s2.resolve (getDataFilePath (unixOS codec) fs)
              = fs.resolve (getDataFilePath (unixOS codec) fs) := by
            rw [hs2]; exact hr1
          rw [this]
          exact ⟨mode, by rw [lookup_setNode_self _ _ _ hne]; rfl⟩

/-- What `loadData` returns when the ledger file is a regular file: the
decoding of its text. -/
theorem loadData_file (codec : Codec) (fs : FS) (text : Str) (mode : Nat)
    (h : fs.lookup (fs.resolve (getDataFilePath (unixOS codec) fs)) = some (.file text mode)) :
    loadData (unixOS codec) fs = codec.decode text { InstalledModules := some [] } := by
  have hne := getDataFilePath_ne_nil (unixOS codec) fs
  have h1 : (unixOS codec).openFile fs (getDataFilePath (unixOS codec) fs) = .ok () := by
    show FS.openFile fs _ = _
    simp [FS.openFile, hne, h]
  have h2 : (unixOS codec).readFile fs (getDataFilePath (unixOS codec) fs) = .ok text := by
    show FS.readFile fs _ = _
    simp [FS.readFile, hne, h]
  simp only [loadData, h1, h2]
  rfl

/-- What `loadData` returns when there is no ledger file: the empty ledger. -/
theorem loadData_absent (codec : Codec) (fs : FS)
    (h : fs.lookup (fs.resolve (getDataFilePath (unixOS codec) fs)) = none) :
    loadData (unixOS codec) fs = .ok { InstalledModules := some [] } := by
  have hne := getDataFilePath_ne_nil (unixOS codec) fs
  have h1 : (unixOS codec).openFile fs (getDataFilePath (unixOS codec) fs)
      = .error (enoent "open" (getDataFilePath (unixOS codec) fs)) := by
    show FS.openFile fs _ = _
    simp [FS.openFile, hne, h]
  simp only [loadData, h1]
  rfl

end FS

/-- **C18.** For every ledger value and every state of the file system,
whatever the ledger file held before: when `saveData` returns nil, a
following `loadData` returns the decoding of the text that `saveData` encoded;
hence, for a ledger that the codec reads back as it wrote it, `loadData`
returns, without error, that same ledger: the same keys and for each key the
same identifiers in the same order. -/
theorem saveData_loadData_round_trip (codec : Codec) (fs : FS) (data : CLIData)
    (hsave : (saveData (unixOS codec) fs data).2 = none) :
    loadData (unixOS codec) (saveData (unixOS codec) fs data).1
      = codec.decode (codec.encode data) { InstalledModules := some [] } ∧
    (codec.decode (codec.encode data) { InstalledModules := some [] } = .ok data →
      loadData (unixOS codec) (saveData (unixOS codec) fs data).1 = .ok data) := by
  obtain ⟨mode, hfile⟩ := FS.saveData_ok codec fs data hsave
  rw [← FS.getDataFilePath_keeps codec fs _ (FS.saveData_keeps codec fs data)] at hfile
  have h := FS.loadData_file codec _ _ mode hfile
  exact ⟨h, fun hc => h.trans hc⟩

/-- Witness of **C18**: a ledger of two projects is saved over the ledger file
of the sample state `ledgerFS` and read back. -/
theorem saveData_loadData_round_trip_witness :
    loadData (unixOS sampleJson) (saveData (unixOS sampleJson) ledgerFS twoProjects).1
      = .ok twoProjects :=
  (saveData_loadData_round_trip sampleJson ledgerFS twoProjects (by decide)).2 (by decide)

/-! ## The ledger: recording and forgetting -/

section LedgerClaims

variable {σ : Type}

theorem listedModules_eq (os : OS σ) (s : σ) (wd : Str) (data : CLIData)
    (hwd : os.getwd s = .ok wd) (hload : loadData os s = .ok data) :
    listedModules os s = some (ledgerList data wd) := by
  simp only [listedModules, hwd, hload]

theorem listedModules_saved (os : OS σ) (s : σ) (wd : Str) (data : CLIData)
    (hst : Stores os s wd data) :
    listedModules os (saveData os s data).1 = some (ledgerList data wd) :=
  listedModules_eq os _ wd data hst.1 hst.2

theorem forgottenData_absent (data : CLIData) (wd module : Str)
    (h : module ∉ ledgerList data wd) : forgottenData data wd module = data := by
  unfold forgottenData
  cases hm : data.InstalledModules with
  | none => rfl
  | some m =>
    have : module ∉ mapGet m wd := by simpa [ledgerList, hm] using h
    simp [this]

theorem not_mem_erase_of_count_le_one (l : List Str) (x : Str) (h : l.count x ≤ 1) :
    x ∉ l.erase x := by
  intro hin
  have h1 : 0 < (l.erase x).count x := List.count_pos_iff.2 hin
  rw [List.count_erase_self] at h1
  omega

/-- For every ledger that loads with a map, whose list for the working
directory has no duplicate, and every identifier: `saveInstalledModule`
returns, and the list
read back has no duplicate; when the identifier is in the list (exact match of
the strings) the state is left as it is, and otherwise the list read back is
the old list with the identifier added at its end; a second
`saveInstalledModule` of the same identifier leaves the state of the first as
it is. -/
theorem saveInstalledModule_no_duplicate (os : OS σ) (s : σ) (module wd : Str)
    (m : List (Str × List Str)) (hwd : os.getwd s = .ok wd)
    (hload : loadData os s = .ok { InstalledModules := some m })
    (hnd : (mapGet m wd).Nodup)
    (hst : Stores os s wd { InstalledModules := some (recordedMap m wd module) }) :
    ∃ s1 l1, saveInstalledModule os s module = some s1 ∧
      listedModules os s1 = some l1 ∧ l1.Nodup ∧
      (module ∈ mapGet m wd → s1 = s ∧ l1 = mapGet m wd) ∧
      (module ∉ mapGet m wd → l1 = mapGet m wd ++ [module]) ∧
      saveInstalledModule os s1 module = some s1 := by
  have heq := saveInstalledModule_eq os s module wd m hwd hload
  by_cases hin : module ∈ mapGet m wd
  · rw [if_pos hin] at heq
    refine ⟨s, mapGet m wd, heq, ?_, hnd, fun _ => ⟨rfl, rfl⟩, fun h => absurd hin h, heq⟩
    rw [listedModules_eq os s wd _ hwd hload]
    rfl
  · rw [if_neg hin] at heq
    refine ⟨_, mapGet m wd ++ [module], heq, ?_, ?_, fun h => absurd h hin, fun _ => rfl, ?_⟩
    · rw [listedModules_saved os s wd _ hst]
      simp only [ledgerList, mapGet_recordedMap]
    · rw [List.nodup_append]
      refine ⟨hnd, List.nodup_singleton _, ?_⟩
      intro a ha hb
      rw [List.mem_singleton] at hb
      exact hin (hb ▸ ha)
    · rw [saveInstalledModule_eq os _ module wd _ hst.1 hst.2, if_pos]
      rw [mapGet_recordedMap]
      simp

/-- An instance of `saveInstalledModule_no_duplicate`: the identifier `y` is
recorded in the state whose ledger holds `x`. -/
theorem saveInstalledModule_no_duplicate_witness :
    ∃ s1 l1, saveInstalledModule (unixOS sampleJson) singleFS "y".toList = some s1 ∧
      listedModules (unixOS sampleJson) s1 = some l1 ∧ l1.Nodup ∧
      ("y".toList ∈ mapGet [("/proj".toList, ["x".toList])] "/proj".toList →
        s1 = singleFS ∧ l1 = mapGet [("/proj".toList, ["x".toList])] "/proj".toList) ∧
      ("y".toList ∉ mapGet [("/proj".toList, ["x".toList])] "/proj".toList →
        l1 = mapGet [("/proj".toList, ["x".toList])] "/proj".toList ++ ["y".toList]) ∧
      saveInstalledModule (unixOS sampleJson) s1 "y".toList = some s1 :=
  saveInstalledModule_no_duplicate (unixOS sampleJson) singleFS "y".toList "/proj".toList
    [("/proj".toList, ["x".toList])] (by decide) (by decide) (by decide)
    ⟨by decide, by decide⟩

set_option maxRecDepth 100000 in
/-- **C13.** The ledger file holds `null` for the map of the installed
modules: the list of the working directory is empty, so it has no duplicate
and does not hold the identifier `y`, yet `saveInstalledModule` of `y` does
not add `y` at its end: it panics on the assignment to an entry of the nil
map, and nothing is written.  With the empty object in place of `null` the
list read back after the call is `y`. -/
theorem saveInstalledModule_null_ledger :
    listedModules (unixOS sampleJson) nullFS = some [] ∧
    saveInstalledModule (unixOS sampleJson) nullFS "y".toList = none ∧
    (saveInstalledModule (unixOS sampleJson) (withLedger
        "\x7b\"installed_modules\":\x7b\x7d\x7d\n".toList) "y".toList).bind
      (listedModules (unixOS sampleJson)) = some ["y".toList] := by
  decide

/-- **C14.** For every ledger whose list for the working directory has no
duplicate and every identifier: `removeInstalledModule` returns, and the list
read back does not hold the identifier and is the old list without it, the
other identifiers in their old order; it is one shorter when the identifier
was in the list and is the old list when it was not. -/
theorem removeInstalledModule_removes (os : OS σ) (s : σ) (module wd : Str) (data : CLIData)
    (hwd : os.getwd s = .ok wd) (hload : loadData os s = .ok data)
    (hnd : (ledgerList data wd).Nodup)
    (hst : Stores os s wd (forgottenData data wd module)) :
    ∃ s1 l1, removeInstalledModule os s module = some s1 ∧
      listedModules os s1 = some l1 ∧ module ∉ l1 ∧
      l1 = (ledgerList data wd).filter (fun x => x != module) ∧
      (module ∈ ledgerList data wd → l1.length + 1 = (ledgerList data wd).length) ∧
      (module ∉ ledgerList data wd → l1 = ledgerList data wd) := by
  refine ⟨_, (ledgerList data wd).erase module,
    removeInstalledModule_eq os s module wd data hwd hload, ?_, ?_, ?_, ?_, ?_⟩
  · rw [listedModules_saved os s wd _ hst, ledgerList_forgottenData]
  · exact fun h => ((List.Nodup.mem_erase_iff hnd).1 h).1 rfl
  · exact List.Nodup.erase_eq_filter hnd module
  · intro hin
    rw [List.length_erase_of_mem hin]
    have := List.length_pos_of_mem hin
    omega
  · exact fun h => List.erase_of_not_mem h

/-- Witness of **C14**: the identifier `x` is removed from the ledger that holds
it once. -/
theorem removeInstalledModule_removes_witness :
    ∃ s1 l1, removeInstalledModule (unixOS sampleJson) singleFS "x".toList = some s1 ∧
      listedModules (unixOS sampleJson) s1 = some l1 ∧ "x".toList ∉ l1 ∧
      l1 = (ledgerList { InstalledModules := some [("/proj".toList, ["x".toList])] }
        "/proj".toList).filter (fun x => x != "x".toList) ∧
      ("x".toList ∈ ledgerList { InstalledModules := some [("/proj".toList, ["x".toList])] }
          "/proj".toList →
        l1.length + 1 = (ledgerList { InstalledModules := some [("/proj".toList, ["x".toList])] }
          "/proj".toList).length) ∧
      ("x".toList ∉ ledgerList { InstalledModules := some [("/proj".toList, ["x".toList])] }
          "/proj".toList →
        l1 = ledgerList { InstalledModules := some [("/proj".toList, ["x".toList])] }
          "/proj".toList) :=
  removeInstalledModule_removes (unixOS sampleJson) singleFS "x".toList "/proj".toList
    { InstalledModules := some [("/proj".toList, ["x".toList])] } (by decide) (by decide)
    (by decide) ⟨by decide, by decide⟩

/-- **C15.** For every ledger whose list for the working directory holds the
identifier at most once: `removeInstalledModule` returns both times, the list
read back after the second call is the list read back after the first, and
when the identifier is not in the list the list read back is the old list. -/
theorem removeInstalledModule_idempotent (os : OS σ) (s : σ) (module wd : Str)
    (data : CLIData) (hwd : os.getwd s = .ok wd) (hload : loadData os s = .ok data)
    (hcount : (ledgerList data wd).count module ≤ 1)
    (hst : Stores os s wd (forgottenData data wd module))
    (hst2 : Stores os (saveData os s (forgottenData data wd module)).1 wd
      (forgottenData data wd module)) :
    ∃ s1 s2 l1, removeInstalledModule os s module = some s1 ∧
      removeInstalledModule os s1 module = some s2 ∧
      listedModules os s1 = some l1 ∧ listedModules os s2 = some l1 ∧
      (module ∉ ledgerList data wd → l1 = ledgerList data wd) := by
  have hidem : forgottenData (forgottenData data wd module) wd module
      = forgottenData data wd module := by
    apply forgottenData_absent
    rw [ledgerList_forgottenData]
    exact not_mem_erase_of_count_le_one _ _ hcount
  refine ⟨_, _, (ledgerList data wd).erase module,
    removeInstalledModule_eq os s module wd data hwd hload,
    removeInstalledModule_eq os _ module wd _ hst.1 hst.2, ?_, ?_, ?_⟩
  · rw [listedModules_saved os s wd _ hst, ledgerList_forgottenData]
  · rw [hidem, listedModules_saved os _ wd _ hst2, ledgerList_forgottenData]
  · exact fun h => List.erase_of_not_mem h

/-- Witness of **C15**: the identifier `x` is removed twice from the ledger that
holds it once. -/
theorem removeInstalledModule_idempotent_witness :
    ∃ s1 s2 l1, removeInstalledModule (unixOS sampleJson) singleFS "x".toList = some s1 ∧
      removeInstalledModule (unixOS sampleJson) s1 "x".toList = some s2 ∧
      listedModules (unixOS sampleJson) s1 = some l1 ∧
      listedModules (unixOS sampleJson) s2 = some l1 ∧
      ("x".toList ∉ ledgerList { InstalledModules := some [("/proj".toList, ["x".toList])] }
          "/proj".toList →
        l1 = ledgerList { InstalledModules := some [("/proj".toList, ["x".toList])] }
          "/proj".toList) :=
  removeInstalledModule_idempotent (unixOS sampleJson) singleFS "x".toList "/proj".toList
    { InstalledModules := some [("/proj".toList, ["x".toList])] } (by decide) (by decide)
    (by decide) ⟨by decide, by decide⟩ ⟨by decide, by decide⟩

/-- The counterexample of **C15**: the ledger file holds the identifier `x`
twice for the project; one `removeInstalledModule` leaves the list `x`, a
second one leaves the empty list. -/
theorem removeInstalledModule_twice_differs :
    listedModules (unixOS sampleJson) ledgerFS = some ["x".toList, "x".toList] ∧
    (removeInstalledModule (unixOS sampleJson) ledgerFS "x".toList).bind
        (listedModules (unixOS sampleJson)) = some ["x".toList] ∧
    ((removeInstalledModule (unixOS sampleJson) ledgerFS "x".toList).bind
        (fun s1 => removeInstalledModule (unixOS sampleJson) s1 "x".toList)).bind
        (listedModules (unixOS sampleJson)) = some [] := by
  decide

/-- **C16.** For every ledger that loads with a map whose list for the working
directory does not hold the identifier: `saveInstalledModule` and then
`removeInstalledModule` of the identifier both return, and the list read back
is the list before the two calls. -/
theorem save_then_remove_restores (os : OS σ) (s : σ) (x wd : Str)
    (m : List (Str × List Str)) (hwd : os.getwd s = .ok wd)
    (hload : loadData os s = .ok { InstalledModules := some m })
    (hnew : x ∉ mapGet m wd)
    (hst : Stores os s wd { InstalledModules := some (recordedMap m wd x) })
    (hst2 : Stores os (saveData os s { InstalledModules := some (recordedMap m wd x) }).1 wd
      (forgottenData { InstalledModules := some (recordedMap m wd x) } wd x)) :
    listedModules os s = some (mapGet m wd) ∧
    ∃ s1 s2, saveInstalledModule os s x = some s1 ∧
      removeInstalledModule os s1 x = some s2 ∧
      listedModules os s2 = some (mapGet m wd) := by
  have heq := saveInstalledModule_eq os s x wd m hwd hload
  rw [if_neg hnew] at heq
  refine ⟨listedModules_eq os s wd _ hwd hload, _, _, heq,
    removeInstalledModule_eq os _ x wd _ hst.1 hst.2, ?_⟩
  rw [listedModules_saved os _ wd _ hst2, ledgerList_forgottenData]
  simp only [ledgerList, mapGet_recordedMap]
  rw [List.erase_append_right _ hnew]
  simp

/-- Witness of **C16**: the identifier `y` is recorded in the ledger that holds
`x` and removed again. -/
theorem save_then_remove_restores_witness :
    listedModules (unixOS sampleJson) singleFS
      = some (mapGet [("/proj".toList, ["x".toList])] "/proj".toList) ∧
    ∃ s1 s2, saveInstalledModule (unixOS sampleJson) singleFS "y".toList = some s1 ∧
      removeInstalledModule (unixOS sampleJson) s1 "y".toList = some s2 ∧
      listedModules (unixOS sampleJson) s2
        = some (mapGet [("/proj".toList, ["x".toList])] "/proj".toList) :=
  save_then_remove_restores (unixOS sampleJson) singleFS "y".toList "/proj".toList
    [("/proj".toList, ["x".toList])] (by decide) (by decide) (by decide)
    ⟨by decide, by decide⟩ ⟨by decide, by decide⟩

/-- The counterexample of **C16**: the ledger holds the identifier `x` for the
project; `saveInstalledModule` of `x` changes nothing, `removeInstalledModule`
of `x` removes it, and the list, `x` before the two calls, is empty after
them. -/
theorem save_then_remove_loses :
    listedModules (unixOS sampleJson) singleFS = some ["x".toList] ∧
    (saveInstalledModule (unixOS sampleJson) singleFS "x".toList).bind
        (listedModules (unixOS sampleJson)) = some ["x".toList] ∧
    ((saveInstalledModule (unixOS sampleJson) singleFS "x".toList).bind
        (fun s1 => removeInstalledModule (unixOS sampleJson) s1 "x".toList)).bind
        (listedModules (unixOS sampleJson)) = some [] := by
  decide

end LedgerClaims

/-! ## Loading the ledger -/

/-- **C17.** In every state: when the open of the ledger file fails with an
error that `os.IsNotExist` accepts, `loadData` returns the ledger with the
empty map and the nil error; when the file opens and is read and the decoder
returns an error on its text, `loadData` returns that error and no ledger. -/
theorem loadData_missing_or_corrupt {σ : Type} (os : OS σ) (s : σ) :
    (∀ err, os.openFile s (getDataFilePath os s) = .error err → err.isNotExist = true →
      loadData os s = .ok { InstalledModules := some [] }) ∧
    (∀ text err, os.openFile s (getDataFilePath os s) = .ok () →
      os.readFile s (getDataFilePath os s) = .ok text →
      os.jsonDecode text { InstalledModules := some [] } = .error err →
      loadData os s = .error err) := by
  refine ⟨?_, ?_⟩
  · intro err h1 h2
    simp only [loadData, h1, h2, if_true]
  · intro text err h1 h2 h3
    simp only [loadData, h1, h2, h3]

/-- Witness of **C17**: the sample state `sampleFS` has no ledger file, and the
ledger file of `corruptFS` is not the text of a ledger. -/
theorem loadData_missing_or_corrupt_witness :
    loadData (unixOS sampleJson) sampleFS = .ok { InstalledModules := some [] } ∧
    loadData (unixOS sampleJson) corruptFS
      = .error { isNotExist := false, text := "invalid ledger text".toList } :=
  ⟨(loadData_missing_or_corrupt (unixOS sampleJson) sampleFS).1
      (FS.enoent "open" "/home/u/.config/automationgenie/cli.json".toList)
      (by decide) (by decide),
   (loadData_missing_or_corrupt (unixOS sampleJson) corruptFS).2
      "installed_modules".toList { isNotExist := false, text := "invalid ledger text".toList }
      (by decide) (by decide) (by decide)⟩

/-! ## The recursive copy stops at the first error -/

theorem copyEntries_append {σ : Type} (os : OS σ)
    (copySub : σ → Str → Str → Option (σ × Option OSError)) (src dst : Str) :
    ∀ (pre : List DirEntry) (s sk : σ) (post : List DirEntry),
      copyEntries os copySub src dst s pre = some (sk, none) →
      copyEntries os copySub src dst s (pre ++ post)
        = copyEntries os copySub src dst sk post := by
  intro pre
  induction pre with
  | nil =>
    intro s sk post h
    simp only [copyEntries, Option.some.injEq, Prod.mk.injEq, and_true] at h
    rw [List.nil_append, h]
  | cons entry rest ih =>
    intro s sk post h
    rw [List.cons_append]
    rw [copyEntries] at h ⊢
    by_cases hd : entry.isDir = true
    · simp only [hd, if_true] at h ⊢
      cases hs : copySub s (filepathJoin [src, entry.name]) (filepathJoin [dst, entry.name]) with
      | none => rw [hs] at h; simp at h
      | some r =>
        obtain ⟨s1, err⟩ := r
        rw [hs] at h
        cases err with
        | some e => simp at h
        | none => exact ih s1 sk post h
    · simp only [hd, if_false, Bool.false_eq_true] at h ⊢
      cases hc : copyFile os s (filepathJoin [src, entry.name])
          (filepathJoin [dst, entry.name]) with
      | mk s1 err =>
        rw [hc] at h
        cases err with
        | some e => simp at h
        | none => exact ih s1 sk post h

/-- **C19.** For every source and destination, `copyDir` returns the error of
the first step that fails, with the state that step left: the stat of the
source; the creation of the destination; the listing of the source; and, when
the entries listed before one entry have been copied, the copy of that entry,
a nested directory or a file, whatever entries are listed after it.  In the
file system no entry that exists when `copyDir` starts, and none that it
makes, is removed by it. -/
theorem copyDir_fails_fast {σ : Type} (os : OS σ) (fuel : Nat) (s : σ) (src dst : Str) :
    (∀ e, os.stat s src = .error e → copyDir os (fuel + 1) s src dst = some (s, some e)) ∧
    (∀ info s1 e, os.stat s src = .ok info → os.mkdirAll s dst info.mode = (s1, some e) →
      copyDir os (fuel + 1) s src dst = some (s1, some e)) ∧
    (∀ info s1 e, os.stat s src = .ok info → os.mkdirAll s dst info.mode = (s1, none) →
      os.readDir s1 src = .error e →
      copyDir os (fuel + 1) s src dst = some (s1, some e)) ∧
    (∀ info s1 pre entry post sk s2 e, os.stat s src = .ok info →
      os.mkdirAll s dst info.mode = (s1, none) →
      os.readDir s1 src = .ok (pre ++ entry :: post) →
      copyEntries os (copyDir os fuel) src dst s1 pre = some (sk, none) →
      (entry.isDir = true →
        copyDir os fuel sk (filepathJoin [src, entry.name]) (filepathJoin [dst, entry.name])
          = some (s2, some e)) →
      (entry.isDir = false →
        copyFile os sk (filepathJoin [src, entry.name]) (filepathJoin [dst, entry.name])
          = (s2, some e)) →
      copyDir os (fuel + 1) s src dst = some (s2, some e)) ∧
    (∀ (codec : Codec) (fs fs2 : FS) (err : Option OSError),
      copyDir (unixOS codec) (fuel + 1) fs src dst = some (fs2, err) → FS.Keeps fs fs2) := by
  refine ⟨?_, ?_, ?_, ?_, ?_⟩
  · intro e h
    simp only [copyDir, h]
  · intro info s1 e h1 h2
    simp only [copyDir, h1, h2]
  · intro info s1 e h1 h2 h3
    simp only [copyDir, h1, h2, h3]
  · intro info s1 pre entry post sk s2 e h1 h2 h3 h4 h5 h6
    simp only [copyDir, h1, h2, h3]
    rw [copyEntries_append os _ src dst pre s1 sk _ h4, copyEntries]
    by_cases hd : entry.isDir = true
    · simp only [hd, if_true, h5 hd]
    · have hd2 : entry.isDir = false := by simpa using hd
      simp only [hd2, if_false, Bool.false_eq_true, h6 hd2]
  · intro codec fs fs2 err h
    exact FS.copyDir_keeps codec _ fs src dst _ h

/-- Witness of **C19**: in the sample state `halfFS` the copy of `lib` to `out`
copies `a.txt`, fails on `m`, whose place in `out` a directory takes, and never
copies `z.txt`. -/
theorem copyDir_fails_fast_witness :
    ∃ s2 e, copyDir (unixOS sampleCodec) 1 halfFS "lib".toList "out".toList
        = some (s2, some e) ∧
      e = FS.eisdir "open" "out/m".toList ∧
      s2.lookup ["proj".toList, "out".toList, "a.txt".toList]
        = some (.file "1".toList 0o644) ∧
      s2.lookup ["proj".toList, "out".toList, "z.txt".toList] = none :=
  ⟨(copyFile (unixOS sampleCodec) halfFS "lib/a.txt".toList "out/a.txt".toList).1,
   FS.eisdir "open" "out/m".toList,
   (copyDir_fails_fast (unixOS sampleCodec) 0 halfFS "lib".toList "out".toList).2.2.2.1
     { isDir := true, mode := 0o755 } halfFS
     [{ name := "a.txt".toList, isDir := false }] { name := "m".toList, isDir := false }
     [{ name := "z.txt".toList, isDir := false }]
     (copyFile (unixOS sampleCodec) halfFS "lib/a.txt".toList "out/a.txt".toList).1
     (copyFile (unixOS sampleCodec) halfFS "lib/a.txt".toList "out/a.txt".toList).1
     (FS.eisdir "open" "out/m".toList)
     (by decide) (by decide) (by decide) (by decide) (by decide) (by decide),
   rfl, by decide, by decide⟩

/-! ## The messages of the failures -/

/-- **C20.** For `installLocalModule` and `importModule`, in every state: when
the source path does not exist, when the kind of the module is not detected,
when no name is extracted and when the copy fails, the run exits with status 1
and the last text written is the message of the case, on standard output; in
the first three cases it is the only text written, and in the fourth it
follows the line that announces the copy.  The four messages are pairwise
distinct, whatever the source path and the text of the error of the copy. -/
theorem failures_print_to_stdout {σ : Type} (os : OS σ) (fuel : Nat) (s : σ)
    (sourcePath : Str) :
    (isNotExist (os.stat s sourcePath) = true →
      (installLocalModule os fuel s sourcePath).map (fun o => (o.stdout, o.ending))
        = some (["Error: Source path '".toList ++ sourcePath
            ++ "' does not exist\n".toList], .exited 1) ∧
      (importModule os fuel s sourcePath).map (fun o => (o.stdout, o.ending))
        = some (["Error: Source path '".toList ++ sourcePath
            ++ "' does not exist\n".toList], .exited 1)) ∧
    (isNotExist (os.stat s sourcePath) = false →
      detectLocalModuleType os s sourcePath = .Unknown →
      (installLocalModule os fuel s sourcePath).map (fun o => (o.stdout, o.ending))
        = some ([("Error: Cannot determine module type. Ensure the directory contains go.mod "
            ++ "or package.json\n").toList], .exited 1) ∧
      (importModule os fuel s sourcePath).map (fun o => (o.stdout, o.ending))
        = some ([("Error: Cannot determine module type. Ensure the directory contains go.mod "
            ++ "or package.json\n").toList], .exited 1)) ∧
    (isNotExist (os.stat s sourcePath) = false →
      detectLocalModuleType os s sourcePath ≠ .Unknown →
      getModuleName os s sourcePath (detectLocalModuleType os s sourcePath) = some [] →
      (installLocalModule os fuel s sourcePath).map (fun o => (o.stdout, o.ending))
        = some (["Error: Cannot determine module name\n".toList], .exited 1) ∧
      (importModule os fuel s sourcePath).map (fun o => (o.stdout, o.ending))
        = some (["Error: Cannot determine module name\n".toList], .exited 1)) ∧
    (∀ moduleName s1 err, isNotExist (os.stat s sourcePath) = false →
      getModuleName os s sourcePath (detectLocalModuleType os s sourcePath)
        = some moduleName →
      moduleName ≠ [] →
      copyDir os fuel s sourcePath
        (getModuleDestinationPath moduleName (detectLocalModuleType os s sourcePath))
        = some (s1, some err) →
      (installLocalModule os fuel s sourcePath).map (fun o => (o.stdout, o.ending))
        = some (["Installing local module '".toList ++ moduleName ++ "' to ".toList
            ++ getModuleDestinationPath moduleName (detectLocalModuleType os s sourcePath)
            ++ "\n".toList,
          "Error copying module: ".toList ++ err.text ++ "\n".toList], .exited 1) ∧
      (isNil (os.stat s (getModuleDestinationPath moduleName
          (detectLocalModuleType os s sourcePath))) = false →
        (importModule os fuel s sourcePath).map (fun o => (o.stdout, o.ending))
          = some (["Importing module '".toList ++ moduleName ++ "' to ".toList
              ++ getModuleDestinationPath moduleName (detectLocalModuleType os s sourcePath)
              ++ "\n".toList,
            "Error copying module: ".toList ++ err.text ++ "\n".toList], .exited 1))) ∧
    (∀ path text : Str,
      "Error: Source path '".toList ++ path ++ "' does not exist\n".toList
        ≠ ("Error: Cannot determine module type. Ensure the directory contains go.mod "
          ++ "or package.json\n").toList ∧
      "Error: Source path '".toList ++ path ++ "' does not exist\n".toList
        ≠ "Error: Cannot determine module name\n".toList ∧
      "Error: Source path '".toList ++ path ++ "' does not exist\n".toList
        ≠ "Error copying module: ".toList ++ text ++ "\n".toList ∧
      ("Error: Cannot determine module type. Ensure the directory contains go.mod "
          ++ "or package.json\n").toList
        ≠ "Error: Cannot determine module name\n".toList ∧
      ("Error: Cannot determine module type. Ensure the directory contains go.mod "
          ++ "or package.json\n").toList
        ≠ "Error copying module: ".toList ++ text ++ "\n".toList ∧
      "Error: Cannot determine module name\n".toList
        ≠ "Error copying module: ".toList ++ text ++ "\n".toList) := by
  refine ⟨?_, ?_, ?_, ?_, ?_⟩
  · intro h
    simp only [installLocalModule, importModule, h, if_true, Option.map_some', and_self]
  · intro h1 h2
    simp only [installLocalModule, importModule, h1, h2, if_true, if_false,
      Bool.false_eq_true, Option.map_some', and_self]
  · intro h1 h2 h3
    simp only [installLocalModule, importModule, h1, h2, h3, if_true, if_false,
      Bool.false_eq_true, Option.map_some', and_self]
  · intro moduleName s1 err hsrc hname hne hcopy
    have hk : detectLocalModuleType os s sourcePath ≠ .Unknown := by
      intro hk
      rw [hk] at hname
      simp only [getModuleName, Option.some.injEq] at hname
      exact hne hname.symm
    refine ⟨?_, ?_⟩
    · simp only [installLocalModule, hsrc, hk, hname, hne, hcopy, if_false,
        Bool.false_eq_true, Option.map_some', List.singleton_append]
    · intro hdst
      simp only [importModule, hsrc, hk, hname, hne, hdst, hcopy, if_false,
        Bool.false_eq_true, Option.map_some', List.singleton_append]
  · intro path text
    refine ⟨?_, ?_, ?_, ?_, ?_, ?_⟩
    · intro h
      have h2 := congrArg (fun l => l.get? 7) h
      change some 'S' = some 'C' at h2
      exact absurd h2 (by decide)
    · intro h
      have h2 := congrArg (fun l => l.get? 7) h
      change some 'S' = some 'C' at h2
      exact absurd h2 (by decide)
    · intro h
      have h2 := congrArg (fun l => l.get? 5) h
      change some ':' = some ' ' at h2
      exact absurd h2 (by decide)
    · decide
    · intro h
      have h2 := congrArg (fun l => l.get? 5) h
      change some ':' = some ' ' at h2
      exact absurd h2 (by decide)
    · intro h
      have h2 := congrArg (fun l => l.get? 5) h
      change some ':' = some ' ' at h2
      exact absurd h2 (by decide)

/-- Witness of **C20**: in the sample state `blockedFS` the regular file
`backend` is in the way of the destination of the module `w` of `a`, and the
copy fails. -/
theorem failures_print_to_stdout_witness :
    (installLocalModule (unixOS sampleJson) 1 blockedFS "a".toList).map
        (fun o => (o.stdout, o.ending))
      = some (["Installing local module 'w' to backend/internal/modules/w\n".toList,
          "Error copying module: ".toList
            ++ (FS.enotdir "mkdir" "backend/internal/modules/w".toList).text ++ "\n".toList],
        .exited 1) ∧
    (importModule (unixOS sampleJson) 1 blockedFS "a".toList).map
        (fun o => (o.stdout, o.ending))
      = some (["Importing module 'w' to backend/internal/modules/w\n".toList,
          "Error copying module: ".toList
            ++ (FS.enotdir "mkdir" "backend/internal/modules/w".toList).text ++ "\n".toList],
        .exited 1) :=
  ⟨((failures_print_to_stdout (unixOS sampleJson) 1 blockedFS "a".toList).2.2.2.1
      "w".toList blockedFS (FS.enotdir "mkdir" "backend/internal/modules/w".toList)
      (by decide) (by decide) (by decide) (by decide)).1,
   ((failures_print_to_stdout (unixOS sampleJson) 1 blockedFS "a".toList).2.2.2.1
      "w".toList blockedFS (FS.enotdir "mkdir" "backend/internal/modules/w".toList)
      (by decide) (by decide) (by decide) (by decide)).2 (by decide)⟩

/-- The counterexample of **C20**: for a source path that does not exist, the
message of `installLocalModule` and of `importModule` is a text of standard
output. -/
theorem failure_message_on_stdout :
    (installLocalModule (unixOS sampleCodec) 0 sampleFS "nosuch".toList).map
        (fun o => (o.stdout, o.ending))
      = some (["Error: Source path 'nosuch' does not exist\n".toList], .exited 1) ∧
    (importModule (unixOS sampleCodec) 0 sampleFS "nosuch".toList).map
        (fun o => (o.stdout, o.ending))
      = some (["Error: Source path 'nosuch' does not exist\n".toList], .exited 1) := by
  decide

/-! ## What an installation records -/

section Recording

variable {σ : Type}

theorem detect_ne_Unknown (os : OS σ) (s : σ) (sourcePath moduleName : Str)
    (hname : getModuleName os s sourcePath (detectLocalModuleType os s sourcePath)
      = some moduleName)
    (hne : moduleName ≠ []) : detectLocalModuleType os s sourcePath ≠ .Unknown := by
  intro hk
  rw [hk] at hname
  simp only [getModuleName, Option.some.injEq] at hname
  exact hne hname.symm

theorem installLocalModule_copied (os : OS σ) (fuel : Nat) (s s1 s2 : σ)
    (sourcePath moduleName : Str)
    (hsrc : isNotExist (os.stat s sourcePath) = false)
    (hname : getModuleName os s sourcePath (detectLocalModuleType os s sourcePath)
      = some moduleName)
    (hne : moduleName ≠ [])
    (hcopy : copyDir os fuel s sourcePath
      (getModuleDestinationPath moduleName (detectLocalModuleType os s sourcePath))
      = some (s1, none))
    (hsave : saveInstalledModule os s1 ("local:".toList ++ moduleName) = some s2) :
    ∃ out, installLocalModule os fuel s sourcePath = some ⟨s2, out, .returned⟩ := by
  have hk := detect_ne_Unknown os s sourcePath moduleName hname hne
  simp only [installLocalModule, hsrc, hk, hname, hne, hcopy, hsave, if_false,
    Bool.false_eq_true]
  exact ⟨_, rfl⟩

theorem importModule_copied (os : OS σ) (fuel : Nat) (s s1 s2 : σ)
    (sourcePath moduleName : Str)
    (hsrc : isNotExist (os.stat s sourcePath) = false)
    (hname : getModuleName os s sourcePath (detectLocalModuleType os s sourcePath)
      = some moduleName)
    (hne : moduleName ≠ [])
    (hdst : isNil (os.stat s (getModuleDestinationPath moduleName
      (detectLocalModuleType os s sourcePath))) = false)
    (hcopy : copyDir os fuel s sourcePath
      (getModuleDestinationPath moduleName (detectLocalModuleType os s sourcePath))
      = some (s1, none))
    (hsave : saveInstalledModule os s1 ("imported:".toList ++ moduleName) = some s2) :
    ∃ out, importModule os fuel s sourcePath = some ⟨s2, out, .returned⟩ := by
  have hk := detect_ne_Unknown os s sourcePath moduleName hname hne
  simp only [importModule, hsrc, hk, hname, hne, hdst, hcopy, hsave, if_false,
    Bool.false_eq_true]
  exact ⟨_, rfl⟩

/-- The list read back after `saveInstalledModule`, when the ledger loads with
a map and the save of the new ledger takes effect: it holds the identifier, and
is the old list or the old list with the identifier at its end. -/
theorem saveInstalledModule_listed (os : OS σ) (s : σ) (module wd : Str)
    (m : List (Str × List Str)) (hwd : os.getwd s = .ok wd)
    (hload : loadData os s = .ok { InstalledModules := some m })
    (hst : module ∉ mapGet m wd →
      Stores os s wd { InstalledModules := some (recordedMap m wd module) }) :
    ∃ s2 l, saveInstalledModule os s module = some s2 ∧ listedModules os s2 = some l ∧
      module ∈ l ∧ (l = mapGet m wd ∨ l = mapGet m wd ++ [module]) := by
  have heq := saveInstalledModule_eq os s module wd m hwd hload
  by_cases hin : module ∈ mapGet m wd
  · rw [if_pos hin] at heq
    exact ⟨s, mapGet m wd, heq, listedModules_eq os s wd _ hwd hload, hin, Or.inl rfl⟩
  · rw [if_neg hin] at heq
    refine ⟨_, mapGet m wd ++ [module], heq, ?_, by simp, Or.inr rfl⟩
    rw [listedModules_saved os s wd _ (hst hin)]
    simp only [ledgerList, mapGet_recordedMap]

theorem tagged_ne (tag moduleName : Str) (h : tag ≠ []) : tag ++ moduleName ≠ moduleName := by
  intro heq
  have h2 := congrArg List.length heq
  rw [List.length_append] at h2
  have : tag.length = 0 := by omega
  exact h (List.length_eq_zero.mp this)

/-- For every source directory that exists and whose manifest yields
the non-empty module name `n`: when `copyDir` returns nil and, in the state it
leaves, the working directory is known, the ledger loads with a map and the
save of the new ledger takes effect, `installLocalModule` returns with the
identifier `local:` followed by `n` in the list of the working directory, and
`importModule`, when the destination does not exist yet, returns with
`imported:` followed by `n` in that list.  Neither identifier is the bare name
`n`, and `n` is in the list after the call only if it was in it before. -/
theorem install_records_tagged_name (os : OS σ) (fuel : Nat) (s : σ)
    (sourcePath moduleName : Str)
    (hsrc : isNotExist (os.stat s sourcePath) = false)
    (hname : getModuleName os s sourcePath (detectLocalModuleType os s sourcePath)
      = some moduleName)
    (hne : moduleName ≠ []) :
    (∀ s1 wd m, copyDir os fuel s sourcePath
        (getModuleDestinationPath moduleName (detectLocalModuleType os s sourcePath))
        = some (s1, none) →
      os.getwd s1 = .ok wd → loadData os s1 = .ok { InstalledModules := some m } →
      ("local:".toList ++ moduleName ∉ mapGet m wd → Stores os s1 wd
        { InstalledModules := some (recordedMap m wd ("local:".toList ++ moduleName)) }) →
      ∃ o l, installLocalModule os fuel s sourcePath = some o ∧ o.ending = .returned ∧
        listedModules os o.sys = some l ∧ "local:".toList ++ moduleName ∈ l ∧
        (moduleName ∈ l ↔ moduleName ∈ mapGet m wd)) ∧
    (∀ s1 wd m, isNil (os.stat s (getModuleDestinationPath moduleName
        (detectLocalModuleType os s sourcePath))) = false →
      copyDir os fuel s sourcePath
        (getModuleDestinationPath moduleName (detectLocalModuleType os s sourcePath))
        = some (s1, none) →
      os.getwd s1 = .ok wd → loadData os s1 = .ok { InstalledModules := some m } →
      ("imported:".toList ++ moduleName ∉ mapGet m wd → Stores os s1 wd
        { InstalledModules := some (recordedMap m wd ("imported:".toList ++ moduleName)) }) →
      ∃ o l, importModule os fuel s sourcePath = some o ∧ o.ending = .returned ∧
        listedModules os o.sys = some l ∧ "imported:".toList ++ moduleName ∈ l ∧
        (moduleName ∈ l ↔ moduleName ∈ mapGet m wd)) ∧
    "local:".toList ++ moduleName ≠ moduleName ∧
    "imported:".toList ++ moduleName ≠ moduleName := by
  have hbare : ∀ (tag : Str) (l old : List Str), tag ≠ [] →
      (l = old ∨ l = old ++ [tag ++ moduleName]) → (moduleName ∈ l ↔ moduleName ∈ old) := by
    intro tag l old htag hl
    rcases hl with hl | hl
    · rw [hl]
    · rw [hl, List.mem_append, List.mem_singleton]
      constructor
      · rintro (h | h)
        · exact h
        · exact absurd h.symm (tagged_ne tag moduleName htag)
      · exact Or.inl
  refine ⟨?_, ?_, tagged_ne _ _ (by decide), tagged_ne _ _ (by decide)⟩
  · intro s1 wd m hcopy hwd hload hst
    obtain ⟨s2, l, hsave, hlist, hin, hl⟩ :=
      saveInstalledModule_listed os s1 _ wd m hwd hload hst
    obtain ⟨out, hout⟩ :=
      installLocalModule_copied os fuel s s1 s2 sourcePath moduleName hsrc hname hne hcopy hsave
    exact ⟨_, l, hout, rfl, hlist, hin, hbare _ l _ (by decide) hl⟩
  · intro s1 wd m hdst hcopy hwd hload hst
    obtain ⟨s2, l, hsave, hlist, hin, hl⟩ :=
      saveInstalledModule_listed os s1 _ wd m hwd hload hst
    obtain ⟨out, hout⟩ :=
      importModule_copied os fuel s s1 s2 sourcePath moduleName hsrc hname hne hdst hcopy
        hsave
    exact ⟨_, l, hout, rfl, hlist, hin, hbare _ l _ (by decide) hl⟩

end Recording

/-- An instance of `install_records_tagged_name`: the module `w` of the source
`a` is installed, and imported, in the sample state `ledgerFS`. -/
theorem install_records_tagged_name_witness :
    (∃ o l, installLocalModule (unixOS sampleJson) 1 ledgerFS "a".toList = some o ∧
      o.ending = .returned ∧ listedModules (unixOS sampleJson) o.sys = some l ∧
      "local:".toList ++ "w".toList ∈ l ∧
      ("w".toList ∈ l ↔
        "w".toList ∈ mapGet [("/proj".toList, ["x".toList, "x".toList])] "/proj".toList)) ∧
    (∃ o l, importModule (unixOS sampleJson) 1 ledgerFS "a".toList = some o ∧
      o.ending = .returned ∧ listedModules (unixOS sampleJson) o.sys = some l ∧
      "imported:".toList ++ "w".toList ∈ l ∧
      ("w".toList ∈ l ↔
        "w".toList ∈ mapGet [("/proj".toList, ["x".toList, "x".toList])] "/proj".toList)) :=
  ⟨(install_records_tagged_name (unixOS sampleJson) 1 ledgerFS "a".toList "w".toList
      (by decide) (by decide) (by decide)).1
      ((copyDir (unixOS sampleJson) 1 ledgerFS "a".toList
        "backend/internal/modules/w".toList).getD (ledgerFS, none)).1
      "/proj".toList [("/proj".toList, ["x".toList, "x".toList])]
      (by decide) (by decide) (by decide) (fun _ => ⟨by decide, by decide⟩),
   (install_records_tagged_name (unixOS sampleJson) 1 ledgerFS "a".toList "w".toList
      (by decide) (by decide) (by decide)).2.1
      ((copyDir (unixOS sampleJson) 1 ledgerFS "a".toList
        "backend/internal/modules/w".toList).getD (ledgerFS, none)).1
      "/proj".toList [("/proj".toList, ["x".toList, "x".toList])]
      (by decide) (by decide) (by decide) (by decide) (fun _ => ⟨by decide, by decide⟩)⟩

set_option maxRecDepth 100000 in
/-- **C11.** The ledger file holds `null` for the map of the installed
modules: it loads without error and a save to it returns nil.  The manifest
of the source `a` yields the name `w` and the copy returns nil, yet neither
`installLocalModule` nor `importModule` ends with its identifier in the list
of the working directory: each panics in `saveInstalledModule`, on the
assignment to an entry of the nil map, and the list read back from the state
it leaves is empty. -/
theorem install_null_ledger_unrecorded :
    loadData (unixOS sampleJson) nullFS = .ok { InstalledModules := none } ∧
    (saveData (unixOS sampleJson) nullFS { InstalledModules := some [] }).2 = none ∧
    getModuleName (unixOS sampleJson) nullFS "a".toList
      (detectLocalModuleType (unixOS sampleJson) nullFS "a".toList) = some "w".toList ∧
    (copyDir (unixOS sampleJson) 1 nullFS "a".toList "backend/internal/modules/w".toList).map
      Prod.snd = some none ∧
    (installLocalModule (unixOS sampleJson) 1 nullFS "a".toList).map
        (fun o => (o.ending, listedModules (unixOS sampleJson) o.sys))
      = some (.panicked, some []) ∧
    (importModule (unixOS sampleJson) 1 nullFS "a".toList).map
        (fun o => (o.ending, listedModules (unixOS sampleJson) o.sys))
      = some (.panicked, some []) := by
  decide

/-! ## An import after an installation -/

theorem getModuleDestinationPath_known (moduleName : Str) (moduleType : ProjectType)
    (h : moduleType ≠ .Unknown) :
    getModuleDestinationPath moduleName moduleType
      = filepathJoin ["backend/internal/modules".toList, moduleName] := by
  cases moduleType with
  | GoProject => rfl
  | NodeProject => rfl
  | Unknown => exact absurd rfl h

/-- What a run of `installLocalModule` that returns has done: the name was
extracted, the copy returned nil, and the identifier was recorded in the state
the copy left. -/
theorem installLocalModule_returned {σ : Type} (os : OS σ) (fuel : Nat) (s : σ)
    (sourcePath : Str) (o : Outcome σ)
    (h : installLocalModule os fuel s sourcePath = some o) (hret : o.ending = .returned) :
    ∃ moduleName s1,
      getModuleName os s sourcePath (detectLocalModuleType os s sourcePath) = some moduleName ∧
      moduleName ≠ [] ∧ detectLocalModuleType os s sourcePath ≠ .Unknown ∧
      copyDir os fuel s sourcePath
        (getModuleDestinationPath moduleName (detectLocalModuleType os s sourcePath))
        = some (s1, none) ∧
      saveInstalledModule os s1 ("local:".toList ++ moduleName) = some o.sys := by
  unfold installLocalModule at h
  cases h1 : isNotExist (os.stat s sourcePath) with
  | true =>
    simp only [h1, if_true, Option.some.injEq] at h
    subst h
    simp at hret
  | false =>
    simp only [h1, Bool.false_eq_true, if_false] at h
    by_cases h2 : detectLocalModuleType os s sourcePath = .Unknown
    · simp only [h2, if_true, Option.some.injEq] at h
      subst h
      simp at hret
    · simp only [h2, if_false] at h
      cases h3 : getModuleName os s sourcePath (detectLocalModuleType os s sourcePath) with
      | none =>
        rw [h3] at h
        simp only [Option.some.injEq] at h
        subst h
        simp at hret
      | some moduleName =>
        rw [h3] at h
        simp only at h
        by_cases h4 : moduleName = []
        · simp only [h4, if_true, Option.some.injEq] at h
          subst h
          simp at hret
        · simp only [h4, if_false] at h
          cases h5 : copyDir os fuel s sourcePath
              (getModuleDestinationPath moduleName (detectLocalModuleType os s sourcePath)) with
          | none => rw [h5] at h; simp at h
          | some r =>
            obtain ⟨s1, err⟩ := r
            rw [h5] at h
            cases err with
            | some e =>
              simp only [Option.some.injEq] at h
              subst h
              simp at hret
            | none =>
              simp only at h
              cases h6 : saveInstalledModule os s1 ("local:".toList ++ moduleName) with
              | none =>
                rw [h6] at h
                simp only [Option.some.injEq] at h
                subst h
                simp at hret
              | some s2 =>
                rw [h6] at h
                simp only [Option.some.injEq] at h
                subst h
                exact ⟨moduleName, s1, rfl, h4, h2, h5, h6⟩

namespace FS

theorem mkdirAll_ok_isDir (fs : FS) (path : Str) (perm : Nat) (fs1 : FS)
    (h : FS.mkdirAll fs path perm = (fs1, none)) :
    isDirEntry (fs1.lookup (fs.resolve path)) = true := by
  unfold FS.mkdirAll at h
  by_cases hp : path = []
  · simp [hp] at h
  · simp only [hp, if_false] at h
    by_cases hr : fs.resolve path = []
    · rw [hr]
      simp [lookup, isDirEntry]
    · have hf := (mkdirAllFrom_facts path perm (fs.resolve path) fs []).2.2
      rw [h] at hf
      simpa using (hf rfl (fs.resolve path) (List.prefix_refl _) hr).2

theorem copyDir_ok_isDir (codec : Codec) (fuel : Nat) (fs : FS) (src dst : Str) (fs2 : FS)
    (h : copyDir (unixOS codec) fuel fs src dst = some (fs2, none)) :
    isDirEntry (fs2.lookup (fs.resolve dst)) = true := by
  cases fuel with
  | zero => simp [copyDir] at h
  | succ f =>
    rw [copyDir] at h
    cases h1 : (unixOS codec).stat fs src with
    | error e => rw [h1] at h; simp at h
    | ok info =>
      rw [h1] at h
      simp only at h
      cases h2 : (unixOS codec).mkdirAll fs dst info.mode with
      | mk s1 err =>
        rw [h2] at h
        cases err with
        | some e => simp at h
        | none =>
          simp only at h
          cases h3 : (unixOS codec).readDir s1 src with
          | error e => rw [h3] at h; simp at h
          | ok entries =>
            rw [h3] at h
            simp only at h
            have hk := copyEntries_keeps codec (copyDir (unixOS codec) f)
              (fun a b c r hr => copyDir_keeps codec f a b c r hr) src dst entries s1 _ h
            exact (hk.2.2.2 _).1 (mkdirAll_ok_isDir fs dst info.mode s1 h2)

theorem saveInstalledModule_keeps (codec : Codec) (fs : FS) (module : Str) (fs2 : FS)
    (h : saveInstalledModule (unixOS codec) fs module = some fs2) : Keeps fs fs2 := by
  unfold saveInstalledModule at h
  cases h1 : (unixOS codec).getwd fs with
  | error e =>
    rw [h1] at h
    simp only [Option.some.injEq] at h
    exact h ▸ Keeps.refl fs
  | ok wd =>
    rw [h1] at h
    simp only at h
    cases h2 : loadData (unixOS codec) fs with
    | error e =>
      rw [h2] at h
      simp only [Option.some.injEq] at h
      exact h ▸ Keeps.refl fs
    | ok data =>
      rw [h2] at h
      simp only at h
      cases h3 : data.InstalledModules with
      | none => rw [h3] at h; simp at h
      | some m =>
        rw [h3] at h
        simp only at h
        split_ifs at h <;> simp only [Option.some.injEq] at h <;>
          first
          | exact h ▸ Keeps.refl fs
          | exact h ▸ saveData_keeps codec fs _

theorem stat_isNil_of_isDir (fs : FS) (path : Str) (hne : path ≠ [])
    (h : isDirEntry (fs.lookup (fs.resolve path)) = true) : isNil (FS.stat fs path) = true := by
  unfold FS.stat
  simp only [hne, if_false]
  cases hl : fs.lookup (fs.resolve path) with
  | none => rw [hl] at h; simp [isDirEntry] at h
  | some n => cases n <;> rfl

end FS

/-- **C12.** After an `installLocalModule` that returned, for a source whose
manifest yields the name `n`: `importModule` on every source that exists and
whose manifest yields the same name `n` prints the already-exists message and
exits with status 1, and the state, ledger included, is the one the
installation left, so nothing is recorded.  `importModule` records `imported:`
followed by `n` beside `local:` followed by `n` only from a state in which the
destination does not exist: when the copy then returns nil and, in the state it
leaves, the ledger loads with `local:` followed by `n` in the list of the
working directory and the save of the new ledger takes effect, the list read
back holds both identifiers. -/
theorem import_after_install (codec : Codec) (fuel fuel2 : Nat) (fs : FS)
    (src1 src2 moduleName : Str) (o1 : Outcome FS)
    (hinst : installLocalModule (unixOS codec) fuel fs src1 = some o1)
    (hret : o1.ending = .returned)
    (hname1 : getModuleName (unixOS codec) fs src1
      (detectLocalModuleType (unixOS codec) fs src1) = some moduleName)
    (hsrc2 : isNotExist ((unixOS codec).stat o1.sys src2) = false)
    (hname2 : getModuleName (unixOS codec) o1.sys src2
      (detectLocalModuleType (unixOS codec) o1.sys src2) = some moduleName) :
    importModule (unixOS codec) fuel2 o1.sys src2 = some ⟨o1.sys,
      ["Module '".toList ++ moduleName
        ++ "' already exists. Use --force to overwrite\n".toList], .exited 1⟩ ∧
    (∀ (fs3 s1 : FS) (wd : Str) (m : List (Str × List Str)),
      isNotExist ((unixOS codec).stat fs3 src2) = false →
      getModuleName (unixOS codec) fs3 src2 (detectLocalModuleType (unixOS codec) fs3 src2)
        = some moduleName →
      isNil ((unixOS codec).stat fs3 (getModuleDestinationPath moduleName
        (detectLocalModuleType (unixOS codec) fs3 src2))) = false →
      copyDir (unixOS codec) fuel2 fs3 src2 (getModuleDestinationPath moduleName
        (detectLocalModuleType (unixOS codec) fs3 src2)) = some (s1, none) →
      (unixOS codec).getwd s1 = .ok wd →
      loadData (unixOS codec) s1 = .ok { InstalledModules := some m } →
      "local:".toList ++ moduleName ∈ mapGet m wd →
      ("imported:".toList ++ moduleName ∉ mapGet m wd → Stores (unixOS codec) s1 wd
        { InstalledModules := some (recordedMap m wd ("imported:".toList ++ moduleName)) }) →
      ∃ o2 l, importModule (unixOS codec) fuel2 fs3 src2 = some o2 ∧ o2.ending = .returned ∧
        listedModules (unixOS codec) o2.sys = some l ∧
        "local:".toList ++ moduleName ∈ l ∧ "imported:".toList ++ moduleName ∈ l) := by
  obtain ⟨n, s1, hn, hne, hk, hcopy, hsave⟩ :=
    installLocalModule_returned (unixOS codec) fuel fs src1 o1 hinst hret
  rw [hname1, Option.some.injEq] at hn
  subst hn
  refine ⟨?_, ?_⟩
  · have hk2 := detect_ne_Unknown (unixOS codec) o1.sys src2 moduleName hname2 hne
    rw [getModuleDestinationPath_known _ _ hk] at hcopy
    have hkeep1 := FS.copyDir_keeps codec fuel fs src1 _ _ hcopy
    have hkeep2 := FS.saveInstalledModule_keeps codec s1 _ o1.sys hsave
    have hkeep := FS.Keeps.trans hkeep1 hkeep2
    have hdir := (hkeep2.2.2.2 _).1 (FS.copyDir_ok_isDir codec fuel fs src1 _ s1 hcopy)
    rw [← FS.resolve_of_cwd fs o1.sys hkeep.1] at hdir
    have hdst : isNil ((unixOS codec).stat o1.sys (getModuleDestinationPath moduleName
        (detectLocalModuleType (unixOS codec) o1.sys src2))) = true := by
      rw [getModuleDestinationPath_known _ _ hk2]
      exact FS.stat_isNil_of_isDir o1.sys _
        (FS.filepathJoin_ne_nil _ _ (by decide)) hdir
    simp only [importModule, hsrc2, hk2, hname2, hne, hdst, if_true, if_false,
      Bool.false_eq_true]
  · intro fs3 s3 wd m hsrc3 hname3 hdst3 hcopy3 hwd hload hlocal hst
    obtain ⟨s2, l, hsave3, hlist, hin, hl⟩ :=
      saveInstalledModule_listed (unixOS codec) s3 _ wd m hwd hload hst
    obtain ⟨out, hout⟩ := importModule_copied (unixOS codec) fuel2 fs3 s3 s2 src2 moduleName
      hsrc3 hname3 hne hdst3 hcopy3 hsave3
    refine ⟨_, l, hout, rfl, hlist, ?_, hin⟩
    rcases hl with hl | hl
    · rw [hl]; exact hlocal
    · rw [hl]; exact List.mem_append_left _ hlocal

/-- Witness of **C12**: in the sample state `ledgerFS` the module `w` of the
source `a` is installed and the import of the source `b`, of the same module,
is refused; in the sample state `removedFS`, whose ledger holds `local:w` while
the module is not installed, the import of `b` records `imported:w` beside
it. -/
theorem import_after_install_witness :
    importModule (unixOS sampleJson) 1
        ((installLocalModule (unixOS sampleJson) 1 ledgerFS "a".toList).getD
          ⟨ledgerFS, [], .panicked⟩).sys "b".toList
      = some ⟨((installLocalModule (unixOS sampleJson) 1 ledgerFS "a".toList).getD
          ⟨ledgerFS, [], .panicked⟩).sys,
        ["Module '".toList ++ "w".toList
          ++ "' already exists. Use --force to overwrite\n".toList], .exited 1⟩ ∧
    ∃ o2 l, importModule (unixOS sampleJson) 1 removedFS "b".toList = some o2 ∧
      o2.ending = .returned ∧ listedModules (unixOS sampleJson) o2.sys = some l ∧
      "local:".toList ++ "w".toList ∈ l ∧ "imported:".toList ++ "w".toList ∈ l :=
  ⟨(import_after_install sampleJson 1 1 ledgerFS "a".toList "b".toList "w".toList
      ((installLocalModule (unixOS sampleJson) 1 ledgerFS "a".toList).getD
        ⟨ledgerFS, [], .panicked⟩) rfl (by decide) (by decide) (by decide) (by decide)).1,
   (import_after_install sampleJson 1 1 ledgerFS "a".toList "b".toList "w".toList
      ((installLocalModule (unixOS sampleJson) 1 ledgerFS "a".toList).getD
        ⟨ledgerFS, [], .panicked⟩) rfl (by decide) (by decide) (by decide) (by decide)).2
      removedFS
      ((copyDir (unixOS sampleJson) 1 removedFS "b".toList
        "backend/internal/modules/w".toList).getD (removedFS, none)).1
      "/proj".toList [("/proj".toList, ["local:w".toList])]
      (by decide) (by decide) (by decide) (by decide) (by decide) (by decide) (by decide)
      (fun _ => ⟨by decide, by decide⟩)⟩

/-- The counterexample of **C12**: in the sample state `ledgerFS` the sources
`a` and `b` both hold the Go module `w`.  `installLocalModule` of `a` returns
and the ledger lists `local:w`; `importModule` of `b` then prints the
already-exists message and exits with status 1, and the ledger lists what it
listed before, without `imported:w`. -/
theorem import_after_install_refused :
    (installLocalModule (unixOS sampleJson) 1 ledgerFS "a".toList).map
        (fun o1 => o1.ending) = some .returned ∧
    (installLocalModule (unixOS sampleJson) 1 ledgerFS "a".toList).bind
        (fun o1 => listedModules (unixOS sampleJson) o1.sys)
      = some ["x".toList, "x".toList, "local:w".toList] ∧
    ((installLocalModule (unixOS sampleJson) 1 ledgerFS "a".toList).bind
        (fun o1 => importModule (unixOS sampleJson) 1 o1.sys "b".toList)).map
        (fun o2 => (o2.stdout, o2.ending))
      = some (["Module 'w' already exists. Use --force to overwrite\n".toList], .exited 1) ∧
    ((installLocalModule (unixOS sampleJson) 1 ledgerFS "a".toList).bind
        (fun o1 => importModule (unixOS sampleJson) 1 o1.sys "b".toList)).bind
        (fun o2 => listedModules (unixOS sampleJson) o2.sys)
      = some ["x".toList, "x".toList, "local:w".toList] := by
  decide

/-! ## The module line of a `go.mod` -/

theorem stringsFields_pieces (s : Str) :
    ∀ f ∈ stringsFields s, f ≠ [] ∧ ∀ c ∈ f, isSpace c = false := by
  intro f hf
  unfold stringsFields at hf
  rw [List.mem_filter] at hf
  refine ⟨?_, splitWhere_pieces isSpace s f hf.1⟩
  intro h
  subst h
  simp at hf

/-- **C26.** For every `go.mod` text with a line that begins with `module `
once the white space around it is trimmed: the first such line has at least
two fields, `getGoModuleName` returns the second field of that first line, and
the name returned is not empty and holds no white space.  On every line of
that kind the guard on the number of fields holds. -/
theorem getGoModuleName_module_line (content : Str)
    (h : ∃ line ∈ stringsSplitLines content,
      stringsHasPrefix (stringsTrimSpace line) "module ".toList = true) :
    (∃ first, firstModuleLine content = some first ∧ 2 ≤ (stringsFields first).length ∧
      getGoModuleNameOn (.ok content) = (stringsFields first).getD 1 []) ∧
    getGoModuleNameOn (.ok content) ≠ [] ∧
    (∀ c ∈ getGoModuleNameOn (.ok content), isSpace c = false) ∧
    (∀ x : Str, stringsHasPrefix (stringsTrimSpace x) "module ".toList = true →
      2 ≤ (stringsFields (stringsTrimSpace x)).length) := by
  obtain ⟨line, hmem, hp⟩ := h
  have hsome : (firstModuleLine content).isSome = true := by
    unfold firstModuleLine
    rw [List.find?_isSome]
    exact ⟨stringsTrimSpace line, List.mem_map.mpr ⟨line, hmem, rfl⟩, hp⟩
  obtain ⟨first, hfirst⟩ := Option.isSome_iff_exists.mp hsome
  have hfm := List.mem_of_find?_eq_some hfirst
  have hfp := List.find?_some hfirst
  obtain ⟨x, _, hx⟩ := List.mem_map.mp hfm
  subst hx
  obtain ⟨second, rest, hf⟩ := stringsFields_module_line x hfp
  have hres : getGoModuleNameOn (.ok content) = second := by
    simp only [getGoModuleNameOn]
    rw [goModuleNameLoop_eq]
    unfold firstModuleLine at hfirst
    rw [hfirst]
    simp [hf]
  have hsec := stringsFields_pieces (stringsTrimSpace x) second (by rw [hf]; simp)
  refine ⟨⟨_, hfirst, by rw [hf]; simp, by rw [hres, hf]; rfl⟩, by rw [hres]; exact hsec.1,
    by rw [hres]; exact hsec.2, ?_⟩
  intro y hy
  obtain ⟨s2, r2, hf2⟩ := stringsFields_module_line y hy
  rw [hf2]
  simp

/-- Witness of **C26**: in the text `go 1.21`, `  module a/b `, `module z` the
second line is the first `module ` line. -/
theorem getGoModuleName_module_line_witness :
    getGoModuleNameOn (.ok "go 1.21\n  module a/b \nmodule z".toList) ≠ [] ∧
    ∀ c ∈ getGoModuleNameOn (.ok "go 1.21\n  module a/b \nmodule z".toList),
      isSpace c = false :=
  ⟨(getGoModuleName_module_line "go 1.21\n  module a/b \nmodule z".toList
      ⟨"  module a/b ".toList, by decide, by decide⟩).2.1,
   (getGoModuleName_module_line "go 1.21\n  module a/b \nmodule z".toList
      ⟨"  module a/b ".toList, by decide, by decide⟩).2.2.1⟩

theorem stringsTrimSpace_self (s : Str) (hne : s ≠ [])
    (hfirst : ∀ c, s.head? = some c → isSpace c = false)
    (hlast : isSpace (s.getLast hne) = false) : stringsTrimSpace s = s := by
  unfold stringsTrimSpace
  have h1 : s.dropWhile isSpace = s := by
    cases s with
    | nil => rfl
    | cons c cs =>
      have := hfirst c rfl
      simp [List.dropWhile_cons, this]
  rw [h1, List.rdropWhile_eq_self_iff]
  intro hl
  simpa using hlast

/-- **C27.** For every configuration whose module name is not empty and
holds no white space, the name that `getGoModuleName` extracts from the text
`generateGoMod` returns is the module name of the configuration. -/
theorem generateGoMod_reads_back (config : ProjectConfig) (hne : config.Module ≠ [])
    (hws : ∀ c ∈ config.Module, isSpace c = false) :
    getGoModuleNameOn (.ok (generateGoMod config)) = config.Module ∧
    ∀ (σ : Type) (os : OS σ) (s : σ) (dir : Str),
      os.readFile s (filepathJoin [dir, "go.mod".toList]) = .ok (generateGoMod config) →
      getGoModuleName os s dir = config.Module := by
  have hmain : getGoModuleNameOn (.ok (generateGoMod config)) = config.Module := by
    obtain ⟨tail, htail⟩ : ∃ tail, generateGoMod config
        = ("module ".toList ++ config.Module) ++ '\n' :: tail := ⟨_, rfl⟩
    have hnl : ∀ x ∈ "module ".toList ++ config.Module, (x == '\n') = false := by
      intro x hx
      rw [List.mem_append] at hx
      rcases hx with hx | hx
      · revert x; decide
      · have := hws x hx
        by_contra hc
        simp only [Bool.not_eq_false, beq_iff_eq] at hc
        subst hc
        exact absurd this (by decide)
    have hlines : stringsSplitLines (generateGoMod config)
        = ("module ".toList ++ config.Module) :: splitWhere (fun c => c == '\n') tail := by
      rw [htail]
      exact splitWhere_append_sep _ _ '\n' tail hnl rfl
    have hne2 : "module ".toList ++ config.Module ≠ [] := by simp
    have htrim : stringsTrimSpace ("module ".toList ++ config.Module)
        = "module ".toList ++ config.Module := by
      apply stringsTrimSpace_self _ hne2
      · intro c hc
        have : c = 'm' := by
          simpa using hc.symm
        subst this
        decide
      · rw [List.getLast_append_of_ne_nil hne]
        exact hws _ (List.getLast_mem hne)
    have hpre : stringsHasPrefix ("module ".toList ++ config.Module) "module ".toList = true := by
      unfold stringsHasPrefix
      rw [List.isPrefixOf_iff_prefix]
      exact List.prefix_append _ _
    have hfields : stringsFields ("module ".toList ++ config.Module)
        = ["module".toList, config.Module] := by
      unfold stringsFields
      have h1 : splitWhere isSpace ("module ".toList ++ config.Module)
          = "module".toList :: splitWhere isSpace config.Module :=
        splitWhere_append_sep isSpace "module".toList ' ' config.Module (by decide) (by decide)
      rw [h1, splitWhere_no_sep isSpace config.Module hws]
      cases hm : config.Module with
      | nil => exact absurd hm hne
      | cons c cs => rfl
    show goModuleNameLoop (stringsSplitLines (generateGoMod config)) = config.Module
    rw [hlines, goModuleNameLoop]
    simp only [htrim, hpre, hfields, if_true]
    rfl
  refine ⟨hmain, ?_⟩
  intro σ os s dir hread
  simp only [getGoModuleName, hread]
  exact hmain

/-- Witness of **C27**: the module `github.com/user/app` is read back. -/
theorem generateGoMod_reads_back_witness :
    getGoModuleNameOn (.ok (generateGoMod
      { Name := "app".toList, Module := "github.com/user/app".toList, Description := [],
        Author := [], Port := 5173, BackendPort := 8080 }))
      = "github.com/user/app".toList :=
  (generateGoMod_reads_back
    { Name := "app".toList, Module := "github.com/user/app".toList, Description := [],
      Author := [], Port := 5173, BackendPort := 8080 } (by decide) (by decide)).1

/-! ## The ledger: other projects, and the nil map -/

section OtherProjects

variable {σ : Type}

theorem ledgerEntry_recordedMap (m : List (Str × List Str)) (wd module key : Str)
    (h : key ≠ wd) :
    ledgerEntry { InstalledModules := some (recordedMap m wd module) } key
      = ledgerEntry { InstalledModules := some m } key := by
  simp only [ledgerEntry, recordedMap, lookup_mapSet, h, if_false]
  split <;> simp [lookup_mapSet, h]

theorem ledgerEntry_forgottenData (data : CLIData) (wd module key : Str) (h : key ≠ wd) :
    ledgerEntry (forgottenData data wd module) key = ledgerEntry data key := by
  unfold forgottenData
  cases hm : data.InstalledModules with
  | none => simp [hm]
  | some m =>
    simp only
    split
    · simp [ledgerEntry, lookup_mapSet, h, hm]
    · rfl

/-- **C29.** For every ledger, every identifier and every key other than the
working directory: after `saveInstalledModule`, and after
`removeInstalledModule`, the ledger read back holds under the key what it held
before, the same list for a key that was bound and nothing for a key that was
not. -/
theorem ledger_other_keys_untouched (os : OS σ) (s : σ) (module wd : Str) (data : CLIData)
    (hwd : os.getwd s = .ok wd) (hload : loadData os s = .ok data) :
    (∀ m, data.InstalledModules = some m →
      (module ∉ mapGet m wd →
        Stores os s wd { InstalledModules := some (recordedMap m wd module) }) →
      ∃ s1 d1, saveInstalledModule os s module = some s1 ∧ loadData os s1 = .ok d1 ∧
        ∀ key, key ≠ wd → ledgerEntry d1 key = ledgerEntry data key) ∧
    (Stores os s wd (forgottenData data wd module) →
      ∃ s1 d1, removeInstalledModule os s module = some s1 ∧ loadData os s1 = .ok d1 ∧
        ∀ key, key ≠ wd → ledgerEntry d1 key = ledgerEntry data key) := by
  refine ⟨?_, ?_⟩
  · intro m hm hst
    have hdata : data = { InstalledModules := some m } := by
      cases data
      simp only at hm
      rw [hm]
    subst hdata
    have heq := saveInstalledModule_eq os s module wd m hwd hload
    by_cases hin : module ∈ mapGet m wd
    · rw [if_pos hin] at heq
      exact ⟨s, _, heq, hload, fun _ _ => rfl⟩
    · rw [if_neg hin] at heq
      exact ⟨_, _, heq, (hst hin).2, fun key hk => ledgerEntry_recordedMap m wd module key hk⟩
  · intro hst
    exact ⟨_, _, removeInstalledModule_eq os s module wd data hwd hload, hst.2,
      fun key hk => ledgerEntry_forgottenData data wd module key hk⟩

/-- Witness of **C29**: in the sample state `twoFS` the ledger holds lists for
the projects `/proj` and `/other`, and the working directory is `/proj`. -/
theorem ledger_other_keys_untouched_witness :
    (∃ s1 d1, saveInstalledModule (unixOS sampleJson) twoFS "w".toList = some s1 ∧
      loadData (unixOS sampleJson) s1 = .ok d1 ∧
      ∀ key, key ≠ "/proj".toList → ledgerEntry d1 key
        = ledgerEntry { InstalledModules := some [("/proj".toList, ["x".toList]),
            ("/other".toList, ["y".toList, "z".toList])] } key) ∧
    (∃ s1 d1, removeInstalledModule (unixOS sampleJson) twoFS "x".toList = some s1 ∧
      loadData (unixOS sampleJson) s1 = .ok d1 ∧
      ∀ key, key ≠ "/proj".toList → ledgerEntry d1 key
        = ledgerEntry { InstalledModules := some [("/proj".toList, ["x".toList]),
            ("/other".toList, ["y".toList, "z".toList])] } key) :=
  ⟨(ledger_other_keys_untouched (unixOS sampleJson) twoFS "w".toList "/proj".toList
      { InstalledModules := some [("/proj".toList, ["x".toList]),
          ("/other".toList, ["y".toList, "z".toList])] } (by decide) (by decide)).1
      _ rfl (fun _ => ⟨by decide, by decide⟩),
   (ledger_other_keys_untouched (unixOS sampleJson) twoFS "x".toList "/proj".toList
      { InstalledModules := some [("/proj".toList, ["x".toList]),
          ("/other".toList, ["y".toList, "z".toList])] } (by decide) (by decide)).2
      ⟨by decide, by decide⟩⟩

end OtherProjects

/-- A run of `saveInstalledModule` in a state in which `loadData` returns a
ledger whose map is nil panics. -/
theorem saveInstalledModule_nil_map {σ : Type} (os : OS σ) (s : σ) (wd module : Str)
    (hwd : os.getwd s = .ok wd) (hload : loadData os s = .ok { InstalledModules := none }) :
    saveInstalledModule os s module = none := by
  simp only [saveInstalledModule, hwd, hload]

/-- **C25.** The ledger file holds `null` for the map of the installed
modules: `loadData` returns, without error, a ledger whose map is nil, and
`saveInstalledModule` panics on it, as it assigns to an entry of the nil map.
For a state without ledger file the map returned is initialised. -/
theorem loadData_nil_map :
    loadData (unixOS sampleJson) nullFS = .ok { InstalledModules := none } ∧
    saveInstalledModule (unixOS sampleJson) nullFS "local:w".toList = none ∧
    loadData (unixOS sampleJson) sampleFS = .ok { InstalledModules := some [] } := by
  decide

/-- **C21.** Two states that differ in the text of the ledger file only: with
the ledger that lists `x` for the project, `installLocalModule` of the source
`a` returns; with the ledger file that holds `null` for the map, it prints the
same texts, makes the same copy, and panics. -/
theorem install_depends_on_ledger :
    nullFS = withLedger "\x7b\"installed_modules\":null\x7d\n".toList ∧
    singleFS = withLedger "\x7b\"installed_modules\":\x7b\"/proj\":[\"x\"]\x7d\x7d\n".toList ∧
    (installLocalModule (unixOS sampleJson) 1 singleFS "a".toList).map
        (fun o => (o.stdout, o.ending))
      = some (["Installing local module 'w' to backend/internal/modules/w\n".toList,
          "Registering module: w (Go) at backend/internal/modules/w\n".toList,
          "Local module 'w' installed successfully\n".toList], .returned) ∧
    (installLocalModule (unixOS sampleJson) 1 nullFS "a".toList).map
        (fun o => (o.stdout, o.ending))
      = some (["Installing local module 'w' to backend/internal/modules/w\n".toList,
          "Registering module: w (Go) at backend/internal/modules/w\n".toList,
          "Local module 'w' installed successfully\n".toList], .panicked) ∧
    (importModule (unixOS sampleJson) 1 singleFS "a".toList).map (fun o => o.ending)
      = some .returned ∧
    (importModule (unixOS sampleJson) 1 nullFS "a".toList).map (fun o => o.ending)
      = some .panicked := by
  decide

/-! ## The project scaffold -/

/-- The keys of the map of files, whatever the templates and the
configuration. -/
theorem projectFiles_keys (t : Templates) (config : ProjectConfig) :
    (projectFiles t config).map Prod.fst
      = (projectFiles sampleTemplates sampleConfig).map Prod.fst := rfl

theorem projectFiles_key_mem (t : Templates) (config : ProjectConfig) (kv : Str × Str)
    (h : kv ∈ projectFiles t config) :
    kv.1 ∈ (projectFiles sampleTemplates sampleConfig).map Prod.fst := by
  rw [← projectFiles_keys t config]
  exact List.mem_map_of_mem _ h

namespace FS

theorem foldl_resolveStep_plain (comps : List Str) :
    ∀ base : List Str, (∀ c ∈ comps, PlainName c) →
      comps.foldl resolveStep base = base ++ comps := by
  induction comps with
  | nil => intro base _; simp
  | cons c cs ih =>
    intro base h
    have hc := h c (List.mem_cons_self _ _)
    have hskip : ¬ (c = [] ∨ c = ['.']) := by
      intro h2
      rcases h2 with h2 | h2
      · exact hc.1 h2
      · exact hc.2.1 h2
    rw [List.foldl_cons, ih _ (fun x hx => h x (List.mem_cons_of_mem _ hx))]
    simp [resolveStep, hskip, hc.2.2.1]

/-- The path `filepath.Join(x, rel)`, for a relative path `rel` whose
components are names, denotes the entry reached from the one `x` denotes by
the components of `rel`. -/
theorem resolve_join_rel (fs : FS) (x rel : Str) (hx : x ≠ [])
    (hplain : ∀ c ∈ pathComponents rel, PlainName c) :
    fs.resolve (filepathJoin [x, rel]) = fs.resolve x ++ pathComponents rel := by
  have hj : filepathJoin [x, rel] = filepathClean (x ++ '/' :: rel) := by
    simp [filepathJoin, hx, stringsJoin]
  have hne : x ++ '/' :: rel ≠ [] := by simp
  rw [hj, resolve_clean fs _ hne]
  have hhead : (x ++ '/' :: rel).head? = x.head? := by
    cases x with
    | nil => exact absurd rfl hx
    | cons a as => rfl
  have hpc : pathComponents (x ++ '/' :: rel) = pathComponents x ++ pathComponents rel := by
    unfold pathComponents
    rw [splitWhere_append _ x '/' rel (by decide)]
  simp only [resolve, hhead, hpc, List.foldl_append]
  exact foldl_resolveStep_plain _ _ hplain

theorem mkdirAll_ok_prefix_isDir (fs : FS) (path : Str) (perm : Nat) (fs1 : FS)
    (h : FS.mkdirAll fs path perm = (fs1, none)) :
    ∀ p, p <+: fs.resolve path → isDirEntry (fs1.lookup p) = true := by
  intro p hp
  unfold FS.mkdirAll at h
  by_cases hpath : path = []
  · simp [hpath] at h
  · simp only [hpath, if_false] at h
    by_cases hr : p = []
    · rw [hr]
      simp [lookup, isDirEntry]
    · have hf := (mkdirAllFrom_facts path perm (fs.resolve path) fs []).2.2
      rw [h] at hf
      simpa using (hf rfl p hp hr).2

theorem writeFile_keeps (fs : FS) (path text : Str) (perm : Nat) :
    Keeps fs (FS.writeFile fs path text perm).1 := by
  unfold FS.writeFile
  by_cases hp : path = []
  · simp only [hp, if_true]; exact Keeps.refl fs
  · simp only [hp, if_false]
    cases hl : fs.lookup (fs.resolve path) with
    | some n =>
      cases n with
      | dir m => exact Keeps.refl fs
      | file d m =>
        simp only
        exact Keeps_setNode fs _ _ (fun hd => by rw [hl] at hd; simp [isDirEntry] at hd)
    | none =>
      simp only
      cases hpar : fs.lookup (fs.resolve path).dropLast with
      | none => exact Keeps.refl fs
      | some n =>
        cases n with
        | file d m => exact Keeps.refl fs
        | dir m =>
          simp only
          exact Keeps_setNode fs _ _ (fun hd => by rw [hl] at hd; simp [isDirEntry] at hd)

/-- After a run of the loop over the directories that returns nil, every
directory of the list, and every directory on the way to it, exists. -/
theorem makeDirs_ok_isDir (codec : Codec) (projectPath : Str) (hP : projectPath ≠ []) :
    ∀ (ds : List Str) (fs fs1 : FS), (∀ d ∈ ds, ∀ c ∈ pathComponents d, PlainName c) →
      makeDirs (unixOS codec) projectPath fs ds = (fs1, none) →
      Keeps fs fs1 ∧
      ∀ d ∈ ds, ∀ p, p <+: fs.resolve projectPath ++ pathComponents d →
        isDirEntry (fs1.lookup p) = true := by
  intro ds
  induction ds with
  | nil =>
    intro fs fs1 _ h
    simp only [makeDirs, Prod.mk.injEq, and_true] at h
    subst h
    exact ⟨Keeps.refl fs, fun d hd => absurd hd (List.not_mem_nil d)⟩
  | cons d rest ih =>
    intro fs fs1 hplain h
    rw [makeDirs] at h
    cases hmk : (unixOS codec).mkdirAll fs (filepathJoin [projectPath, d]) 0o755 with
    | mk s1 err =>
      rw [hmk] at h
      cases err with
      | some e => simp at h
      | none =>
        simp only at h
        have hmk2 : FS.mkdirAll fs (filepathJoin [projectPath, d]) 0o755 = (s1, none) := hmk
        have hk1 : Keeps fs s1 := by
          have := mkdirAll_keeps fs (filepathJoin [projectPath, d]) 0o755
          rw [hmk2] at this
          exact this
        obtain ⟨hk2, hrest⟩ := ih s1 fs1 (fun x hx => hplain x (List.mem_cons_of_mem _ hx)) h
        refine ⟨Keeps.trans hk1 hk2, ?_⟩
        intro x hx p hp
        rcases List.mem_cons.mp hx with hx | hx
        · subst hx
          apply (hk2.2.2.2 p).1
          apply mkdirAll_ok_prefix_isDir fs _ _ s1 hmk2 p
          rw [resolve_join_rel fs projectPath x hP (hplain x (List.mem_cons_self _ _))]
          exact hp
        · apply hrest x hx p
          rw [resolve_of_cwd fs s1 hk1.1]
          exact hp

/-- The loop over the directories returns nil when no file is on the way to
any of them, and it touches the directories and the way to them only. -/
theorem makeDirs_spec (codec : Codec) (projectPath : Str) (hP : projectPath ≠ []) :
    ∀ (ds : List Str) (fs : FS), fs.WF →
      (∀ d ∈ ds, ∀ c ∈ pathComponents d, PlainName c) →
      (∀ d ∈ ds, ∀ p, p <+: fs.resolve projectPath ++ pathComponents d →
        isFileEntry (fs.lookup p) = false) →
      ∃ fs1, makeDirs (unixOS codec) projectPath fs ds = (fs1, none) ∧ fs1.WF ∧
        fs1.cwd = fs.cwd ∧
        (∀ q, fs.lookup q ≠ none → fs1.lookup q = fs.lookup q) ∧
        (∀ q, (∀ d ∈ ds, ¬ q <+: fs.resolve projectPath ++ pathComponents d) →
          fs1.lookup q = fs.lookup q) := by
  intro ds
  induction ds with
  | nil =>
    intro fs hwf _ _
    exact ⟨fs, rfl, hwf, rfl, fun _ _ => rfl, fun _ _ => rfl⟩
  | cons d rest ih =>
    intro fs hwf hplain hfree
    have hpd := hplain d (List.mem_cons_self _ _)
    have hres := resolve_join_rel fs projectPath d hP hpd
    have hne : filepathJoin [projectPath, d] ≠ [] := filepathJoin_ne_nil _ _ hP
    have hallplain : ∀ c ∈ [] ++ (fs.resolve projectPath ++ pathComponents d), PlainName c := by
      intro c hc
      rw [List.nil_append, List.mem_append] at hc
      rcases hc with hc | hc
      · exact resolve_plain fs projectPath hwf.1 c hc
      · exact hpd c hc
    obtain ⟨s1, hs1, hwf1, hcwd1, _, hkeep1, hout1, _⟩ :=
      mkdirAllFrom_spec (filepathJoin [projectPath, d]) 0o755
        (fs.resolve projectPath ++ pathComponents d) fs [] hwf (by simp [lookup, isDirEntry])
        hallplain (by simpa using hfree d (List.mem_cons_self _ _))
    have hmk : (unixOS codec).mkdirAll fs (filepathJoin [projectPath, d]) 0o755
        = (s1, none) := by
      show FS.mkdirAll fs _ _ = _
      unfold FS.mkdirAll
      simp only [hne, if_false]
      rw [hres]
      exact hs1
    have hdir1 := mkdirAll_ok_prefix_isDir fs _ _ s1 hmk
    rw [hres] at hdir1
    have hr1 : s1.resolve projectPath = fs.resolve projectPath := resolve_of_cwd fs s1 hcwd1 _
    have hfree1 : ∀ x ∈ rest, ∀ p, p <+: s1.resolve projectPath ++ pathComponents x →
        isFileEntry (s1.lookup p) = false := by
      intro x hx p hp
      rw [hr1] at hp
      by_cases hpp : p <+: fs.resolve projectPath ++ pathComponents d
      · exact isFileEntry_of_isDirEntry _ (hdir1 p hpp)
      · rw [hout1 p (by simpa using hpp)]
        exact hfree x (List.mem_cons_of_mem _ hx) p hp
    obtain ⟨fs1, hfs1, hwf2, hcwd2, hkeep2, hout2⟩ :=
      ih s1 hwf1 (fun x hx => hplain x (List.mem_cons_of_mem _ hx)) hfree1
    refine ⟨fs1, ?_, hwf2, hcwd2.trans hcwd1, ?_, ?_⟩
    · rw [makeDirs, hmk]
      exact hfs1
    · intro q hq
      have h1 := hkeep1 q hq
      rw [hkeep2 q (by rw [h1]; exact hq), h1]
    · intro q hq
      rw [hout2 q (fun x hx => by rw [hr1]; exact hq x (List.mem_cons_of_mem _ hx))]
      exact hout1 q (by simpa using hq d (List.mem_cons_self _ _))

/-- The loop over the files returns nil when every file is to lie in a
directory that exists and takes the place of no directory, and it leaves each
file with its text and touches no other path. -/
theorem writeFiles_spec (codec : Codec) (projectPath : Str) (hP : projectPath ≠ []) :
    ∀ (fl : List (Str × Str)) (fs : FS), fs.WF →
      (∀ kv ∈ fl, ∀ c ∈ pathComponents kv.1, PlainName c) →
      (∀ kv ∈ fl, isDirEntry (fs.lookup
        (fs.resolve projectPath ++ pathComponents kv.1).dropLast) = true) →
      (∀ kv ∈ fl, isDirEntry (fs.lookup
        (fs.resolve projectPath ++ pathComponents kv.1)) = false) →
      (fl.map fun kv => pathComponents kv.1).Nodup →
      ∃ fs2, writeFiles (unixOS codec) projectPath fs fl = (fs2, none) ∧ fs2.WF ∧
        fs2.cwd = fs.cwd ∧
        (∀ kv ∈ fl, ∃ mode, fs2.lookup (fs.resolve projectPath ++ pathComponents kv.1)
          = some (.file kv.2 mode)) ∧
        (∀ q, (∀ kv ∈ fl, q ≠ fs.resolve projectPath ++ pathComponents kv.1) →
          fs2.lookup q = fs.lookup q) := by
  intro fl
  induction fl with
  | nil =>
    intro fs hwf _ _ _ _
    exact ⟨fs, rfl, hwf, rfl, fun kv hkv => absurd hkv (List.not_mem_nil kv), fun _ _ => rfl⟩
  | cons kv rest ih =>
    intro fs hwf hplain hpar hnot hnodup
    obtain ⟨k, text⟩ := kv
    have hpk := hplain (k, text) (List.mem_cons_self _ _)
    have hres := resolve_join_rel fs projectPath k hP hpk
    have hne : filepathJoin [projectPath, k] ≠ [] := filepathJoin_ne_nil _ _ hP
    have hcomp : pathComponents k ≠ [] := splitWhere_ne_nil _ _
    have hp : fs.resolve projectPath ++ pathComponents k ≠ [] := by
      simp [hcomp]
    have hpar0 := hpar (k, text) (List.mem_cons_self _ _)
    have hnot0 := hnot (k, text) (List.mem_cons_self _ _)
    simp only at hpar0 hnot0
    obtain ⟨m, hw⟩ : ∃ m, (unixOS codec).writeFile fs (filepathJoin [projectPath, k]) text 0o644
        = (fs.setNode (fs.resolve projectPath ++ pathComponents k) (.file text m), none) := by
      show ∃ m, FS.writeFile fs _ _ _ = _
      unfold FS.writeFile
      simp only [hne, if_false, hres]
      cases hl : fs.lookup (fs.resolve projectPath ++ pathComponents k) with
      | some n =>
        cases n with
        | dir md => rw [hl] at hnot0; simp [isDirEntry] at hnot0
        | file d md => exact ⟨md, rfl⟩
      | none =>
        simp only
        obtain ⟨md, hmd⟩ := (isDirEntry_iff _).mp hpar0
        rw [hmd]
        exact ⟨0o644, rfl⟩
    have hallplain : ∀ c ∈ fs.resolve projectPath ++ pathComponents k, PlainName c := by
      intro c hc
      rw [List.mem_append] at hc
      rcases hc with hc | hc
      · exact resolve_plain fs projectPath hwf.1 c hc
      · exact hpk c hc
    have hwf1 := WF_setNode fs _ (.file text m) hwf hp hallplain hpar0 (Or.inr hnot0)
    have hnodup2 := List.nodup_cons.mp hnodup
    have hdiff : ∀ kv2 ∈ rest, fs.resolve projectPath ++ pathComponents kv2.1
        ≠ fs.resolve projectPath ++ pathComponents k := by
      intro kv2 hkv2 heq
      have := List.append_cancel_left heq
      exact hnodup2.1 (List.mem_map.mpr ⟨kv2, hkv2, this⟩)
    obtain ⟨fs2, hfs2, hwf2, hcwd2, hfiles2, hout2⟩ :=
      ih (fs.setNode (fs.resolve projectPath ++ pathComponents k) (.file text m)) hwf1
        (fun x hx => hplain x (List.mem_cons_of_mem _ hx))
        (by
          intro x hx
          rw [resolve_setNode]
          have hx0 := hpar x (List.mem_cons_of_mem _ hx)
          rw [lookup_setNode_ne _ _ _ _ hp]
          · exact hx0
          · intro heq
            rw [heq, hnot0] at hx0
            exact absurd hx0 (by decide))
        (by
          intro x hx
          rw [resolve_setNode, lookup_setNode_ne _ _ _ _ hp (hdiff x hx)]
          exact hnot x (List.mem_cons_of_mem _ hx))
        hnodup2.2
    rw [resolve_setNode] at hfiles2 hout2
    refine ⟨fs2, ?_, hwf2, hcwd2, ?_, ?_⟩
    · rw [writeFiles, hw]
      exact hfs2
    · intro x hx
      rcases List.mem_cons.mp hx with hx | hx
      · subst hx
        refine ⟨m, ?_⟩
        rw [hout2 _ (fun kv2 hkv2 => (hdiff kv2 hkv2).symm)]
        exact lookup_setNode_self _ _ _ hp
      · exact hfiles2 x hx
    · intro q hq
      rw [hout2 q (fun x hx => hq x (List.mem_cons_of_mem _ hx))]
      exact lookup_setNode_ne _ _ _ _ hp (hq (k, text) (List.mem_cons_self _ _))

end FS

set_option maxRecDepth 100000 in
theorem projectDirs_plain : ∀ d ∈ projectDirs, ∀ c ∈ pathComponents d, PlainName c := by
  decide

set_option maxRecDepth 100000 in
theorem projectFiles_plain :
    ∀ k ∈ (projectFiles sampleTemplates sampleConfig).map Prod.fst,
      ∀ c ∈ pathComponents k, PlainName c := by
  decide

set_option maxRecDepth 100000 in
theorem projectFiles_nodup :
    (((projectFiles sampleTemplates sampleConfig).map Prod.fst).map pathComponents).Nodup := by
  decide

set_option maxRecDepth 100000 in
theorem projectFiles_parent :
    ∀ k ∈ (projectFiles sampleTemplates sampleConfig).map Prod.fst,
      ∃ d ∈ projectDirs, (pathComponents k).dropLast <+: pathComponents d := by
  decide

set_option maxRecDepth 100000 in
theorem projectFiles_not_dir :
    ∀ k ∈ (projectFiles sampleTemplates sampleConfig).map Prod.fst,
      ∀ d ∈ projectDirs, ¬ pathComponents k <+: pathComponents d := by
  decide

set_option maxRecDepth 100000 in
theorem projectFiles_dir :
    ∀ k ∈ (projectFiles sampleTemplates sampleConfig).map Prod.fst,
      filepathDir k = ['.'] ∨
        ∃ d ∈ projectDirs, pathComponents (filepathDir k) <+: pathComponents d := by
  decide

namespace FS

theorem writeFiles_keeps (codec : Codec) (projectPath : Str) :
    ∀ (fl : List (Str × Str)) (fs : FS),
      Keeps fs (writeFiles (unixOS codec) projectPath fs fl).1 := by
  intro fl
  induction fl with
  | nil => intro fs; exact Keeps.refl fs
  | cons kv rest ih =>
    intro fs
    obtain ⟨k, text⟩ := kv
    rw [writeFiles]
    have hk := writeFile_keeps fs (filepathJoin [projectPath, k]) text 0o644
    cases hw : (unixOS codec).writeFile fs (filepathJoin [projectPath, k]) text 0o644 with
    | mk s1 err =>
      have hw2 : FS.writeFile fs (filepathJoin [projectPath, k]) text 0o644 = (s1, err) := hw
      rw [hw2] at hk
      cases err with
      | some e => exact hk
      | none => exact Keeps.trans hk (ih s1)

/-- What `createProjectStructure` does in a well-formed state in which no
file is on the way to a directory of the list and no directory is in the
place of a file of the map. -/
theorem createProjectStructure_spec (codec : Codec) (t : Templates)
    (range : List (Str × Str) → List (Str × Str)) (fs : FS) (projectPath : Str)
    (config : ProjectConfig)
    (hrange : (range (projectFiles t config)).Perm (projectFiles t config))
    (hwf : fs.WF) (hP : projectPath ≠ [])
    (hdirs : ∀ d ∈ projectDirs, ∀ p, p <+: fs.resolve projectPath ++ pathComponents d →
      isFileEntry (fs.lookup p) = false)
    (hfiles : ∀ kv ∈ projectFiles t config,
      isDirEntry (fs.lookup (fs.resolve projectPath ++ pathComponents kv.1)) = false) :
    ∃ fs2, createProjectStructure (unixOS codec) t range fs projectPath config
        = (fs2, ["✅ Project structure created\n".toList], none) ∧
      fs2.WF ∧ Keeps fs fs2 ∧
      (∀ d ∈ projectDirs, ∀ p, p <+: fs.resolve projectPath ++ pathComponents d →
        isDirEntry (fs2.lookup p) = true) ∧
      (∀ kv ∈ projectFiles t config, ∃ mode,
        fs2.lookup (fs.resolve projectPath ++ pathComponents kv.1)
          = some (.file kv.2 mode)) := by
  obtain ⟨fs1, hmk, hwf1, hcwd1, hkeep1, hout1⟩ :=
    makeDirs_spec codec projectPath hP projectDirs fs hwf projectDirs_plain hdirs
  obtain ⟨hk1, hdir1⟩ := makeDirs_ok_isDir codec projectPath hP projectDirs fs fs1
    projectDirs_plain hmk
  have hr1 : fs1.resolve projectPath = fs.resolve projectPath := resolve_of_cwd fs fs1 hcwd1 _
  have hmem : ∀ kv ∈ range (projectFiles t config), kv ∈ projectFiles t config :=
    fun kv h => hrange.mem_iff.mp h
  have hkey := projectFiles_key_mem t config
  obtain ⟨fs2, hwr, hwf2, hcwd2, hfl2, hout2⟩ :=
    writeFiles_spec codec projectPath hP (range (projectFiles t config)) fs1 hwf1
      (fun kv h => projectFiles_plain kv.1 (hkey kv (hmem kv h)))
      (by
        intro kv h
        rw [hr1]
        obtain ⟨d, hd, hpre⟩ := projectFiles_parent kv.1 (hkey kv (hmem kv h))
        apply hdir1 d hd
        have hcomp : pathComponents kv.1 ≠ [] := splitWhere_ne_nil _ _
        rw [List.dropLast_append_of_ne_nil _ hcomp]
        exact (List.prefix_append_right_inj _).mpr hpre)
      (by
        intro kv h
        rw [hr1, hout1]
        · exact hfiles kv (hmem kv h)
        · intro d hd hpre
          exact projectFiles_not_dir kv.1 (hkey kv (hmem kv h)) d hd
            ((List.prefix_append_right_inj _).mp hpre))
      (by
        have h1 : ((range (projectFiles t config)).map fun kv => pathComponents kv.1).Perm
            ((projectFiles t config).map fun kv => pathComponents kv.1) := hrange.map _
        rw [h1.nodup_iff]
        have h2 : ((projectFiles t config).map fun kv => pathComponents kv.1)
            = ((projectFiles t config).map Prod.fst).map pathComponents := by
          rw [List.map_map]; rfl
        rw [h2, projectFiles_keys]
        exact projectFiles_nodup)
  rw [hr1] at hfl2 hout2
  have hk2 : Keeps fs1 fs2 := by
    have := writeFiles_keeps codec projectPath (range (projectFiles t config)) fs1
    rw [hwr] at this
    exact this
  refine ⟨fs2, ?_, hwf2, Keeps.trans hk1 hk2, ?_, ?_⟩
  · simp only [createProjectStructure, hmk, hwr]
  · intro d hd p hp
    exact (hk2.2.2.2 p).1 (hdir1 d hd p hp)
  · intro kv h
    exact hfl2 kv (hrange.mem_iff.mpr h)

end FS

/-- **C23.** For every configuration, whatever the templates return and in
whatever order the map of files is walked: in a well-formed state in which no
file is on the way to a directory of the list and no directory is in the place
of a file of the map, `createProjectStructure` returns nil; afterwards the
stat of every directory of the list under the project path reports a
directory, and reading every key of the map under the project path gives the
text the map binds to it: `go.mod` reads as `generateGoMod config` and
`frontend/vite.config.js` as the text of `generateViteConfig config`. -/
theorem createProjectStructure_writes (codec : Codec) (t : Templates)
    (range : List (Str × Str) → List (Str × Str)) (fs : FS) (projectPath : Str)
    (config : ProjectConfig)
    (hrange : (range (projectFiles t config)).Perm (projectFiles t config))
    (hwf : fs.WF) (hP : projectPath ≠ [])
    (hdirs : ∀ d ∈ projectDirs, ∀ p ∈ (fs.resolve projectPath ++ pathComponents d).inits,
      FS.isFileEntry (fs.lookup p) = false)
    (hfiles : ∀ kv ∈ projectFiles t config,
      FS.isDirEntry (fs.lookup (fs.resolve projectPath ++ pathComponents kv.1)) = false) :
    ∃ fs2, createProjectStructure (unixOS codec) t range fs projectPath config
        = (fs2, ["✅ Project structure created\n".toList], none) ∧
      (∀ d ∈ projectDirs, ∃ mode,
        FS.stat fs2 (filepathJoin [projectPath, d]) = .ok { isDir := true, mode := mode }) ∧
      (∀ kv ∈ projectFiles t config,
        FS.readFile fs2 (filepathJoin [projectPath, kv.1]) = .ok kv.2) ∧
      FS.readFile fs2 (filepathJoin [projectPath, "go.mod".toList])
        = .ok (generateGoMod config) ∧
      FS.readFile fs2 (filepathJoin [projectPath, "frontend/vite.config.js".toList])
        = .ok (t.generateViteConfig config) := by
  obtain ⟨fs2, hrun, hwf2, hk, hd2, hf2⟩ :=
    FS.createProjectStructure_spec codec t range fs projectPath config hrange hwf hP
      (fun d hd p hp => hdirs d hd p ((List.mem_inits _ _).mpr hp)) hfiles
  have hr2 : fs2.resolve projectPath = fs.resolve projectPath :=
    FS.resolve_of_cwd fs fs2 hk.1 _
  have hread : ∀ kv ∈ projectFiles t config,
      FS.readFile fs2 (filepathJoin [projectPath, kv.1]) = .ok kv.2 := by
    intro kv h
    obtain ⟨mode, hm⟩ := hf2 kv h
    have hres := FS.resolve_join_rel fs2 projectPath kv.1 hP
      (projectFiles_plain kv.1 (projectFiles_key_mem t config kv h))
    unfold FS.readFile
    simp only [FS.filepathJoin_ne_nil _ _ hP, if_false, hres, hr2, hm]
  refine ⟨fs2, hrun, ?_, hread, ?_, ?_⟩
  · intro d hd
    have hres := FS.resolve_join_rel fs2 projectPath d hP (projectDirs_plain d hd)
    obtain ⟨mode, hm⟩ := (FS.isDirEntry_iff _).mp (hd2 d hd _ (List.prefix_refl _))
    refine ⟨mode, ?_⟩
    unfold FS.stat
    simp only [FS.filepathJoin_ne_nil _ _ hP, if_false, hres, hr2, hm]
  · exact hread ("go.mod".toList, generateGoMod config) (by simp [projectFiles])
  · exact hread ("frontend/vite.config.js".toList, t.generateViteConfig config)
      (by simp [projectFiles])

set_option maxRecDepth 100000 in
/-- Witness of **C23**: the project `app` is made in the working directory of
the sample state `initFS`, the map of files walked from its last entry to its
first. -/
theorem createProjectStructure_writes_witness :
    ∃ fs2, createProjectStructure (unixOS sampleCodec) sampleTemplates List.reverse initFS
        "app".toList sampleConfig = (fs2, ["✅ Project structure created\n".toList], none) ∧
      (∀ d ∈ projectDirs, ∃ mode,
        FS.stat fs2 (filepathJoin ["app".toList, d]) = .ok { isDir := true, mode := mode }) ∧
      (∀ kv ∈ projectFiles sampleTemplates sampleConfig,
        FS.readFile fs2 (filepathJoin ["app".toList, kv.1]) = .ok kv.2) ∧
      FS.readFile fs2 (filepathJoin ["app".toList, "go.mod".toList])
        = .ok (generateGoMod sampleConfig) ∧
      FS.readFile fs2 (filepathJoin ["app".toList, "frontend/vite.config.js".toList])
        = .ok (sampleTemplates.generateViteConfig sampleConfig) :=
  createProjectStructure_writes sampleCodec sampleTemplates List.reverse initFS "app".toList
    sampleConfig (List.reverse_perm _) (by decide) (by decide) (by decide) (by decide)

/-- **C28.** For every key of the map of files, the directory of the key is
the project root, or a directory of the list, or on the way to one.  Hence,
once the loop over the directories has returned nil, and in every later state
in which no directory has been removed, the directory that is to hold the file
of a key exists, and the write of the file returns nil unless a directory is
in the place of the file. -/
theorem file_parents_exist (t : Templates) (config : ProjectConfig) :
    (∀ kv ∈ projectFiles t config, filepathDir kv.1 = ['.'] ∨
      ∃ d ∈ projectDirs, pathComponents (filepathDir kv.1) <+: pathComponents d) ∧
    (∀ (codec : Codec) (fs fs1 fs2 : FS) (projectPath : Str), projectPath ≠ [] →
      makeDirs (unixOS codec) projectPath fs projectDirs = (fs1, none) → FS.Keeps fs1 fs2 →
      ∀ kv ∈ projectFiles t config,
        FS.isDirEntry (fs2.lookup
          (fs2.resolve (filepathJoin [projectPath, kv.1])).dropLast) = true ∧
        ∀ text perm, (FS.writeFile fs2 (filepathJoin [projectPath, kv.1]) text perm).2 = none ∨
          FS.isDirEntry (fs2.lookup (fs2.resolve (filepathJoin [projectPath, kv.1])))
            = true) := by
  refine ⟨fun kv h => projectFiles_dir kv.1 (projectFiles_key_mem t config kv h), ?_⟩
  intro codec fs fs1 fs2 projectPath hP hmk hk2 kv h
  have hkey := projectFiles_key_mem t config kv h
  obtain ⟨hk1, hdir1⟩ := FS.makeDirs_ok_isDir codec projectPath hP projectDirs fs fs1
    projectDirs_plain hmk
  have hr : fs2.resolve projectPath = fs.resolve projectPath :=
    FS.resolve_of_cwd fs fs2 (FS.Keeps.trans hk1 hk2).1 _
  have hres := FS.resolve_join_rel fs2 projectPath kv.1 hP (projectFiles_plain kv.1 hkey)
  have hcomp : pathComponents kv.1 ≠ [] := splitWhere_ne_nil _ _
  have hpar : FS.isDirEntry (fs2.lookup
      (fs2.resolve (filepathJoin [projectPath, kv.1])).dropLast) = true := by
    obtain ⟨d, hd, hpre⟩ := projectFiles_parent kv.1 hkey
    rw [hres, hr, List.dropLast_append_of_ne_nil _ hcomp]
    exact (hk2.2.2.2 _).1 (hdir1 d hd _ ((List.prefix_append_right_inj _).mpr hpre))
  refine ⟨hpar, ?_⟩
  intro text perm
  unfold FS.writeFile
  simp only [FS.filepathJoin_ne_nil _ _ hP, if_false]
  cases hl : fs2.lookup (fs2.resolve (filepathJoin [projectPath, kv.1])) with
  | some n =>
    cases n with
    | dir m => right; rfl
    | file d m => left; rfl
  | none =>
    left
    obtain ⟨m, hm⟩ := (FS.isDirEntry_iff _).mp hpar
    simp only [hm]

set_option maxRecDepth 100000 in
/-- Witness of **C28**: after the loop over the directories of the project
`app` in the sample state `initFS`, the directory that is to hold
`backend/config/config.go` exists. -/
theorem file_parents_exist_witness :
    FS.isDirEntry ((makeDirs (unixOS sampleCodec) "app".toList initFS projectDirs).1.lookup
      ((makeDirs (unixOS sampleCodec) "app".toList initFS projectDirs).1.resolve
        (filepathJoin ["app".toList, "backend/config/config.go".toList])).dropLast) = true :=
  ((file_parents_exist sampleTemplates sampleConfig).2 sampleCodec initFS
    (makeDirs (unixOS sampleCodec) "app".toList initFS projectDirs).1
    (makeDirs (unixOS sampleCodec) "app".toList initFS projectDirs).1
    "app".toList (by decide) (by decide) (FS.Keeps.refl _)
    ("backend/config/config.go".toList, sampleTemplates.generateConfig) (by decide)).1

namespace FS

/-- The path that `os.Getwd` returns denotes the working directory. -/
theorem resolve_getwd (fs : FS) (hcwd : ∀ c ∈ fs.cwd, PlainName c) :
    fs.resolve ('/' :: stringsJoin ['/'] fs.cwd) = fs.cwd := by
  have hcomp : pathComponents ('/' :: stringsJoin ['/'] fs.cwd)
      = [] :: pathComponents (stringsJoin ['/'] fs.cwd) := by
    simp [pathComponents, splitWhere]
  simp only [resolve, hcomp, List.head?_cons, if_true, List.foldl_cons]
  have hstep : resolveStep [] [] = [] := by simp [resolveStep]
  rw [hstep]
  by_cases hnil : fs.cwd = []
  · rw [hnil]
    simp [stringsJoin, pathComponents, splitWhere, resolveStep]
  · rw [pathComponents_join fs.cwd hnil (fun c hc => (hcwd c hc).2.2.2)]
    rw [foldl_resolveStep_plain _ _ hcwd]
    rfl

theorem stat_of_lookup (fs : FS) (path : Str) (hne : path ≠ []) :
    isNotExist (FS.stat fs path) = (fs.lookup (fs.resolve path)).isNone := by
  unfold FS.stat
  simp only [hne, if_false]
  cases hl : fs.lookup (fs.resolve path) with
  | none => rfl
  | some n => cases n <;> rfl

end FS

theorem runInit_new {σ : Type} (os : OS σ) (t : Templates)
    (range : List (Str × Str) → List (Str × Str)) (s s1 : σ) (flags : InitFlags)
    (args : List Str) (cwd : Str) (out2 : List Str)
    (hwd : os.getwd s = .ok cwd)
    (hstat : isNotExist (os.stat s (filepathJoin [cwd, args.headD "my-app".toList])) = true)
    (hrun : createProjectStructure os t range s
      (filepathJoin [cwd, args.headD "my-app".toList])
      { Name := args.headD "my-app".toList,
        Module := if flags.module = [] then args.headD "my-app".toList else flags.module,
        Description := flags.description, Author := flags.author, Port := flags.port,
        BackendPort := flags.backendPort } = (s1, out2, none)) :
    ∃ out, runInit os t range s flags args = (s1, out, none) := by
  cases args with
  | nil =>
    simp only [List.headD] at hstat hrun
    simp only [runInit, hwd, hstat, Bool.not_true, Bool.false_eq_true, if_false, hrun]
    exact ⟨_, rfl⟩
  | cons a rest =>
    simp only [List.headD] at hstat hrun
    simp only [runInit, hwd, hstat, Bool.not_true, Bool.false_eq_true, if_false, hrun]
    exact ⟨_, rfl⟩

/-- **C22.** In a well-formed state, for a project name that is the name of an
entry (the first argument, or `my-app` when there is none): when the working
directory holds an entry of that name, `runInit` returns the error
`directory <name> already exists`, prints nothing and leaves the state as it
is; when it holds none, the working directory exists and the walk of the map
of files is a permutation of it, `runInit` returns nil, removes nothing, and
afterwards the stat of the project path reports a directory.  In every
environment `runInit` returns that error and the state it was given whenever
the stat of the project path returns no error, or an error that
`os.IsNotExist` does not accept. -/
theorem runInit_directory_check (codec : Codec) (t : Templates)
    (range : List (Str × Str) → List (Str × Str)) (fs : FS) (flags : InitFlags)
    (args : List Str) (hwf : fs.WF) (hname : PlainName (args.headD "my-app".toList)) :
    (fs.lookup (fs.cwd ++ [args.headD "my-app".toList]) ≠ none →
      runInit (unixOS codec) t range fs flags args
        = (fs, [], some ("directory ".toList ++ args.headD "my-app".toList
            ++ " already exists".toList)) ∧
      "already exists".toList <:+: "directory ".toList ++ args.headD "my-app".toList
        ++ " already exists".toList) ∧
    (fs.lookup (fs.cwd ++ [args.headD "my-app".toList]) = none →
      FS.isDirEntry (fs.lookup fs.cwd) = true → (∀ l, (range l).Perm l) →
      ∃ fs2 out, runInit (unixOS codec) t range fs flags args = (fs2, out, none) ∧
        FS.Keeps fs fs2 ∧
        FS.isDirEntry (fs2.lookup (fs.cwd ++ [args.headD "my-app".toList])) = true ∧
        ∃ mode, FS.stat fs2
            (filepathJoin ['/' :: stringsJoin ['/'] fs.cwd, args.headD "my-app".toList])
          = .ok { isDir := true, mode := mode }) ∧
    (∀ (σ : Type) (os : OS σ) (s : σ) (cwd : Str), os.getwd s = .ok cwd →
      isNotExist (os.stat s (filepathJoin [cwd, args.headD "my-app".toList])) = false →
      runInit os t range s flags args
        = (s, [], some ("directory ".toList ++ args.headD "my-app".toList
            ++ " already exists".toList))) := by
  have hgen : ∀ (σ : Type) (os : OS σ) (s : σ) (cwd : Str), os.getwd s = .ok cwd →
      isNotExist (os.stat s (filepathJoin [cwd, args.headD "my-app".toList])) = false →
      runInit os t range s flags args
        = (s, [], some ("directory ".toList ++ args.headD "my-app".toList
            ++ " already exists".toList)) := by
    intro σ os s cwd hwd hstat
    cases args with
    | nil =>
      simp only [List.headD] at hstat ⊢
      simp only [runInit, hwd, hstat, Bool.not_false, if_true]
    | cons a rest =>
      simp only [List.headD] at hstat ⊢
      simp only [runInit, hwd, hstat, Bool.not_false, if_true]
  have hwd : (unixOS codec).getwd fs = .ok ('/' :: stringsJoin ['/'] fs.cwd) := rfl
  have hPne : ('/' :: stringsJoin ['/'] fs.cwd : Str) ≠ [] := by simp
  have hjne := FS.filepathJoin_ne_nil ('/' :: stringsJoin ['/'] fs.cwd)
    (args.headD "my-app".toList) hPne
  have hres : fs.resolve (filepathJoin ['/' :: stringsJoin ['/'] fs.cwd,
      args.headD "my-app".toList]) = fs.cwd ++ [args.headD "my-app".toList] := by
    rw [FS.resolve_join fs _ _ hPne hname, FS.resolve_getwd fs hwf.1]
  refine ⟨?_, ?_, hgen⟩
  · intro hex
    refine ⟨hgen FS (unixOS codec) fs _ hwd ?_, ⟨"directory ".toList
      ++ args.headD "my-app".toList ++ [' '], [], by simp⟩⟩
    rw [show (unixOS codec).stat = FS.stat from rfl, FS.stat_of_lookup fs _ hjne, hres]
    cases hl : fs.lookup (fs.cwd ++ [args.headD "my-app".toList]) with
    | none => exact absurd hl hex
    | some n => rfl
  · intro hnone hcwd hrange
    have hstat : isNotExist ((unixOS codec).stat fs
        (filepathJoin ['/' :: stringsJoin ['/'] fs.cwd, args.headD "my-app".toList]))
        = true := by
      rw [show (unixOS codec).stat = FS.stat from rfl, FS.stat_of_lookup fs _ hjne, hres, hnone]
      rfl
    have hbelow : ∀ q, fs.cwd ++ [args.headD "my-app".toList] <+: q → fs.lookup q = none := by
      intro q hq
      by_cases hqe : q = fs.cwd ++ [args.headD "my-app".toList]
      · rw [hqe]; exact hnone
      · exact FS.WF.below_none fs hwf _ q (by rw [hnone]; rfl) hq hqe
    have hcomp1 : ∀ (rel : List Str) (p : List Str),
        p <+: (fs.cwd ++ [args.headD "my-app".toList]) ++ rel →
        FS.isFileEntry (fs.lookup p) = false := by
      intro rel p hp
      by_cases hbp : fs.cwd ++ [args.headD "my-app".toList] <+: p
      · rw [hbelow p hbp]; rfl
      · have hpb : p <+: fs.cwd ++ [args.headD "my-app".toList] := by
          rcases List.prefix_or_prefix_of_prefix hp (List.prefix_append _ rel) with h | h
          · exact h
          · exact absurd h hbp
        rcases List.prefix_concat_iff.mp hpb with h | h
        · exact absurd (h ▸ List.prefix_refl _) hbp
        · apply FS.isFileEntry_of_isDirEntry
          by_cases hpc : p = fs.cwd
          · rw [hpc]; exact hcwd
          · exact FS.WF.prefix_isDir fs hwf fs.cwd
              (by intro h0; rw [h0] at hcwd; simp [FS.isDirEntry] at hcwd) p h hpc
    obtain ⟨fs2, hrun, _, hk, hd2, _⟩ := FS.createProjectStructure_spec codec t range fs
      (filepathJoin ['/' :: stringsJoin ['/'] fs.cwd, args.headD "my-app".toList])
      { Name := args.headD "my-app".toList,
        Module := if flags.module = [] then args.headD "my-app".toList else flags.module,
        Description := flags.description, Author := flags.author, Port := flags.port,
        BackendPort := flags.backendPort }
      (hrange _) hwf hjne
      (by intro d _ p hp; rw [hres] at hp; exact hcomp1 _ p hp)
      (by intro kv _; rw [hres, hbelow _ (List.prefix_append _ _)]; rfl)
    have hdir := hd2 "dist".toList (by decide) (fs.cwd ++ [args.headD "my-app".toList])
      (by rw [hres]; exact List.prefix_append _ _)
    obtain ⟨out, hout⟩ := runInit_new (unixOS codec) t range fs fs2 flags args _ _ hwd hstat hrun
    refine ⟨fs2, out, hout, hk, hdir, ?_⟩
    obtain ⟨mode, hm⟩ := (FS.isDirEntry_iff _).mp hdir
    refine ⟨mode, ?_⟩
    unfold FS.stat
    simp only [hjne, if_false, FS.resolve_of_cwd fs fs2 hk.1, hres, hm]

set_option maxRecDepth 100000 in
/-- Witness of **C22**: in the sample state `initFS` the working directory
holds the entry `taken` and no entry `my-app`. -/
theorem runInit_directory_check_witness :
    runInit (unixOS sampleCodec) sampleTemplates id initFS
        { module := [], description := [], author := [], port := 5173, backendPort := 8080 }
        ["taken".toList]
      = (initFS, [], some "directory taken already exists".toList) ∧
    ∃ fs2 out, runInit (unixOS sampleCodec) sampleTemplates id initFS
        { module := [], description := [], author := [], port := 5173, backendPort := 8080 } []
        = (fs2, out, none) ∧
      FS.Keeps initFS fs2 ∧
      FS.isDirEntry (fs2.lookup (initFS.cwd ++ [([] : List Str).headD "my-app".toList])) = true ∧
      ∃ mode, FS.stat fs2
          (filepathJoin ['/' :: stringsJoin ['/'] initFS.cwd,
            ([] : List Str).headD "my-app".toList])
        = .ok { isDir := true, mode := mode } :=
  ⟨((runInit_directory_check sampleCodec sampleTemplates id initFS
      { module := [], description := [], author := [], port := 5173, backendPort := 8080 }
      ["taken".toList] (by decide) (by decide)).1 (by decide)).1,
   (runInit_directory_check sampleCodec sampleTemplates id initFS
      { module := [], description := [], author := [], port := 5173, backendPort := 8080 }
      [] (by decide) (by decide)).2.1 (by decide) (by decide) (fun _ => List.Perm.refl _)⟩

/-! ## The copy into a destination that exists -/

namespace FS

theorem Frame_refl (fs : FS) (hwf : fs.WF) (d : List Str) : Frame fs fs d :=
  ⟨hwf, rfl, fun _ _ _ => rfl, fun _ _ _ => rfl, fun _ _ _ => rfl⟩

theorem Frame.source {fs fs2 : FS} {d : List Str} (h : Frame fs fs2 d) (s : List Str)
    (hsd : ¬ s <+: d) (hds : ¬ d <+: s) (rel : List Str) :
    fs2.lookup (s ++ rel) = fs.lookup (s ++ rel) :=
  h.2.2.2.1 _ (not_prefix_below s d rel hsd hds)
    (fun h2 => hsd ((List.prefix_append _ _).trans h2))

theorem prefix_child_elim (q d : List Str) (a : Str) (h : q <+: d ++ [a]) :
    q = d ++ [a] ∨ q <+: d :=
  List.prefix_concat_iff.mp h

/-- A step at and below the entry `a` of `d` is a step at and below `d`. -/
theorem Frame.child {fs fs1 fs2 : FS} {d : List Str} {a : Str} (h1 : Frame fs fs1 d)
    (h2 : Frame fs1 fs2 (d ++ [a])) : Frame fs fs2 d := by
  obtain ⟨_, c1, e1, u1, n1⟩ := h1
  obtain ⟨w2, c2, e2, u2, n2⟩ := h2
  have hda : ∀ q, ¬ d <+: q → ¬ d ++ [a] <+: q :=
    fun q hq h => hq ((List.prefix_append _ _).trans h)
  have hqd : ∀ q, ¬ d <+: q → ¬ q <+: d → ¬ q <+: d ++ [a] := by
    intro q hq1 hq2 h
    rcases prefix_child_elim q d a h with h | h
    · exact hq1 (h ▸ List.prefix_append _ _)
    · exact hq2 h
  refine ⟨w2, c2.trans c1, ?_, ?_, ?_⟩
  · intro q hq hex
    have := e1 q hq hex
    rw [e2 q (hda q hq) (by rw [this]; exact hex), this]
  · intro q hq1 hq2
    rw [u2 q (hda q hq1) (hqd q hq1 hq2), u1 q hq1 hq2]
  · intro t ht1 ht2
    rw [n2 t (fun h => hqd t ht2 ht1 h) (hda t ht2), n1 t ht1 ht2]

/-- A step that touches the entry `a` of `d` only is a step at and below `d`. -/
theorem Frame.entry {fs fs1 fs2 : FS} {d : List Str} {a : Str} (h1 : Frame fs fs1 d)
    (hwf2 : fs2.WF) (hcwd : fs2.cwd = fs1.cwd)
    (hkeep : ∀ q, q ≠ d ++ [a] → fs2.lookup q = fs1.lookup q)
    (hcount : ∀ t, ¬ t <+: d ++ [a] → fs2.countBelow t = fs1.countBelow t) :
    Frame fs fs2 d := by
  apply Frame.child h1 (a := a)
  exact ⟨hwf2, hcwd, fun q hq _ => hkeep q (fun h => hq (h ▸ List.prefix_refl _)),
    fun q hq _ => hkeep q (fun h => hq (h ▸ List.prefix_refl _)),
    fun t ht _ => hcount t ht⟩

/-- The loop of `os.MkdirAll`, whether it fails or not, leaves a well-formed
state and touches the way to its target only. -/
theorem mkdirAllFrom_frame (path : Str) (perm : Nat) (rest : List Str) :
    ∀ (fs : FS) (at_ : List Str), fs.WF → isDirEntry (fs.lookup at_) = true →
      (∀ c ∈ at_ ++ rest, PlainName c) →
      (mkdirAllFrom path perm fs at_ rest).1.WF ∧
      (∀ q, ¬ q <+: at_ ++ rest →
        (mkdirAllFrom path perm fs at_ rest).1.lookup q = fs.lookup q) ∧
      (∀ t, ¬ t <+: at_ ++ rest →
        (mkdirAllFrom path perm fs at_ rest).1.countBelow t = fs.countBelow t) := by
  induction rest with
  | nil =>
    intro fs at_ hwf _ _
    exact ⟨hwf, fun _ _ => rfl, fun _ _ => rfl⟩
  | cons c rest ih =>
    intro fs at_ hwf hdir hplain
    have happ : at_ ++ c :: rest = (at_ ++ [c]) ++ rest := by simp
    have hpre : at_ ++ [c] <+: at_ ++ c :: rest := by
      rw [happ]; exact List.prefix_append _ _
    have hne : at_ ++ [c] ≠ [] := by simp
    cases hl : fs.lookup (at_ ++ [c]) with
    | some n =>
      cases n with
      | file d m =>
        simp only [mkdirAllFrom, hl]
        exact ⟨hwf, fun _ _ => trivial, fun _ _ => trivial⟩
      | dir m =>
        have h := ih fs (at_ ++ [c]) hwf (by rw [hl]; rfl) (by rw [← happ]; exact hplain)
        simp only [mkdirAllFrom, hl]
        rw [happ]
        exact h
    | none =>
      have hplainP : ∀ x ∈ at_ ++ [c], PlainName x := by
        intro x hx
        apply hplain x
        rw [happ]
        exact List.mem_append_left _ hx
      have hwf1 : (fs.setNode (at_ ++ [c]) (.dir perm)).WF :=
        WF_setNode fs _ _ hwf hne hplainP (by simpa using hdir) (Or.inl rfl)
      obtain ⟨h2, h6, h7⟩ := ih (fs.setNode (at_ ++ [c]) (.dir perm)) (at_ ++ [c]) hwf1
        (by rw [lookup_setNode_self _ _ _ hne]; rfl) (by rw [← happ]; exact hplain)
      simp only [mkdirAllFrom, hl]
      refine ⟨h2, ?_, ?_⟩
      · intro q hq
        have hqne : q ≠ at_ ++ [c] := by
          intro h0; rw [h0] at hq; exact hq hpre
        rw [h6 q (by rw [← happ]; exact hq), lookup_setNode_ne _ _ _ _ hne hqne]
      · intro t ht
        rw [h7 t (by rw [← happ]; exact ht)]
        exact countBelow_setNode fs _ t _ (fun h => ht (h.trans hpre))

/-- The call `os.MkdirAll`, whether it fails or not, works on the way to its
target only. -/
theorem mkdirAll_frame (fs : FS) (path : Str) (perm : Nat) (hwf : fs.WF) :
    Frame fs (FS.mkdirAll fs path perm).1 (fs.resolve path) := by
  unfold FS.mkdirAll
  by_cases hp : path = []
  · simp only [hp, if_true]
    exact Frame_refl fs hwf _
  · simp only [hp, if_false]
    obtain ⟨h1, h2, h3⟩ := mkdirAllFrom_frame path perm (fs.resolve path) fs [] hwf
      (by simp [lookup, isDirEntry]) (by simpa using resolve_plain fs path hwf.1)
    obtain ⟨c1, c2, _⟩ := mkdirAllFrom_facts path perm (fs.resolve path) fs []
    simp only [List.nil_append] at h2 h3
    exact ⟨h1, c1, fun q _ hex => c2 q hex, fun q _ hq => h2 q hq, fun t ht _ => h3 t ht⟩

theorem mkdirAll_untouched (fs : FS) (path : Str) (perm : Nat) (hwf : fs.WF) :
    ∀ q, ¬ q <+: fs.resolve path → (FS.mkdirAll fs path perm).1.lookup q = fs.lookup q := by
  unfold FS.mkdirAll
  by_cases hp : path = []
  · subst hp
    intro q _
    rfl
  · simp only [hp, if_false]
    have h := (mkdirAllFrom_frame path perm (fs.resolve path) fs [] hwf
      (by simp [lookup, isDirEntry]) (by simpa using resolve_plain fs path hwf.1)).2.1
    simpa using h

theorem child_exists (fs : FS) (hwf : fs.WF) (s : List Str) (name : Str) (r : List Str)
    (h : fs.lookup (s ++ name :: r) ≠ none) : fs.lookup (s ++ [name]) ≠ none := by
  by_cases hr : r = []
  · subst hr; exact h
  · have := WF.prefix_isDir fs hwf _ h (s ++ [name]) ⟨r, by simp⟩
      (by
        intro h0
        have := congrArg List.length h0
        simp at this
        exact hr this)
    intro h0
    rw [h0] at this
    simp [isDirEntry] at this

theorem setNode_file_ok (fs : FS) (P : List Str) (text : Str) (mode : Nat) (hwf : fs.WF)
    (hne : P ≠ []) (hplain : ∀ c ∈ P, PlainName c)
    (hkind : (∃ t m, fs.lookup P = some (.file t m)) ∨
      (fs.lookup P = none ∧ isDirEntry (fs.lookup P.dropLast) = true)) :
    (fs.setNode P (.file text mode)).WF ∧
    (fs.setNode P (.file text mode)).lookup P = some (.file text mode) ∧
    (∀ q, q ≠ P → (fs.setNode P (.file text mode)).lookup q = fs.lookup q) ∧
    (∀ t, ¬ t <+: P → (fs.setNode P (.file text mode)).countBelow t = fs.countBelow t) := by
  have hpar : isDirEntry (fs.lookup P.dropLast) = true := by
    rcases hkind with ⟨t, m, h⟩ | ⟨_, h⟩
    · exact (hwf.2 _ (mem_of_lookup fs P _ hne h)).2.2
    · exact h
  have hnd : isDirEntry (fs.lookup P) = false := by
    rcases hkind with ⟨t, m, h⟩ | ⟨h, _⟩ <;> rw [h] <;> rfl
  exact ⟨WF_setNode fs P _ hwf hne hplain hpar (Or.inr hnd), lookup_setNode_self _ _ _ hne,
    fun q hq => lookup_setNode_ne _ _ _ _ hne hq, fun t ht => countBelow_setNode fs P t _ ht⟩

theorem create_cases (fs : FS) (dst : Str) :
    (∃ e, FS.create fs dst = (fs, some e)) ∨
    (dst ≠ [] ∧ fs.resolve dst ≠ [] ∧ ∃ m0,
      FS.create fs dst = (fs.setNode (fs.resolve dst) (.file [] m0), none) ∧
      ((∃ t m, fs.lookup (fs.resolve dst) = some (.file t m)) ∨
        (fs.lookup (fs.resolve dst) = none ∧
          isDirEntry (fs.lookup (fs.resolve dst).dropLast) = true))) := by
  unfold FS.create
  by_cases hp : dst = []
  · left; simp [hp]
  · simp only [hp, if_false]
    cases hl : fs.lookup (fs.resolve dst) with
    | some n =>
      cases n with
      | dir m => left; exact ⟨_, rfl⟩
      | file d m =>
        right
        have hne : fs.resolve dst ≠ [] := by
          intro h0; rw [h0] at hl; simp [lookup] at hl
        exact ⟨hp, hne, m, rfl, Or.inl ⟨d, m, rfl⟩⟩
    | none =>
      have hne : fs.resolve dst ≠ [] := by
        intro h0; rw [h0] at hl; simp [lookup] at hl
      cases hpar : fs.lookup (fs.resolve dst).dropLast with
      | none => left; exact ⟨_, rfl⟩
      | some n =>
        cases n with
        | file d m => left; exact ⟨_, rfl⟩
        | dir m => right; exact ⟨hp, hne, 0o644, rfl, Or.inr ⟨rfl, rfl⟩⟩

theorem readFile_inv (fs : FS) (src text : Str) (h : FS.readFile fs src = .ok text) :
    ∃ m, fs.lookup (fs.resolve src) = some (.file text m) := by
  unfold FS.readFile at h
  by_cases hp : src = []
  · simp [hp] at h
  · simp only [hp, if_false] at h
    cases hl : fs.lookup (fs.resolve src) with
    | none => rw [hl] at h; simp at h
    | some n =>
      cases n with
      | dir m => rw [hl] at h; simp at h
      | file d m =>
        rw [hl] at h
        simp only [Except.ok.injEq] at h
        exact ⟨m, by rw [h]⟩

theorem stat_inv (fs : FS) (src : Str) (info : FileInfo) (t : Str) (m : Nat)
    (h : FS.stat fs src = .ok info) (hl : fs.lookup (fs.resolve src) = some (.file t m)) :
    info.mode = m := by
  unfold FS.stat at h
  by_cases hp : src = []
  · simp [hp] at h
  · simp only [hp, if_false, hl, Except.ok.injEq] at h
    rw [← h]

/-- The call `copyFile`, whether it fails or not, leaves a well-formed state
and touches its destination only; when it returns nil the source is a file and
the destination is a copy of it. -/
theorem copyFile_frame (codec : Codec) (fs : FS) (src dst : Str) (hwf : fs.WF) :
    (copyFile (unixOS codec) fs src dst).1.WF ∧
    (copyFile (unixOS codec) fs src dst).1.cwd = fs.cwd ∧
    (∀ q, q ≠ fs.resolve dst → (copyFile (unixOS codec) fs src dst).1.lookup q = fs.lookup q) ∧
    (∀ t, ¬ t <+: fs.resolve dst →
      (copyFile (unixOS codec) fs src dst).1.countBelow t = fs.countBelow t) ∧
    ((copyFile (unixOS codec) fs src dst).2 = none → fs.resolve src ≠ fs.resolve dst →
      ∃ text mode, fs.lookup (fs.resolve src) = some (.file text mode) ∧
        (copyFile (unixOS codec) fs src dst).1.lookup (fs.resolve dst)
          = some (.file text mode)) := by
  have htriv : ∀ e : OSError, (fs, some e).1.WF ∧ (fs, some e).1.cwd = fs.cwd ∧
      (∀ q, q ≠ fs.resolve dst → (fs, some e).1.lookup q = fs.lookup q) ∧
      (∀ t, ¬ t <+: fs.resolve dst → (fs, some e).1.countBelow t = fs.countBelow t) ∧
      ((fs, some e).2 = none → fs.resolve src ≠ fs.resolve dst →
        ∃ text mode, fs.lookup (fs.resolve src) = some (.file text mode) ∧
          (fs, some e).1.lookup (fs.resolve dst) = some (.file text mode)) :=
    fun e => ⟨hwf, rfl, fun _ _ => rfl, fun _ _ => rfl, fun h => by simp at h⟩
  have hplain := resolve_plain fs dst hwf.1
  cases h1 : FS.openFile fs src with
  | error e =>
    have : copyFile (unixOS codec) fs src dst = (fs, some e) := by
      simp only [copyFile, unixOS, h1]
    rw [this]
    exact htriv e
  | ok u =>
    rcases create_cases fs dst with ⟨e, h2⟩ | ⟨hdst, hne, m0, h2, hkind⟩
    · have : copyFile (unixOS codec) fs src dst = (fs, some e) := by
        simp only [copyFile, unixOS, h1, h2]
      rw [this]
      exact htriv e
    · obtain ⟨w1, l1, k1, n1⟩ := setNode_file_ok fs _ [] m0 hwf hne hplain hkind
      generalize hs1 : fs.setNode (fs.resolve dst) (.file [] m0) = s1 at *
      have hr1 : ∀ p, s1.resolve p = fs.resolve p := by
        intro p; rw [← hs1]; rfl
      have hc1 : s1.cwd = fs.cwd := by rw [← hs1]; rfl
      cases h3 : FS.readFile s1 src with
      | error e =>
        have : copyFile (unixOS codec) fs src dst = (s1, some e) := by
          simp only [copyFile, unixOS, h1, h2, ioCopy, h3]
        rw [this]
        exact ⟨w1, hc1, k1, n1, fun h => by simp at h⟩
      | ok text =>
        have h4 : FS.write s1 dst text
            = (s1.setNode (fs.resolve dst) (.file ([] ++ text) m0), none) := by
          simp only [FS.write, hr1, l1]
        obtain ⟨w2, l2, k2, n2⟩ := setNode_file_ok s1 (fs.resolve dst) ([] ++ text) m0 w1 hne
          hplain (Or.inl ⟨_, _, l1⟩)
        generalize hs2 : s1.setNode (fs.resolve dst) (.file ([] ++ text) m0) = s2 at *
        have hr2 : ∀ p, s2.resolve p = fs.resolve p := by
          intro p; rw [← hs2]; exact hr1 p
        have hc2 : s2.cwd = fs.cwd := by rw [← hs2]; exact hc1
        cases h5 : FS.stat s2 src with
        | error e =>
          have : copyFile (unixOS codec) fs src dst = (s2, some e) := by
            simp only [copyFile, unixOS, h1, h2, ioCopy, h3, h4, h5]
          rw [this]
          exact ⟨w2, hc2, fun q hq => by rw [k2 q hq, k1 q hq],
            fun t ht => by rw [n2 t ht, n1 t ht], fun h => by simp at h⟩
        | ok info =>
          have h6 : FS.chmod s2 dst info.mode
              = (s2.setNode (fs.resolve dst) (.file ([] ++ text) info.mode), none) := by
            simp only [FS.chmod, hdst, if_false, hr2, l2]
          obtain ⟨w3, l3, k3, n3⟩ := setNode_file_ok s2 (fs.resolve dst) ([] ++ text) info.mode
            w2 hne hplain (Or.inl ⟨_, _, l2⟩)
          have : copyFile (unixOS codec) fs src dst
              = (s2.setNode (fs.resolve dst) (.file ([] ++ text) info.mode), none) := by
            simp only [copyFile, unixOS, h1, h2, ioCopy, h3, h4, h5, h6]
          rw [this]
          refine ⟨w3, hc2, fun q hq => by rw [k3 q hq, k2 q hq, k1 q hq],
            fun t ht => by rw [n3 t ht, n2 t ht, n1 t ht], ?_⟩
          intro _ hsd
          obtain ⟨m, hm⟩ := readFile_inv s1 src text h3
          rw [hr1, k1 _ hsd] at hm
          have hm2 : s2.lookup (s2.resolve src) = some (.file text m) := by
            rw [hr2, k2 _ hsd, k1 _ hsd]; exact hm
          have := stat_inv s2 src info text m h5 hm2
          refine ⟨text, m, hm, ?_⟩
          rw [l3, this]
          rfl

end FS


namespace FS

theorem append_child (d : List Str) (a : Str) (r : List Str) :
    d ++ a :: r = (d ++ [a]) ++ r := by simp

theorem below_file_none (fs : FS) (hwf : fs.WF) (s : List Str) (a : Str) (text : Str)
    (mode : Nat) (hfile : fs.lookup (s ++ [a]) = some (.file text mode)) (b : Str)
    (r : List Str) : fs.lookup (s ++ a :: b :: r) = none := by
  apply WF.below_none fs hwf (s ++ [a])
  · rw [hfile]; rfl
  · exact ⟨b :: r, by simp⟩
  · intro h
    have := congrArg List.length h
    simp at this

theorem LoopBasic_step_dir {fs0 fs1 fs2 : FS} {s d : List Str} {done : List Str}
    {calls c2 : List (List Str)} {a : Str}
    (hinv : LoopBasic fs0 fs1 s d done calls) (ha : a ∉ done)
    (hsd : ¬ s <+: d) (hds : ¬ d <+: s)
    (hsub : CopyBasic fs1 fs2 (s ++ [a]) (d ++ [a]) c2) :
    LoopBasic fs0 fs2 s d (done ++ [a]) (calls ++ c2) := by
  obtain ⟨hf1, hdir1, hm1, hnd1, htr1⟩ := hinv
  obtain ⟨hf2, hm2, hnd2, htr2⟩ := hsub
  have hsrc := hf1.source s hsd hds
  have hd2 : fs2.lookup d = fs1.lookup d :=
    hf2.2.2.1 d (child_ne_self d a)
      (by intro h0; rw [h0] at hdir1; simp [isDirEntry] at hdir1)
  refine ⟨Frame.child hf1 hf2, by rw [hd2]; exact hdir1, ?_, ?_, ?_⟩
  · intro rel h0
    cases rel with
    | nil =>
      have := hm1 [] h0
      simp only [List.append_nil] at this ⊢
      rw [hd2, this]
    | cons b r =>
      by_cases hb : b = a
      · subst hb
        rw [append_child d b r, hm2 r (by rw [← append_child, hsrc]; exact h0),
          ← append_child]
        exact hm1 _ h0
      · rw [hf2.2.2.2.1 _ (sibling_untouched d r a b hb).1 (sibling_untouched d r a b hb).2]
        exact hm1 _ h0
  · rw [List.nodup_append]
    refine ⟨hnd1, hnd2, ?_⟩
    intro q hq1 hq2
    obtain ⟨name, hname, rel, heq1, _⟩ := htr1 q hq1
    obtain ⟨rel2, heq2, _⟩ := htr2 q hq2
    rw [heq1, ← append_child] at heq2
    have := List.append_cancel_left heq2
    simp only [List.cons.injEq] at this
    exact ha (this.1 ▸ hname)
  · intro q hq
    rcases List.mem_append.mp hq with hq | hq
    · obtain ⟨name, hname, rel, heq1, hdir⟩ := htr1 q hq
      exact ⟨name, List.mem_append_left _ hname, rel, heq1, hdir⟩
    · obtain ⟨rel2, heq2, hdir⟩ := htr2 q hq
      refine ⟨a, by simp, rel2, by rw [heq2]; simp, ?_⟩
      rw [← append_child, hsrc] at hdir
      exact hdir

theorem LoopDone_step_dir {fs0 fs1 fs2 : FS} {s d : List Str} {done : List Str}
    {calls c2 : List (List Str)} {a : Str}
    (hinvB : LoopBasic fs0 fs1 s d done calls) (hinvS : LoopDone fs0 fs1 s d done calls)
    (ha : a ∉ done) (hsd : ¬ s <+: d) (hds : ¬ d <+: s)
    (hsubB : CopyBasic fs1 fs2 (s ++ [a]) (d ++ [a]) c2)
    (hsubS : CopyDone fs1 fs2 (s ++ [a]) (d ++ [a]) c2) :
    LoopDone fs0 fs2 s d (done ++ [a]) (calls ++ c2) := by
  obtain ⟨hf1, hdir1, hm1, hnd1, htr1⟩ := hinvB
  obtain ⟨hf2, hm2, hnd2, htr2⟩ := hsubB
  have hsrc := hf1.source s hsd hds
  have hsib : ∀ name ∈ done, ∀ rel, fs2.lookup (d ++ name :: rel) = fs1.lookup (d ++ name :: rel) := by
    intro name hname rel
    have hne : name ≠ a := fun h => ha (h ▸ hname)
    exact hf2.2.2.2.1 _ (sibling_untouched d rel a name hne).1
      (sibling_untouched d rel a name hne).2
  refine ⟨?_, ?_⟩
  · intro name hname rel text mode hfile
    rcases List.mem_append.mp hname with hn | hn
    · rw [hsib name hn rel]
      exact hinvS.1 name hn rel text mode hfile
    · simp only [List.mem_singleton] at hn
      subst hn
      rw [append_child d name rel]
      exact hsubS.1 rel text mode (by rw [← append_child, hsrc]; exact hfile)
  · intro name hname rel hdir
    rcases List.mem_append.mp hname with hn | hn
    · rw [hsib name hn rel]
      obtain ⟨h1, h2⟩ := hinvS.2 name hn rel hdir
      exact ⟨h1, List.mem_append_left _ h2⟩
    · simp only [List.mem_singleton] at hn
      subst hn
      rw [append_child d name rel]
      obtain ⟨h1, h2⟩ := hsubS.2 rel (by rw [← append_child, hsrc]; exact hdir)
      exact ⟨h1, List.mem_append_right _ h2⟩

theorem LoopBasic_step_file {fs0 fs1 fs2 : FS} {s d : List Str} {done : List Str}
    {calls : List (List Str)} {a : Str}
    (hinv : LoopBasic fs0 fs1 s d done calls) (hex : fs0.lookup (s ++ [a]) ≠ none)
    (hwf2 : fs2.WF) (hcwd : fs2.cwd = fs1.cwd)
    (hkeep : ∀ q, q ≠ d ++ [a] → fs2.lookup q = fs1.lookup q)
    (hcount : ∀ t, ¬ t <+: d ++ [a] → fs2.countBelow t = fs1.countBelow t) :
    LoopBasic fs0 fs2 s d (done ++ [a]) calls := by
  obtain ⟨hf1, hdir1, hm1, hnd1, htr1⟩ := hinv
  have hd2 : fs2.lookup d = fs1.lookup d :=
    hkeep d (fun h => child_ne_self d a (h ▸ List.prefix_refl _))
  refine ⟨Frame.entry hf1 hwf2 hcwd hkeep hcount, by rw [hd2]; exact hdir1, ?_, hnd1, ?_⟩
  · intro rel h0
    rw [hkeep]
    · exact hm1 rel h0
    · intro h
      have := List.append_cancel_left h
      subst this
      exact hex h0
  · intro q hq
    obtain ⟨name, hname, rel, heq1, hdir⟩ := htr1 q hq
    exact ⟨name, List.mem_append_left _ hname, rel, heq1, hdir⟩

theorem LoopDone_step_file {fs0 fs1 fs2 : FS} {s d : List Str} {done : List Str}
    {calls : List (List Str)} {a : Str} {text : Str} {mode : Nat}
    (hinvS : LoopDone fs0 fs1 s d done calls) (ha : a ∉ done) (hwf0 : fs0.WF)
    (hfile : fs0.lookup (s ++ [a]) = some (.file text mode))
    (hnew : fs2.lookup (d ++ [a]) = some (.file text mode))
    (hkeep : ∀ q, q ≠ d ++ [a] → fs2.lookup q = fs1.lookup q) :
    LoopDone fs0 fs2 s d (done ++ [a]) calls := by
  have hsib : ∀ name ∈ done, ∀ rel, fs2.lookup (d ++ name :: rel) = fs1.lookup (d ++ name :: rel) := by
    intro name hname rel
    apply hkeep
    intro h
    have := List.append_cancel_left h
    simp only [List.cons.injEq] at this
    exact ha (this.1 ▸ hname)
  refine ⟨?_, ?_⟩
  · intro name hname rel text2 mode2 hfile2
    rcases List.mem_append.mp hname with hn | hn
    · rw [hsib name hn rel]
      exact hinvS.1 name hn rel text2 mode2 hfile2
    · simp only [List.mem_singleton] at hn
      subst hn
      cases rel with
      | nil =>
        rw [hfile] at hfile2
        rw [hnew, hfile2]
      | cons b r =>
        rw [below_file_none fs0 hwf0 s name text mode hfile b r] at hfile2
        exact absurd hfile2 (by simp)
  · intro name hname rel hdir
    rcases List.mem_append.mp hname with hn | hn
    · rw [hsib name hn rel]
      exact hinvS.2 name hn rel hdir
    · simp only [List.mem_singleton] at hn
      subst hn
      cases rel with
      | nil =>
        rw [hfile] at hdir
        simp [isDirEntry] at hdir
      | cons b r =>
        rw [below_file_none fs0 hwf0 s name text mode hfile b r] at hdir
        simp [isDirEntry] at hdir

end FS

section Trace

variable {σ : Type}

theorem copyFile_withTrace (os : OS σ) (s : σ × List Str) (src dst : Str) :
    copyFile (withTrace os) s src dst
      = (((copyFile os s.1 src dst).1, s.2), (copyFile os s.1 src dst).2) := by
  simp only [copyFile, ioCopy, withTrace]
  cases os.openFile s.1 src with
  | error e => rfl
  | ok u =>
    simp only
    cases h2 : os.create s.1 dst with
    | mk s1 e2 =>
      cases e2 with
      | some e => rfl
      | none =>
        simp only
        cases os.readFile s1 src with
        | error e => rfl
        | ok text =>
          simp only
          cases h4 : os.write s1 dst text with
          | mk s2 e4 =>
            cases e4 with
            | some e => rfl
            | none =>
              simp only
              cases os.stat s2 src with
              | error e => rfl
              | ok info => rfl

theorem copyEntries_withTrace (os : OS σ)
    (sub : σ → Str → Str → Option (σ × Option OSError))
    (subT : σ × List Str → Str → Str → Option ((σ × List Str) × Option OSError))
    (hsub : ∀ s a b, (subT s a b).map (fun r => (r.1.1, r.2)) = sub s.1 a b) (src dst : Str) :
    ∀ (entries : List DirEntry) (s : σ × List Str),
      (copyEntries (withTrace os) subT src dst s entries).map (fun r => (r.1.1, r.2))
        = copyEntries os sub src dst s.1 entries := by
  intro entries
  induction entries with
  | nil => intro s; rfl
  | cons entry rest ih =>
    intro s
    rw [copyEntries, copyEntries]
    by_cases hd : entry.isDir = true
    · simp only [hd, if_true]
      have h := hsub s (filepathJoin [src, entry.name]) (filepathJoin [dst, entry.name])
      cases hs : subT s (filepathJoin [src, entry.name]) (filepathJoin [dst, entry.name]) with
      | none =>
        rw [hs] at h
        simp only [Option.map_none'] at h
        rw [← h]
        rfl
      | some r =>
        obtain ⟨s1, err⟩ := r
        rw [hs] at h
        simp only [Option.map_some'] at h
        rw [← h]
        cases err with
        | some e => rfl
        | none => exact ih s1
    · simp only [hd, if_false, Bool.false_eq_true]
      rw [copyFile_withTrace]
      cases hc : copyFile os s.1 (filepathJoin [src, entry.name])
          (filepathJoin [dst, entry.name]) with
      | mk s1 err =>
        cases err with
        | some e => rfl
        | none => exact ih (s1, s.2)

/-- A run of `copyDir` in the environment that keeps the record is the run in
the environment itself, with the record beside it. -/
theorem copyDir_withTrace (os : OS σ) :
    ∀ (fuel : Nat) (s : σ × List Str) (src dst : Str),
      (copyDir (withTrace os) fuel s src dst).map (fun r => (r.1.1, r.2))
        = copyDir os fuel s.1 src dst := by
  intro fuel
  induction fuel with
  | zero => intro s src dst; rfl
  | succ f ih =>
    intro s src dst
    rw [copyDir, copyDir]
    have hst : (withTrace os).stat s src = os.stat s.1 src := rfl
    rw [hst]
    cases os.stat s.1 src with
    | error e => rfl
    | ok info =>
      simp only
      have hmk : (withTrace os).mkdirAll s dst info.mode
          = (((os.mkdirAll s.1 dst info.mode).1, s.2 ++ [dst]),
            (os.mkdirAll s.1 dst info.mode).2) := rfl
      rw [hmk]
      cases hm : os.mkdirAll s.1 dst info.mode with
      | mk s1 err =>
        cases err with
        | some e => rfl
        | none =>
          simp only
          have hrd : (withTrace os).readDir (s1, s.2 ++ [dst]) src = os.readDir s1 src := rfl
          rw [hrd]
          cases os.readDir s1 src with
          | error e => rfl
          | ok entries =>
            simp only
            exact copyEntries_withTrace os (copyDir os f) (copyDir (withTrace os) f) ih src dst
              entries (s1, s.2 ++ [dst])

end Trace

namespace FS

/-- The loop of `copyDir`, in the environment that keeps the record: it
returns, and its invariant holds of the state it leaves. -/
theorem copyEntries_general (codec : Codec)
    (copySub : FS × List Str → Str → Str → Option ((FS × List Str) × Option OSError))
    (n : Nat)
    (hrec : ∀ (fsx : FS) (lx : List Str) (srcx dstx : Str), fsx.WF → srcx ≠ [] → dstx ≠ [] →
      isDirEntry (fsx.lookup (fsx.resolve srcx)) = true →
      ¬ fsx.resolve srcx <+: fsx.resolve dstx → ¬ fsx.resolve dstx <+: fsx.resolve srcx →
      fsx.countBelow (fsx.resolve srcx) < n →
      ∃ fs2 l2 err, copySub (fsx, lx) srcx dstx = some ((fs2, lx ++ l2), err) ∧
        CopyBasic fsx fs2 (fsx.resolve srcx) (fsx.resolve dstx) (l2.map fsx.resolve) ∧
        (err = none →
          CopyDone fsx fs2 (fsx.resolve srcx) (fsx.resolve dstx) (l2.map fsx.resolve)))
    (fs0 : FS) (src dst : Str) (hsrc : src ≠ []) (hdst : dst ≠ []) (hwf0 : fs0.WF)
    (hsd : ¬ fs0.resolve src <+: fs0.resolve dst)
    (hds : ¬ fs0.resolve dst <+: fs0.resolve src)
    (hcount : fs0.countBelow (fs0.resolve src) ≤ n) (l0 : List Str) :
    ∀ (todo done : List Str) (fs : FS) (l : List Str),
      LoopBasic fs0 fs (fs0.resolve src) (fs0.resolve dst) done (l.map fs0.resolve) →
      LoopDone fs0 fs (fs0.resolve src) (fs0.resolve dst) done (l.map fs0.resolve) →
      (done ++ todo).Nodup →
      (∀ name ∈ todo, fs0.lookup (fs0.resolve src ++ [name]) ≠ none) →
      ∃ fs2 l2 err done2,
        copyEntries (withTrace (unixOS codec)) copySub src dst (fs, l0 ++ l)
          (todo.map fun name =>
            { name := name, isDir := isDirEntry (fs0.lookup (fs0.resolve src ++ [name])) })
          = some ((fs2, l0 ++ l2), err) ∧
        LoopBasic fs0 fs2 (fs0.resolve src) (fs0.resolve dst) done2 (l2.map fs0.resolve) ∧
        (err = none →
          LoopDone fs0 fs2 (fs0.resolve src) (fs0.resolve dst) (done ++ todo)
            (l2.map fs0.resolve)) := by
  intro todo
  induction todo with
  | nil =>
    intro done fs l hB hS _ _
    exact ⟨fs, l, none, done, rfl, hB, fun _ => by simpa using hS⟩
  | cons a rest ih =>
    intro done fs l hB hS hnodup hex
    have ha : a ∉ done := by
      intro h
      have := List.disjoint_of_nodup_append hnodup
      exact this h (List.mem_cons_self _ _)
    have hnodup2 : ((done ++ [a]) ++ rest).Nodup := by simpa using hnodup
    have hex2 : ∀ name ∈ rest, fs0.lookup (fs0.resolve src ++ [name]) ≠ none :=
      fun name hn => hex name (List.mem_cons_of_mem _ hn)
    have hexa := hex a (List.mem_cons_self _ _)
    have hF := hB.1
    have hwf : fs.WF := hF.1
    have hcwd : fs.cwd = fs0.cwd := hF.2.1
    have hsame := hF.source _ hsd hds
    have hplain_a : PlainName a := by
      cases hl : fs0.lookup (fs0.resolve src ++ [a]) with
      | none => exact absurd hl hexa
      | some n0 =>
        have hmem := mem_of_lookup fs0 _ n0 (by simp) hl
        exact (hwf0.2 _ hmem).2.1 a (by simp)
    have hrs : fs.resolve (filepathJoin [src, a]) = fs0.resolve src ++ [a] := by
      rw [resolve_join fs src a hsrc hplain_a, resolve_of_cwd fs0 fs hcwd]
    have hrd : fs.resolve (filepathJoin [dst, a]) = fs0.resolve dst ++ [a] := by
      rw [resolve_join fs dst a hdst hplain_a, resolve_of_cwd fs0 fs hcwd]
    have hmapr : ∀ l2 : List Str, l2.map fs.resolve = l2.map fs0.resolve := by
      intro l2
      apply List.map_congr_left
      intro x _
      exact resolve_of_cwd fs0 fs hcwd x
    simp only [List.map_cons, copyEntries]
    by_cases hisdir : isDirEntry (fs0.lookup (fs0.resolve src ++ [a])) = true
    · -- a directory: the recursive call
      have hlt : fs.countBelow (fs.resolve (filepathJoin [src, a])) < n := by
        rw [hrs, hF.2.2.2.2 _ (fun h => hsd ((List.prefix_append _ _).trans h))
          (not_prefix_below _ _ _ hsd hds)]
        exact Nat.lt_of_lt_of_le (countBelow_lt fs0 _ a hexa) hcount
      obtain ⟨fs2, l2, err, hrun, hsubB, hsubS⟩ := hrec fs (l0 ++ l) (filepathJoin [src, a])
        (filepathJoin [dst, a]) hwf (filepathJoin_ne_nil src a hsrc)
        (filepathJoin_ne_nil dst a hdst)
        (by
          rw [hrs]
          have := hsame [a]
          rw [this]
          exact hisdir)
        (by rw [hrs, hrd]; exact not_prefix_child _ _ a hsd)
        (by rw [hrs, hrd]; exact not_prefix_child _ _ a hds) hlt
      rw [hrs, hrd, hmapr] at hsubB hsubS
      have hB2 := LoopBasic_step_dir hB ha hsd hds hsubB
      rw [← List.map_append] at hB2
      simp only [hisdir, if_true, hrun]
      cases err with
      | some e =>
        refine ⟨fs2, l ++ l2, some e, done ++ [a], ?_, hB2, fun h => by simp at h⟩
        simp
      | none =>
        have hS2 := LoopDone_step_dir hB hS ha hsd hds hsubB (hsubS rfl)
        rw [← List.map_append] at hS2
        obtain ⟨fs3, l3, err3, done3, hrun3, hB3, hS3⟩ :=
          ih (done ++ [a]) fs2 (l ++ l2) hB2 hS2 hnodup2 hex2
        refine ⟨fs3, l3, err3, done3, ?_, hB3, fun h => by simpa using hS3 h⟩
        rw [List.append_assoc]
        exact hrun3
    · -- a regular file: `copyFile`
      have hisdir2 : isDirEntry (fs0.lookup (fs0.resolve src ++ [a])) = false := by
        simpa using hisdir
      obtain ⟨w2, c2, k2, n2, hok⟩ :=
        copyFile_frame codec fs (filepathJoin [src, a]) (filepathJoin [dst, a]) hwf
      rw [hrd] at k2 n2 hok
      rw [hrs] at hok
      have hB2 := @LoopBasic_step_file _ _ _ _ _ done _ _ hB hexa w2 c2 k2 n2
      simp only [hisdir2, Bool.false_eq_true, if_false]
      rw [copyFile_withTrace]
      cases hcf : copyFile (unixOS codec) fs (filepathJoin [src, a]) (filepathJoin [dst, a]) with
      | mk fs2 err =>
        rw [hcf] at hB2 hok k2
        simp only at hB2 hok k2
        cases err with
        | some e =>
          exact ⟨fs2, l, some e, done ++ [a], rfl, hB2, fun h => by simp at h⟩
        | none =>
          obtain ⟨text, mode, hfile, hnew⟩ := hok rfl (by
            intro h
            have := List.append_cancel_right h
            exact hsd (this ▸ List.prefix_refl _))
          have hsa := hsame [a]
          rw [hsa] at hfile
          have hS2 := LoopDone_step_file hS ha hwf0 hfile hnew k2
          obtain ⟨fs3, l3, err3, done3, hrun3, hB3, hS3⟩ :=
            ih (done ++ [a]) fs2 l hB2 hS2 hnodup2 hex2
          exact ⟨fs3, l3, err3, done3, hrun3, hB3, fun h => by simpa using hS3 h⟩

/-- One level of `copyDir`, in the environment that keeps the record. -/
theorem copyDir_general_step (codec : Codec) (n : Nat)
    (hrec : ∀ (fsx : FS) (lx : List Str) (srcx dstx : Str), fsx.WF → srcx ≠ [] → dstx ≠ [] →
      isDirEntry (fsx.lookup (fsx.resolve srcx)) = true →
      ¬ fsx.resolve srcx <+: fsx.resolve dstx → ¬ fsx.resolve dstx <+: fsx.resolve srcx →
      fsx.countBelow (fsx.resolve srcx) < n →
      ∃ fs2 l2 err, copyDir (withTrace (unixOS codec)) n (fsx, lx) srcx dstx
          = some ((fs2, lx ++ l2), err) ∧
        CopyBasic fsx fs2 (fsx.resolve srcx) (fsx.resolve dstx) (l2.map fsx.resolve) ∧
        (err = none →
          CopyDone fsx fs2 (fsx.resolve srcx) (fsx.resolve dstx) (l2.map fsx.resolve)))
    (fs : FS) (l : List Str) (src dst : Str) (hwf : fs.WF) (hsrc : src ≠ []) (hdst : dst ≠ [])
    (hdir : isDirEntry (fs.lookup (fs.resolve src)) = true)
    (hsd : ¬ fs.resolve src <+: fs.resolve dst) (hds : ¬ fs.resolve dst <+: fs.resolve src)
    (hcount : fs.countBelow (fs.resolve src) ≤ n) :
    ∃ fs2 l2 err, copyDir (withTrace (unixOS codec)) (n + 1) (fs, l) src dst
        = some ((fs2, l ++ l2), err) ∧
      CopyBasic fs fs2 (fs.resolve src) (fs.resolve dst) (l2.map fs.resolve) ∧
      (err = none → CopyDone fs fs2 (fs.resolve src) (fs.resolve dst) (l2.map fs.resolve)) := by
  obtain ⟨mode, hmode⟩ := (isDirEntry_iff _).mp hdir
  have hstat : (withTrace (unixOS codec)).stat (fs, l) src = .ok ⟨true, mode⟩ := by
    show FS.stat fs src = _
    simp [FS.stat, hsrc, hmode]
  have hF1 := mkdirAll_frame fs dst mode hwf
  have hU1 := mkdirAll_untouched fs dst mode hwf
  have hSnone : ∀ rel, fs.lookup (fs.resolve src ++ rel) = none → rel ≠ [] := by
    intro rel h0 hr
    subst hr
    rw [List.append_nil, hmode] at h0
    exact absurd h0 (by simp)
  have hbelowD : ∀ rel, rel ≠ [] → ¬ fs.resolve dst ++ rel <+: fs.resolve dst := by
    intro rel hr h
    have := h.length_le
    simp only [List.length_append] at this
    have : rel.length = 0 := by omega
    exact hr (List.length_eq_zero.mp this)
  have hmk : (withTrace (unixOS codec)).mkdirAll (fs, l) dst mode
      = (((FS.mkdirAll fs dst mode).1, l ++ [dst]), (FS.mkdirAll fs dst mode).2) := rfl
  have hselfdir : isDirEntry (fs.lookup (fs.resolve src ++ [])) = true := by
    rw [List.append_nil]; exact hdir
  cases hm : FS.mkdirAll fs dst mode with
  | mk fs1 err1 =>
    rw [hm] at hF1 hU1 hmk
    simp only at hF1 hU1 hmk
    cases err1 with
    | some e =>
      refine ⟨fs1, [dst], some e, ?_, ⟨hF1, ?_, by simp, ?_⟩, fun h => by simp at h⟩
      · simp only [copyDir, hstat, hmk]
      · intro rel h0
        exact hU1 _ (hbelowD rel (hSnone rel h0))
      · intro q hq
        simp only [List.map_cons, List.map_nil, List.mem_singleton] at hq
        exact ⟨[], by rw [hq, List.append_nil], hselfdir⟩
    | none =>
      have hDdir := mkdirAll_ok_isDir fs dst mode fs1 hm
      have hcwd1 : fs1.cwd = fs.cwd := hF1.2.1
      have hr1 : ∀ path, fs1.resolve path = fs.resolve path := resolve_of_cwd fs fs1 hcwd1
      have hsame1 := hF1.source _ hsd hds
      have hS1 : fs1.lookup (fs1.resolve src) = some (.dir mode) := by
        have := hsame1 []
        rw [List.append_nil] at this
        rw [hr1, this, hmode]
      have hread : (withTrace (unixOS codec)).readDir (fs1, l ++ [dst]) src
          = .ok ((sortNames (fs1.childNames (fs.resolve src))).map fun name =>
            { name := name, isDir := isDirEntry (fs.lookup (fs.resolve src ++ [name])) }) := by
        show FS.readDir fs1 src = _
        rw [readDir_dir fs1 src mode hsrc hS1, hr1]
        congr 1
        apply List.map_congr_left
        intro name _
        rw [hsame1]
      have hmemN : ∀ name, name ∈ sortNames (fs1.childNames (fs.resolve src)) ↔
          fs.lookup (fs.resolve src ++ [name]) ≠ none := by
        intro name
        rw [mem_listing, hsame1]
      have hB1 : LoopBasic fs fs1 (fs.resolve src) (fs.resolve dst) []
          (([] : List Str).map fs.resolve) :=
        ⟨hF1, hDdir, fun rel h0 => hU1 _ (hbelowD rel (hSnone rel h0)), by simp,
          fun q hq => by simp at hq⟩
      have hS1' : LoopDone fs fs1 (fs.resolve src) (fs.resolve dst) []
          (([] : List Str).map fs.resolve) :=
        ⟨fun name hn => by simp at hn, fun name hn => by simp at hn⟩
      obtain ⟨fs2, l2, err, done2, hrun, hB2, hS2⟩ :=
        copyEntries_general codec (copyDir (withTrace (unixOS codec)) n) n hrec fs src dst
          hsrc hdst hwf hsd hds hcount (l ++ [dst])
          (sortNames (fs1.childNames (fs.resolve src))) [] fs1 [] hB1 hS1'
          (by simpa using nodup_listing fs1 _) (fun name hn => (hmemN name).mp hn)
      simp only [List.append_nil, List.nil_append] at hrun hS2
      obtain ⟨hF2, hDdir2, hM2, hN2, hT2⟩ := hB2
      refine ⟨fs2, dst :: l2, err, ?_, ⟨hF2, hM2, ?_, ?_⟩, ?_⟩
      · simp only [copyDir, hstat, hmk, hread]
        rw [hrun]
        simp
      · simp only [List.map_cons, List.nodup_cons]
        refine ⟨?_, hN2⟩
        intro hin
        obtain ⟨name, _, rel, heq, _⟩ := hT2 _ hin
        have := congrArg List.length heq
        simp at this
      · intro q hq
        simp only [List.map_cons, List.mem_cons] at hq
        rcases hq with hq | hq
        · exact ⟨[], by rw [hq, List.append_nil], hselfdir⟩
        · obtain ⟨name, _, rel, heq, hd⟩ := hT2 q hq
          exact ⟨name :: rel, heq, hd⟩
      · intro herr
        obtain ⟨hfile2, hdir2⟩ := hS2 herr
        refine ⟨?_, ?_⟩
        · intro rel text m hf
          cases rel with
          | nil =>
            rw [List.append_nil, hmode] at hf
            exact absurd hf (by simp)
          | cons name r =>
            exact hfile2 name ((hmemN name).mpr
              (child_exists fs hwf _ name r (by rw [hf]; simp))) r text m hf
        · intro rel hd
          cases rel with
          | nil =>
            simp only [List.append_nil, List.map_cons, List.mem_cons, true_or, and_true]
            exact hDdir2
          | cons name r =>
            obtain ⟨h1, h2⟩ := hdir2 name ((hmemN name).mpr
              (child_exists fs hwf _ name r (by
                intro h0; rw [h0] at hd; simp [isDirEntry] at hd))) r hd
            exact ⟨h1, by simp only [List.map_cons]; exact List.mem_cons_of_mem _ h2⟩

/-- The function `copyDir`, whatever the destination holds, as long as neither
path lies at or below the other: with a bound above the number of entries of
the source it returns, and `CopyBasic` holds of the state it leaves, and
`CopyDone` when it returns nil. -/
theorem copyDir_general (codec : Codec) (n : Nat) :
    ∀ (fs : FS) (l : List Str) (src dst : Str), fs.WF → src ≠ [] → dst ≠ [] →
      isDirEntry (fs.lookup (fs.resolve src)) = true →
      ¬ fs.resolve src <+: fs.resolve dst → ¬ fs.resolve dst <+: fs.resolve src →
      fs.countBelow (fs.resolve src) ≤ n →
      ∃ fs2 l2 err, copyDir (withTrace (unixOS codec)) (n + 1) (fs, l) src dst
          = some ((fs2, l ++ l2), err) ∧
        CopyBasic fs fs2 (fs.resolve src) (fs.resolve dst) (l2.map fs.resolve) ∧
        (err = none →
          CopyDone fs fs2 (fs.resolve src) (fs.resolve dst) (l2.map fs.resolve)) := by
  induction n with
  | zero =>
    intro fs l src dst hwf hsrc hdst hdir hsd hds hcount
    exact copyDir_general_step codec 0
      (fun _ _ _ _ _ _ _ _ _ _ h => absurd h (Nat.not_lt_zero _)) fs l src dst hwf hsrc hdst
      hdir hsd hds hcount
  | succ k ih =>
    intro fs l src dst hwf hsrc hdst hdir hsd hds hcount
    exact copyDir_general_step codec (k + 1)
      (fun fsx lx srcx dstx h1 h2 h3 h4 h5 h6 h7 =>
        ih fsx lx srcx dstx h1 h2 h3 h4 h5 h6 (Nat.lt_succ_iff.mp h7))
      fs l src dst hwf hsrc hdst hdir hsd hds hcount

end FS


namespace FS

theorem mkdirAll_same (fs : FS) (path : Str) (perm : Nat) (q : List Str)
    (h : fs.lookup q ≠ none) : (FS.mkdirAll fs path perm).1.lookup q = fs.lookup q := by
  unfold FS.mkdirAll
  split
  · rfl
  · exact (mkdirAllFrom_facts path perm (fs.resolve path) fs []).2.1 q h

/-- A save of the ledger leaves every entry that exists as it is, the ledger
file apart. -/
theorem saveData_untouched (codec : Codec) (fs : FS) (data : CLIData) (q : List Str)
    (hq : q ≠ fs.resolve (getDataFilePath (unixOS codec) fs)) (hex : fs.lookup q ≠ none) :
    (saveData (unixOS codec) fs data).1.lookup q = fs.lookup q := by
  unfold saveData
  simp only
  have h1 := mkdirAll_same fs (filepathDir (getDataFilePath (unixOS codec) fs)) 0o755 q hex
  have k1 := mkdirAll_keeps fs (filepathDir (getDataFilePath (unixOS codec) fs)) 0o755
  cases hmk : (unixOS codec).mkdirAll fs (filepathDir (getDataFilePath (unixOS codec) fs))
      0o755 with
  | mk s1 err =>
    have hmk2 : FS.mkdirAll fs (filepathDir (getDataFilePath (unixOS codec) fs)) 0o755
        = (s1, err) := hmk
    rw [hmk2] at h1 k1
    simp only at h1 k1
    cases err with
    | some e => exact h1
    | none =>
      simp only
      have hr1 : s1.resolve (getDataFilePath (unixOS codec) fs)
          = fs.resolve (getDataFilePath (unixOS codec) fs) := resolve_of_cwd fs s1 k1.1 _
      have h2 : (FS.create s1 (getDataFilePath (unixOS codec) fs)).1.lookup q = s1.lookup q := by
        rcases create_cases s1 (getDataFilePath (unixOS codec) fs) with ⟨e, he⟩ |
          ⟨_, hne, m0, he, _⟩
        · rw [he]
        · rw [he]
          simp only
          rw [lookup_setNode _ _ _ _ hne, hr1, if_neg hq]
      have k2 := create_keeps s1 (getDataFilePath (unixOS codec) fs)
      cases hcr : (unixOS codec).create s1 (getDataFilePath (unixOS codec) fs) with
      | mk s2 err2 =>
        have hcr2 : FS.create s1 (getDataFilePath (unixOS codec) fs) = (s2, err2) := hcr
        rw [hcr2] at h2 k2
        simp only at h2 k2
        cases err2 with
        | some e => exact h2.trans h1
        | none =>
          simp only
          have hr2 : s2.resolve (getDataFilePath (unixOS codec) fs)
              = fs.resolve (getDataFilePath (unixOS codec) fs) :=
            (resolve_of_cwd s1 s2 k2.1 _).trans hr1
          have h3 : (FS.write s2 (getDataFilePath (unixOS codec) fs)
              (codec.encode data)).1.lookup q = s2.lookup q := by
            unfold FS.write
            split
            · rename_i d m hl
              simp only
              have hne : s2.resolve (getDataFilePath (unixOS codec) fs) ≠ [] := by
                intro h0
                rw [h0] at hl
                simp [lookup] at hl
              rw [lookup_setNode _ _ _ _ hne, hr2, if_neg hq]
            · rfl
            · rfl
          exact (h3.trans h2).trans h1

/-- The function `saveInstalledModule` leaves every entry that exists as it
is, the ledger file apart. -/
theorem saveInstalledModule_untouched (codec : Codec) (fs : FS) (module : Str) (fs2 : FS)
    (h : saveInstalledModule (unixOS codec) fs module = some fs2) (q : List Str)
    (hq : q ≠ fs.resolve (getDataFilePath (unixOS codec) fs)) (hex : fs.lookup q ≠ none) :
    fs2.lookup q = fs.lookup q := by
  unfold saveInstalledModule at h
  cases h1 : (unixOS codec).getwd fs with
  | error e =>
    rw [h1] at h
    simp only [Option.some.injEq] at h
    rw [← h]
  | ok wd =>
    rw [h1] at h
    simp only at h
    cases h2 : loadData (unixOS codec) fs with
    | error e =>
      rw [h2] at h
      simp only [Option.some.injEq] at h
      rw [← h]
    | ok data =>
      rw [h2] at h
      simp only at h
      cases h3 : data.InstalledModules with
      | none => rw [h3] at h; simp at h
      | some m =>
        rw [h3] at h
        simp only at h
        split_ifs at h <;> simp only [Option.some.injEq] at h <;> subst h <;>
          first
          | rfl
          | exact saveData_untouched codec fs _ q hq hex

/-- The function `copyDir` on the file system, for a source and a destination
neither of which lies at or below the other: the run with the record of its
calls and the run without it end in the same state with the same result, with
every bound above the number of entries of the file system. -/
theorem copyDir_general_unix (codec : Codec) (fs : FS) (src dst : Str) (hwf : fs.WF)
    (hsrc : src ≠ []) (hdst : dst ≠ [])
    (hdir : isDirEntry (fs.lookup (fs.resolve src)) = true)
    (hsd : ¬ fs.resolve src <+: fs.resolve dst) (hds : ¬ fs.resolve dst <+: fs.resolve src) :
    ∃ fs2 calls err,
      (∀ fuel, fs.nodes.length + 1 ≤ fuel →
        copyDir (withTrace (unixOS codec)) fuel (fs, []) src dst = some ((fs2, calls), err)) ∧
      (∀ fuel, fs.nodes.length + 1 ≤ fuel →
        copyDir (unixOS codec) fuel fs src dst = some (fs2, err)) ∧
      CopyBasic fs fs2 (fs.resolve src) (fs.resolve dst) (calls.map fs.resolve) ∧
      (err = none →
        CopyDone fs fs2 (fs.resolve src) (fs.resolve dst) (calls.map fs.resolve)) := by
  obtain ⟨fs2, l2, err, hrun, hB, hD⟩ := copyDir_general codec fs.nodes.length fs [] src dst hwf
    hsrc hdst hdir hsd hds (countBelow_le fs _)
  rw [List.nil_append] at hrun
  refine ⟨fs2, l2, err, fun fuel hf => copyDir_mono_le _ _ _ hf _ _ _ _ hrun, ?_, hB, hD⟩
  intro fuel hf
  have h1 := copyDir_withTrace (unixOS codec) fuel (fs, []) src dst
  rw [copyDir_mono_le _ _ _ hf _ _ _ _ hrun] at h1
  exact h1.symm

end FS

theorem exists_of_result_nil {α β : Type} (r : Option (α × Option β))
    (h : r.map Prod.snd = some none) : ∃ a, r = some (a, none) := by
  cases r with
  | none => simp at h
  | some x =>
    obtain ⟨a, b⟩ := x
    simp only [Option.map_some', Option.some.injEq] at h
    exact ⟨a, by rw [← h]⟩

theorem exists_of_returned {σ : Type} (r : Option (Outcome σ))
    (h : r.map Outcome.ending = some .returned) : ∃ o, r = some o ∧ o.ending = .returned := by
  cases r with
  | none => simp at h
  | some o =>
    simp only [Option.map_some', Option.some.injEq] at h
    exact ⟨o, rfl, h⟩

/-! ## The merge into a destination that exists -/

/-- **C24**, amended. In every well-formed file system, for every source path
and every destination path neither of which lies at or below the other, whatever the
destination holds: whenever `copyDir` returns nil, every path below the
destination whose counterpart below the source does not exist holds what it
held (the same entry, with the same text and the same permission bits), every
file of the source has its copy in the destination, with the text and the
permission bits of the source, and every entry that existed exists.  A run of
`installLocalModule` that returns, the destination being the module directory
it computes, leaves the same: the state differs from the state after the copy
by the ledger file only. -/
theorem copyDir_merges (codec : Codec) (fs : FS) (src dst : Str) (hwf : fs.WF)
    (hsd : ¬ fs.resolve src <+: fs.resolve dst) (hds : ¬ fs.resolve dst <+: fs.resolve src) :
    (∀ fuel fs2, copyDir (unixOS codec) fuel fs src dst = some (fs2, none) →
      (∀ rel, fs.lookup (fs.resolve src ++ rel) = none →
        fs2.lookup (fs.resolve dst ++ rel) = fs.lookup (fs.resolve dst ++ rel)) ∧
      (∀ rel text mode, fs.lookup (fs.resolve src ++ rel) = some (.file text mode) →
        fs2.lookup (fs.resolve dst ++ rel) = some (.file text mode)) ∧
      (∀ q, fs.lookup q ≠ none → fs2.lookup q ≠ none)) ∧
    (∀ fuel moduleName o,
      getModuleName (unixOS codec) fs src (detectLocalModuleType (unixOS codec) fs src)
        = some moduleName →
      dst = getModuleDestinationPath moduleName (detectLocalModuleType (unixOS codec) fs src) →
      installLocalModule (unixOS codec) fuel fs src = some o → o.ending = .returned →
      (∀ rel, fs.lookup (fs.resolve src ++ rel) = none →
        fs.lookup (fs.resolve dst ++ rel) ≠ none →
        fs.resolve dst ++ rel ≠ fs.resolve (getDataFilePath (unixOS codec) fs) →
        o.sys.lookup (fs.resolve dst ++ rel) = fs.lookup (fs.resolve dst ++ rel)) ∧
      (∀ rel text mode, fs.lookup (fs.resolve src ++ rel) = some (.file text mode) →
        fs.resolve dst ++ rel ≠ fs.resolve (getDataFilePath (unixOS codec) fs) →
        o.sys.lookup (fs.resolve dst ++ rel) = some (.file text mode)) ∧
      (∀ q, fs.lookup q ≠ none → o.sys.lookup q ≠ none)) := by
  have hcopy : ∀ fuel fs2, copyDir (unixOS codec) fuel fs src dst = some (fs2, none) →
      (∀ rel, fs.lookup (fs.resolve src ++ rel) = none →
        fs2.lookup (fs.resolve dst ++ rel) = fs.lookup (fs.resolve dst ++ rel)) ∧
      (∀ rel text mode, fs.lookup (fs.resolve src ++ rel) = some (.file text mode) →
        fs2.lookup (fs.resolve dst ++ rel) = some (.file text mode)) ∧
      (∀ q, fs.lookup q ≠ none → fs2.lookup q ≠ none) := by
    intro fuel fs2 hr
    obtain ⟨hsrc, hdst, hdir, _⟩ := FS.copyDir_nil_inv codec fuel fs src dst fs2 hr
    obtain ⟨fs3, calls, err, _, hrun, hB, hD⟩ :=
      FS.copyDir_general_unix codec fs src dst hwf hsrc hdst hdir hsd hds
    have e1 := copyDir_mono_le (unixOS codec) fuel (max fuel (fs.nodes.length + 1))
      (Nat.le_max_left _ _) fs src dst _ hr
    rw [hrun _ (Nat.le_max_right _ _)] at e1
    simp only [Option.some.injEq, Prod.mk.injEq] at e1
    obtain ⟨e2, e3⟩ := e1
    subst e2
    exact ⟨hB.2.1, (hD e3).1, fun q => ((FS.copyDir_keeps codec fuel fs src dst _ hr).2.2.2 q).2⟩
  refine ⟨hcopy, ?_⟩
  intro fuel moduleName o hname hdest hrun hret
  obtain ⟨name2, s1, hname2, _, _, hc, hsave⟩ :=
    installLocalModule_returned (unixOS codec) fuel fs src o hrun hret
  rw [hname, Option.some.injEq] at hname2
  subst hname2
  rw [← hdest] at hc
  obtain ⟨hstale, hfile, hkept⟩ := hcopy fuel s1 hc
  have hk1 := FS.copyDir_keeps codec fuel fs src dst _ hc
  have hL : s1.resolve (getDataFilePath (unixOS codec) s1)
      = fs.resolve (getDataFilePath (unixOS codec) fs) := by
    rw [FS.getDataFilePath_keeps codec fs s1 hk1, FS.resolve_of_cwd fs s1 hk1.1]
  have hun : ∀ q, q ≠ fs.resolve (getDataFilePath (unixOS codec) fs) → s1.lookup q ≠ none →
      o.sys.lookup q = s1.lookup q := by
    intro q hq hex
    exact FS.saveInstalledModule_untouched codec s1 _ o.sys hsave q (by rw [hL]; exact hq) hex
  have hk2 := FS.saveInstalledModule_keeps codec s1 _ o.sys hsave
  refine ⟨?_, ?_, fun q hq => (hk2.2.2.2 q).2 (hkept q hq)⟩
  · intro rel h0 hex hq
    rw [hun _ hq (by rw [hstale rel h0]; exact hex), hstale rel h0]
  · intro rel text mode hf hq
    rw [hun _ hq (by rw [hfile rel text mode hf]; simp), hfile rel text mode hf]

set_option maxRecDepth 100000 in
/-- Witness of **C24**: in the sample state the module directory of `m` holds
the file `old.txt`, which the source `src` does not have.  The copy of `src`
to it returns nil, and so does the installation of `src`; after each of them
`old.txt` is the file it was and `a.txt` holds the text and the permission
bits of the source. -/
theorem copyDir_merges_witness :
    (∃ fs2, copyDir (unixOS sampleCodec) (sampleFS.nodes.length + 1) sampleFS "src".toList
        "backend/internal/modules/m".toList = some (fs2, none) ∧
      fs2.lookup (sampleFS.resolve "backend/internal/modules/m".toList ++ ["old.txt".toList])
        = some (.file "old".toList 0o644) ∧
      fs2.lookup (sampleFS.resolve "backend/internal/modules/m".toList ++ ["a.txt".toList])
        = some (.file "1".toList 0o600)) ∧
    (∃ o, installLocalModule (unixOS sampleCodec) (sampleFS.nodes.length + 1) sampleFS
        "src".toList = some o ∧ o.ending = .returned ∧
      o.sys.lookup (sampleFS.resolve "backend/internal/modules/m".toList ++ ["old.txt".toList])
        = some (.file "old".toList 0o644) ∧
      o.sys.lookup (sampleFS.resolve "backend/internal/modules/m".toList
          ++ ["sub".toList, "b.txt".toList])
        = some (.file "2".toList 0o755)) :=
  have h := copyDir_merges sampleCodec sampleFS "src".toList
    "backend/internal/modules/m".toList (by decide) (by decide) (by decide)
  ⟨(exists_of_result_nil _ (by decide)).imp fun fs2 hr =>
      ⟨hr, ((h.1 _ fs2 hr).1 ["old.txt".toList] (by decide)).trans (by decide),
        (h.1 _ fs2 hr).2.1 ["a.txt".toList] _ _ (by decide)⟩,
   (exists_of_returned _ (by decide)).imp fun o ho =>
      ⟨ho.1, ho.2,
        ((h.2 _ "m".toList o (by decide) (by decide) ho.1 ho.2).1 ["old.txt".toList]
          (by decide) (by decide) (by decide)).trans (by decide),
        (h.2 _ "m".toList o (by decide) (by decide) ho.1 ho.2).2.1
          ["sub".toList, "b.txt".toList] _ _ (by decide) (by decide)⟩⟩

set_option maxRecDepth 100000 in
/-- The counterexample of **C24**: the destination is the source.  In the
sample state `selfFS` the module `m` is installed with its `go.mod` and a file
`a.txt` of text `1`.  The copy of the module directory to itself returns nil
and leaves `a.txt` empty: `os.Create` cuts the file to length zero before
`io.Copy` reads it.  The destination that `installLocalModule` computes for
the module directory is that directory, so the installation of it returns and
leaves `a.txt` and `go.mod` empty. -/
theorem copyDir_onto_itself :
    selfFS.WF ∧
    selfFS.lookup (selfFS.resolve "backend/internal/modules/m".toList ++ ["a.txt".toList])
      = some (.file "1".toList 0o600) ∧
    (copyDir (unixOS sampleCodec) (selfFS.nodes.length + 1) selfFS
        "backend/internal/modules/m".toList "backend/internal/modules/m".toList).map
      (fun r => (r.1.lookup
        (selfFS.resolve "backend/internal/modules/m".toList ++ ["a.txt".toList]), r.2))
      = some (some (.file [] 0o600), none) ∧
    getModuleDestinationPath "m".toList
      (detectLocalModuleType (unixOS sampleCodec) selfFS "backend/internal/modules/m".toList)
      = "backend/internal/modules/m".toList ∧
    (installLocalModule (unixOS sampleCodec) (selfFS.nodes.length + 1) selfFS
        "backend/internal/modules/m".toList).map
      (fun o => (o.ending,
        o.sys.lookup (selfFS.resolve "backend/internal/modules/m".toList ++ ["a.txt".toList]),
        o.sys.lookup (selfFS.resolve "backend/internal/modules/m".toList
          ++ ["go.mod".toList])))
      = some (.returned, some (.file [] 0o600), some (.file [] 0o644)) := by
  decide

/-! ## The source of a copy -/

/-- **C30.** In every well-formed file system, for every source directory and
every destination path such that neither lies at or below the other (the
destination is not the source and not inside it, and the source is not inside
the destination): `copyDir` returns, with the same state and the same result
for every bound above the number of entries of the file system; the runs of
`copyDir` that take place, the first included, are on distinct destinations,
each the counterpart of a directory of the source, and when the result is nil
every directory of the source, the source itself included, has its run: one
run for each; and every path at and below the source holds what it held,
whether the copy succeeds or fails. -/
theorem copyDir_terminates (codec : Codec) (fs : FS) (src dst : Str) (hwf : fs.WF)
    (hsrc : src ≠ []) (hdst : dst ≠ [])
    (hdir : FS.isDirEntry (fs.lookup (fs.resolve src)) = true)
    (hsd : ¬ fs.resolve src <+: fs.resolve dst) (hds : ¬ fs.resolve dst <+: fs.resolve src) :
    ∃ fs2 calls err,
      (∀ fuel, fs.nodes.length + 1 ≤ fuel →
        copyDir (withTrace (unixOS codec)) fuel (fs, []) src dst = some ((fs2, calls), err)) ∧
      (∀ fuel, fs.nodes.length + 1 ≤ fuel →
        copyDir (unixOS codec) fuel fs src dst = some (fs2, err)) ∧
      (calls.map fs.resolve).Nodup ∧
      (∀ q ∈ calls.map fs.resolve, ∃ rel, q = fs.resolve dst ++ rel ∧
        FS.isDirEntry (fs.lookup (fs.resolve src ++ rel)) = true) ∧
      (err = none → ∀ rel, FS.isDirEntry (fs.lookup (fs.resolve src ++ rel)) = true →
        fs.resolve dst ++ rel ∈ calls.map fs.resolve) ∧
      (∀ rel, fs2.lookup (fs.resolve src ++ rel) = fs.lookup (fs.resolve src ++ rel)) := by
  obtain ⟨fs2, calls, err, h1, h2, hB, hD⟩ :=
    FS.copyDir_general_unix codec fs src dst hwf hsrc hdst hdir hsd hds
  exact ⟨fs2, calls, err, h1, h2, hB.2.2.1, hB.2.2.2, fun he rel hd => ((hD he).2 rel hd).2,
    fun rel => hB.1.source _ hsd hds rel⟩

set_option maxRecDepth 100000 in
/-- Witness of **C30**: in the sample state the copy of `src`, which holds the
directory `sub`, to `out/copy` returns nil after two runs of `copyDir`, on
`out/copy` and on `out/copy/sub`. -/
theorem copyDir_terminates_witness :
    (copyDir (withTrace (unixOS sampleCodec)) (sampleFS.nodes.length + 1) (sampleFS, [])
        "src".toList "out/copy".toList).map (fun r => (r.1.2, r.2))
      = some (["out/copy".toList, "out/copy/sub".toList], none) ∧
    ∃ fs2 calls err,
      (∀ fuel, sampleFS.nodes.length + 1 ≤ fuel →
        copyDir (withTrace (unixOS sampleCodec)) fuel (sampleFS, []) "src".toList
          "out/copy".toList = some ((fs2, calls), err)) ∧
      (∀ fuel, sampleFS.nodes.length + 1 ≤ fuel →
        copyDir (unixOS sampleCodec) fuel sampleFS "src".toList "out/copy".toList
          = some (fs2, err)) ∧
      (calls.map sampleFS.resolve).Nodup ∧
      (∀ q ∈ calls.map sampleFS.resolve, ∃ rel,
        q = sampleFS.resolve "out/copy".toList ++ rel ∧
        FS.isDirEntry (sampleFS.lookup (sampleFS.resolve "src".toList ++ rel)) = true) ∧
      (err = none → ∀ rel,
        FS.isDirEntry (sampleFS.lookup (sampleFS.resolve "src".toList ++ rel)) = true →
        sampleFS.resolve "out/copy".toList ++ rel ∈ calls.map sampleFS.resolve) ∧
      (∀ rel, fs2.lookup (sampleFS.resolve "src".toList ++ rel)
        = sampleFS.lookup (sampleFS.resolve "src".toList ++ rel)) :=
  ⟨by decide, copyDir_terminates sampleCodec sampleFS "src".toList "out/copy".toList
    (by decide) (by decide) (by decide) (by decide) (by decide) (by decide)⟩

set_option maxRecDepth 100000 in
/-- A source inside the destination: in the state `nestedFS` the copy of
`d/b` to `d` returns nil, the destination is neither the source nor inside
it, and the file `x` of the source, which held the text `1`, holds the text
`2` after the copy. -/
theorem copyDir_changes_source :
    ¬ nestedFS.resolve "d/b".toList <+: nestedFS.resolve "d".toList ∧
    nestedFS.WF ∧
    nestedFS.lookup (nestedFS.resolve "d/b".toList ++ ["x".toList])
      = some (.file "1".toList 0o644) ∧
    (copyDir (unixOS sampleCodec) (nestedFS.nodes.length + 1) nestedFS "d/b".toList
        "d".toList).map
      (fun r => (r.1.lookup (nestedFS.resolve "d/b".toList ++ ["x".toList]), r.2))
      = some (some (.file "2".toList 0o644), none) := by
  decide

end GoVite
